import Mathlib

/-!
# SARA aid allocation: a shallow embedding of `Backend/main.c`

The C program keeps its tables in global fixed-size arrays with a count next to
each.  Here a table is a list (the count is its length) and the globals are the
fields of `State`.  Distances are `double` in the source; the development is
generic in a type `D` with the order, the zero, the sentinel and the addition
of the program (`DistArith`), whose laws hold of the rounded addition of
`double` on numbers, so no theorem assumes that a sum is exact.  `ℕ` is the
instance with exact sums and `Dbl` the instance with sums rounded to 53 bits.
A C string is a `String` whose characters stand for the bytes of the C string,
so its length is the `strlen` of the source.
A C `int` that is either `-1` or a valid index is an `Option Nat`.
-/

namespace SARA

set_option linter.unusedSectionVars false
set_option linter.unusedVariables false

/-! ## Limits (`#define`s of the source) -/

def MAX_WAREHOUSE_ROWS : Nat := 512
def MAX_RELIEF_ROWS : Nat := 512
def MAX_EDGES : Nat := 1024
def MAX_CITIES : Nat := 256
def MAX_RESOURCES : Nat := 64
def MAX_NAME_LEN : Nat := 64
/-- Capacity of `g_alloc` (`static AllocationRow g_alloc[2048]`). -/
def MAX_ALLOC : Nat := 2048
/-- Capacity of `AllocationRow.pathCities` and of `pathIdx` (`int pathCities[64]`). -/
def MAX_PATH : Nat := 64

/-! ## Arithmetic of distances -/

/-- What the program uses of `double` on distances: the comparison, the
constants `0.0` and `1e18` (`sentinel`), and the sum `dist[u] + w`.  The laws are those
of the sum rounded to the nearest `double`: adding `0.0` changes nothing,
rounding is monotone, and a sum with a non-negative number is not below the
other summand.  No law says that a sum is exact. -/
class DistArith (D : Type) extends LinearOrder D, Zero D, Add D where
  sentinel : D
  sentinel_pos : 0 < sentinel
  add_zero_right : ∀ x : D, x + 0 = x
  zero_add_left : ∀ w : D, 0 + w = w
  le_add_right : ∀ x w : D, 0 ≤ w → x ≤ x + w
  add_le_add_right : ∀ x y w : D, x ≤ y → x + w ≤ y + w

/-- The sentinel `INF_DIST` (`1e18`). -/
def INF_DIST {D : Type} [DistArith D] : D := DistArith.sentinel

/-- The sums of `D` are exact: addition is associative and commutative, as it is
when no sum rounds. -/
def ExactAdd (D : Type) [DistArith D] : Prop :=
  (∀ a b c : D, a + b + c = a + (b + c)) ∧ (∀ a b : D, a + b = b + a)

/-- Exact arithmetic on the natural numbers: the sums of the program when no
addition rounds (integer distances with totals below `2 ^ 53`). -/
instance instDistArithNat : DistArith ℕ where
  sentinel := 10 ^ 18
  sentinel_pos := by decide
  add_zero_right := Nat.add_zero
  zero_add_left := Nat.zero_add
  le_add_right := fun x w _ => Nat.le_add_right x w
  add_le_add_right := fun _ _ w h => Nat.add_le_add_right h w

/-! ## A model of `double` for the examples -/

/-- The search behind `ulp`: the least `2 ^ j`, `j ≥ k`, with `n < 2 ^ (53 + j)`;
the first argument bounds the number of steps. -/
def ulp_search : Nat → Nat → Nat → Nat
  | 0, k, _ => 2 ^ k
  | fuel + 1, k, n => if n < 2 ^ (53 + k) then 2 ^ k else ulp_search fuel (k + 1) n

/-- The spacing of the `double`s around the natural number `n`: 1 below `2 ^ 53`,
and `2 ^ j` from `2 ^ (52 + j)` up to `2 ^ (53 + j)` (53 significant bits). -/
def ulp (n : Nat) : Nat := ulp_search n 0 n

/-- The multiple of `u` nearest to `n`; of two equally near multiples the even
one (round to nearest, ties to even). -/
def round_to (u n : Nat) : Nat :=
  if 2 * (n % u) < u ∨ (2 * (n % u) = u ∧ n / u % 2 = 0) then n / u * u else (n / u + 1) * u

/-- The `double` nearest to the natural number `n` in the default rounding mode
of IEEE 754 (the exponent range is not limited). -/
def round53 (n : Nat) : Nat := round_to (ulp n) n

/-- The `double`s that are natural numbers: every such `double` is the rounding
of a natural number. -/
structure Dbl where
  val : Nat
  rep : ∃ m, val = round53 m

/-- The `double` that `atof` returns for a decimal natural number. -/
def Dbl.ofNat (n : Nat) : Dbl := ⟨round53 n, n, rfl⟩

/-- The sum of two `double`s: the exact sum, rounded. -/
def Dbl.add (a b : Dbl) : Dbl := ⟨round53 (a.val + b.val), a.val + b.val, rfl⟩

instance instDecidableEqDbl : DecidableEq Dbl := fun a b =>
  if h : a.val = b.val then
    isTrue (by cases a; cases b; cases h; rfl)
  else isFalse (fun e => h (by rw [e]))

instance instLinearOrderDbl : LinearOrder Dbl :=
  LinearOrder.lift' Dbl.val (fun a b h => by cases a; cases b; cases h; rfl)

instance instZeroDbl : Zero Dbl := ⟨Dbl.ofNat 0⟩

instance instAddDbl : Add Dbl := ⟨Dbl.add⟩

/-- The arithmetic of `double` on `Dbl`: every sum is rounded to 53 bits.  The
laws follow from two facts about `round53`: it is monotone, and it leaves the
rounding of a number unchanged. -/
instance instDistArithDbl : DistArith Dbl := by
  have hspec : ∀ n, ∃ j, ulp n = 2 ^ j ∧ n < 2 ^ (53 + j) ∧ (j = 0 ∨ 2 ^ (52 + j) ≤ n) := by
    have hs : ∀ (fuel k n : Nat), (k = 0 ∨ 2 ^ (52 + k) ≤ n) → n < 2 ^ (53 + k + fuel) →
        ∃ j, ulp_search fuel k n = 2 ^ j ∧ n < 2 ^ (53 + j) ∧ (j = 0 ∨ 2 ^ (52 + j) ≤ n) := by
      intro fuel
      induction fuel with
      | zero => intro k n hk hn; exact ⟨k, rfl, hn, hk⟩
      | succ f ih =>
        intro k n hk hn
        unfold ulp_search
        by_cases h : n < 2 ^ (53 + k)
        · rw [if_pos h]; exact ⟨k, rfl, h, hk⟩
        · rw [if_neg h]
          refine ih (k + 1) n (Or.inr ?_) ?_
          · have : 52 + (k + 1) = 53 + k := by omega
            rw [this]; exact not_lt.mp h
          · have : 53 + (k + 1) + f = 53 + k + (f + 1) := by omega
            rw [this]; exact hn
    intro n
    refine hs n 0 n (Or.inl rfl) ?_
    calc n < 2 ^ n := Nat.lt_two_pow n
      _ ≤ 2 ^ (53 + 0 + n) := Nat.pow_le_pow_right (by decide) (by omega)
  have hbounds : ∀ u n : Nat, n / u * u ≤ round_to u n ∧ round_to u n ≤ (n / u + 1) * u ∧
      u ∣ round_to u n := by
    intro u n
    unfold round_to
    split_ifs
    · exact ⟨le_rfl, Nat.mul_le_mul_right u (Nat.le_succ _), Nat.dvd_mul_left _ _⟩
    · exact ⟨Nat.mul_le_mul_right u (Nat.le_succ _), le_rfl, Nat.dvd_mul_left _ _⟩
  have hup : ∀ j n : Nat, n < 2 ^ (53 + j) → round_to (2 ^ j) n ≤ 2 ^ (53 + j) := by
    intro j n hn
    refine le_trans (hbounds _ n).2.1 ?_
    have hd : 2 ^ (53 + j) = 2 ^ 53 * 2 ^ j := by rw [Nat.pow_add]
    rw [hd]
    refine Nat.mul_le_mul_right _ ?_
    have : n / 2 ^ j < 2 ^ 53 := by
      rw [Nat.div_lt_iff_lt_mul (Nat.two_pow_pos j), ← hd]; exact hn
    omega
  have hmono_to : ∀ u a b : Nat, a ≤ b → round_to u a ≤ round_to u b := by
    intro u a b hab
    have hq : a / u ≤ b / u := Nat.div_le_div_right hab
    rcases Nat.lt_or_ge (a / u) (b / u) with hlt | hge
    · exact le_trans (hbounds u a).2.1 (le_trans (Nat.mul_le_mul_right u hlt) (hbounds u b).1)
    · have heq : a / u = b / u := le_antisymm hq hge
      have ha := Nat.div_add_mod a u
      have hb := Nat.div_add_mod b u
      have hr : a % u ≤ b % u := by
        rw [heq] at ha
        omega
      unfold round_to
      rw [heq]
      by_cases cb : 2 * (b % u) < u ∨ (2 * (b % u) = u ∧ b / u % 2 = 0)
      · have ca : 2 * (a % u) < u ∨ (2 * (a % u) = u ∧ b / u % 2 = 0) := by
          rcases cb with h | ⟨h, he⟩
          · exact Or.inl (by omega)
          · rcases Nat.lt_or_ge (2 * (a % u)) u with h2 | h2
            · exact Or.inl h2
            · exact Or.inr ⟨by omega, he⟩
        rw [if_pos ca, if_pos cb]
      · rw [if_neg cb]
        split_ifs
        · exact Nat.mul_le_mul_right u (Nat.le_succ _)
        · exact le_rfl
  have hmono : ∀ a b : Nat, a ≤ b → round53 a ≤ round53 b := by
    intro a b hab
    obtain ⟨ja, hua, ha1, ha2⟩ := hspec a
    obtain ⟨jb, hub, hb1, hb2⟩ := hspec b
    unfold round53
    rw [hua, hub]
    rcases Nat.lt_trichotomy ja jb with h | h | h
    · have hb3 : 2 ^ (52 + jb) ≤ b := by
        rcases hb2 with h0 | h0
        · omega
        · exact h0
      have hle : 2 ^ (53 + ja) ≤ 2 ^ (52 + jb) := Nat.pow_le_pow_right (by decide) (by omega)
      have h2 : 2 ^ (52 + jb) ≤ round_to (2 ^ jb) b := by
        refine le_trans ?_ (hbounds _ b).1
        have hd : 2 ^ (52 + jb) = 2 ^ 52 * 2 ^ jb := by rw [Nat.pow_add]
        rw [hd]
        refine Nat.mul_le_mul_right _ ?_
        rw [Nat.le_div_iff_mul_le (Nat.two_pow_pos jb), ← hd]; exact hb3
      exact le_trans (hup ja a ha1) (le_trans hle h2)
    · rw [h]; exact hmono_to _ a b hab
    · exfalso
      have ha3 : 2 ^ (52 + ja) ≤ a := by
        rcases ha2 with h0 | h0
        · omega
        · exact h0
      have hle : 2 ^ (53 + jb) ≤ 2 ^ (52 + ja) := Nat.pow_le_pow_right (by decide) (by omega)
      omega
  have hidem : ∀ n : Nat, round53 (round53 n) = round53 n := by
    intro n
    obtain ⟨j, hu, h1, h2⟩ := hspec n
    obtain ⟨j2, hu2, h3, h4⟩ := hspec (round53 n)
    have hm : round53 n = round_to (2 ^ j) n := by unfold round53; rw [hu]
    have hdvd : 2 ^ j2 ∣ round53 n := by
      rcases le_or_lt j2 j with hle | hlt
      · rw [hm]
        exact dvd_trans (pow_dvd_pow 2 hle) (hbounds _ n).2.2
      · have h5 : 2 ^ (52 + j2) ≤ round53 n := by
          rcases h4 with h0 | h0
          · omega
          · exact h0
        have hle : 2 ^ (53 + j) ≤ 2 ^ (52 + j2) := Nat.pow_le_pow_right (by decide) (by omega)
        have h6 := hup j n h1
        have heq : round53 n = 2 ^ (52 + j2) := by
          rw [hm] at h5 ⊢
          omega
        rw [heq]
        exact pow_dvd_pow 2 (by omega)
    have h7 : round53 (round53 n) = round_to (2 ^ j2) (round53 n) := by
      show round_to (ulp (round53 n)) (round53 n) = _
      rw [hu2]
    rw [h7]
    unfold round_to
    rw [Nat.mod_eq_zero_of_dvd hdvd, if_pos (Or.inl (by have := Nat.two_pow_pos j2; omega))]
    exact Nat.div_mul_cancel hdvd
  have hval : ∀ x : Dbl, round53 x.val = x.val := by
    intro x
    obtain ⟨m, hm⟩ := x.rep
    rw [hm]
    exact hidem m
  have hext : ∀ x y : Dbl, x.val = y.val → x = y := by
    intro x y h
    cases x; cases y; cases h; rfl
  exact
    { sentinel := Dbl.ofNat (10 ^ 18)
      sentinel_pos := by decide
      add_zero_right := fun x => hext _ _ (hval x)
      zero_add_left := fun w => hext _ _ (by
        show round53 (round53 0 + w.val) = w.val
        have h0 : round53 0 = 0 := by decide
        rw [h0, Nat.zero_add]
        exact hval w)
      le_add_right := fun x w _ => by
        show x.val ≤ round53 (x.val + w.val)
        calc x.val = round53 x.val := (hval x).symm
          _ ≤ round53 (x.val + w.val) := hmono _ _ (Nat.le_add_right _ _)
      add_le_add_right := fun x y w h => by
        show round53 (x.val + w.val) ≤ round53 (y.val + w.val)
        exact hmono _ _ (Nat.add_le_add_right h _) }

/-! ## Data structures -/

structure WarehouseRow where
  warehouse : String
  city : String
  resource : String
  qty : Int
deriving DecidableEq, Inhabited

structure ReliefRow where
  area : String
  city : String
  resource : String
  requested : Int
  remaining : Int
  people : Int
  urgency : Int
deriving DecidableEq, Inhabited

/-- A route; the fields `from_` and `to_` are the source's `from` and `to`. -/
structure Edge (D : Type) where
  from_ : String
  to_ : String
  dist : D
deriving DecidableEq

structure ResourceAgg where
  name : String
  requested : Int
  allocated : Int
deriving DecidableEq, Inhabited

structure AdjItem (D : Type) where
  to_ : Nat
  w : D
deriving DecidableEq

structure AllocationRow (D : Type) where
  whIndex : Nat
  rfIndex : Nat
  qty : Int
  dist : D
  pathCities : List Nat
  pathLen : Nat
deriving DecidableEq

/-- The global tables of the program.  `g_adj` is the static array of
`MAX_CITIES` adjacency lists; each count is the length of its list. -/
structure State (D : Type) where
  g_wh : List WarehouseRow
  g_rf : List ReliefRow
  g_edges : List (Edge D)
  g_cities : List String
  g_res : List ResourceAgg
  g_adj : List (List (AdjItem D))
  g_alloc : List (AllocationRow D)

variable {D : Type} [DistArith D]

/-- The state at program start: every count is 0 and `g_adj` is zero-filled. -/
def State.init : State D :=
  { g_wh := [], g_rf := [], g_edges := [], g_cities := [], g_res := [],
    g_adj := List.replicate MAX_CITIES [], g_alloc := [] }

/-! ## Tiny helpers -/

/-- The effect of `strncpy(dst, s, n)` followed by a terminating NUL on a zeroed
buffer: the first `n` bytes of `s` (a character of a `String` stands for a byte
of the C string). -/
def strncpy (n : Nat) (s : String) : String := ⟨s.data.take n⟩

/-- The function `city_index`: the index of `name` in the registry, creating the
entry when it is new and there is room; `none` is the source's `-1`. -/
def city_index (s : State D) (name : String) : Option Nat × State D :=
  let i := s.g_cities.indexOf name
  if i < s.g_cities.length then (some i, s)
  else if s.g_cities.length ≥ MAX_CITIES then (none, s)
  else (some s.g_cities.length,
        { s with g_cities := s.g_cities ++ [strncpy (MAX_NAME_LEN - 1) name] })

/-- The function `resource_index`: as `city_index`, over the aggregates. -/
def resource_index (s : State D) (name : String) : Option Nat × State D :=
  let i := (s.g_res.map (fun r => r.name)).indexOf name
  if i < s.g_res.length then (some i, s)
  else if s.g_res.length ≥ MAX_RESOURCES then (none, s)
  else (some s.g_res.length,
        { s with g_res := s.g_res ++
            [{ name := strncpy (MAX_NAME_LEN - 1) name, requested := 0, allocated := 0 }] })

/-! ## Graph construction -/

/-- One guarded append `if (g_adj[a].count < MAX_EDGES) g_adj[a].items[count++] = it`. -/
def adj_push (g_adj : List (List (AdjItem D))) (a : Nat) (it : AdjItem D) :
    List (List (AdjItem D)) :=
  if (g_adj.getD a []).length < MAX_EDGES then g_adj.set a (g_adj.getD a [] ++ [it])
  else g_adj

/-- The body of the edge loop of `build_graph`. -/
def build_graph_step (s : State D) (e : Edge D) : State D :=
  let (a, s1) := city_index s e.from_
  let (b, s2) := city_index s1 e.to_
  match a, b with
  | some a, some b =>
    let d := e.dist
    let ia : AdjItem D := { to_ := b, w := d }
    let ib : AdjItem D := { to_ := a, w := d }
    let adj1 := adj_push s2.g_adj a ia
    let adj2 := adj_push adj1 b ib
    { s2 with g_adj := adj2 }
  | _, _ => s2

/-- The function `build_graph`: reset the counts of the registered cities, then
append both arcs of every stored edge. -/
def build_graph (s : State D) : State D :=
  let adj0 := (List.range s.g_cities.length).foldl (fun adj i => adj.set i []) s.g_adj
  s.g_edges.foldl build_graph_step { s with g_adj := adj0 }

/-! ## Dijkstra -/

/-- The local arrays `dist`, `used` and the caller's `prev`. -/
structure DState (D : Type) where
  dist : List D
  used : List Bool
  prev : List (Option Nat)

/-- The inner scan of `dijkstra`: the pair `(u, best)` after looking at the
indices below `n`; the first unused index of strictly smallest distance wins. -/
def dijkstra_scan (n : Nat) (dist : List D) (used : List Bool) : Option Nat × D :=
  (List.range n).foldl
    (fun acc i =>
      if used.getD i false = false ∧ dist.getD i INF_DIST < acc.2
      then (some i, dist.getD i INF_DIST) else acc)
    (none, INF_DIST)

/-- The relaxation loop over the adjacency list `L` of `u`. -/
def dijkstra_relax (u : Nat) (L : List (AdjItem D)) (dist : List D)
    (prev : List (Option Nat)) : List D × List (Option Nat) :=
  L.foldl
    (fun acc it =>
      if acc.1.getD u INF_DIST + it.w < acc.1.getD it.to_ INF_DIST
      then (acc.1.set it.to_ (acc.1.getD u INF_DIST + it.w), acc.2.set it.to_ (some u))
      else acc)
    (dist, prev)

/-- The main loop of `dijkstra`; the first argument counts the iterations that
are left of `for (it = 0; it < n; ++it)`. -/
def dijkstra_loop (g_adj : List (List (AdjItem D))) (n dst : Nat) :
    Nat → DState D → DState D
  | 0, st => st
  | it + 1, st =>
    match (dijkstra_scan n st.dist st.used).1 with
    | none => st
    | some u =>
      let used := st.used.set u true
      if u = dst then { st with used := used }
      else
        let r := dijkstra_relax u (g_adj.getD u []) st.dist st.prev
        dijkstra_loop g_adj n dst it { dist := r.1, used := used, prev := r.2 }

/-- The arrays after the initialisation loop and `dist[src] = 0.0`. -/
def dijkstra_init (n src : Nat) : DState D :=
  { dist := (List.replicate n INF_DIST).set src 0,
    used := List.replicate n false,
    prev := List.replicate n none }

/-- The function `dijkstra`: the returned `dist[dst]` and the filled `prev`. -/
def dijkstra (g_adj : List (List (AdjItem D))) (n src dst : Nat) :
    D × List (Option Nat) :=
  let st := dijkstra_loop g_adj n dst n (dijkstra_init n src)
  (st.dist.getD dst INF_DIST, st.prev)

/-! ## Path reconstruction -/

/-- The `while (cur != -1)` loop of `build_path`: `out` grows by `cur`, the loop
stops at `src` or when the chain of predecessors ends.  The result is the final
`cur` and `out`; `none` when the chain is longer than `fuel`. -/
def build_path_loop (src : Nat) (prev : List (Option Nat)) :
    Nat → Option Nat → List Nat → Option (Option Nat × List Nat)
  | 0, _, _ => none
  | _ + 1, none, out => some (none, out)
  | fuel + 1, some c, out =>
    if c = src then some (some c, out ++ [c])
    else build_path_loop src prev fuel (prev.getD c none) (out ++ [c])

/-- The reversal loop of `build_path`: swap `out[i]` and `out[len-1-i]` for
`i < len/2`. -/
def reverse_in_place (out : List Nat) : List Nat :=
  (List.range (out.length / 2)).foldl
    (fun o i =>
      let t := o.getD i 0
      (o.set i (o.getD (out.length - 1 - i) 0)).set (out.length - 1 - i) t)
    out

/-- The function `build_path`: the filled prefix of `out` (its length is the
returned `len`; the empty list is the return value 0, "no path"). -/
def build_path (fuel : Nat) (src dst : Nat) (prev : List (Option Nat)) :
    Option (List Nat) :=
  match build_path_loop src prev fuel (some dst) [] with
  | none => none
  | some (none, _) => some []
  | some (some _, out) => some (reverse_in_place out)

/-! ## Loading relief rows -/

/-- A data line of the relief file as `load_relief` sees it after `strsep`,
`trim` and `atoi`: the first three tokens and the integers the next three parse
to (`people` and `urgency` are 0 when their token is missing).  Lines with fewer
than four tokens are skipped by the loader and have no `ReliefLine`. -/
structure ReliefLine where
  area : String
  city : String
  resource : String
  qty : Int
  people : Int
  urgency : Int
deriving DecidableEq

/-- The row `load_relief` builds from a line, before the checks. -/
def relief_row_of (ln : ReliefLine) : ReliefRow :=
  let requested := if ln.qty < 0 then 0 else ln.qty
  let u1 := if ln.urgency < 0 then 0 else ln.urgency
  let u2 := if u1 > 100 then 100 else u1
  { area := strncpy (MAX_NAME_LEN - 1) ln.area,
    city := strncpy (MAX_NAME_LEN - 1) ln.city,
    resource := strncpy (MAX_NAME_LEN - 1) ln.resource,
    requested := requested, remaining := requested,
    people := ln.people, urgency := u2 }

/-- The tail of the line loop of `load_relief`: `idx = resource_index(name)` and,
when `idx >= 0`, `g_res[idx].requested += q`. -/
def add_requested (s : State D) (name : String) (q : Int) : State D :=
  let r := resource_index s name
  match r.1 with
  | some idx =>
    let s3 := r.2
    let old := s3.g_res.getD idx default
    let upd : ResourceAgg := { old with requested := old.requested + q }
    { s3 with g_res := s3.g_res.set idx upd }
  | none => r.2

/-- The body of the line loop of `load_relief` from the checks on. -/
def load_relief_line (s : State D) (ln : ReliefLine) : State D :=
  let row := relief_row_of ln
  if row.area = "" ∨ row.city = "" ∨ row.resource = "" then s
  else if s.g_rf.length < MAX_RELIEF_ROWS then
    let s1 := { s with g_rf := s.g_rf ++ [row] }
    let s2 := (city_index s1 row.city).2
    add_requested s2 row.resource row.requested
  else s

/-- The function `load_relief` over the data lines of the file. -/
def load_relief (s : State D) (lines : List ReliefLine) : State D :=
  lines.foldl load_relief_line s

/-! ## Allocation -/

/-- Two's-complement wrap of a C `int` result to 32 bits. -/
def wrap32 (x : Int) : Int := (x + 2 ^ 31) % 2 ^ 32 - 2 ^ 31

/-- The comparator `cmp_relief`, its `int` subtractions wrapped to 32 bits. -/
def cmp_relief (r1 r2 : ReliefRow) : Int :=
  if r1.urgency ≠ r2.urgency then wrap32 (r2.urgency - r1.urgency)
  else wrap32 (r2.people - r1.people)

/-- A comparator is consistent on the elements of `l`: its sign is antisymmetric
and `≤ 0` is transitive (what the C standard asks of `qsort`'s argument). -/
def CmpConsistent {α : Type} (cmp : α → α → Int) (l : List α) : Prop :=
  (∀ a ∈ l, ∀ b ∈ l, (cmp a b < 0 ↔ 0 < cmp b a)) ∧
  (∀ a ∈ l, ∀ b ∈ l, ∀ c ∈ l, cmp a b ≤ 0 → cmp b c ≤ 0 → cmp a c ≤ 0)

/-- The contract of the C library's `qsort`, which is a parameter of
`run_allocation`: the result is a permutation of the array, and it is in
ascending order of the comparator when the comparator is consistent. -/
def QsortContract {α : Type} (qsort : (α → α → Int) → List α → List α) : Prop :=
  ∀ cmp l, (qsort cmp l).Perm l ∧
    (CmpConsistent cmp l → (qsort cmp l).Pairwise (fun a b => cmp a b ≤ 0))

/-- An instance of `qsort`: insertion sort by the comparator. -/
def insertion_qsort {α : Type} (cmp : α → α → Int) (l : List α) : List α :=
  l.insertionSort (fun a b => cmp a b ≤ 0)

/-- The body of the candidate loop: `acc` is the state (the registry can grow in
`city_index`) and the parallel arrays `candidates[]`, `distances[]` as one list
of pairs. -/
def candidate_step (need : ReliefRow) (cityNeed : Nat)
    (acc : State D × List (Nat × D)) (w : Nat) : State D × List (Nat × D) :=
  let s := acc.1
  let row := s.g_wh.getD w default
  if row.qty ≤ 0 then acc
  else if row.resource ≠ need.resource then acc
  else
    let r := city_index s row.city
    match r.1 with
    | none => (r.2, acc.2)
    | some cityW =>
      let d := (dijkstra r.2.g_adj r.2.g_cities.length cityW cityNeed).1
      if d ≥ INF_DIST then (r.2, acc.2)
      else (r.2, acc.2 ++ [(w, d)])

/-- One comparison of the candidate sort: swap entries `a` and `b` of both
arrays when `distances[b] < distances[a]`. -/
def sort_swap (l : List (Nat × D)) (a b : Nat) : List (Nat × D) :=
  if (l.getD b (0, 0)).2 < (l.getD a (0, 0)).2
  then (l.set a (l.getD b (0, 0))).set b (l.getD a (0, 0))
  else l

/-- The candidate sort: `for a < n`, `for b = a+1 .. n-1`, compare and swap. -/
def sort_candidates (l : List (Nat × D)) : List (Nat × D) :=
  (List.range l.length).foldl
    (fun l1 a => (List.range' (a + 1) (l.length - (a + 1))).foldl
      (fun l2 b => sort_swap l2 a b) l1)
    l

/-- The stored `pathCities[64]`: zeroed by `memset`, then the first
`min(len, 64)` entries of `pathIdx` copied in. -/
def store_path (pathIdx : List Nat) : List Nat :=
  pathIdx.take MAX_PATH ++ List.replicate (MAX_PATH - (pathIdx.take MAX_PATH).length) 0

/-- The tail of the greedy loop body: `ridx = resource_index(name)` and, when
`ridx >= 0`, `g_res[ridx].allocated += take`. -/
def add_allocated (s : State D) (name : String) (take : Int) : State D :=
  let ri := resource_index s name
  match ri.1 with
  | some ridx =>
    let s3 := ri.2
    let old := s3.g_res.getD ridx default
    let upd : ResourceAgg := { old with allocated := old.allocated + take }
    { s3 with g_res := s3.g_res.set ridx upd }
  | none => ri.2

/-- The quantity `take = wh->qty < need->remaining ? wh->qty : need->remaining`
for request `i` and warehouse row `w`. -/
def take_qty (s : State D) (i w : Nat) : Int :=
  if (s.g_wh.getD w default).qty < (s.g_rf.getD i default).remaining
  then (s.g_wh.getD w default).qty else (s.g_rf.getD i default).remaining

/-- The record the greedy loop builds for warehouse row `widx` and request
`needIdx` from the result `dp` of `dijkstra(cityW, cityNeed, prev)`; `n` is the
city count.  `build_path` gets `n + 1` iterations, enough for every predecessor
chain without a cycle. -/
def make_row (s : State D) (needIdx cityNeed widx cityW n : Nat)
    (dp : D × List (Option Nat)) : AllocationRow D :=
  let pathIdx := (build_path (n + 1) cityW cityNeed dp.2).getD []
  { whIndex := widx, rfIndex := needIdx, qty := take_qty s needIdx widx, dist := dp.1,
    pathCities := store_path pathIdx, pathLen := pathIdx.length }

/-- The stores of a committed shipment: the guarded append to `g_alloc`,
`wh->qty -= take` and `need->remaining -= take`. -/
def commit (s1 : State D) (needIdx widx : Nat) (take : Int) (ar : AllocationRow D) :
    State D :=
  let need := s1.g_rf.getD needIdx default
  let wh := s1.g_wh.getD widx default
  { s1 with
    g_alloc := if s1.g_alloc.length < MAX_ALLOC then s1.g_alloc ++ [ar] else s1.g_alloc,
    g_wh := s1.g_wh.set widx { wh with qty := wh.qty - take },
    g_rf := s1.g_rf.set needIdx { need with remaining := need.remaining - take } }

/-- The body of the greedy loop for candidate `cand` of request `needIdx`.  The
loop condition `need->remaining > 0` is the first test: once it fails it fails
for every later candidate, so skipping them equals leaving the loop.
`city_index` cannot return `-1` here, the row passed the same lookup in the
candidate loop; that branch leaves the state as it is. -/
def allocate_step (needIdx cityNeed : Nat) (s : State D) (cand : Nat × D) : State D :=
  let need := s.g_rf.getD needIdx default
  if need.remaining ≤ 0 then s
  else
    let widx := cand.1
    let wh := s.g_wh.getD widx default
    if wh.qty ≤ 0 then s
    else
      let take := take_qty s needIdx widx
      if take ≤ 0 then s
      else
        let r := city_index s wh.city
        match r.1 with
        | none => r.2
        | some cityW =>
          let s1 := r.2
          let dp := dijkstra s1.g_adj s1.g_cities.length cityW cityNeed
          if dp.1 ≥ INF_DIST then s1
          else
            let ar := make_row s needIdx cityNeed widx cityW s1.g_cities.length dp
            add_allocated (commit s1 needIdx widx take ar) need.resource take

/-- The body of the request loop of `run_allocation` for request `i`. -/
def serve_request (s : State D) (i : Nat) : State D :=
  let need := s.g_rf.getD i default
  if need.remaining ≤ 0 then s
  else
    let r := city_index s need.city
    match r.1 with
    | none => r.2
    | some cityNeed =>
      let c := (List.range r.2.g_wh.length).foldl (candidate_step need cityNeed) (r.2, [])
      if c.2.length = 0 then c.1
      else (sort_candidates c.2).foldl (allocate_step i cityNeed) c.1

/-- The request loop of `run_allocation` cut after its first `k` iterations. -/
def serve_upto (s : State D) (k : Nat) : State D :=
  (List.range k).foldl serve_request s

/-- The function `run_allocation`: sort the requests with `qsort` and
`cmp_relief`, then serve them in order. -/
def run_allocation (qsort : (ReliefRow → ReliefRow → Int) → List ReliefRow → List ReliefRow)
    (s : State D) : State D :=
  let s1 : State D := { s with g_rf := qsort cmp_relief s.g_rf }
  serve_upto s1 s1.g_rf.length

/-! ## Summary figures of `emit_json` -/

/-- The sum `totalReq` of `emit_json`. -/
def totalReq (s : State D) : Int := (s.g_rf.map (fun r => r.requested)).sum

/-- The sum `totalAlloc` of `emit_json`. -/
def totalAlloc (s : State D) : Int := (s.g_res.map (fun r => r.allocated)).sum

/-- The value `pct` of `emit_json` before it is printed, in exact arithmetic. -/
def coverage_pct (s : State D) : ℚ :=
  if totalReq s > 0 then (totalAlloc s : ℚ) * 100 / (totalReq s : ℚ) else 0

/-! ## Specification vocabulary -/

/-- A walk of the built graph from `u` to `v` with its total weight: a sequence
of arcs, each an entry of the adjacency list of the city it leaves. -/
inductive Walk (g_adj : List (List (AdjItem D))) (u : Nat) : Nat → D → Prop
  | nil : Walk g_adj u u 0
  | snoc {v : Nat} {W : D} (it : AdjItem D) :
      Walk g_adj u v W → it ∈ g_adj.getD v [] → Walk g_adj u it.to_ (W + it.w)

/-- Every arc of the adjacency table ends at a city below `n` and has a
non-negative weight. -/
def AdjOK (g_adj : List (List (AdjItem D))) (n : Nat) : Prop :=
  ∀ u, ∀ it ∈ g_adj.getD u [], it.to_ < n ∧ 0 ≤ it.w

/-- The loop invariant of `dijkstra` at the head of an iteration. -/
structure DInv (g_adj : List (List (AdjItem D))) (n src : Nat) (st : DState D) : Prop where
  len_dist : st.dist.length = n
  len_used : st.used.length = n
  src0 : st.dist.getD src INF_DIST ≤ 0
  bound : ∀ v, st.dist.getD v INF_DIST ≤ INF_DIST
  sound : ∀ v, st.dist.getD v INF_DIST < INF_DIST →
    Walk g_adj src v (st.dist.getD v INF_DIST)
  relaxed : ∀ x, st.used.getD x false = true → ∀ it ∈ g_adj.getD x [],
    st.dist.getD it.to_ INF_DIST ≤ st.dist.getD x INF_DIST + it.w
  sep : ∀ x y, st.used.getD x false = true → st.used.getD y false = false →
    st.dist.getD x INF_DIST ≤ st.dist.getD y INF_DIST

/-- Every arc of the table ends at a registered city and has weight `≥ 0`. -/
def GraphOK (s : State D) : Prop := AdjOK s.g_adj s.g_cities.length

/-- A three-city network with a parallel pair of routes between A and B. -/
def exNet : State ℕ :=
  { (State.init : State ℕ) with
    g_cities := ["A", "B", "C"],
    g_edges := [⟨"A", "B", 5⟩, ⟨"B", "C", 2⟩, ⟨"A", "C", 10⟩, ⟨"A", "B", 3⟩] }

/-- The sum of `qty` over the allocation records whose `rfIndex` is `i`. -/
def allocTo (s : State D) (i : Nat) : Int :=
  ((s.g_alloc.filter (fun a => a.rfIndex = i)).map (fun a => a.qty)).sum

/-- The sum of `qty` over the allocation records whose `whIndex` is `w`. -/
def allocFrom (s : State D) (w : Nat) : Int :=
  ((s.g_alloc.filter (fun a => a.whIndex = w)).map (fun a => a.qty)).sum

/-- Records written plus warehouse rows with stock plus requests with open
demand: every commit uses up a row or a request, so this never grows. -/
def potential (s : State D) : Nat :=
  s.g_alloc.length + s.g_wh.countP (fun r => 0 < r.qty) +
    s.g_rf.countP (fun r => 0 < r.remaining)

/-- What the allocation loops leave alone: every field of a warehouse row but
`qty`, every field of a request but `remaining`, the graph and the routes; the
registry only grows at its end. -/
structure Frame (s s2 : State D) : Prop where
  wh : s2.g_wh.map (fun r => { r with qty := 0 }) = s.g_wh.map (fun r => { r with qty := 0 })
  rf : s2.g_rf.map (fun r => { r with remaining := 0 })
      = s.g_rf.map (fun r => { r with remaining := 0 })
  adj : s2.g_adj = s.g_adj
  edges : s2.g_edges = s.g_edges
  cities : ∃ extra, s2.g_cities = s.g_cities ++ extra

/-- The accounting invariant of the allocation loops for the requests in `I` and
the warehouse rows in `W`; `q0 w` is the stock of warehouse row `w` before the
first commit. -/
structure AllocInv (q0 : Nat → Int) (I W : Nat → Prop) (s : State D) : Prop where
  rf : ∀ i, i < s.g_rf.length → I i →
    0 ≤ (s.g_rf.getD i default).remaining ∧
    (s.g_rf.getD i default).requested - (s.g_rf.getD i default).remaining = allocTo s i
  wh : ∀ w, w < s.g_wh.length → W w →
    0 ≤ (s.g_wh.getD w default).qty ∧ q0 w - (s.g_wh.getD w default).qty = allocFrom s w
  pot : potential s ≤ MAX_WAREHOUSE_ROWS + MAX_RELIEF_ROWS
  qpos : ∀ a ∈ s.g_alloc, 0 < a.qty

/-- Only the city registry differs between `s` and `s2`, and it only grew. -/
structure OnlyCities (s s2 : State D) : Prop where
  wh : s2.g_wh = s.g_wh
  rf : s2.g_rf = s.g_rf
  alloc : s2.g_alloc = s.g_alloc
  res : s2.g_res = s.g_res
  adj : s2.g_adj = s.g_adj
  edges : s2.g_edges = s.g_edges
  cities : ∃ extra, s2.g_cities = s.g_cities ++ extra

/-- Two warehouses with water, two requests in city B, both routes present. -/
def exAlloc : State ℕ :=
  build_graph
    { (State.init : State ℕ) with
      g_wh := [⟨"W1", "A", "water", 100⟩, ⟨"W2", "C", "water", 50⟩],
      g_rf := [⟨"X", "B", "water", 80, 80, 5, 50⟩, ⟨"Y", "B", "water", 120, 120, 9, 90⟩],
      g_cities := ["A", "C", "B"],
      g_res := [⟨"water", 200, 0⟩],
      g_edges := [⟨"A", "B", 10⟩, ⟨"C", "B", 4⟩] }

/-- Sixty-five resource names, one more than `MAX_RESOURCES`. -/
def exNames : List String :=
  ["r00", "r01", "r02", "r03", "r04", "r05", "r06", "r07", "r08", "r09", "r10", "r11",
   "r12", "r13", "r14", "r15", "r16", "r17", "r18", "r19", "r20", "r21", "r22", "r23",
   "r24", "r25", "r26", "r27", "r28", "r29", "r30", "r31", "r32", "r33", "r34", "r35",
   "r36", "r37", "r38", "r39", "r40", "r41", "r42", "r43", "r44", "r45", "r46", "r47",
   "r48", "r49", "r50", "r51", "r52", "r53", "r54", "r55", "r56", "r57", "r58", "r59",
   "r60", "r61", "r62", "r63", "r64"]

/-- One relief line per name of `exNames`, all in city A, one unit each. -/
def exLines : List ReliefLine :=
  exNames.map (fun nm => { area := "X", city := "A", resource := nm, qty := 1,
                           people := 1, urgency := 50 })

/-- A warehouse in city A holding 5 units of the last resource of `exNames`,
the relief lines of `exLines` loaded, no routes, the graph built. -/
def exManyResources : State ℕ :=
  build_graph
    (load_relief
      { (State.init : State ℕ) with
        g_wh := [⟨"W1", "A", "r64", 5⟩], g_cities := ["A"] }
      exLines)

/-- The names of the resource aggregates, in table order. -/
def resNames (s : State D) : List String := s.g_res.map (fun r => r.name)

/-- Conservation together with what makes it last: every stored request names a
resource that has an aggregate. -/
structure ResInv (s : State D) : Prop where
  total : totalAlloc s = (s.g_alloc.map (fun a => a.qty)).sum
  known : ∀ r ∈ s.g_rf, r.resource ∈ resNames s

/-- What `load_relief` keeps true of the request table and the aggregates. -/
structure LoadInv (s : State D) : Prop where
  zero : ∀ agg ∈ s.g_res, agg.allocated = 0
  len : s.g_rf.length ≤ MAX_RELIEF_ROWS
  nodup : (resNames s).Nodup
  used : ∀ nm ∈ resNames s, nm ∈ s.g_rf.map (fun r => r.resource)
  known : ∀ r ∈ s.g_rf, r.resource ∈ resNames s ∨ MAX_RESOURCES ≤ s.g_res.length
  short : ∀ r ∈ s.g_rf, strncpy (MAX_NAME_LEN - 1) r.resource = r.resource

/-- The tables before `load_relief` in the example runs: one warehouse row. -/
def exLoad0 : State ℕ :=
  { (State.init : State ℕ) with
    g_wh := [⟨"W1", "A", "water", 100⟩], g_cities := ["A"] }

/-- Two relief lines for the example runs. -/
def exLoadLines : List ReliefLine :=
  [{ area := "X", city := "B", resource := "water", qty := 80, people := 5, urgency := 50 },
   { area := "Y", city := "A", resource := "food", qty := 30, people := 7, urgency := 70 }]

/-- The example tables after `load_relief`, one route A-B and `build_graph`. -/
def exLoaded : State ℕ :=
  build_graph { (load_relief exLoad0 exLoadLines) with g_edges := [⟨"A", "B", 10⟩] }

/-- Three warehouses at distances 2, 2 and 1 from the only request, which needs
more than the nearest one holds. -/
def exTie : State ℕ :=
  build_graph
    { (State.init : State ℕ) with
      g_wh := [⟨"W0", "A", "water", 10⟩, ⟨"W1", "B", "water", 10⟩,
               ⟨"W2", "C", "water", 10⟩],
      g_rf := [⟨"X", "R", "water", 15, 15, 5, 50⟩],
      g_cities := ["A", "B", "C", "R"],
      g_res := [⟨"water", 15, 0⟩],
      g_edges := [⟨"A", "R", 2⟩, ⟨"B", "R", 2⟩, ⟨"C", "R", 1⟩] }

/-- Two relief lines whose `people` fields are `INT_MIN` and 1. -/
def exPeopleLines : List ReliefLine :=
  [{ area := "X", city := "A", resource := "water", qty := 1,
     people := -2147483648, urgency := 50 },
   { area := "Y", city := "A", resource := "water", qty := 1,
     people := 1, urgency := 50 }]

/-- The tables after `load_relief` on `exPeopleLines`. -/
def exPeople : State ℕ := load_relief State.init exPeopleLines

/-- The routes file with 512 times the line `A,A,0` and then `A,B,5`, loaded. -/
def exLoops : State ℕ :=
  { (State.init : State ℕ) with
    g_cities := ["A", "B"],
    g_edges := List.replicate 512 ⟨"A", "A", 0⟩ ++ [⟨"A", "B", 5⟩] }

/-- The adjacency table with `m` self-loop entries in the list of city 0. -/
def loopAdj (m : Nat) : List (List (AdjItem ℕ)) :=
  (List.replicate MAX_CITIES []).set 0 (List.replicate m ⟨0, 0⟩)

/-- The tables of `exLoops` with `loopAdj m` as adjacency table. -/
def loopState (m : Nat) : State ℕ := { exLoops with g_adj := loopAdj m }

/-- What the loaders leave behind for city names: the city of every stored
warehouse row and request is registered, or the registry was full (and then
`city_index` answers `-1` for it). -/
def CitiesLoaded (s : State D) : Prop :=
  (∀ w ∈ s.g_wh, w.city ∈ s.g_cities ∨ MAX_CITIES ≤ s.g_cities.length) ∧
  (∀ r ∈ s.g_rf, r.city ∈ s.g_cities ∨ MAX_CITIES ≤ s.g_cities.length)

/-- The id of a registered city name. -/
def cityOf (s : State D) (name : String) : Nat := s.g_cities.indexOf name

/-- The frame with the registry unchanged as well. -/
structure Stable (s0 s : State D) : Prop where
  frame : Frame s0 s
  cities : s.g_cities = s0.g_cities

/-- What every allocation record satisfies with respect to the tables `s`: its
indices are valid, the warehouse row stocks the request's resource, both cities
are registered, and its distance is the result of `dijkstra` between them, below
the sentinel and the weight of a walk of the graph. -/
structure RecOK (s : State D) (a : AllocationRow D) : Prop where
  wh_lt : a.whIndex < s.g_wh.length
  rf_lt : a.rfIndex < s.g_rf.length
  res : (s.g_wh.getD a.whIndex default).resource = (s.g_rf.getD a.rfIndex default).resource
  wh_city : (s.g_wh.getD a.whIndex default).city ∈ s.g_cities
  rf_city : (s.g_rf.getD a.rfIndex default).city ∈ s.g_cities
  lt : a.dist < INF_DIST
  dist_eq : a.dist = (dijkstra s.g_adj s.g_cities.length
    (cityOf s (s.g_wh.getD a.whIndex default).city)
    (cityOf s (s.g_rf.getD a.rfIndex default).city)).1
  walk : Walk s.g_adj (cityOf s (s.g_wh.getD a.whIndex default).city)
    (cityOf s (s.g_rf.getD a.rfIndex default).city) a.dist
  qty_pos : 0 < a.qty

/-- What the candidate loop guarantees of an entry `p = (w, d)` it stores for the
request row `need` in city `c`: row `w` has stock of the request's resource in a
registered city, and `d` is the result of `dijkstra`, below the sentinel. -/
structure CandOK (s : State D) (need : ReliefRow) (c : Nat) (p : Nat × D) : Prop where
  lt : p.1 < s.g_wh.length
  res : (s.g_wh.getD p.1 default).resource = need.resource
  qty : 0 < (s.g_wh.getD p.1 default).qty
  city : (s.g_wh.getD p.1 default).city ∈ s.g_cities
  dist : p.2 = (dijkstra s.g_adj s.g_cities.length
    (cityOf s (s.g_wh.getD p.1 default).city) c).1
  reach : p.2 < INF_DIST

/-- Warehouse W1 in city A with 100 units of water, a request in city B for 80
units of water, no route. -/
def exNoRoute : State ℕ :=
  build_graph
    { (State.init : State ℕ) with
      g_wh := [⟨"W1", "A", "water", 100⟩],
      g_rf := [⟨"X", "B", "water", 80, 80, 5, 50⟩],
      g_cities := ["A", "B"],
      g_res := [⟨"water", 80, 0⟩],
      g_edges := [] }

/-- Sixty-five city names. -/
def exChainNames : List String :=
  ["c00", "c01", "c02", "c03", "c04", "c05", "c06", "c07", "c08", "c09", "c10", "c11",
   "c12", "c13", "c14", "c15", "c16", "c17", "c18", "c19", "c20", "c21", "c22", "c23",
   "c24", "c25", "c26", "c27", "c28", "c29", "c30", "c31", "c32", "c33", "c34", "c35",
   "c36", "c37", "c38", "c39", "c40", "c41", "c42", "c43", "c44", "c45", "c46", "c47",
   "c48", "c49", "c50", "c51", "c52", "c53", "c54", "c55", "c56", "c57", "c58", "c59",
   "c60", "c61", "c62", "c63", "c64"]

/-- The routes `c00-c01`, `c01-c02`, ..., `c63-c64`, each of distance 1. -/
def exChainEdges : List (Edge ℕ) :=
  (exChainNames.zip exChainNames.tail).map (fun p => ⟨p.1, p.2, 1⟩)

/-- A chain of 65 cities with a warehouse at one end and a request at the other:
the only path between them visits 65 cities. -/
def exChain : State ℕ :=
  build_graph
    { (State.init : State ℕ) with
      g_wh := [⟨"W1", "c00", "water", 5⟩],
      g_rf := [⟨"X", "c64", "water", 1, 1, 1, 50⟩],
      g_cities := exChainNames,
      g_res := [⟨"water", 1, 0⟩],
      g_edges := exChainEdges }

/-- The shape of a relief row in the spec's data model, as far as the
comparator reads it: `urgency` within `[0, 100]` and `people` a non-negative
`int`. -/
@[reducible] def RowInRange (r : ReliefRow) : Prop :=
  0 ≤ r.urgency ∧ r.urgency ≤ 100 ∧ 0 ≤ r.people ∧ r.people < 2 ^ 31

/-- Cities A and B joined by one route of distance 10, the graph built. -/
def exPriorityBase : State ℕ :=
  build_graph
    { (State.init : State ℕ) with
      g_cities := ["A", "B"], g_edges := [⟨"A", "B", 10⟩] }

/-- One warehouse in A holding `S` units of water and two requests in B for
water: urgency 10 with demand `q2`, stored first, and urgency 90 with demand
`q1`. -/
def exPriority (S q1 q2 : Int) : State ℕ :=
  { exPriorityBase with
    g_wh := [⟨"W1", "A", "water", S⟩],
    g_rf := [⟨"X", "B", "water", q2, q2, 5, 10⟩, ⟨"Y", "B", "water", q1, q1, 5, 90⟩],
    g_res := [⟨"water", q1 + q2, 0⟩] }

/-- The invariant of `prev` in `dijkstra`: `rank` numbers the used cities in the
order they were picked; every predecessor is a used city, picked earlier than
the city it precedes once that one is used. -/
structure PInv (n : Nat) (st : DState D) (rank : Nat → Nat) : Prop where
  len_prev : st.prev.length = n
  rank_lt : ∀ x, st.used.getD x false = true → rank x < st.used.count true
  link : ∀ v u, st.prev.getD v none = some u →
    st.used.getD u false = true ∧ (st.used.getD v false = true → rank u < rank v)

/-- The adjacency lists of `exChain`: city `i` of the chain has the arcs to
`i - 1` and to `i + 1`, in the order `build_graph` appends them. -/
def chainAdj : List (List (AdjItem ℕ)) :=
  (List.range MAX_CITIES).map (fun i =>
    if i < 65 then
      (if 0 < i then [⟨i - 1, 1⟩] else []) ++ (if i < 64 then [⟨i + 1, 1⟩] else [])
    else [])

/-- The array `dist` of `dijkstra(0, 64)` on the chain after `k` relaxation
rounds. -/
def chainDist (k : Nat) : List ℕ :=
  (List.range 65).map (fun i => if i ≤ k then i else INF_DIST)

/-- The array `used` on the chain once the cities below `k` are marked. -/
def chainUsed (k : Nat) : List Bool :=
  (List.range 65).map (fun i => decide (i < k))

/-- The array `prev` on the chain after `k` relaxation rounds. -/
def chainPrev (k : Nat) : List (Option Nat) :=
  (List.range 65).map (fun i => if 0 < i ∧ i ≤ k then some (i - 1) else none)

/-- Following `prev` from city `c` reaches `src`: the list is the chain
`c, prev[c], prev[prev[c]], ..., src` in the order `build_path` visits it. -/
inductive ChainTo (prev : List (Option Nat)) (src : Nat) : Nat → List Nat → Prop
  | here : ChainTo prev src src [src]
  | step {c p : Nat} {l : List Nat} : c ≠ src → prev.getD c none = some p →
      ChainTo prev src p l → ChainTo prev src c (c :: l)

/-- Following `prev` from city `c` reaches `-1` before it reaches `src`; the
number is the count of cities visited on the way. -/
inductive ChainEnds (prev : List (Option Nat)) (src : Nat) : Nat → Nat → Prop
  | stop {c : Nat} : c ≠ src → prev.getD c none = none → ChainEnds prev src c 1
  | step {c p k : Nat} : c ≠ src → prev.getD c none = some p →
      ChainEnds prev src p k → ChainEnds prev src c (k + 1)

/-- A registry with the two cities A and B. -/
def exRegistry : State ℕ := { (State.init : State ℕ) with g_cities := ["A", "B"] }

/-- Interning the names of a list one after the other. -/
def intern_all (s : State D) (names : List String) : State D :=
  names.foldl (fun t nm => (city_index t nm).2) s

/-- The status string `emit_json` derives from a request row. -/
inductive Status where
  | Met
  | Partial
  | Unmet
deriving DecidableEq

/-- The status computation of `emit_json`: `remaining == 0`, else
`remaining < requested`, else the rest. -/
def emit_status (rf : ReliefRow) : Status :=
  if rf.remaining = 0 then Status.Met
  else if rf.remaining < rf.requested then Status.Partial
  else Status.Unmet

/-- The contract of `printf("%.0f", x)`, a parameter of the output: the printed
integer is a nearest integer of `x`. -/
def NearestInt (fmt : ℚ → Int) : Prop := ∀ x : ℚ, |(fmt x : ℚ) - x| ≤ 1 / 2

/-- An instance of `%.0f`: round to nearest, ties to even. -/
def round_half_even (x : ℚ) : Int :=
  if x - (⌊x⌋ : ℚ) < 1 / 2 then ⌊x⌋
  else if 1 / 2 < x - (⌊x⌋ : ℚ) then ⌊x⌋ + 1
  else if ⌊x⌋ % 2 = 0 then ⌊x⌋ else ⌊x⌋ + 1

/-- The `coveragePct` field as `emit_json` prints it: `pct` through `%.0f`. -/
def emit_coverage (fmt : ℚ → Int) (s : State D) : Int := fmt (coverage_pct s)

/-! ## Loading warehouse rows and routes -/

/-- A data line of the warehouses file as `load_warehouses` sees it after
`strsep`, `trim` and `atoi`: three tokens and the integer the fourth parses to.
Lines with fewer than four tokens are skipped by the loader. -/
structure WarehouseLine where
  warehouse : String
  city : String
  resource : String
  qty : Int
deriving DecidableEq

/-- The row `load_warehouses` builds from a line, before the checks. -/
def warehouse_row_of (ln : WarehouseLine) : WarehouseRow :=
  { warehouse := strncpy (MAX_NAME_LEN - 1) ln.warehouse,
    city := strncpy (MAX_NAME_LEN - 1) ln.city,
    resource := strncpy (MAX_NAME_LEN - 1) ln.resource,
    qty := if ln.qty < 0 then 0 else ln.qty }

/-- The body of the line loop of `load_warehouses` from the checks on. -/
def load_warehouse_line (s : State D) (ln : WarehouseLine) : State D :=
  let row := warehouse_row_of ln
  if row.warehouse = "" ∨ row.city = "" ∨ row.resource = "" then s
  else if s.g_wh.length < MAX_WAREHOUSE_ROWS then
    let s1 := { s with g_wh := s.g_wh ++ [row] }
    (city_index s1 row.city).2
  else s

/-- The function `load_warehouses` over the data lines of the file. -/
def load_warehouses (s : State D) (lines : List WarehouseLine) : State D :=
  lines.foldl load_warehouse_line s

/-- A data line of the routes file as `load_routes` sees it: two tokens and the
number `atof` returns for the third (a third field that `atof` turns into `nan`
is not a number of `D` and has no `RouteLine`). -/
structure RouteLine (D : Type) where
  from_ : String
  to_ : String
  dist : D

/-- The body of the line loop of `load_routes` from `e.dist = atof(tok)` on. -/
def load_route_line (s : State D) (ln : RouteLine D) : State D :=
  let e : Edge D := { from_ := strncpy (MAX_NAME_LEN - 1) ln.from_,
                      to_ := strncpy (MAX_NAME_LEN - 1) ln.to_, dist := ln.dist }
  if e.dist < 0 then s
  else if e.from_ = "" ∨ e.to_ = "" then s
  else if s.g_edges.length < MAX_EDGES then
    let s1 := { s with g_edges := s.g_edges ++ [e] }
    let s2 := (city_index s1 e.from_).2
    (city_index s2 e.to_).2
  else s

/-- The function `load_routes` over the data lines of the file. -/
def load_routes (s : State D) (lines : List (RouteLine D)) : State D :=
  lines.foldl load_route_line s

/-- The tables when `main` calls `run_allocation`: the three loaders in the
order of `main`, then `build_graph`. -/
def main_tables (wl : List WarehouseLine) (rl : List ReliefLine) (el : List (RouteLine D)) :
    State D :=
  build_graph (load_routes (load_relief (load_warehouses State.init wl) rl) el)

/-- The relief line `X,A,water,1,-5,50`. -/
def exNegPeopleLine : ReliefLine :=
  { area := "X", city := "A", resource := "water", qty := 1, people := -5, urgency := 50 }

/-- The single-warehouse scenario in memory, as the loaders and `build_graph`
leave it: warehouse `wn` in city `a` with `S` units of `res`, one request of
area `area` in city `b` for `q` units of `res` (people `p`, urgency `u`), one
route `a`-`b` of distance `d`. -/
def exScenario (wn a b res area : String) (S q p u : Int) (d : D) : State D :=
  build_graph
    { (State.init : State D) with
      g_wh := [⟨wn, a, res, S⟩],
      g_rf := [⟨area, b, res, q, q, p, u⟩],
      g_cities := [a, b],
      g_res := [⟨res, q, 0⟩],
      g_edges := [⟨a, b, d⟩] }


/-- The sum of `qty` over the records of `l` that ship from warehouse row `w`. -/
def sumFrom (l : List (AllocationRow D)) (w : Nat) : Int :=
  ((l.filter (fun a => a.whIndex = w)).map (fun a => a.qty)).sum

/-- The sum of `qty` over the records of `l` that ship to request `i`. -/
def sumTo (l : List (AllocationRow D)) (i : Nat) : Int :=
  ((l.filter (fun a => a.rfIndex = i)).map (fun a => a.qty)).sum

/-- Every record of `l` carries the smaller of what its warehouse row held and
what its request needed at the moment of the commit: the original stock `q0`
and demand `req`, less the quantities of the records before it. -/
def GreedyQty (q0 req : Nat → Int) (l : List (AllocationRow D)) : Prop :=
  ∀ pre a post, l = pre ++ a :: post →
    a.qty = min (q0 a.whIndex - sumFrom pre a.whIndex) (req a.rfIndex - sumTo pre a.rfIndex)

/-- What the candidate loop fixes of an entry `p = (w, d)` for request `i` in
city `c`, in terms of the tables `s0` at the entry of the request loop. -/
structure CandStatic (s0 : State D) (i c : Nat) (p : Nat × D) : Prop where
  lt : p.1 < s0.g_wh.length
  res : (s0.g_wh.getD p.1 default).resource = (s0.g_rf.getD i default).resource
  city : (s0.g_wh.getD p.1 default).city ∈ s0.g_cities
  dist : p.2 = (dijkstra s0.g_adj s0.g_cities.length
    (cityOf s0 (s0.g_wh.getD p.1 default).city) c).1
  reach : p.2 < INF_DIST

/-- The invariant of the request loop of `run_allocation` after its first `k`
iterations, with respect to the tables `s0` at its entry. -/
structure GreedyInv (s0 : State D) (k : Nat) (s : State D) : Prop where
  stable : Stable s0 s
  acc : AllocInv (fun w => (s0.g_wh.getD w default).qty) (fun _ => True) (fun _ => True) s
  recs : ∀ a ∈ s.g_alloc, RecOK s0 a
  below : ∀ a ∈ s.g_alloc, a.rfIndex < k
  sorted : ∀ i, ((s.g_alloc.filter (fun a => a.rfIndex = i)).map
    (fun a => a.dist)).Pairwise (fun x y => x ≤ y)
  hist : GreedyQty (fun w => (s0.g_wh.getD w default).qty)
    (fun i => (s0.g_rf.getD i default).requested) s.g_alloc
  maxi : ∀ i w, i < k → 0 < (s.g_rf.getD i default).remaining →
    (s0.g_rf.getD i default).city ∈ s0.g_cities → w < s0.g_wh.length →
    (s0.g_wh.getD w default).resource = (s0.g_rf.getD i default).resource →
    (s0.g_wh.getD w default).city ∈ s0.g_cities →
    (dijkstra s0.g_adj s0.g_cities.length (cityOf s0 (s0.g_wh.getD w default).city)
      (cityOf s0 (s0.g_rf.getD i default).city)).1 < INF_DIST →
    (s.g_wh.getD w default).qty = 0


/-- The adjacency table is symmetric: with every arc it holds the reverse arc
of the same weight. -/
def AdjSymm (g_adj : List (List (AdjItem D))) : Prop :=
  ∀ u, ∀ it ∈ g_adj.getD u [], (⟨u, it.w⟩ : AdjItem D) ∈ g_adj.getD it.to_ []


/-- What the three loaders keep true of the tables before `build_graph`. -/
structure Loaded (s : State D) : Prop where
  alloc : s.g_alloc = []
  adj : s.g_adj = List.replicate MAX_CITIES []
  nwh : s.g_wh.length ≤ MAX_WAREHOUSE_ROWS
  nrf : s.g_rf.length ≤ MAX_RELIEF_ROWS
  nedges : s.g_edges.length ≤ MAX_EDGES
  wh_ok : ∀ w ∈ s.g_wh, 0 ≤ w.qty
  rf_ok : ∀ r ∈ s.g_rf, 0 ≤ r.requested ∧ r.remaining = r.requested
  edges_ok : ∀ e ∈ s.g_edges, 0 ≤ e.dist
  cities : CitiesLoaded s
  edge_cities : ∀ e ∈ s.g_edges,
    (e.from_ ∈ s.g_cities ∨ MAX_CITIES ≤ s.g_cities.length) ∧
    (e.to_ ∈ s.g_cities ∨ MAX_CITIES ≤ s.g_cities.length)


/-- The tables `s` with other warehouse rows, requests and aggregates. -/
def with_tables (s : State D) (wh : List WarehouseRow) (rf : List ReliefRow)
    (res : List ResourceAgg) : State D :=
  { s with g_wh := wh, g_rf := rf, g_res := res }

/-- The routes of `exLoops` (512 times `A,A,0`, then `A,B,5`) with a warehouse
in A holding 5 units of water and a request in B for 1 unit of water. -/
def exLoopsAlloc : State ℕ :=
  build_graph
    (with_tables exLoops [⟨"W1", "A", "water", 5⟩] [⟨"X", "B", "water", 1, 1, 1, 50⟩]
      [⟨"water", 1, 0⟩])

/-- Example warehouse lines: `W1,A,water,100` and `W2,C,water,50`. -/
def exWarehouseLines : List WarehouseLine :=
  [⟨"W1", "A", "water", 100⟩, ⟨"W2", "C", "water", 50⟩]

/-- Example relief lines: `X,B,water,80,5,50` and `Y,B,water,120,9,90`. -/
def exReliefLines : List ReliefLine :=
  [⟨"X", "B", "water", 80, 5, 50⟩, ⟨"Y", "B", "water", 120, 9, 90⟩]

/-- Example route lines: `A,B,10` and `C,B,4`. -/
def exRouteLines : List (RouteLine ℕ) := [⟨"A", "B", 10⟩, ⟨"C", "B", 4⟩]

/-- The tables of `main` for the three example files. -/
def exMain : State ℕ := main_tables exWarehouseLines exReliefLines exRouteLines

/-- The data lines of the routes file of `exLoops`: 512 times `A,A,0`, then
`A,B,5`. -/
def exLoopLines : List (RouteLine ℕ) :=
  List.replicate 512 ⟨"A", "A", 0⟩ ++ [⟨"A", "B", 5⟩]

/-- The tables while `load_routes` reads `exLoopLines`, after `n` of the lines
`A,A,0`: the warehouse line `W1,A,water,5` and the relief line
`X,B,water,1,1,50` are loaded and have registered A and B. -/
def exLoopsLoading (n : Nat) : State ℕ :=
  with_tables
    { (State.init : State ℕ) with
      g_cities := ["A", "B"],
      g_edges := List.replicate n ⟨"A", "A", 0⟩ }
    [⟨"W1", "A", "water", 5⟩] [⟨"X", "B", "water", 1, 1, 1, 50⟩] [⟨"water", 1, 0⟩]

/-- The data lines `A,M,500000000000000000` and `M,B,499999999999999936` of a
routes file; `of` is the distance that the arithmetic makes of a decimal number
(`Dbl.ofNat` for `double`). -/
def exRoundLines {D : Type} (of : Nat → D) : List (RouteLine D) :=
  [⟨"A", "M", of 500000000000000000⟩, ⟨"M", "B", of 499999999999999936⟩]

/-- The tables after `load_routes` on `exRoundLines`, in `double` arithmetic. -/
def exRound : State Dbl := load_routes State.init (exRoundLines Dbl.ofNat)

/-- The tables after `load_routes` on `exRoundLines`, with exact sums. -/
def exRoundExact : State ℕ := load_routes State.init (exRoundLines id)

/-- The data lines `A,M,10000000000000000`, `M,N,1` and `N,B,1` of a routes
file. -/
def exFarLines {D : Type} (of : Nat → D) : List (RouteLine D) :=
  [⟨"A", "M", of 10000000000000000⟩, ⟨"M", "N", of 1⟩, ⟨"N", "B", of 1⟩]

/-- The tables after `load_routes` on `exFarLines`, in `double` arithmetic. -/
def exFarRoutes : State Dbl := load_routes State.init (exFarLines Dbl.ofNat)

/-- The tables of `main` for a warehouse `W1,A,water,5`, a request
`X,B,water,1,1,50` and the routes `exFarLines`, in `double` arithmetic. -/
def exFar : State Dbl :=
  main_tables [⟨"W1", "A", "water", 5⟩] [⟨"X", "B", "water", 1, 1, 50⟩] (exFarLines Dbl.ofNat)

/-- The tables of `main` for the same three files with exact sums. -/
def exFarExact : State ℕ :=
  main_tables [⟨"W1", "A", "water", 5⟩] [⟨"X", "B", "water", 1, 1, 50⟩] (exFarLines id)

instance instDecidableCmpConsistent {α : Type} (cmp : α → α → Int) (l : List α) :
    Decidable (CmpConsistent cmp l) := by
  unfold CmpConsistent
  infer_instance

/-- The statuses `emit_json` prints: one for each allocation record, derived
from the request `g_rf[ar->rfIndex]` of the record. -/
def emit_statuses (s : State D) : List Status :=
  s.g_alloc.map (fun ar => emit_status (s.g_rf.getD ar.rfIndex default))

/-! ## Theorems -/

theorem getD_set_eq {α : Type} (l : List α) (i j : Nat) (v d : α) :
    (l.set i v).getD j d = if i = j ∧ i < l.length then v else l.getD j d := by
  simp only [List.getD_eq_getElem?_getD, List.getElem?_set]
  by_cases h : i = j
  · by_cases h2 : i < l.length
    · subst h
      simp [h2]
    · subst h
      simp [h2, List.getElem?_eq_none (not_lt.mp h2)]
  · simp [h]

theorem INF_DIST_pos : (0 : D) < INF_DIST := DistArith.sentinel_pos

theorem dijkstra_scan_spec (n : Nat) (dist : List D) (used : List Bool) :
    (∀ i < n, used.getD i false = false →
        (dijkstra_scan n dist used).2 ≤ dist.getD i INF_DIST) ∧
    (dijkstra_scan n dist used).2 ≤ INF_DIST ∧
    ((dijkstra_scan n dist used).1 = none → (dijkstra_scan n dist used).2 = INF_DIST) ∧
    (∀ u, (dijkstra_scan n dist used).1 = some u →
        u < n ∧ used.getD u false = false ∧
        dist.getD u INF_DIST = (dijkstra_scan n dist used).2 ∧
        (dijkstra_scan n dist used).2 < INF_DIST) := by
  induction n with
  | zero => simp [dijkstra_scan]
  | succ k ih =>
    obtain ⟨h1, h2, h3, h4⟩ := ih
    have hstep : dijkstra_scan (k + 1) dist used =
        if used.getD k false = false ∧ dist.getD k INF_DIST < (dijkstra_scan k dist used).2
        then (some k, dist.getD k INF_DIST) else dijkstra_scan k dist used := by
      simp [dijkstra_scan, List.range_succ, List.foldl_append]
    rw [hstep]
    split_ifs with hc
    · obtain ⟨hu, hlt⟩ := hc
      refine ⟨?_, ?_, ?_, ?_⟩
      · intro i hi hui
        rcases Nat.lt_succ_iff_lt_or_eq.mp hi with hik | hik
        · exact le_trans hlt.le (h1 i hik hui)
        · subst hik; exact le_rfl
      · exact le_trans hlt.le h2
      · intro h; simp at h
      · intro u hu2
        simp at hu2
        subst hu2
        exact ⟨Nat.lt_succ_self _, hu, rfl, lt_of_lt_of_le hlt h2⟩
    · refine ⟨?_, h2, h3, ?_⟩
      · intro i hi hui
        rcases Nat.lt_succ_iff_lt_or_eq.mp hi with hik | hik
        · exact h1 i hik hui
        · subst hik
          by_contra hcon
          exact hc ⟨hui, not_le.mp hcon⟩
      · intro u hu
        obtain ⟨a, b, c, d⟩ := h4 u hu
        exact ⟨Nat.lt_succ_of_lt a, b, c, d⟩

theorem dijkstra_relax_cons (u : Nat) (a : AdjItem D) (rest : List (AdjItem D))
    (dist : List D) (prev : List (Option Nat)) :
    dijkstra_relax u (a :: rest) dist prev =
      if dist.getD u INF_DIST + a.w < dist.getD a.to_ INF_DIST
      then dijkstra_relax u rest (dist.set a.to_ (dist.getD u INF_DIST + a.w))
        (prev.set a.to_ (some u))
      else dijkstra_relax u rest dist prev := by
  unfold dijkstra_relax
  simp only [List.foldl_cons]
  split_ifs <;> rfl

theorem dijkstra_relax_spec (u : Nat) (L : List (AdjItem D)) :
    ∀ (dist : List D) (prev : List (Option Nat)),
    (∀ it ∈ L, it.to_ < dist.length ∧ 0 ≤ it.w) →
    (dijkstra_relax u L dist prev).1.length = dist.length ∧
    (dijkstra_relax u L dist prev).1.getD u INF_DIST = dist.getD u INF_DIST ∧
    (∀ v, (dijkstra_relax u L dist prev).1.getD v INF_DIST ≤ dist.getD v INF_DIST) ∧
    (∀ v, (dijkstra_relax u L dist prev).1.getD v INF_DIST = dist.getD v INF_DIST ∨
        ∃ it ∈ L, it.to_ = v ∧
          (dijkstra_relax u L dist prev).1.getD v INF_DIST = dist.getD u INF_DIST + it.w) ∧
    (∀ it ∈ L, (dijkstra_relax u L dist prev).1.getD it.to_ INF_DIST ≤
        dist.getD u INF_DIST + it.w) := by
  induction L with
  | nil =>
    intro dist prev _
    refine ⟨rfl, rfl, fun v => le_rfl, fun v => Or.inl rfl, ?_⟩
    intro it hit
    cases hit
  | cons a rest ih =>
    intro dist prev hw
    have hwa := hw a (List.mem_cons_self _ _)
    have hwr : ∀ it ∈ rest, it.to_ < dist.length ∧ 0 ≤ it.w :=
      fun it h => hw it (List.mem_cons_of_mem _ h)
    rw [dijkstra_relax_cons]
    split_ifs with hc
    · have hne : a.to_ ≠ u := by
        intro h
        rw [h] at hc
        exact absurd hc (not_lt.mpr (DistArith.le_add_right _ _ hwa.2))
      have hwr2 : ∀ it ∈ rest, it.to_ < (dist.set a.to_ (dist.getD u INF_DIST + a.w)).length
          ∧ 0 ≤ it.w := by
        intro it h
        rw [List.length_set]
        exact hwr it h
      obtain ⟨i1, i2, i3, i4, i5⟩ := ih (dist.set a.to_ (dist.getD u INF_DIST + a.w))
        (prev.set a.to_ (some u)) hwr2
      have hu : (dist.set a.to_ (dist.getD u INF_DIST + a.w)).getD u INF_DIST
          = dist.getD u INF_DIST := by
        rw [getD_set_eq, if_neg (fun h => hne h.1)]
      have hle : ∀ v, (dist.set a.to_ (dist.getD u INF_DIST + a.w)).getD v INF_DIST
          ≤ dist.getD v INF_DIST := by
        intro v
        rw [getD_set_eq]
        split_ifs with h
        · rw [← h.1]; exact hc.le
        · exact le_rfl
      rw [hu] at i2 i4 i5
      refine ⟨by rw [i1, List.length_set], i2, fun v => le_trans (i3 v) (hle v), ?_, ?_⟩
      · intro v
        rcases i4 v with h | ⟨it, hit, h1, h2⟩
        · rw [h, getD_set_eq]
          split_ifs with h3
          · exact Or.inr ⟨a, List.mem_cons_self _ _, h3.1, rfl⟩
          · exact Or.inl rfl
        · exact Or.inr ⟨it, List.mem_cons_of_mem _ hit, h1, h2⟩
      · intro it hit
        rcases List.mem_cons.mp hit with h | h
        · subst h
          refine le_trans (i3 _) ?_
          rw [getD_set_eq, if_pos ⟨rfl, hwa.1⟩]
        · exact i5 it h
    · obtain ⟨i1, i2, i3, i4, i5⟩ := ih dist prev hwr
      refine ⟨i1, i2, i3, ?_, ?_⟩
      · intro v
        rcases i4 v with h | ⟨it, hit, h1, h2⟩
        · exact Or.inl h
        · exact Or.inr ⟨it, List.mem_cons_of_mem _ hit, h1, h2⟩
      · intro it hit
        rcases List.mem_cons.mp hit with h | h
        · subst h
          exact le_trans (i3 _) (not_lt.mp hc)
        · exact i5 it h

theorem walk_lower {g_adj : List (List (AdjItem D))} {n src : Nat} {st : DState D}
    (hadj : AdjOK g_adj n) (inv : DInv g_adj n src st) :
    ∀ v W, Walk g_adj src v W →
      st.dist.getD v INF_DIST ≤ W ∨
        ∃ y, st.used.getD y false = false ∧ st.dist.getD y INF_DIST ≤ W := by
  intro v W hw
  induction hw with
  | nil => exact Or.inl inv.src0
  | @snoc v W it _ hit ih =>
    have hnn : 0 ≤ it.w := (hadj v it hit).2
    rcases ih with h | ⟨y, hy, hle⟩
    · cases hu : st.used.getD v false with
      | true =>
        exact Or.inl (le_trans (inv.relaxed v hu it hit) (DistArith.add_le_add_right _ _ _ h))
      | false =>
        exact Or.inr ⟨v, hu, le_trans h (DistArith.le_add_right _ _ hnn)⟩
    · exact Or.inr ⟨y, hy, le_trans hle (DistArith.le_add_right _ _ hnn)⟩

theorem walk_nonneg {g_adj : List (List (AdjItem D))} {n u v : Nat} {W : D}
    (hadj : AdjOK g_adj n) (h : Walk g_adj u v W) : 0 ≤ W := by
  induction h with
  | nil => exact le_rfl
  | snoc it _ hit ih => exact le_trans ih (DistArith.le_add_right _ _ (hadj _ it hit).2)

theorem dinv_init (g_adj : List (List (AdjItem D))) (n src : Nat) (hsrc : src < n) :
    DInv g_adj n src (dijkstra_init n src) := by
  have hget : ∀ v, (dijkstra_init n src : DState D).dist.getD v INF_DIST
      = if src = v then 0 else INF_DIST := by
    intro v
    simp only [dijkstra_init, getD_set_eq, List.length_replicate]
    by_cases h : src = v
    · subst h
      simp [hsrc]
    · simp only [h, false_and, if_false]
      by_cases hv : v < n
      · rw [List.getD_eq_getElem _ _ (by simpa using hv)]
        simp
      · rw [List.getD_eq_default _ _ (by simpa using hv)]
  have hused : ∀ v, (dijkstra_init n src : DState D).used.getD v false = false := by
    intro v
    simp only [dijkstra_init]
    by_cases hv : v < n
    · rw [List.getD_eq_getElem _ _ (by simpa using hv)]
      simp
    · rw [List.getD_eq_default _ _ (by simpa using hv)]
  refine ⟨by simp [dijkstra_init], by simp [dijkstra_init], ?_, ?_, ?_, ?_, ?_⟩
  · rw [hget]; simp
  · intro v
    rw [hget]
    split_ifs
    · exact INF_DIST_pos.le
    · exact le_rfl
  · intro v hv
    rw [hget] at hv ⊢
    split_ifs at hv ⊢ with h
    · subst h; exact Walk.nil
    · exact absurd hv (lt_irrefl _)
  · intro x hx
    rw [hused] at hx
    cases hx
  · intro x y hx
    rw [hused] at hx
    cases hx

theorem scan_min {g_adj : List (List (AdjItem D))} {n src : Nat} {st : DState D}
    (inv : DInv g_adj n src st) {u : Nat}
    (hscan : (dijkstra_scan n st.dist st.used).1 = some u) :
    u < n ∧ st.used.getD u false = false ∧ st.dist.getD u INF_DIST < INF_DIST ∧
    ∀ y, st.used.getD y false = false →
      st.dist.getD u INF_DIST ≤ st.dist.getD y INF_DIST := by
  obtain ⟨h1, _, _, h4⟩ := dijkstra_scan_spec n st.dist st.used
  obtain ⟨a, b, c, d⟩ := h4 u hscan
  refine ⟨a, b, by rw [c]; exact d, ?_⟩
  intro y hy
  by_cases hyn : y < n
  · rw [c]; exact h1 y hyn hy
  · have hy2 : st.dist.getD y INF_DIST = INF_DIST :=
      List.getD_eq_default _ _ (by rw [inv.len_dist]; exact not_lt.mp hyn)
    rw [hy2, c]
    exact d.le

theorem dinv_step {g_adj : List (List (AdjItem D))} {n src : Nat} {st : DState D}
    (hadj : AdjOK g_adj n) (inv : DInv g_adj n src st) {u : Nat}
    (hscan : (dijkstra_scan n st.dist st.used).1 = some u) :
    DInv g_adj n src
      { dist := (dijkstra_relax u (g_adj.getD u []) st.dist st.prev).1,
        used := st.used.set u true,
        prev := (dijkstra_relax u (g_adj.getD u []) st.dist st.prev).2 } := by
  obtain ⟨hun, huu, hud, hmin⟩ := scan_min inv hscan
  have hL : ∀ it ∈ g_adj.getD u [], it.to_ < st.dist.length ∧ 0 ≤ it.w := by
    intro it hit
    rw [inv.len_dist]
    exact hadj u it hit
  obtain ⟨r1, r2, r3, r4, r5⟩ := dijkstra_relax_spec u (g_adj.getD u []) st.dist st.prev hL
  have hused : ∀ x, (st.used.set u true).getD x false
      = if u = x then true else st.used.getD x false := by
    intro x
    rw [getD_set_eq]
    by_cases h : u = x
    · subst h
      simp [inv.len_used, hun]
    · simp [h]
  -- every new distance is at least `dist[u]` or unchanged
  have hge : ∀ v, (dijkstra_relax u (g_adj.getD u []) st.dist st.prev).1.getD v INF_DIST
      = st.dist.getD v INF_DIST ∨
      st.dist.getD u INF_DIST ≤
        (dijkstra_relax u (g_adj.getD u []) st.dist st.prev).1.getD v INF_DIST := by
    intro v
    rcases r4 v with h | ⟨it, hit, _, h2⟩
    · exact Or.inl h
    · right
      rw [h2]
      exact DistArith.le_add_right _ _ (hL it hit).2
  have hkeep : ∀ x, st.used.getD x false = true →
      (dijkstra_relax u (g_adj.getD u []) st.dist st.prev).1.getD x INF_DIST
        = st.dist.getD x INF_DIST := by
    intro x hx
    rcases hge x with h | h
    · exact h
    · exact le_antisymm (r3 x) (le_trans (inv.sep x u hx huu) h)
  refine ⟨by simpa [inv.len_dist] using r1, by simp [inv.len_used], ?_, ?_, ?_, ?_, ?_⟩
  · exact le_trans (r3 src) inv.src0
  · intro v
    exact le_trans (r3 v) (inv.bound v)
  · intro v hv
    show Walk g_adj src v
      ((dijkstra_relax u (g_adj.getD u []) st.dist st.prev).1.getD v INF_DIST)
    rcases r4 v with h | ⟨it, hit, h1, h2⟩
    · rw [h]
      apply inv.sound
      rw [← h]; exact hv
    · rw [h2, ← h1]
      exact Walk.snoc it (inv.sound u hud) hit
  · intro x hx it hit
    show (dijkstra_relax u (g_adj.getD u []) st.dist st.prev).1.getD it.to_ INF_DIST ≤
      (dijkstra_relax u (g_adj.getD u []) st.dist st.prev).1.getD x INF_DIST + it.w
    have hx2 : (st.used.set u true).getD x false = true := hx
    rw [hused] at hx2
    by_cases h : u = x
    · subst h
      rw [r2]
      exact r5 it hit
    · rw [if_neg h] at hx2
      rw [hkeep x hx2]
      exact le_trans (r3 _) (inv.relaxed x hx2 it hit)
  · intro x y hx hy
    show (dijkstra_relax u (g_adj.getD u []) st.dist st.prev).1.getD x INF_DIST ≤
      (dijkstra_relax u (g_adj.getD u []) st.dist st.prev).1.getD y INF_DIST
    have hx2 : (st.used.set u true).getD x false = true := hx
    have hy2 : (st.used.set u true).getD y false = false := hy
    rw [hused] at hx2 hy2
    have hyu : u ≠ y := by
      intro h
      rw [if_pos h] at hy2
      cases hy2
    rw [if_neg hyu] at hy2
    have hxle : (dijkstra_relax u (g_adj.getD u []) st.dist st.prev).1.getD x INF_DIST
        ≤ st.dist.getD u INF_DIST := by
      by_cases h : u = x
      · subst h; rw [r2]
      · rw [if_neg h] at hx2
        rw [hkeep x hx2]
        exact inv.sep x u hx2 huu
    rcases hge y with h | h
    · rw [h]
      exact le_trans hxle (hmin y hy2)
    · exact le_trans hxle h

theorem count_set_true (l : List Bool) (u : Nat) (hu : u < l.length)
    (h : l.getD u false = false) : (l.set u true).count true = l.count true + 1 := by
  rw [List.count_set _ _ _ _ hu]
  rw [List.getD_eq_getElem _ _ hu] at h
  simp [h]

theorem all_used_of_count {l : List Bool} {n : Nat} (hlen : l.length = n)
    (h : n ≤ l.count true) : ∀ y, l.getD y false = false → n ≤ y := by
  intro y hy
  by_contra hcon
  have hyl : y < l.length := by omega
  have hall : l.count true = l.length :=
    le_antisymm (List.count_le_length _ _) (by omega)
  have := (List.count_eq_length.mp hall) l[y] (List.getElem_mem hyl)
  rw [List.getD_eq_getElem _ _ hyl] at hy
  rw [hy] at this
  cases this

/-- What `dijkstra_loop` leaves in `dist[dst]`: a lower bound of every walk, at
most the sentinel, and the weight of a walk when below the sentinel. -/
theorem dijkstra_loop_spec {g_adj : List (List (AdjItem D))} {n src : Nat} (dst : Nat)
    (hadj : AdjOK g_adj n) :
    ∀ (fuel : Nat) (st : DState D), DInv g_adj n src st →
      n ≤ st.used.count true + fuel →
      (∀ W, Walk g_adj src dst W →
        (dijkstra_loop g_adj n dst fuel st).dist.getD dst INF_DIST ≤ W) ∧
      (dijkstra_loop g_adj n dst fuel st).dist.getD dst INF_DIST ≤ INF_DIST ∧
      ((dijkstra_loop g_adj n dst fuel st).dist.getD dst INF_DIST < INF_DIST →
        Walk g_adj src dst ((dijkstra_loop g_adj n dst fuel st).dist.getD dst INF_DIST)) := by
  intro fuel
  induction fuel with
  | zero =>
    intro st inv hcount
    refine ⟨?_, inv.bound dst, inv.sound dst⟩
    intro W hW
    show st.dist.getD dst INF_DIST ≤ W
    rcases walk_lower hadj inv dst W hW with h | ⟨y, hy, hle⟩
    · exact h
    · have hyn := all_used_of_count inv.len_used (by simpa using hcount) y hy
      have : st.dist.getD y INF_DIST = INF_DIST :=
        List.getD_eq_default _ _ (by rw [inv.len_dist]; exact hyn)
      rw [this] at hle
      exact le_trans (inv.bound dst) hle
  | succ k ih =>
    intro st inv hcount
    rw [dijkstra_loop]
    obtain ⟨s1, s2, s3, s4⟩ := dijkstra_scan_spec n st.dist st.used
    cases hscan : (dijkstra_scan n st.dist st.used).1 with
    | none =>
      simp only []
      refine ⟨?_, inv.bound dst, inv.sound dst⟩
      intro W hW
      rcases walk_lower hadj inv dst W hW with h | ⟨y, hy, hle⟩
      · exact h
      · have hINF : INF_DIST ≤ st.dist.getD y INF_DIST := by
          by_cases hyn : y < n
          · have := s1 y hyn hy
            rwa [s3 hscan] at this
          · rw [List.getD_eq_default _ _ (by rw [inv.len_dist]; exact not_lt.mp hyn)]
        exact le_trans (inv.bound dst) (le_trans hINF hle)
    | some u =>
      simp only []
      obtain ⟨hun, huu, hud, hmin⟩ := scan_min inv hscan
      split_ifs with hdst
      · refine ⟨?_, inv.bound dst, inv.sound dst⟩
        intro W hW
        show st.dist.getD dst INF_DIST ≤ W
        rcases walk_lower hadj inv dst W hW with h | ⟨y, hy, hle⟩
        · exact h
        · rw [← hdst]
          exact le_trans (hmin y hy) hle
      · apply ih _ (dinv_step hadj inv hscan)
        show n ≤ (st.used.set u true).count true + k
        rw [count_set_true _ _ (by rw [inv.len_used]; exact hun) huu]
        omega

/-- The result of `dijkstra` on a well-formed adjacency table. -/
theorem dijkstra_spec {g_adj : List (List (AdjItem D))} {n : Nat} (src dst : Nat)
    (hadj : AdjOK g_adj n) (hsrc : src < n) :
    (∀ W, Walk g_adj src dst W → (dijkstra g_adj n src dst).1 ≤ W) ∧
    (dijkstra g_adj n src dst).1 ≤ INF_DIST ∧
    ((dijkstra g_adj n src dst).1 < INF_DIST →
      Walk g_adj src dst (dijkstra g_adj n src dst).1) := by
  have := dijkstra_loop_spec dst hadj n (dijkstra_init n src) (dinv_init g_adj n src hsrc)
    (by omega)
  exact this

theorem city_index_spec (s : State D) (name : String) :
    (city_index s name).2.g_adj = s.g_adj ∧
    (city_index s name).2.g_edges = s.g_edges ∧
    (city_index s name).2.g_wh = s.g_wh ∧
    (city_index s name).2.g_rf = s.g_rf ∧
    (city_index s name).2.g_res = s.g_res ∧
    (city_index s name).2.g_alloc = s.g_alloc ∧
    s.g_cities.length ≤ (city_index s name).2.g_cities.length ∧
    (∀ i, (city_index s name).1 = some i → i < (city_index s name).2.g_cities.length) := by
  unfold city_index
  simp only []
  split_ifs with h1 h2
  · refine ⟨rfl, rfl, rfl, rfl, rfl, rfl, le_rfl, ?_⟩
    intro i hi
    simp only [Option.some.injEq] at hi
    rw [← hi]; exact h1
  · refine ⟨rfl, rfl, rfl, rfl, rfl, rfl, le_rfl, ?_⟩
    intro i hi
    cases hi
  · refine ⟨rfl, rfl, rfl, rfl, rfl, rfl, by simp, ?_⟩
    intro i hi
    simp only [Option.some.injEq] at hi
    rw [← hi]; simp

theorem city_index_cities (s : State D) (name : String) :
    ∃ extra, (city_index s name).2.g_cities = s.g_cities ++ extra := by
  unfold city_index
  simp only []
  split_ifs with h1 h2
  · exact ⟨[], by simp⟩
  · exact ⟨[], by simp⟩
  · exact ⟨_, rfl⟩

theorem mem_adj_push {g_adj : List (List (AdjItem D))} {a u : Nat} {it x : AdjItem D}
    (h : x ∈ (adj_push g_adj a it).getD u []) : x ∈ g_adj.getD u [] ∨ x = it := by
  unfold adj_push at h
  split_ifs at h with hc
  · rw [getD_set_eq] at h
    split_ifs at h with h2
    · rcases List.mem_append.mp h with h3 | h3
      · left; rw [← h2.1]; exact h3
      · right; simpa using h3
    · exact Or.inl h
  · exact Or.inl h

theorem build_graph_step_ok (s : State D) (e : Edge D) (he : 0 ≤ e.dist)
    (h : GraphOK s) : GraphOK (build_graph_step s e) := by
  obtain ⟨a1, _, _, _, _, _, a7, a8⟩ := city_index_spec s e.from_
  obtain ⟨b1, _, _, _, _, _, b7, b8⟩ := city_index_spec (city_index s e.from_).2 e.to_
  have hbase : AdjOK (city_index (city_index s e.from_).2 e.to_).2.g_adj
      (city_index (city_index s e.from_).2 e.to_).2.g_cities.length := by
    intro u it hit
    rw [b1, a1] at hit
    obtain ⟨h1, h2⟩ := h u it hit
    exact ⟨by omega, h2⟩
  unfold build_graph_step
  simp only []
  cases ha : (city_index s e.from_).1 with
  | none => simpa [GraphOK] using hbase
  | some a =>
    cases hb : (city_index (city_index s e.from_).2 e.to_).1 with
    | none => simpa [GraphOK] using hbase
    | some b =>
      simp only [GraphOK]
      intro u it hit
      rcases mem_adj_push hit with h1 | h1
      · rcases mem_adj_push h1 with h2 | h2
        · exact hbase u it h2
        · subst h2
          exact ⟨b8 b hb, he⟩
      · subst h1
        exact ⟨lt_of_lt_of_le (a8 a ha) b7, he⟩

theorem build_graph_step_edges (s : State D) (e : Edge D) :
    (build_graph_step s e).g_edges = s.g_edges := by
  obtain ⟨_, a2, _⟩ := city_index_spec s e.from_
  obtain ⟨_, b2, _⟩ := city_index_spec (city_index s e.from_).2 e.to_
  unfold build_graph_step
  simp only []
  cases ha : (city_index s e.from_).1 <;>
    cases hb : (city_index (city_index s e.from_).2 e.to_).1 <;> simp [a2, b2]

theorem foldl_build_graph_ok (es : List (Edge D)) (hes : ∀ e ∈ es, 0 ≤ e.dist) :
    ∀ s : State D, GraphOK s → GraphOK (es.foldl build_graph_step s) := by
  induction es with
  | nil => intro s h; exact h
  | cons e rest ih =>
    intro s h
    rw [List.foldl_cons]
    exact ih (fun x hx => hes x (List.mem_cons_of_mem _ hx)) _
      (build_graph_step_ok s e (hes e (List.mem_cons_self _ _)) h)

theorem reset_getD (adj : List (List (AdjItem D))) (k u : Nat) :
    ∀ x ∈ ((List.range k).foldl (fun adj i => adj.set i []) adj).getD u [],
      x ∈ adj.getD u [] := by
  induction k with
  | zero => intro x hx; simpa using hx
  | succ k ih =>
    intro x hx
    rw [List.range_succ, List.foldl_append] at hx
    simp only [List.foldl_cons, List.foldl_nil] at hx
    rw [getD_set_eq] at hx
    split_ifs at hx with h
    · cases hx
    · exact ih x hx

/-- The table `build_graph` produces from zero-filled `g_adj` and non-negative
routes is well formed. -/
theorem build_graph_ok (s : State D) (hadj : s.g_adj = List.replicate MAX_CITIES [])
    (hes : ∀ e ∈ s.g_edges, 0 ≤ e.dist) : GraphOK (build_graph s) := by
  unfold build_graph
  apply foldl_build_graph_ok _ hes
  intro u it hit
  have := reset_getD s.g_adj s.g_cities.length u it hit
  rw [hadj, List.getD_eq_getElem?_getD, List.getElem?_replicate] at this
  split_ifs at this <;> simp at this

/-- C1 (counterexample): the routes `A,M,500000000000000000` and
`M,B,499999999999999936` join A and B by a path of total weight
999999999999999936, below the sentinel, and with exact sums `dijkstra` returns
that weight.  In `double` arithmetic the sum of the two distances rounds to
`1e18`, the test `nd < dist[v]` fails for B, and `dijkstra` returns the
sentinel. -/
theorem C1_dijkstra_minimum_counterexample :
    (∀ e ∈ exRound.g_edges, 0 ≤ e.dist) ∧
    (build_graph exRound).g_cities = ["A", "M", "B"] ∧
    ((build_graph exRound).g_adj.getD 0 []).map (fun it => (it.to_, it.w.val))
      = [(1, 500000000000000000)] ∧
    ((build_graph exRound).g_adj.getD 1 []).map (fun it => (it.to_, it.w.val))
      = [(0, 500000000000000000), (2, 499999999999999936)] ∧
    500000000000000000 + 499999999999999936 < 10 ^ 18 ∧
    (dijkstra (build_graph exRoundExact).g_adj (build_graph exRoundExact).g_cities.length
      0 2).1 = 999999999999999936 ∧
    (dijkstra (build_graph exRound).g_adj (build_graph exRound).g_cities.length 0 2).1
      = INF_DIST ∧
    (INF_DIST : Dbl).val = 10 ^ 18 := by
  decide

/-- C1 (amended): on every table built by `build_graph` from zero-filled `g_adj`
and routes of non-negative distance, for registered cities `src` and `dst`
joined by a walk whose weight is below `INF_DIST`, `dijkstra` returns the weight
of a walk from `src` to `dst` that is at most the weight of every such walk (the
minimum), which is 0 when `src = dst` and at most every direct arc, parallel ones
included.  The weight of a walk is the sum of its arcs as the program adds them
up, in the arithmetic of `D` and in the order of the walk from `src`; with
`double` every one of these sums is rounded. -/
theorem C1_dijkstra_minimum_amended (s0 : State D)
    (hadj : s0.g_adj = List.replicate MAX_CITIES [])
    (hes : ∀ e ∈ s0.g_edges, 0 ≤ e.dist) (src dst : Nat)
    (hsrc : src < (build_graph s0).g_cities.length)
    (hdst : dst < (build_graph s0).g_cities.length)
    (W : D) (hW : Walk (build_graph s0).g_adj src dst W) (hlt : W < INF_DIST) :
    Walk (build_graph s0).g_adj src dst
      (dijkstra (build_graph s0).g_adj (build_graph s0).g_cities.length src dst).1 ∧
    (∀ W2, Walk (build_graph s0).g_adj src dst W2 →
      (dijkstra (build_graph s0).g_adj (build_graph s0).g_cities.length src dst).1 ≤ W2) ∧
    (src = dst →
      (dijkstra (build_graph s0).g_adj (build_graph s0).g_cities.length src dst).1 = 0) ∧
    (∀ it ∈ (build_graph s0).g_adj.getD src [], it.to_ = dst →
      (dijkstra (build_graph s0).g_adj (build_graph s0).g_cities.length src dst).1 ≤ it.w) := by
  have hok : AdjOK (build_graph s0).g_adj (build_graph s0).g_cities.length :=
    build_graph_ok s0 hadj hes
  obtain ⟨h1, _, h3⟩ := dijkstra_spec src dst hok hsrc
  have hwalk := h3 (lt_of_le_of_lt (h1 W hW) hlt)
  refine ⟨hwalk, h1, ?_, ?_⟩
  · intro heq
    subst heq
    exact le_antisymm (h1 0 Walk.nil) (walk_nonneg hok hwalk)
  · intro it hit hto
    have := h1 (0 + it.w) (hto ▸ Walk.snoc it Walk.nil hit)
    rw [DistArith.zero_add_left] at this
    exact this

/-- C1 (witness of the amended statement): the routes `A,M,10000000000000000`,
`M,N,1` and `N,B,1` in `double` arithmetic.  The walk A, M, N, B has the weight
`1e16` (both times `1e16 + 1` rounds to `1e16`), and that is what `dijkstra`
returns for A and B.  On `exNet`, with exact sums and a parallel pair of routes,
it returns 5, the weight of the smaller route A-B and the route B-C. -/
theorem C1_dijkstra_minimum_amended_witness :
    Walk (build_graph exFarRoutes).g_adj 0 3
      (dijkstra (build_graph exFarRoutes).g_adj (build_graph exFarRoutes).g_cities.length
        0 3).1 ∧
    (∀ W2, Walk (build_graph exFarRoutes).g_adj 0 3 W2 →
      (dijkstra (build_graph exFarRoutes).g_adj (build_graph exFarRoutes).g_cities.length
        0 3).1 ≤ W2) ∧
    (dijkstra (build_graph exFarRoutes).g_adj (build_graph exFarRoutes).g_cities.length
      0 3).1.val = 10 ^ 16 ∧
    (∀ W2, Walk (build_graph exNet).g_adj 0 2 W2 →
      (dijkstra (build_graph exNet).g_adj (build_graph exNet).g_cities.length 0 2).1 ≤ W2) ∧
    (dijkstra (build_graph exNet).g_adj (build_graph exNet).g_cities.length 0 2).1 = 5 :=
  have h := C1_dijkstra_minimum_amended exFarRoutes rfl (by decide) 0 3 (by decide) (by decide)
    (0 + Dbl.ofNat 10000000000000000 + Dbl.ofNat 1 + Dbl.ofNat 1)
    (Walk.snoc ⟨3, Dbl.ofNat 1⟩
      (Walk.snoc ⟨2, Dbl.ofNat 1⟩
        (Walk.snoc ⟨1, Dbl.ofNat 10000000000000000⟩ Walk.nil (by decide)) (by decide))
      (by decide))
    (by decide)
  ⟨h.1, h.2.1, by decide,
    (C1_dijkstra_minimum_amended exNet rfl (by decide) 0 2 (by decide) (by decide) (0 + 10)
      (Walk.snoc ⟨2, 10⟩ Walk.nil (by decide)) (by decide)).2.1,
    by decide⟩

theorem resource_index_spec (s : State D) (name : String) :
    (resource_index s name).2.g_adj = s.g_adj ∧
    (resource_index s name).2.g_edges = s.g_edges ∧
    (resource_index s name).2.g_wh = s.g_wh ∧
    (resource_index s name).2.g_rf = s.g_rf ∧
    (resource_index s name).2.g_cities = s.g_cities ∧
    (resource_index s name).2.g_alloc = s.g_alloc ∧
    (∀ i, (resource_index s name).1 = some i → i < (resource_index s name).2.g_res.length) := by
  unfold resource_index
  simp only []
  split_ifs with h1 h2
  · refine ⟨rfl, rfl, rfl, rfl, rfl, rfl, ?_⟩
    intro i hi
    simp only [Option.some.injEq] at hi
    rw [← hi]; exact h1
  · refine ⟨rfl, rfl, rfl, rfl, rfl, rfl, ?_⟩
    intro i hi
    cases hi
  · refine ⟨rfl, rfl, rfl, rfl, rfl, rfl, ?_⟩
    intro i hi
    simp only [Option.some.injEq] at hi
    rw [← hi]; simp

theorem add_allocated_frame (s : State D) (name : String) (take : Int) :
    (add_allocated s name take).g_adj = s.g_adj ∧
    (add_allocated s name take).g_edges = s.g_edges ∧
    (add_allocated s name take).g_wh = s.g_wh ∧
    (add_allocated s name take).g_rf = s.g_rf ∧
    (add_allocated s name take).g_cities = s.g_cities ∧
    (add_allocated s name take).g_alloc = s.g_alloc := by
  obtain ⟨h1, h2, h3, h4, h5, h6, _⟩ := resource_index_spec s name
  unfold add_allocated
  simp only []
  cases h : (resource_index s name).1 with
  | none => exact ⟨h1, h2, h3, h4, h5, h6⟩
  | some i => exact ⟨h1, h2, h3, h4, h5, h6⟩

/-- The three ways the body of the greedy loop can end: nothing happens, only
the city lookup ran, or a shipment is committed. -/
theorem allocate_step_cases (i c : Nat) (s : State D) (cand : Nat × D) :
    allocate_step i c s cand = s ∨
    (0 < (s.g_rf.getD i default).remaining ∧ 0 < (s.g_wh.getD cand.1 default).qty ∧
      allocate_step i c s cand = (city_index s (s.g_wh.getD cand.1 default).city).2) ∨
    (0 < (s.g_rf.getD i default).remaining ∧ 0 < (s.g_wh.getD cand.1 default).qty ∧
      ∃ cityW, (city_index s (s.g_wh.getD cand.1 default).city).1 = some cityW ∧
        (dijkstra (city_index s (s.g_wh.getD cand.1 default).city).2.g_adj
          (city_index s (s.g_wh.getD cand.1 default).city).2.g_cities.length cityW c).1
            < INF_DIST ∧
        allocate_step i c s cand =
          add_allocated
            (commit (city_index s (s.g_wh.getD cand.1 default).city).2 i cand.1
              (take_qty s i cand.1)
              (make_row s i c cand.1 cityW
                (city_index s (s.g_wh.getD cand.1 default).city).2.g_cities.length
                (dijkstra (city_index s (s.g_wh.getD cand.1 default).city).2.g_adj
                  (city_index s (s.g_wh.getD cand.1 default).city).2.g_cities.length cityW c)))
            (s.g_rf.getD i default).resource (take_qty s i cand.1)) := by
  unfold allocate_step
  simp only []
  split_ifs with h1 h2 h3
  · exact Or.inl rfl
  · exact Or.inl rfl
  · exact Or.inl rfl
  · cases hc : (city_index s (s.g_wh.getD cand.1 default).city).1 with
    | none => exact Or.inr (Or.inl ⟨not_le.mp h1, not_le.mp h2, rfl⟩)
    | some cityW =>
      simp only []
      split_ifs with h4
      · exact Or.inr (Or.inl ⟨not_le.mp h1, not_le.mp h2, rfl⟩)
      · exact Or.inr (Or.inr ⟨not_le.mp h1, not_le.mp h2, cityW, rfl, not_le.mp h4, rfl⟩)
theorem lt_length_of_qty_pos {l : List WarehouseRow} {w : Nat}
    (h : 0 < (l.getD w default).qty) : w < l.length := by
  by_contra hcon
  rw [List.getD_eq_default _ _ (not_lt.mp hcon)] at h
  exact absurd h (by decide)

theorem lt_length_of_remaining_pos {l : List ReliefRow} {i : Nat}
    (h : 0 < (l.getD i default).remaining) : i < l.length := by
  by_contra hcon
  rw [List.getD_eq_default _ _ (not_lt.mp hcon)] at h
  exact absurd h (by decide)

theorem allocTo_append (s : State D) (ar : AllocationRow D) (l : List (AllocationRow D))
    (i : Nat) (h : l = s.g_alloc ++ [ar]) :
    ((l.filter (fun a => a.rfIndex = i)).map (fun a => a.qty)).sum
      = allocTo s i + if ar.rfIndex = i then ar.qty else 0 := by
  subst h
  unfold allocTo
  rw [List.filter_append, List.map_append, List.sum_append]
  by_cases hc : ar.rfIndex = i <;> simp [List.filter, hc]

theorem allocFrom_append (s : State D) (ar : AllocationRow D) (l : List (AllocationRow D))
    (w : Nat) (h : l = s.g_alloc ++ [ar]) :
    ((l.filter (fun a => a.whIndex = w)).map (fun a => a.qty)).sum
      = allocFrom s w + if ar.whIndex = w then ar.qty else 0 := by
  subst h
  unfold allocFrom
  rw [List.filter_append, List.map_append, List.sum_append]
  by_cases hc : ar.whIndex = w <;> simp [List.filter, hc]

theorem countP_set_le {α : Type} (p : α → Bool) (l : List α) (i : Nat) (a d : α)
    (hi : i < l.length) (hold : p (l.getD i d) = true) :
    (l.set i a).countP p ≤ l.countP p ∧
    (p a = false → (l.set i a).countP p + 1 = l.countP p) := by
  rw [List.countP_set p l i a hi]
  rw [List.getD_eq_getElem _ _ hi] at hold
  have hpos : 0 < l.countP p := List.countP_pos_iff.mpr ⟨l[i], List.getElem_mem hi, hold⟩
  simp only [hold, if_true]
  constructor
  · split_ifs <;> omega
  · intro h
    simp only [h, Bool.false_eq_true, if_false]
    omega

/-- A committed shipment keeps the accounting invariant. -/
theorem allocInv_commit (q0 : Nat → Int) (I W : Nat → Prop) (s1 : State D) (i w : Nat) (take : Int)
    (ar : AllocationRow D) (hinv : AllocInv q0 I W s1)
    (hrem : 0 < (s1.g_rf.getD i default).remaining)
    (hqty : 0 < (s1.g_wh.getD w default).qty)
    (htake : take = take_qty s1 i w)
    (har : ar.whIndex = w ∧ ar.rfIndex = i ∧ ar.qty = take) :
    AllocInv q0 I W (commit s1 i w take ar) ∧
    (commit s1 i w take ar).g_alloc = s1.g_alloc ++ [ar] := by
  have hi := lt_length_of_remaining_pos hrem
  have hw := lt_length_of_qty_pos hqty
  have hpos : 0 < take := by
    rw [htake]; unfold take_qty; split_ifs <;> assumption
  have hle1 : take ≤ (s1.g_wh.getD w default).qty := by
    rw [htake]; unfold take_qty; split_ifs with h
    · exact le_rfl
    · exact not_lt.mp h
  have hle2 : take ≤ (s1.g_rf.getD i default).remaining := by
    rw [htake]; unfold take_qty; split_ifs with h
    · exact h.le
    · exact le_rfl
  have hone : take = (s1.g_wh.getD w default).qty ∨
      take = (s1.g_rf.getD i default).remaining := by
    rw [htake]; unfold take_qty; split_ifs
    · exact Or.inl rfl
    · exact Or.inr rfl
  -- the counts of open rows
  obtain ⟨X, hX⟩ : ∃ X : WarehouseRow, X =
      { (s1.g_wh.getD w default) with qty := (s1.g_wh.getD w default).qty - take } :=
    ⟨_, rfl⟩
  obtain ⟨Y, hY⟩ : ∃ Y : ReliefRow, Y =
      { (s1.g_rf.getD i default) with
        remaining := (s1.g_rf.getD i default).remaining - take } := ⟨_, rfl⟩
  have hXq : X.qty = (s1.g_wh.getD w default).qty - take := by rw [hX]
  have hYr : Y.remaining = (s1.g_rf.getD i default).remaining - take := by rw [hY]
  have hYq : Y.requested = (s1.g_rf.getD i default).requested := by rw [hY]
  have hwh : (commit s1 i w take ar).g_wh = s1.g_wh.set w X := by rw [hX]; rfl
  have hrf : (commit s1 i w take ar).g_rf = s1.g_rf.set i Y := by rw [hY]; rfl
  obtain ⟨hcw1, hcw2⟩ := countP_set_le (fun r : WarehouseRow => decide (0 < r.qty))
    s1.g_wh w X default hw (by simpa using hqty)
  obtain ⟨hcr1, hcr2⟩ := countP_set_le (fun r : ReliefRow => decide (0 < r.remaining))
    s1.g_rf i Y default hi (by simpa using hrem)
  have hpot := hinv.pot
  unfold potential at hpot
  have hroom : s1.g_alloc.length < MAX_ALLOC := by
    have : MAX_WAREHOUSE_ROWS + MAX_RELIEF_ROWS < MAX_ALLOC := by decide
    omega
  have halloc : (commit s1 i w take ar).g_alloc = s1.g_alloc ++ [ar] := by
    simp only [commit, if_pos hroom]
  refine ⟨⟨?_, ?_, ?_, ?_⟩, halloc⟩
  · intro j hj hI
    rw [hrf] at hj ⊢
    have hj2 : j < s1.g_rf.length := by simpa using hj
    obtain ⟨r1, r2⟩ := hinv.rf j hj2 hI
    have hsum : allocTo (commit s1 i w take ar) j
        = allocTo s1 j + if ar.rfIndex = j then ar.qty else 0 :=
      allocTo_append s1 ar _ j halloc
    rw [hsum, har.2.1, har.2.2, getD_set_eq]
    by_cases hij : i = j
    · subst hij
      rw [if_pos ⟨rfl, hi⟩, if_pos rfl, hYr, hYq]
      constructor <;> omega
    · rw [if_neg (fun h => hij h.1), if_neg hij]
      exact ⟨r1, by omega⟩
  · intro j hj hW
    rw [hwh] at hj ⊢
    have hj2 : j < s1.g_wh.length := by simpa using hj
    obtain ⟨r1, r2⟩ := hinv.wh j hj2 hW
    have hsum : allocFrom (commit s1 i w take ar) j
        = allocFrom s1 j + if ar.whIndex = j then ar.qty else 0 :=
      allocFrom_append s1 ar _ j halloc
    rw [hsum, har.1, har.2.2, getD_set_eq]
    by_cases hij : w = j
    · subst hij
      rw [if_pos ⟨rfl, hw⟩, if_pos rfl, hXq]
      constructor <;> omega
    · rw [if_neg (fun h => hij h.1), if_neg hij]
      exact ⟨r1, by omega⟩
  · unfold potential
    rw [halloc, hwh, hrf, List.length_append, List.length_singleton]
    rcases hone with h | h
    · have := hcw2 (by rw [hXq, h]; simp)
      omega
    · have := hcr2 (by rw [hYr, h]; simp)
      omega
  · intro a ha
    rw [halloc] at ha
    rcases List.mem_append.mp ha with h | h
    · exact hinv.qpos a h
    · have : a = ar := by simpa using h
      rw [this, har.2.2]; exact hpos
theorem frame_refl (s : State D) : Frame s s :=
  ⟨rfl, rfl, rfl, rfl, ⟨[], by simp⟩⟩

theorem frame_trans {s1 s2 s3 : State D} (h1 : Frame s1 s2) (h2 : Frame s2 s3) :
    Frame s1 s3 := by
  obtain ⟨e1, he1⟩ := h1.cities
  obtain ⟨e2, he2⟩ := h2.cities
  exact ⟨h2.wh.trans h1.wh, h2.rf.trans h1.rf, h2.adj.trans h1.adj,
    h2.edges.trans h1.edges, ⟨e1 ++ e2, by rw [he2, he1, List.append_assoc]⟩⟩

theorem frame_of_eq {s s2 : State D} (hwh : s2.g_wh = s.g_wh) (hrf : s2.g_rf = s.g_rf)
    (hadj : s2.g_adj = s.g_adj) (hedges : s2.g_edges = s.g_edges)
    (hc : ∃ extra, s2.g_cities = s.g_cities ++ extra) : Frame s s2 :=
  ⟨by rw [hwh], by rw [hrf], hadj, hedges, hc⟩

theorem frame_city_index (s : State D) (name : String) :
    Frame s (city_index s name).2 := by
  obtain ⟨h1, h2, h3, h4, _, _, _, _⟩ := city_index_spec s name
  exact frame_of_eq h3 h4 h1 h2 (city_index_cities s name)

theorem map_set_same {α β : Type} (f : α → β) (l : List α) (i : Nat) (a d : α)
    (h : f a = f (l.getD i d)) : (l.set i a).map f = l.map f := by
  by_cases hi : i < l.length
  · rw [List.map_set]
    apply List.ext_getElem (by simp)
    intro n h1 h2
    rw [List.getElem_set]
    split_ifs with hn
    · subst hn
      rw [h, List.getD_eq_getElem _ _ hi, List.getElem_map]
    · rfl
  · rw [List.set_eq_of_length_le (not_lt.mp hi)]

theorem frame_commit (s1 : State D) (i w : Nat) (take : Int) (ar : AllocationRow D) :
    Frame s1 (commit s1 i w take ar) := by
  refine ⟨?_, ?_, rfl, rfl, ⟨[], by simp [commit]⟩⟩
  · exact map_set_same _ _ _ _ default rfl
  · exact map_set_same _ _ _ _ default rfl

theorem frame_add_allocated (s : State D) (name : String) (take : Int) :
    Frame s (add_allocated s name take) := by
  obtain ⟨h1, h2, h3, h4, h5, _⟩ := add_allocated_frame s name take
  exact frame_of_eq h3 h4 h1 h2 ⟨[], by simp [h5]⟩

theorem allocInv_congr {q0 : Nat → Int} {I W : Nat → Prop} {s s2 : State D} (hrf : s2.g_rf = s.g_rf)
    (hwh : s2.g_wh = s.g_wh) (hal : s2.g_alloc = s.g_alloc) (h : AllocInv q0 I W s) :
    AllocInv q0 I W s2 := by
  have e1 : ∀ i, allocTo s2 i = allocTo s i := fun i => by unfold allocTo; rw [hal]
  have e2 : ∀ w, allocFrom s2 w = allocFrom s w := fun w => by unfold allocFrom; rw [hal]
  refine ⟨?_, ?_, ?_, ?_⟩
  · intro i hi hI
    rw [hrf] at hi ⊢
    rw [e1]
    exact h.rf i hi hI
  · intro w hw hW
    rw [hwh] at hw ⊢
    rw [e2]
    exact h.wh w hw hW
  · have := h.pot
    unfold potential at this ⊢
    rw [hrf, hwh, hal]
    exact this
  · intro a ha
    rw [hal] at ha
    exact h.qpos a ha

/-- The body of the greedy loop keeps the accounting invariant and the frame,
and appends only records of request `i` and warehouse row `cand.1`. -/
theorem allocate_step_inv (q0 : Nat → Int) (I W : Nat → Prop) (i c : Nat) (s : State D) (cand : Nat × D)
    (hinv : AllocInv q0 I W s) :
    AllocInv q0 I W (allocate_step i c s cand) ∧ Frame s (allocate_step i c s cand) ∧
    ∃ extra, (allocate_step i c s cand).g_alloc = s.g_alloc ++ extra ∧
      ∀ a ∈ extra, a.rfIndex = i ∧ a.whIndex = cand.1 := by
  obtain ⟨c1, c2, c3, c4, c5, c6, _, _⟩ :=
    city_index_spec s (s.g_wh.getD cand.1 default).city
  rcases allocate_step_cases i c s cand with h | ⟨_, _, h⟩ | ⟨hrem, hqty, cityW, hcw, hd, h⟩
  · rw [h]
    exact ⟨hinv, frame_refl s, [], by simp, by simp⟩
  · rw [h]
    exact ⟨allocInv_congr c4 c3 c6 hinv, frame_city_index s _, [], by rw [c6, List.append_nil], by simp⟩
  · obtain ⟨ar, har⟩ : ∃ ar, ar = make_row s i c cand.1 cityW
        (city_index s (s.g_wh.getD cand.1 default).city).2.g_cities.length
        (dijkstra (city_index s (s.g_wh.getD cand.1 default).city).2.g_adj
          (city_index s (s.g_wh.getD cand.1 default).city).2.g_cities.length cityW c) :=
      ⟨_, rfl⟩
    rw [← har] at h
    rw [h]
    have hinv1 := allocInv_congr c4 c3 c6 hinv
    have htq : take_qty s i cand.1
        = take_qty (city_index s (s.g_wh.getD cand.1 default).city).2 i cand.1 := by
      unfold take_qty; rw [c3, c4]
    have hrow : ar.whIndex = cand.1 ∧ ar.rfIndex = i ∧ ar.qty = take_qty s i cand.1 := by
      rw [har]; exact ⟨rfl, rfl, rfl⟩
    obtain ⟨hinv2, hal2⟩ := allocInv_commit q0 I W _ i cand.1 (take_qty s i cand.1) ar
      hinv1 (by rw [c4]; exact hrem) (by rw [c3]; exact hqty) htq hrow
    obtain ⟨a1, a2, a3, a4, a5, a6⟩ := add_allocated_frame
      (commit (city_index s (s.g_wh.getD cand.1 default).city).2 i cand.1
        (take_qty s i cand.1) ar)
      (s.g_rf.getD i default).resource (take_qty s i cand.1)
    refine ⟨allocInv_congr a4 a3 a6 hinv2, ?_, ?_⟩
    · exact frame_trans (frame_city_index s _) (frame_trans (frame_commit _ _ _ _ _)
        (frame_add_allocated _ _ _))
    · refine ⟨[ar], ?_, ?_⟩
      · rw [a6, hal2, c6]
      · intro a ha
        have : a = ar := by simpa using ha
        rw [this]
        exact ⟨hrow.2.1, hrow.1⟩
theorem onlyCities_refl (s : State D) : OnlyCities s s :=
  ⟨rfl, rfl, rfl, rfl, rfl, rfl, ⟨[], by simp⟩⟩

theorem onlyCities_trans {s1 s2 s3 : State D} (h1 : OnlyCities s1 s2)
    (h2 : OnlyCities s2 s3) : OnlyCities s1 s3 := by
  obtain ⟨e1, he1⟩ := h1.cities
  obtain ⟨e2, he2⟩ := h2.cities
  exact ⟨h2.wh.trans h1.wh, h2.rf.trans h1.rf, h2.alloc.trans h1.alloc,
    h2.res.trans h1.res, h2.adj.trans h1.adj, h2.edges.trans h1.edges,
    ⟨e1 ++ e2, by rw [he2, he1, List.append_assoc]⟩⟩

theorem onlyCities_city_index (s : State D) (name : String) :
    OnlyCities s (city_index s name).2 := by
  obtain ⟨h1, h2, h3, h4, h5, h6, _, _⟩ := city_index_spec s name
  exact ⟨h3, h4, h6, h5, h1, h2, city_index_cities s name⟩

theorem onlyCities_frame {s s2 : State D} (h : OnlyCities s s2) : Frame s s2 :=
  frame_of_eq h.wh h.rf h.adj h.edges h.cities

theorem candidate_step_state (need : ReliefRow) (c : Nat) (acc : State D × List (Nat × D))
    (w : Nat) : OnlyCities acc.1 (candidate_step need c acc w).1 := by
  unfold candidate_step
  simp only []
  split_ifs with h1 h2
  · exact onlyCities_refl _
  · exact onlyCities_refl _
  · cases hc : (city_index acc.1 (acc.1.g_wh.getD w default).city).1 with
    | none => exact onlyCities_city_index _ _
    | some cityW =>
      simp only []
      split_ifs <;> exact onlyCities_city_index _ _

theorem candidate_loop_state (need : ReliefRow) (c : Nat) (ws : List Nat) :
    ∀ acc : State D × List (Nat × D),
      OnlyCities acc.1 (ws.foldl (candidate_step need c) acc).1 := by
  induction ws with
  | nil => intro acc; exact onlyCities_refl _
  | cons w rest ih =>
    intro acc
    rw [List.foldl_cons]
    exact onlyCities_trans (candidate_step_state need c acc w) (ih _)

theorem greedy_loop_inv (q0 : Nat → Int) (I W : Nat → Prop) (i c : Nat)
    (cands : List (Nat × D)) :
    ∀ s : State D, AllocInv q0 I W s →
      AllocInv q0 I W (cands.foldl (allocate_step i c) s) ∧
      Frame s (cands.foldl (allocate_step i c) s) ∧
      ∃ extra, (cands.foldl (allocate_step i c) s).g_alloc = s.g_alloc ++ extra ∧
        ∀ a ∈ extra, a.rfIndex = i := by
  induction cands with
  | nil =>
    intro s h
    exact ⟨h, frame_refl s, [], by simp, by simp⟩
  | cons cand rest ih =>
    intro s h
    rw [List.foldl_cons]
    obtain ⟨h1, f1, e1, he1, hx1⟩ := allocate_step_inv q0 I W i c s cand h
    obtain ⟨h2, f2, e2, he2, hx2⟩ := ih _ h1
    refine ⟨h2, frame_trans f1 f2, e1 ++ e2, by rw [he2, he1, List.append_assoc], ?_⟩
    intro a ha
    rcases List.mem_append.mp ha with h3 | h3
    · exact (hx1 a h3).1
    · exact hx2 a h3

/-- Serving one request keeps the accounting invariant and the frame, and
appends only records of that request. -/
theorem serve_request_inv (q0 : Nat → Int) (I W : Nat → Prop) (s : State D) (i : Nat)
    (hinv : AllocInv q0 I W s) :
    AllocInv q0 I W (serve_request s i) ∧ Frame s (serve_request s i) ∧
    ∃ extra, (serve_request s i).g_alloc = s.g_alloc ++ extra ∧
      ∀ a ∈ extra, a.rfIndex = i := by
  unfold serve_request
  simp only []
  split_ifs with h1
  · exact ⟨hinv, frame_refl s, [], by simp, by simp⟩
  · have oc1 := onlyCities_city_index s (s.g_rf.getD i default).city
    cases hc : (city_index s (s.g_rf.getD i default).city).1 with
    | none =>
      exact ⟨allocInv_congr oc1.rf oc1.wh oc1.alloc hinv, (onlyCities_frame oc1), [],
        by rw [oc1.alloc, List.append_nil], by simp⟩
    | some cityNeed =>
      simp only []
      have oc2 := onlyCities_trans oc1 (candidate_loop_state (s.g_rf.getD i default) cityNeed
        (List.range (city_index s (s.g_rf.getD i default).city).2.g_wh.length)
        ((city_index s (s.g_rf.getD i default).city).2, []))
      have hinv2 := allocInv_congr oc2.rf oc2.wh oc2.alloc hinv
      split_ifs with h2
      · exact ⟨hinv2, (onlyCities_frame oc2), [], by rw [oc2.alloc, List.append_nil], by simp⟩
      · obtain ⟨g1, g2, e, he, hx⟩ := greedy_loop_inv q0 I W i cityNeed _ _ hinv2
        exact ⟨g1, frame_trans (onlyCities_frame oc2) g2, e, by rw [he, oc2.alloc], hx⟩

theorem serve_upto_succ (s : State D) (k : Nat) :
    serve_upto s (k + 1) = serve_request (serve_upto s k) k := by
  unfold serve_upto
  rw [List.range_succ, List.foldl_append]
  rfl

/-- The request loop keeps the accounting invariant and the frame; the records
it appends in its first `k` iterations belong to requests below `k`. -/
theorem serve_upto_inv (q0 : Nat → Int) (I W : Nat → Prop) (s : State D)
    (hinv : AllocInv q0 I W s) (k : Nat) :
    AllocInv q0 I W (serve_upto s k) ∧ Frame s (serve_upto s k) ∧
    ∃ extra, (serve_upto s k).g_alloc = s.g_alloc ++ extra ∧
      ∀ a ∈ extra, a.rfIndex < k := by
  induction k with
  | zero => exact ⟨hinv, frame_refl s, [], by simp [serve_upto], by simp⟩
  | succ k ih =>
    obtain ⟨h1, f1, e1, he1, hx1⟩ := ih
    rw [serve_upto_succ]
    obtain ⟨h2, f2, e2, he2, hx2⟩ := serve_request_inv q0 I W _ k h1
    refine ⟨h2, frame_trans f1 f2, e1 ++ e2, by rw [he2, he1, List.append_assoc], ?_⟩
    intro a ha
    rcases List.mem_append.mp ha with h3 | h3
    · exact Nat.lt_succ_of_lt (hx1 a h3)
    · rw [hx2 a h3]; exact Nat.lt_succ_self k
theorem orderedInsert_pairwise {α : Type} (r : α → α → Prop) [DecidableRel r]
    (S : α → Prop) (htot : ∀ a b, S a → S b → r a b ∨ r b a)
    (htr : ∀ a b c, S a → S b → S c → r a b → r b c → r a c) (a : α) (ha : S a) :
    ∀ t : List α, (∀ x ∈ t, S x) → t.Pairwise r → (t.orderedInsert r a).Pairwise r := by
  intro t
  induction t with
  | nil => intro _ _; simp
  | cons b t ih =>
    intro hS hp
    have hb : S b := hS b (List.mem_cons_self _ _)
    have hSt : ∀ x ∈ t, S x := fun x hx => hS x (List.mem_cons_of_mem _ hx)
    rw [List.orderedInsert]
    obtain ⟨hbt, hpt⟩ := List.pairwise_cons.mp hp
    split_ifs with hab
    · refine List.pairwise_cons.mpr ⟨?_, hp⟩
      intro x hx
      rcases List.mem_cons.mp hx with h | h
      · rw [h]; exact hab
      · exact htr a b x ha hb (hSt x h) hab (hbt x h)
    · have hba : r b a := (htot a b ha hb).resolve_left hab
      refine List.pairwise_cons.mpr ⟨?_, ih hSt hpt⟩
      intro x hx
      rcases (List.mem_orderedInsert r).mp hx with h | h
      · rw [h]; exact hba
      · exact hbt x h

theorem insertionSort_pairwise {α : Type} (r : α → α → Prop) [DecidableRel r]
    (S : α → Prop) (htot : ∀ a b, S a → S b → r a b ∨ r b a)
    (htr : ∀ a b c, S a → S b → S c → r a b → r b c → r a c) :
    ∀ l : List α, (∀ x ∈ l, S x) → (l.insertionSort r).Pairwise r := by
  intro l
  induction l with
  | nil => intro _; simp
  | cons a l ih =>
    intro hS
    rw [List.insertionSort]
    apply orderedInsert_pairwise r S htot htr a (hS a (List.mem_cons_self _ _))
    · intro x hx
      exact hS x (List.mem_cons_of_mem _ ((List.perm_insertionSort r l).subset hx))
    · exact ih (fun x hx => hS x (List.mem_cons_of_mem _ hx))

/-- Insertion sort meets the contract of `qsort`. -/
theorem insertion_qsort_contract {α : Type} :
    QsortContract (insertion_qsort : (α → α → Int) → List α → List α) := by
  intro cmp l
  refine ⟨List.perm_insertionSort _ l, ?_⟩
  intro hc
  obtain ⟨hanti, htr⟩ := hc
  apply insertionSort_pairwise (fun a b => cmp a b ≤ 0) (fun x => x ∈ l)
  · intro a b ha hb
    by_cases h : cmp a b ≤ 0
    · exact Or.inl h
    · right
      have : 0 < cmp a b := not_le.mp h
      exact ((hanti b hb a ha).mpr this).le
  · intro a b c ha hb hc
    exact htr a ha b hb c hc
  · intro x hx; exact hx

theorem sum_filter_qty_nonneg (l : List (AllocationRow D)) (p : AllocationRow D → Bool)
    (h : ∀ a ∈ l, 0 < a.qty) : 0 ≤ ((l.filter p).map (fun a => a.qty)).sum := by
  apply List.sum_nonneg
  intro x hx
  obtain ⟨a, ha, rfl⟩ := List.mem_map.mp hx
  exact (h a (List.mem_of_mem_filter ha)).le

theorem countP_le_length_bool {α : Type} (p : α → Bool) (l : List α) :
    l.countP p ≤ l.length := List.countP_le_length p

/-- The accounting invariant holds when `run_allocation` enters its request
loop: no record yet, at most 512 rows in each table. -/
theorem allocInv_start (I W : Nat → Prop) (s : State D) (hal : s.g_alloc = [])
    (hnw : s.g_wh.length ≤ MAX_WAREHOUSE_ROWS) (hnr : s.g_rf.length ≤ MAX_RELIEF_ROWS)
    (hI : ∀ i, i < s.g_rf.length → I i →
      0 ≤ (s.g_rf.getD i default).requested ∧
      (s.g_rf.getD i default).remaining = (s.g_rf.getD i default).requested)
    (hW : ∀ w, W w → 0 ≤ (s.g_wh.getD w default).qty) :
    AllocInv (fun w => (s.g_wh.getD w default).qty) I W s := by
  refine ⟨?_, ?_, ?_, ?_⟩
  · intro i hi h
    obtain ⟨h1, h2⟩ := hI i hi h
    rw [h2]
    refine ⟨h1, ?_⟩
    unfold allocTo
    rw [hal]
    simp
  · intro w _ h
    refine ⟨hW w h, ?_⟩
    unfold allocFrom
    rw [hal]
    simp
  · unfold potential
    rw [hal]
    have h1 := countP_le_length_bool (fun r : WarehouseRow => decide (0 < r.qty)) s.g_wh
    have h2 := countP_le_length_bool (fun r : ReliefRow => decide (0 < r.remaining)) s.g_rf
    simp only [List.length_nil]
    omega
  · intro a ha
    rw [hal] at ha
    cases ha

theorem frame_rf_length {s s2 : State D} (h : Frame s s2) :
    s2.g_rf.length = s.g_rf.length := by
  have := congrArg List.length h.rf
  simpa using this

theorem frame_wh_length {s s2 : State D} (h : Frame s s2) :
    s2.g_wh.length = s.g_wh.length := by
  have := congrArg List.length h.wh
  simpa using this

theorem mem_getD_of_lt {α : Type} (l : List α) (i : Nat) (d : α) (h : i < l.length) :
    l.getD i d ∈ l := by
  rw [List.getD_eq_getElem _ _ h]
  exact List.getElem_mem h
/-- C2: after `run_allocation` on a loaded state (no record yet, every request
with `remaining = requested ≥ 0`, at most 512 rows per table), the request table
is the sorted one up to `remaining`, and for every request `requested - remaining`
is the sum of `qty` over the records whose `rfIndex` is that request, with
`0 ≤ remaining ≤ requested`. -/
theorem C2_request_accounting
    (qsort : (ReliefRow → ReliefRow → Int) → List ReliefRow → List ReliefRow)
    (hq : QsortContract qsort) (s : State D) (hal : s.g_alloc = [])
    (hrf : ∀ r ∈ s.g_rf, 0 ≤ r.requested ∧ r.remaining = r.requested)
    (hnw : s.g_wh.length ≤ MAX_WAREHOUSE_ROWS) (hnr : s.g_rf.length ≤ MAX_RELIEF_ROWS) :
    (run_allocation qsort s).g_rf.map (fun r => { r with remaining := 0 })
      = (qsort cmp_relief s.g_rf).map (fun r => { r with remaining := 0 }) ∧
    ∀ i, i < (run_allocation qsort s).g_rf.length →
      ((run_allocation qsort s).g_rf.getD i default).requested -
          ((run_allocation qsort s).g_rf.getD i default).remaining
        = allocTo (run_allocation qsort s) i ∧
      0 ≤ ((run_allocation qsort s).g_rf.getD i default).remaining ∧
      ((run_allocation qsort s).g_rf.getD i default).remaining
        ≤ ((run_allocation qsort s).g_rf.getD i default).requested := by
  obtain ⟨s1, hs1⟩ : ∃ s1 : State D, s1 = { s with g_rf := qsort cmp_relief s.g_rf } :=
    ⟨_, rfl⟩
  have hperm := (hq cmp_relief s.g_rf).1
  have hrun : run_allocation qsort s = serve_upto s1 s1.g_rf.length := by
    rw [hs1]; rfl
  have hstart : AllocInv (fun w => (s1.g_wh.getD w default).qty) (fun _ => True)
      (fun _ => False) s1 := by
    apply allocInv_start _ _ s1 (by rw [hs1]; exact hal) (by rw [hs1]; exact hnw)
      (by rw [hs1]; show (qsort cmp_relief s.g_rf).length ≤ _
          rw [hperm.length_eq]; exact hnr)
    · intro i hi _
      have hmem : s1.g_rf.getD i default ∈ s.g_rf := by
        apply hperm.subset
        have := mem_getD_of_lt s1.g_rf i default hi
        rw [hs1] at this ⊢
        exact this
      exact hrf _ hmem
    · intro w h
      exact absurd h id
  obtain ⟨hinv, hframe, _, _, _⟩ := serve_upto_inv _ _ _ s1 hstart s1.g_rf.length
  rw [hrun]
  refine ⟨by rw [hframe.rf, hs1], ?_⟩
  intro i hi
  obtain ⟨h1, h2⟩ := hinv.rf i hi trivial
  refine ⟨h2, h1, ?_⟩
  have hnn : 0 ≤ allocTo (serve_upto s1 s1.g_rf.length) i :=
    sum_filter_qty_nonneg _ _ hinv.qpos
  omega

theorem C2_request_accounting_witness :
    (run_allocation insertion_qsort exAlloc).g_rf.map (fun r => { r with remaining := 0 })
      = (insertion_qsort cmp_relief exAlloc.g_rf).map (fun r => { r with remaining := 0 }) ∧
    ∀ i, i < (run_allocation insertion_qsort exAlloc).g_rf.length →
      ((run_allocation insertion_qsort exAlloc).g_rf.getD i default).requested -
          ((run_allocation insertion_qsort exAlloc).g_rf.getD i default).remaining
        = allocTo (run_allocation insertion_qsort exAlloc) i ∧
      0 ≤ ((run_allocation insertion_qsort exAlloc).g_rf.getD i default).remaining ∧
      ((run_allocation insertion_qsort exAlloc).g_rf.getD i default).remaining
        ≤ ((run_allocation insertion_qsort exAlloc).g_rf.getD i default).requested :=
  C2_request_accounting insertion_qsort insertion_qsort_contract exAlloc (by decide)
    (by decide) (by decide) (by decide)

theorem commit_wh_qty (s1 : State D) (i w v : Nat) (take : Int) (ar : AllocationRow D) :
    ((commit s1 i w take ar).g_wh.getD v default).qty
      = if w = v ∧ w < s1.g_wh.length then (s1.g_wh.getD w default).qty - take
        else (s1.g_wh.getD v default).qty := by
  unfold commit
  simp only []
  rw [getD_set_eq]
  split_ifs <;> rfl

theorem commit_rf_remaining (s1 : State D) (i w j : Nat) (take : Int)
    (ar : AllocationRow D) :
    ((commit s1 i w take ar).g_rf.getD j default).remaining
      = if i = j ∧ i < s1.g_rf.length then (s1.g_rf.getD i default).remaining - take
        else (s1.g_rf.getD j default).remaining := by
  unfold commit
  simp only []
  rw [getD_set_eq]
  split_ifs <;> rfl

theorem allocate_step_qty (t : State D) (i c : Nat) (cand : Nat × D) (w : Nat)
    (h : 0 ≤ (t.g_wh.getD w default).qty) :
    0 ≤ ((allocate_step i c t cand).g_wh.getD w default).qty ∧
    ((allocate_step i c t cand).g_wh.getD w default).qty ≤ (t.g_wh.getD w default).qty := by
  obtain ⟨_, _, c3, c4, _, _, _, _⟩ :=
    city_index_spec t (t.g_wh.getD cand.1 default).city
  rcases allocate_step_cases i c t cand with h1 | ⟨_, _, h1⟩ | ⟨hrem, hqty, cityW, _, _, h1⟩
  · rw [h1]; exact ⟨h, le_rfl⟩
  · rw [h1, c3]; exact ⟨h, le_rfl⟩
  · rw [h1, (add_allocated_frame _ _ _).2.2.1, commit_wh_qty, c3]
    have hle : take_qty t i cand.1 ≤ (t.g_wh.getD cand.1 default).qty := by
      unfold take_qty; split_ifs with hc
      · exact le_rfl
      · exact not_lt.mp hc
    have hpos : 0 < take_qty t i cand.1 := by
      unfold take_qty; split_ifs <;> assumption
    split_ifs with hc
    · obtain ⟨hc1, _⟩ := hc
      subst hc1
      constructor <;> omega
    · exact ⟨h, le_rfl⟩

/-- C3: after `run_allocation` on a state with no record yet and at most 512
rows per table, for every warehouse row `w` with original quantity `q0 ≥ 0` the
sum of `qty` over the records whose `whIndex` is `w` is at most `q0`, the final
`qty` is `q0` minus that sum, and `qty` is never below 0: not after any prefix
of the request loop, and no single pass through the greedy loop body takes a
non-negative `qty` below 0 or raises it. -/
theorem C3_warehouse_accounting
    (qsort : (ReliefRow → ReliefRow → Int) → List ReliefRow → List ReliefRow)
    (hq : QsortContract qsort) (s : State D) (hal : s.g_alloc = [])
    (hnw : s.g_wh.length ≤ MAX_WAREHOUSE_ROWS) (hnr : s.g_rf.length ≤ MAX_RELIEF_ROWS)
    (w : Nat) (hw : w < s.g_wh.length) (hq0 : 0 ≤ (s.g_wh.getD w default).qty) :
    allocFrom (run_allocation qsort s) w ≤ (s.g_wh.getD w default).qty ∧
    ((run_allocation qsort s).g_wh.getD w default).qty
      = (s.g_wh.getD w default).qty - allocFrom (run_allocation qsort s) w ∧
    (∀ k, 0 ≤ ((serve_upto { s with g_rf := qsort cmp_relief s.g_rf } k).g_wh.getD w
      default).qty) ∧
    (∀ (t : State D) (i c : Nat) (cand : Nat × D), 0 ≤ (t.g_wh.getD w default).qty →
      0 ≤ ((allocate_step i c t cand).g_wh.getD w default).qty ∧
      ((allocate_step i c t cand).g_wh.getD w default).qty ≤ (t.g_wh.getD w default).qty) := by
  obtain ⟨s1, hs1⟩ : ∃ s1 : State D, s1 = { s with g_rf := qsort cmp_relief s.g_rf } :=
    ⟨_, rfl⟩
  have hperm := (hq cmp_relief s.g_rf).1
  have hrun : run_allocation qsort s = serve_upto s1 s1.g_rf.length := by
    rw [hs1]; rfl
  have hwh1 : s1.g_wh = s.g_wh := by rw [hs1]
  have hstart : AllocInv (fun v => (s1.g_wh.getD v default).qty) (fun _ => False)
      (fun v => v = w) s1 := by
    apply allocInv_start _ _ s1 (by rw [hs1]; exact hal) (by rw [hs1]; exact hnw)
      (by rw [hs1]; show (qsort cmp_relief s.g_rf).length ≤ _
          rw [hperm.length_eq]; exact hnr)
    · intro i _ h
      exact absurd h id
    · intro v hv
      rw [hv, hwh1]; exact hq0
  have hall : ∀ k, 0 ≤ ((serve_upto s1 k).g_wh.getD w default).qty ∧
      (s.g_wh.getD w default).qty - ((serve_upto s1 k).g_wh.getD w default).qty
        = allocFrom (serve_upto s1 k) w := by
    intro k
    obtain ⟨hinv, hframe, _, _, _⟩ := serve_upto_inv _ _ _ s1 hstart k
    have hlen : w < (serve_upto s1 k).g_wh.length := by
      rw [frame_wh_length hframe, hwh1]; exact hw
    have := hinv.wh w hlen rfl
    simp only [hwh1] at this
    exact this
  rw [hrun, ← hs1]
  obtain ⟨h1, h2⟩ := hall s1.g_rf.length
  refine ⟨by omega, by omega, fun k => (hall k).1, ?_⟩
  intro t i c cand ht
  exact allocate_step_qty t i c cand w ht

theorem C3_warehouse_accounting_witness :
    allocFrom (run_allocation insertion_qsort exAlloc) 0 ≤ (exAlloc.g_wh.getD 0 default).qty ∧
    ((run_allocation insertion_qsort exAlloc).g_wh.getD 0 default).qty
      = (exAlloc.g_wh.getD 0 default).qty - allocFrom (run_allocation insertion_qsort exAlloc) 0 ∧
    (∀ k, 0 ≤ ((serve_upto { exAlloc with g_rf := insertion_qsort cmp_relief exAlloc.g_rf }
      k).g_wh.getD 0 default).qty) ∧
    (∀ (t : State ℕ) (i c : Nat) (cand : Nat × ℕ), 0 ≤ (t.g_wh.getD 0 default).qty →
      0 ≤ ((allocate_step i c t cand).g_wh.getD 0 default).qty ∧
      ((allocate_step i c t cand).g_wh.getD 0 default).qty ≤ (t.g_wh.getD 0 default).qty) :=
  C3_warehouse_accounting insertion_qsort insertion_qsort_contract exAlloc (by decide)
    (by decide) (by decide) 0 (by decide) (by decide)
theorem strncpy_idem (n : Nat) (s : String) : strncpy n (strncpy n s) = strncpy n s := by
  unfold strncpy
  simp [List.take_take]

theorem resource_index_found (s : State D) (name : String) (h : name ∈ resNames s) :
    resource_index s name = (some ((resNames s).indexOf name), s) ∧
    (resNames s).indexOf name < s.g_res.length := by
  have hlt : (resNames s).indexOf name < (resNames s).length := List.indexOf_lt_length.mpr h
  have hlen : (resNames s).length = s.g_res.length := by simp [resNames]
  rw [hlen] at hlt
  refine ⟨?_, hlt⟩
  have hlt2 : List.indexOf name (List.map (fun r => r.name) s.g_res) < s.g_res.length := hlt
  unfold resource_index
  simp only []
  rw [if_pos hlt2]
  rfl

theorem resource_index_absent (s : State D) (name : String) (h : name ∉ resNames s) :
    resource_index s name =
      if s.g_res.length ≥ MAX_RESOURCES then (none, s)
      else (some s.g_res.length,
        { s with g_res := s.g_res ++
            [{ name := strncpy (MAX_NAME_LEN - 1) name, requested := 0, allocated := 0 }] }) := by
  have hge : ¬ (resNames s).indexOf name < s.g_res.length := by
    intro hlt
    apply h
    apply List.indexOf_lt_length.mp
    simpa [resNames] using hlt
  have hge2 : ¬ List.indexOf name (List.map (fun r => r.name) s.g_res) < s.g_res.length :=
    hge
  unfold resource_index
  simp only []
  rw [if_neg hge2]

theorem totalAlloc_set (s : State D) (idx : Nat) (hidx : idx < s.g_res.length) (take : Int) :
    ((s.g_res.set idx { (s.g_res.getD idx default) with
        allocated := (s.g_res.getD idx default).allocated + take }).map
          (fun r => r.allocated)).sum
      = totalAlloc s + take := by
  unfold totalAlloc
  rw [List.map_set, List.sum_set']
  have h2 : idx < (s.g_res.map (fun r => r.allocated)).length := by simpa using hidx
  rw [dif_pos h2, List.getElem_map, List.getD_eq_getElem _ _ hidx]
  show _ + (-(s.g_res[idx]).allocated + ((s.g_res[idx]).allocated + take)) = _
  omega

/-- With an aggregate for `name`, `add_allocated` adds `take` to the total and
keeps the names. -/
theorem add_allocated_found (s : State D) (name : String) (take : Int)
    (h : name ∈ resNames s) :
    totalAlloc (add_allocated s name take) = totalAlloc s + take ∧
    resNames (add_allocated s name take) = resNames s := by
  obtain ⟨h1, h2⟩ := resource_index_found s name h
  unfold add_allocated
  simp only [h1]
  constructor
  · exact totalAlloc_set s _ h2 take
  · unfold resNames
    exact map_set_same _ _ _ _ default rfl

theorem frame_resources {s s2 : State D} (h : Frame s s2) :
    s2.g_rf.map (fun r => r.resource) = s.g_rf.map (fun r => r.resource) := by
  have := congrArg (List.map (fun r : ReliefRow => r.resource)) h.rf
  simpa [List.map_map, Function.comp] using this

theorem resInv_congr {s s2 : State D} (hrf : s2.g_rf = s.g_rf) (hres : s2.g_res = s.g_res)
    (hal : s2.g_alloc = s.g_alloc) (h : ResInv s) : ResInv s2 := by
  refine ⟨?_, ?_⟩
  · have := h.total
    unfold totalAlloc at this ⊢
    rw [hres, hal]; exact this
  · intro r hr
    rw [hrf] at hr
    have := h.known r hr
    unfold resNames at this ⊢
    rw [hres]; exact this

/-- The body of the greedy loop keeps conservation. -/
theorem allocate_step_res (q0 : Nat → Int) (I W : Nat → Prop) (i c : Nat) (s : State D)
    (cand : Nat × D) (hinv : AllocInv q0 I W s) (hres : ResInv s) :
    ResInv (allocate_step i c s cand) := by
  obtain ⟨c1, c2, c3, c4, c5, c6, _, _⟩ :=
    city_index_spec s (s.g_wh.getD cand.1 default).city
  rcases allocate_step_cases i c s cand with h | ⟨_, _, h⟩ | ⟨hrem, hqty, cityW, hcw, hd, h⟩
  · rw [h]; exact hres
  · rw [h]; exact resInv_congr c4 c5 c6 hres
  · obtain ⟨ar, har⟩ : ∃ ar, ar = make_row s i c cand.1 cityW
        (city_index s (s.g_wh.getD cand.1 default).city).2.g_cities.length
        (dijkstra (city_index s (s.g_wh.getD cand.1 default).city).2.g_adj
          (city_index s (s.g_wh.getD cand.1 default).city).2.g_cities.length cityW c) :=
      ⟨_, rfl⟩
    rw [← har] at h
    obtain ⟨s1, hs1⟩ : ∃ s1, s1 = (city_index s (s.g_wh.getD cand.1 default).city).2 :=
      ⟨_, rfl⟩
    rw [← hs1] at h c3 c4 c5 c6
    have hinv1 : AllocInv q0 I W s1 := allocInv_congr c4 c3 c6 hinv
    have htq : take_qty s i cand.1 = take_qty s1 i cand.1 := by
      unfold take_qty; rw [c3, c4]
    have hrow : ar.whIndex = cand.1 ∧ ar.rfIndex = i ∧ ar.qty = take_qty s i cand.1 := by
      rw [har]; exact ⟨rfl, rfl, rfl⟩
    obtain ⟨_, hal2⟩ := allocInv_commit q0 I W s1 i cand.1 (take_qty s i cand.1) ar
      hinv1 (by rw [c4]; exact hrem) (by rw [c3]; exact hqty) htq hrow
    have hi : i < s.g_rf.length := lt_length_of_remaining_pos hrem
    have hknown : (s.g_rf.getD i default).resource
        ∈ resNames (commit s1 i cand.1 (take_qty s i cand.1) ar) := by
      have : resNames (commit s1 i cand.1 (take_qty s i cand.1) ar) = resNames s := by
        unfold resNames
        show List.map _ s1.g_res = _
        rw [c5]
      rw [this]
      exact hres.known _ (mem_getD_of_lt _ _ _ hi)
    obtain ⟨t1, t2⟩ := add_allocated_found _ _ (take_qty s i cand.1) hknown
    obtain ⟨a1, a2, a3, a4, a5, a6⟩ := add_allocated_frame
      (commit s1 i cand.1 (take_qty s i cand.1) ar)
      (s.g_rf.getD i default).resource (take_qty s i cand.1)
    rw [h]
    refine ⟨?_, ?_⟩
    · rw [t1, a6, hal2, c6, List.map_append, List.sum_append]
      have h0 : totalAlloc (commit s1 i cand.1 (take_qty s i cand.1) ar) = totalAlloc s := by
        unfold totalAlloc
        show (List.map _ s1.g_res).sum = _
        rw [c5]
      rw [h0, hres.total]
      simp only [List.map_cons, List.map_nil, List.sum_cons, List.sum_nil, hrow.2.2,
        add_zero]
    · intro r hr
      rw [t2]
      have hfr : Frame s (add_allocated (commit s1 i cand.1 (take_qty s i cand.1) ar)
          (s.g_rf.getD i default).resource (take_qty s i cand.1)) := by
        rw [hs1]
        exact frame_trans (frame_city_index s _) (frame_trans (frame_commit _ _ _ _ _)
          (frame_add_allocated _ _ _))
      have hmem : r.resource ∈ s.g_rf.map (fun r => r.resource) := by
        rw [← frame_resources hfr]
        exact List.mem_map_of_mem _ hr
      obtain ⟨r0, hr0, hre⟩ := List.mem_map.mp hmem
      have : resNames (commit s1 i cand.1 (take_qty s i cand.1) ar) = resNames s := by
        unfold resNames
        show List.map _ s1.g_res = _
        rw [c5]
      rw [this, ← hre]
      exact hres.known r0 hr0
theorem greedy_loop_res (q0 : Nat → Int) (I W : Nat → Prop) (i c : Nat)
    (cands : List (Nat × D)) :
    ∀ s : State D, AllocInv q0 I W s → ResInv s →
      ResInv (cands.foldl (allocate_step i c) s) := by
  induction cands with
  | nil => intro s _ h; exact h
  | cons cand rest ih =>
    intro s h hr
    rw [List.foldl_cons]
    exact ih _ (allocate_step_inv q0 I W i c s cand h).1
      (allocate_step_res q0 I W i c s cand h hr)

theorem resInv_onlyCities {s s2 : State D} (h : OnlyCities s s2) (hr : ResInv s) :
    ResInv s2 :=
  resInv_congr h.rf h.res h.alloc hr

theorem serve_request_res (q0 : Nat → Int) (I W : Nat → Prop) (s : State D) (i : Nat)
    (hinv : AllocInv q0 I W s) (hres : ResInv s) : ResInv (serve_request s i) := by
  unfold serve_request
  simp only []
  split_ifs with h1
  · exact hres
  · have oc1 := onlyCities_city_index s (s.g_rf.getD i default).city
    cases hc : (city_index s (s.g_rf.getD i default).city).1 with
    | none => exact resInv_onlyCities oc1 hres
    | some cityNeed =>
      simp only []
      have oc2 := onlyCities_trans oc1 (candidate_loop_state (s.g_rf.getD i default) cityNeed
        (List.range (city_index s (s.g_rf.getD i default).city).2.g_wh.length)
        ((city_index s (s.g_rf.getD i default).city).2, []))
      have hinv2 := allocInv_congr oc2.rf oc2.wh oc2.alloc hinv
      split_ifs with h2
      · exact resInv_onlyCities oc2 hres
      · exact greedy_loop_res q0 I W i cityNeed _ _ hinv2 (resInv_onlyCities oc2 hres)

theorem serve_upto_res (q0 : Nat → Int) (I W : Nat → Prop) (s : State D)
    (hinv : AllocInv q0 I W s) (hres : ResInv s) (k : Nat) : ResInv (serve_upto s k) := by
  induction k with
  | zero => exact hres
  | succ k ih =>
    rw [serve_upto_succ]
    exact serve_request_res q0 I W _ k (serve_upto_inv q0 I W s hinv k).1 ih

theorem add_requested_frame (s : State D) (name : String) (q : Int) :
    (add_requested s name q).g_wh = s.g_wh ∧
    (add_requested s name q).g_rf = s.g_rf ∧
    (add_requested s name q).g_alloc = s.g_alloc := by
  obtain ⟨_, _, h3, h4, _, h6, _⟩ := resource_index_spec s name
  unfold add_requested
  simp only []
  cases h : (resource_index s name).1 with
  | none => exact ⟨h3, h4, h6⟩
  | some i => exact ⟨h3, h4, h6⟩

/-- The aggregates after `add_requested` for a name that `strncpy` leaves as it
is: the names grow by `name` exactly when it is new and there is room, and no
`allocated` counter moves away from 0. -/
theorem add_requested_res (s : State D) (name : String) (q : Int)
    (hshort : strncpy (MAX_NAME_LEN - 1) name = name)
    (hzero : ∀ agg ∈ s.g_res, agg.allocated = 0) :
    (∀ agg ∈ (add_requested s name q).g_res, agg.allocated = 0) ∧
    resNames (add_requested s name q) =
      (if name ∈ resNames s then resNames s
       else if MAX_RESOURCES ≤ s.g_res.length then resNames s
       else resNames s ++ [name]) ∧
    (name ∈ resNames (add_requested s name q) ∨
      MAX_RESOURCES ≤ (add_requested s name q).g_res.length) ∧
    s.g_res.length ≤ (add_requested s name q).g_res.length := by
  by_cases hmem : name ∈ resNames s
  · obtain ⟨f1, f2⟩ := resource_index_found s name hmem
    have hnm : resNames (add_requested s name q) = resNames s := by
      unfold add_requested
      simp only [f1]
      unfold resNames
      exact map_set_same _ _ _ _ default rfl
    have hlen : (add_requested s name q).g_res.length = s.g_res.length := by
      unfold add_requested
      simp only [f1, List.length_set]
    refine ⟨?_, by rw [hnm, if_pos hmem], Or.inl (by rw [hnm]; exact hmem), hlen.ge⟩
    intro agg hagg
    unfold add_requested at hagg
    simp only [f1] at hagg
    rcases List.mem_or_eq_of_mem_set hagg with h3 | h3
    · exact hzero agg h3
    · rw [h3]
      exact hzero (s.g_res.getD ((resNames s).indexOf name) default)
        (mem_getD_of_lt _ _ _ f2)
  · have f1 := resource_index_absent s name hmem
    by_cases hfull : MAX_RESOURCES ≤ s.g_res.length
    · rw [if_pos hfull] at f1
      have hst : add_requested s name q = s := by
        unfold add_requested
        simp only [f1]
      rw [hst, if_neg hmem, if_pos hfull]
      exact ⟨hzero, rfl, Or.inr hfull, le_rfl⟩
    · rw [if_neg hfull] at f1
      obtain ⟨agg0, hagg0⟩ : ∃ agg0 : ResourceAgg, agg0 =
          { name := strncpy (MAX_NAME_LEN - 1) name, requested := 0, allocated := 0 } :=
        ⟨_, rfl⟩
      rw [← hagg0] at f1
      have hlen : s.g_res.length < (s.g_res ++ [agg0]).length := by simp
      have hget : (s.g_res ++ [agg0]).getD s.g_res.length default = agg0 := by
        rw [List.getD_eq_getElem _ _ hlen]
        simp
      have hres : (add_requested s name q).g_res = (s.g_res ++ [agg0]).set s.g_res.length
          { agg0 with requested := agg0.requested + q } := by
        unfold add_requested
        simp only [f1, hget]
      have hnm : resNames (add_requested s name q) = resNames s ++ [name] := by
        unfold resNames
        rw [hres, map_set_same (fun r : ResourceAgg => r.name) _ _ _ default
          (by rw [hget]), List.map_append]
        simp only [List.map_cons, List.map_nil, hagg0, hshort]
      refine ⟨?_, by rw [hnm, if_neg hmem, if_neg hfull], Or.inl (by rw [hnm]; simp), ?_⟩
      · intro agg hagg
        rw [hres] at hagg
        rcases List.mem_or_eq_of_mem_set hagg with h3 | h3
        · rcases List.mem_append.mp h3 with h4 | h4
          · exact hzero agg h4
          · have : agg = agg0 := by simpa using h4
            rw [this, hagg0]
        · rw [h3, hagg0]
      · rw [hres, List.length_set, List.length_append]
        omega

/-- One line of `load_relief` keeps `LoadInv`. -/
theorem load_relief_line_inv (s : State D) (ln : ReliefLine) (h : LoadInv s) :
    LoadInv (load_relief_line s ln) := by
  unfold load_relief_line
  simp only []
  split_ifs with h1 h2
  · exact h
  · obtain ⟨row, hrow⟩ : ∃ row, row = relief_row_of ln := ⟨_, rfl⟩
    rw [← hrow]
    have hshort : strncpy (MAX_NAME_LEN - 1) row.resource = row.resource := by
      rw [hrow]
      exact strncpy_idem _ _
    obtain ⟨s2, hs2⟩ : ∃ s2 : State D,
        s2 = (city_index { s with g_rf := s.g_rf ++ [row] } row.city).2 := ⟨_, rfl⟩
    rw [← hs2]
    obtain ⟨_, _, _, c4, c5, _, _, _⟩ :=
      city_index_spec { s with g_rf := s.g_rf ++ [row] } row.city
    rw [← hs2] at c4 c5
    have hrf2 : s2.g_rf = s.g_rf ++ [row] := c4
    have hres2 : s2.g_res = s.g_res := c5
    have hnames2 : resNames s2 = resNames s := by unfold resNames; rw [hres2]
    obtain ⟨r1, r2, r3, r4⟩ := add_requested_res s2 row.resource row.requested hshort
      (by rw [hres2]; exact h.zero)
    obtain ⟨_, a2, _⟩ := add_requested_frame s2 row.resource row.requested
    have hrf3 : (add_requested s2 row.resource row.requested).g_rf = s.g_rf ++ [row] := by
      rw [a2, hrf2]
    rw [hnames2, hres2] at r2
    rw [hres2] at r4
    refine ⟨r1, ?_, ?_, ?_, ?_, ?_⟩
    · rw [hrf3, List.length_append, List.length_singleton]
      exact h2
    · rw [r2]
      split_ifs with h3 h4
      · exact h.nodup
      · exact h.nodup
      · apply List.Nodup.append h.nodup (by simp)
        intro a ha hb
        have : a = row.resource := by simpa using hb
        rw [this] at ha
        exact h3 ha
    · intro nm hnm
      rw [hrf3, List.map_append]
      rw [r2] at hnm
      split_ifs at hnm with h3 h4
      · exact List.mem_append_left _ (h.used nm hnm)
      · exact List.mem_append_left _ (h.used nm hnm)
      · rcases List.mem_append.mp hnm with h5 | h5
        · exact List.mem_append_left _ (h.used nm h5)
        · apply List.mem_append_right
          have : nm = row.resource := by simpa using h5
          rw [this]; simp
    · intro r hr
      rw [hrf3] at hr
      rcases List.mem_append.mp hr with h3 | h3
      · rcases h.known r h3 with h4 | h4
        · left
          rw [r2]
          split_ifs
          · exact h4
          · exact h4
          · exact List.mem_append_left _ h4
        · right
          exact le_trans h4 r4
      · have : r = row := by simpa using h3
        rw [this]
        exact r3
    · intro r hr
      rw [hrf3] at hr
      rcases List.mem_append.mp hr with h3 | h3
      · exact h.short r h3
      · have : r = row := by simpa using h3
        rw [this]; exact hshort
  · exact h

theorem load_relief_inv (lines : List ReliefLine) :
    ∀ s : State D, LoadInv s → LoadInv (load_relief s lines) := by
  induction lines with
  | nil => intro s h; exact h
  | cons ln rest ih =>
    intro s h
    unfold load_relief
    rw [List.foldl_cons]
    exact ih _ (load_relief_line_inv s ln h)

theorem loadInv_empty (s : State D) (hrf : s.g_rf = []) (hres : s.g_res = []) :
    LoadInv s := by
  refine ⟨?_, ?_, ?_, ?_, ?_, ?_⟩
  · intro agg hagg; rw [hres] at hagg; cases hagg
  · rw [hrf]; exact Nat.zero_le _
  · unfold resNames; rw [hres]; exact List.nodup_nil
  · intro nm hnm; unfold resNames at hnm; rw [hres] at hnm; cases hnm
  · intro r hr; rw [hrf] at hr; cases hr
  · intro r hr; rw [hrf] at hr; cases hr

/-- With at most `MAX_RESOURCES` distinct resource names among the stored
requests, every one of them has an aggregate. -/
theorem loadInv_all_known (s : State D) (h : LoadInv s)
    (hd : (s.g_rf.map (fun r => r.resource)).dedup.length ≤ MAX_RESOURCES) :
    ∀ r ∈ s.g_rf, r.resource ∈ resNames s := by
  intro r hr
  rcases h.known r hr with h1 | h1
  · exact h1
  · by_contra hcon
    have hnd : (r.resource :: resNames s).Nodup := List.nodup_cons.mpr ⟨hcon, h.nodup⟩
    have hsub : (r.resource :: resNames s) ⊆ (s.g_rf.map (fun r => r.resource)).dedup := by
      intro x hx
      apply List.mem_dedup.mpr
      rcases List.mem_cons.mp hx with h2 | h2
      · rw [h2]; exact List.mem_map_of_mem _ hr
      · exact h.used x h2
    have hle := (List.subperm_of_subset hnd hsub).length_le
    have hl : (resNames s).length = s.g_res.length := by simp [resNames]
    rw [List.length_cons, hl] at hle
    omega
theorem sum_allocated_zero (l : List ResourceAgg) (h : ∀ agg ∈ l, agg.allocated = 0) :
    (l.map (fun r => r.allocated)).sum = 0 := by
  induction l with
  | nil => rfl
  | cons a l ih =>
    rw [List.map_cons, List.sum_cons, h a (List.mem_cons_self _ _),
      ih (fun x hx => h x (List.mem_cons_of_mem _ hx))]
    rfl

/-- C4 (counterexample): with 65 distinct resource names in the relief file the
request for the 65th is served from the warehouse, one record of quantity 1 is
written, and no aggregate counts it. -/
theorem C4_conservation_counterexample :
    totalAlloc (run_allocation insertion_qsort exManyResources) = 0 ∧
    ((run_allocation insertion_qsort exManyResources).g_alloc.map (fun a => a.qty)).sum = 1 ∧
    totalAlloc (run_allocation insertion_qsort exManyResources) ≠
      ((run_allocation insertion_qsort exManyResources).g_alloc.map (fun a => a.qty)).sum := by
  decide!

/-- C4 (amended): after `load_relief` (from empty request and aggregate tables)
and `run_allocation`, when the stored relief rows name at most `MAX_RESOURCES`
distinct resources, the sum of the `allocated` counters of all aggregates equals
the sum of `qty` over all allocation records.  The state `s` is any state that
keeps the loaded request and aggregate tables (routes loaded, graph built). -/
theorem C4_conservation_amended
    (qsort : (ReliefRow → ReliefRow → Int) → List ReliefRow → List ReliefRow)
    (hq : QsortContract qsort) (s0 : State D) (lines : List ReliefLine)
    (hrf0 : s0.g_rf = []) (hres0 : s0.g_res = []) (s : State D)
    (hrf : s.g_rf = (load_relief s0 lines).g_rf)
    (hres : s.g_res = (load_relief s0 lines).g_res) (hal : s.g_alloc = [])
    (hnw : s.g_wh.length ≤ MAX_WAREHOUSE_ROWS)
    (hd : (s.g_rf.map (fun r => r.resource)).dedup.length ≤ MAX_RESOURCES) :
    totalAlloc (run_allocation qsort s)
      = ((run_allocation qsort s).g_alloc.map (fun a => a.qty)).sum := by
  have hload : LoadInv (load_relief s0 lines) :=
    load_relief_inv lines s0 (loadInv_empty s0 hrf0 hres0)
  have hknown := loadInv_all_known _ hload (by rw [← hrf]; exact hd)
  obtain ⟨s1, hs1⟩ : ∃ s1 : State D, s1 = { s with g_rf := qsort cmp_relief s.g_rf } :=
    ⟨_, rfl⟩
  have hperm := (hq cmp_relief s.g_rf).1
  have hrun : run_allocation qsort s = serve_upto s1 s1.g_rf.length := by
    rw [hs1]; rfl
  have hstart : AllocInv (fun w => (s1.g_wh.getD w default).qty) (fun _ => False)
      (fun _ => False) s1 := by
    apply allocInv_start _ _ s1 (by rw [hs1]; exact hal) (by rw [hs1]; exact hnw)
      (by rw [hs1]; show (qsort cmp_relief s.g_rf).length ≤ _
          rw [hperm.length_eq, hrf]; exact hload.len)
    · intro i _ h
      exact absurd h id
    · intro w h
      exact absurd h id
  have hres1 : ResInv s1 := by
    refine ⟨?_, ?_⟩
    · unfold totalAlloc
      rw [hs1]
      show (List.map _ s.g_res).sum = (List.map _ s.g_alloc).sum
      rw [hal, hres, sum_allocated_zero _ hload.zero]
      rfl
    · intro r hr
      have hr2 : r ∈ s.g_rf := by
        apply hperm.subset
        rw [hs1] at hr
        exact hr
      rw [hrf] at hr2
      have := hknown r hr2
      unfold resNames at this ⊢
      rw [hs1]
      show r.resource ∈ List.map _ s.g_res
      rw [hres]
      exact this
  rw [hrun]
  exact (serve_upto_res _ _ _ s1 hstart hres1 s1.g_rf.length).total

theorem C4_conservation_amended_witness :
    totalAlloc (run_allocation insertion_qsort exLoaded)
      = ((run_allocation insertion_qsort exLoaded).g_alloc.map (fun a => a.qty)).sum :=
  C4_conservation_amended insertion_qsort insertion_qsort_contract exLoad0 exLoadLines
    (by decide) (by decide) exLoaded (by decide) (by decide) (by decide) (by decide)
    (by decide)
theorem perm_cons_set {α : Type} (h : α) :
    ∀ (t : List α) (b : Nat) (d : α), b < t.length →
      (t.getD b d :: t.set b h).Perm (h :: t) := by
  intro t
  induction t with
  | nil => intro b d hb; cases hb
  | cons c t ih =>
    intro b d hb
    cases b with
    | zero => exact List.Perm.swap _ _ _
    | succ b =>
      have hb2 : b < t.length := by simpa using hb
      have e1 : (c :: t).getD (b + 1) d = t.getD b d := rfl
      have e2 : (c :: t).set (b + 1) h = c :: t.set b h := rfl
      rw [e1, e2]
      exact (List.Perm.swap _ _ _).trans (((ih b d hb2).cons c).trans (List.Perm.swap _ _ _))

theorem perm_swap_set {α : Type} :
    ∀ (l : List α) (a b : Nat) (d : α), a < b → b < l.length →
      ((l.set a (l.getD b d)).set b (l.getD a d)).Perm l := by
  intro l
  induction l with
  | nil => intro a b d _ hb; cases hb
  | cons h t ih =>
    intro a b d hab hb
    cases b with
    | zero => cases hab
    | succ b =>
      have hb2 : b < t.length := by simpa using hb
      cases a with
      | zero => exact perm_cons_set h t b d hb2
      | succ a =>
        have hab2 : a < b := by omega
        exact (ih a b d hab2 hb2).cons h

theorem sort_swap_perm (l : List (Nat × D)) (a b : Nat) (hab : a < b) (hb : b < l.length) :
    (sort_swap l a b).Perm l := by
  unfold sort_swap
  split_ifs
  · exact perm_swap_set l a b (0, 0) hab hb
  · exact List.Perm.refl l

theorem sort_swap_length (l : List (Nat × D)) (a b : Nat) :
    (sort_swap l a b).length = l.length := by
  unfold sort_swap
  split_ifs <;> simp

/-- One comparison of the candidate sort: the smaller key ends at `a`, the two
entries are kept, every other entry stays. -/
theorem sort_swap_spec (l : List (Nat × D)) (a b : Nat) (hab : a < b) (hb : b < l.length) :
    (∀ i, i ≠ a → i ≠ b → (sort_swap l a b).getD i (0, 0) = l.getD i (0, 0)) ∧
    ((sort_swap l a b).getD a (0, 0)).2 ≤ ((sort_swap l a b).getD b (0, 0)).2 ∧
    ((sort_swap l a b).getD a (0, 0)).2 ≤ (l.getD a (0, 0)).2 ∧
    (((sort_swap l a b).getD a (0, 0) = l.getD a (0, 0) ∧
        (sort_swap l a b).getD b (0, 0) = l.getD b (0, 0)) ∨
      ((sort_swap l a b).getD a (0, 0) = l.getD b (0, 0) ∧
        (sort_swap l a b).getD b (0, 0) = l.getD a (0, 0))) := by
  have ha : a < l.length := lt_trans hab hb
  unfold sort_swap
  split_ifs with hc
  · have ea : ((l.set a (l.getD b (0, 0))).set b (l.getD a (0, 0))).getD a (0, 0)
        = l.getD b (0, 0) := by
      rw [getD_set_eq, if_neg (fun h => absurd h.1 (Nat.ne_of_gt hab)), getD_set_eq,
        if_pos ⟨rfl, ha⟩]
    have eb : ((l.set a (l.getD b (0, 0))).set b (l.getD a (0, 0))).getD b (0, 0)
        = l.getD a (0, 0) := by
      rw [getD_set_eq, if_pos ⟨rfl, by simpa using hb⟩]
    refine ⟨?_, ?_, ?_, Or.inr ⟨ea, eb⟩⟩
    · intro i hia hib
      rw [getD_set_eq, if_neg (fun h => hib h.1.symm), getD_set_eq,
        if_neg (fun h => hia h.1.symm)]
    · rw [ea, eb]; exact hc.le
    · rw [ea]; exact hc.le
  · exact ⟨fun _ _ _ => rfl, not_lt.mp hc, le_rfl, Or.inl ⟨rfl, rfl⟩⟩

/-- The inner loop of the candidate sort for a fixed `a`, cut after `m`
comparisons. -/
theorem sort_inner_spec (a : Nat) (l : List (Nat × D)) (ha : a < l.length) :
    ∀ m, a + 1 + m ≤ l.length →
      ((List.range' (a + 1) m).foldl (fun l2 b => sort_swap l2 a b) l).Perm l ∧
      (∀ i, i < a → ((List.range' (a + 1) m).foldl (fun l2 b => sort_swap l2 a b) l).getD i
        (0, 0) = l.getD i (0, 0)) ∧
      (∀ j, a < j → j < a + 1 + m →
        (((List.range' (a + 1) m).foldl (fun l2 b => sort_swap l2 a b) l).getD a (0, 0)).2 ≤
        (((List.range' (a + 1) m).foldl (fun l2 b => sort_swap l2 a b) l).getD j (0, 0)).2) ∧
      (∀ j, a ≤ j → j < l.length → ∃ j2, a ≤ j2 ∧ j2 < l.length ∧
        ((List.range' (a + 1) m).foldl (fun l2 b => sort_swap l2 a b) l).getD j (0, 0)
          = l.getD j2 (0, 0)) := by
  intro m
  induction m with
  | zero =>
    intro _
    refine ⟨List.Perm.refl l, fun _ _ => rfl, ?_, fun j h1 h2 => ⟨j, h1, h2, rfl⟩⟩
    intro j h1 h2
    omega
  | succ m ih =>
    intro hm
    obtain ⟨p1, p2, p3, p4⟩ := ih (by omega)
    rw [List.range'_concat, List.foldl_append]
    simp only [List.foldl_cons, List.foldl_nil, one_mul]
    obtain ⟨l1, hl1⟩ : ∃ l1, l1 = (List.range' (a + 1) m).foldl
        (fun l2 b => sort_swap l2 a b) l := ⟨_, rfl⟩
    rw [← hl1] at p1 p2 p3 p4 ⊢
    have hlen : l1.length = l.length := p1.length_eq
    have hb : a + 1 + m < l1.length := by omega
    obtain ⟨q1, q2, q3, q4⟩ := sort_swap_spec l1 a (a + 1 + m) (by omega) hb
    refine ⟨(sort_swap_perm l1 a (a + 1 + m) (by omega) hb).trans p1, ?_, ?_, ?_⟩
    · intro i hi
      rw [q1 i (by omega) (by omega)]
      exact p2 i hi
    · intro j h1 h2
      by_cases hj : j = a + 1 + m
      · rw [hj]; exact q2
      · rw [q1 j (by omega) hj]
        exact le_trans q3 (p3 j h1 (by omega))
    · intro j h1 h2
      by_cases hja : j = a
      · rw [hja]
        rcases q4 with ⟨e1, _⟩ | ⟨e1, _⟩
        · rw [e1]; exact p4 a le_rfl ha
        · rw [e1]; exact p4 (a + 1 + m) (by omega) (by omega)
      · by_cases hjb : j = a + 1 + m
        · rw [hjb]
          rcases q4 with ⟨_, e2⟩ | ⟨_, e2⟩
          · rw [e2]; exact p4 (a + 1 + m) (by omega) (by omega)
          · rw [e2]; exact p4 a le_rfl ha
        · rw [q1 j hja hjb]
          exact p4 j h1 h2

/-- The outer loop of the candidate sort cut after `k` rounds: the first `k`
entries are in ascending order of distance and none of them exceeds a later one. -/
theorem sort_outer_spec (l : List (Nat × D)) :
    ∀ k, k ≤ l.length →
      ((List.range k).foldl
        (fun l1 a => (List.range' (a + 1) (l.length - (a + 1))).foldl
          (fun l2 b => sort_swap l2 a b) l1) l).Perm l ∧
      (∀ i j, i < k → i < j → j < l.length →
        (((List.range k).foldl
          (fun l1 a => (List.range' (a + 1) (l.length - (a + 1))).foldl
            (fun l2 b => sort_swap l2 a b) l1) l).getD i (0, 0)).2 ≤
        (((List.range k).foldl
          (fun l1 a => (List.range' (a + 1) (l.length - (a + 1))).foldl
            (fun l2 b => sort_swap l2 a b) l1) l).getD j (0, 0)).2) := by
  intro k
  induction k with
  | zero =>
    intro _
    refine ⟨List.Perm.refl l, ?_⟩
    intro i j hi
    cases hi
  | succ k ih =>
    intro hk
    obtain ⟨p1, p2⟩ := ih (by omega)
    rw [List.range_succ, List.foldl_append]
    simp only [List.foldl_cons, List.foldl_nil]
    obtain ⟨l1, hl1⟩ : ∃ l1, l1 = (List.range k).foldl
        (fun l1 a => (List.range' (a + 1) (l.length - (a + 1))).foldl
          (fun l2 b => sort_swap l2 a b) l1) l := ⟨_, rfl⟩
    rw [← hl1] at p1 p2 ⊢
    have hlen : l1.length = l.length := p1.length_eq
    obtain ⟨q1, q2, q3, q4⟩ := sort_inner_spec k l1 (by omega) (l.length - (k + 1))
      (by omega)
    refine ⟨q1.trans p1, ?_⟩
    intro i j hi hij hj
    by_cases hik : i = k
    · rw [hik] at hij ⊢
      exact q3 j hij (by omega)
    · have hik2 : i < k := by omega
      rw [q2 i hik2]
      by_cases hjk : j < k
      · rw [q2 j hjk]
        exact p2 i j hik2 hij hj
      · obtain ⟨j2, h1, h2, h3⟩ := q4 j (by omega) (by omega)
        rw [h3]
        exact p2 i j2 hik2 (by omega) (by omega)

theorem sort_candidates_perm (l : List (Nat × D)) : (sort_candidates l).Perm l :=
  (sort_outer_spec l l.length le_rfl).1

/-- C5 (counterexample): on distances `[2, 2, 1]` for warehouses `[0, 1, 2]` the
candidate sort gives the order 2, 1, 0, not the stable order 2, 0, 1; in a run
with these distances the second shipment comes from warehouse row 1, not 0. -/
theorem C5_candidate_order_counterexample :
    sort_candidates [(0, 2), (1, 2), (2, (1 : ℕ))] = [(2, 1), (1, 2), (0, 2)] ∧
    sort_candidates [(0, 2), (1, 2), (2, (1 : ℕ))] ≠ [(2, 1), (0, 2), (1, 2)] ∧
    (run_allocation insertion_qsort exTie).g_alloc.map (fun a => (a.whIndex, a.dist))
      = [(2, 1), (1, 2)] := by
  decide!

/-- C5 (amended): for every candidate list the candidate ordering step of
`run_allocation` yields a permutation of the candidates in ascending distance
order; the relative order of equally distant candidates is not kept. -/
theorem C5_candidate_order_amended (l : List (Nat × D)) :
    (sort_candidates l).Perm l ∧
    (sort_candidates l).Pairwise (fun x y => x.2 ≤ y.2) := by
  obtain ⟨p1, p2⟩ := sort_outer_spec l l.length le_rfl
  refine ⟨p1, ?_⟩
  unfold sort_candidates
  rw [List.pairwise_iff_getElem]
  intro i j hi hj hij
  have hj2 : j < l.length := by rw [← p1.length_eq]; exact hj
  have := p2 i j (by omega) hij hj2
  rw [List.getD_eq_getElem _ _ hi, List.getD_eq_getElem _ _ hj] at this
  exact this
/-- C6 (failing input): `load_relief` stores `people = INT_MIN` unclamped; on the
two stored rows `cmp_relief` needs `1 - INT_MIN`, which is above `INT_MAX`, its
wrapped result is negative, and the sorted table has `people` ascending. -/
theorem C6_cmp_relief_overflow :
    exPeople.g_rf.map (fun r => (r.urgency, r.people)) = [(50, -2147483648), (50, 1)] ∧
    (exPeople.g_rf.getD 1 default).people - (exPeople.g_rf.getD 0 default).people
      > 2 ^ 31 - 1 ∧
    cmp_relief (exPeople.g_rf.getD 0 default) (exPeople.g_rf.getD 1 default) = -2147483647 ∧
    (run_allocation insertion_qsort exPeople).g_rf.map (fun r => r.people)
      = [-2147483648, 1] := by
  decide!
theorem city_index_found (s : State D) (name : String) (h : name ∈ s.g_cities) :
    city_index s name = (some (s.g_cities.indexOf name), s) := by
  unfold city_index
  simp only []
  rw [if_pos (List.indexOf_lt_length.mpr h)]

theorem relax_selfloops (u m : Nat) (dist : List D) (prev : List (Option Nat)) :
    dijkstra_relax u (List.replicate m ⟨u, 0⟩) dist prev = (dist, prev) := by
  induction m with
  | zero => rfl
  | succ m ih =>
    rw [List.replicate_succ, dijkstra_relax_cons, if_neg, ih]
    show ¬ dist.getD u INF_DIST + 0 < dist.getD u INF_DIST
    rw [DistArith.add_zero_right]
    exact lt_irrefl _

theorem loopAdj_push (m : Nat) (hm : m < MAX_EDGES) :
    adj_push (loopAdj m) 0 ⟨0, 0⟩ = loopAdj (m + 1) := by
  have hget : (loopAdj m).getD 0 [] = List.replicate m ⟨0, 0⟩ := by
    unfold loopAdj
    rw [getD_set_eq, if_pos ⟨rfl, by rw [List.length_replicate]; decide⟩]
  unfold adj_push
  rw [hget, List.length_replicate, if_pos hm]
  unfold loopAdj
  rw [List.set_set, List.replicate_succ']

theorem loopState_step (m : Nat) (hm : m + 2 ≤ MAX_EDGES) :
    build_graph_step (loopState m) ⟨"A", "A", 0⟩ = loopState (m + 2) := by
  have hc : city_index (loopState m) "A" = (some 0, loopState m) :=
    city_index_found (loopState m) "A" (by show "A" ∈ ["A", "B"]; decide)
  unfold build_graph_step
  simp only [hc]
  show ({ loopState m with g_adj := adj_push (adj_push (loopAdj m) 0 ⟨0, 0⟩) 0 ⟨0, 0⟩ }
    : State ℕ) = _
  rw [loopAdj_push m (by omega), loopAdj_push (m + 1) (by omega)]
  rfl

theorem loopState_fold (k : Nat) :
    ∀ m, m + 2 * k ≤ MAX_EDGES →
      (List.replicate k (⟨"A", "A", 0⟩ : Edge ℕ)).foldl build_graph_step (loopState m)
        = loopState (m + 2 * k) := by
  induction k with
  | zero => intro m _; rfl
  | succ k ih =>
    intro m hm
    rw [List.replicate_succ, List.foldl_cons, loopState_step m (by omega),
      ih (m + 2) (by omega)]
    congr 1
    omega

theorem loopAdj_reset :
    (List.range 2).foldl (fun adj i => adj.set i [])
      (List.replicate MAX_CITIES ([] : List (AdjItem ℕ))) = loopAdj 0 := by
  decide!

/-- The adjacency table `build_graph` produces for `exLoops`: 1024 self-loop
entries for city A, no entry `(B, 5)` for A, the entry `(A, 5)` for B. -/
theorem exLoops_adj :
    (build_graph exLoops).g_adj = (loopAdj 1024).set 1 [⟨0, 5⟩] := by
  have h0 : build_graph exLoops
      = (List.replicate 512 (⟨"A", "A", 0⟩ : Edge ℕ) ++ [(⟨"A", "B", 5⟩ : Edge ℕ)]).foldl
          build_graph_step (loopState 0) := by
    unfold build_graph loopState
    rw [← loopAdj_reset]
    rfl
  rw [h0]
  rw [List.foldl_append, loopState_fold 512 0 (by decide)]
  have hA : city_index (loopState (0 + 2 * 512)) "A" = (some 0, loopState (0 + 2 * 512)) :=
    city_index_found _ "A" (by show "A" ∈ ["A", "B"]; decide)
  have hB : city_index (loopState (0 + 2 * 512)) "B" = (some 1, loopState (0 + 2 * 512)) :=
    city_index_found _ "B" (by show "B" ∈ ["A", "B"]; decide)
  simp only [List.foldl_cons, List.foldl_nil]
  unfold build_graph_step
  simp only [hA, hB]
  show adj_push (adj_push (loopAdj 1024) 0 (⟨1, 5⟩ : AdjItem ℕ)) 1 ⟨0, 5⟩ = _
  have hget0 : (loopAdj 1024).getD 0 [] = List.replicate 1024 ⟨0, 0⟩ := by
    unfold loopAdj
    rw [getD_set_eq, if_pos ⟨rfl, by rw [List.length_replicate]; decide⟩]
  have hget1 : (loopAdj 1024).getD 1 [] = [] := by
    unfold loopAdj
    rw [getD_set_eq, if_neg (fun h => absurd h.1 (by decide)),
      List.getD_eq_getElem _ _ (by rw [List.length_replicate]; decide)]
    simp
  have e1 : adj_push (loopAdj 1024) 0 (⟨1, 5⟩ : AdjItem ℕ) = loopAdj 1024 := by
    unfold adj_push
    rw [hget0, List.length_replicate, if_neg (by decide)]
  rw [e1]
  unfold adj_push
  rw [hget1, if_pos (by decide)]
  simp only [List.nil_append]
theorem exLoops_cities : (build_graph exLoops).g_cities = ["A", "B"] := by
  have h0 : build_graph exLoops
      = (List.replicate 512 (⟨"A", "A", 0⟩ : Edge ℕ) ++ [(⟨"A", "B", 5⟩ : Edge ℕ)]).foldl
          build_graph_step (loopState 0) := by
    unfold build_graph loopState
    rw [← loopAdj_reset]
    rfl
  rw [h0, List.foldl_append, loopState_fold 512 0 (by decide)]
  have hA : city_index (loopState (0 + 2 * 512)) "A" = (some 0, loopState (0 + 2 * 512)) :=
    city_index_found _ "A" (by show "A" ∈ ["A", "B"]; decide)
  have hB : city_index (loopState (0 + 2 * 512)) "B" = (some 1, loopState (0 + 2 * 512)) :=
    city_index_found _ "B" (by show "B" ∈ ["A", "B"]; decide)
  simp only [List.foldl_cons, List.foldl_nil]
  unfold build_graph_step
  simp only [hA, hB]
  rfl

theorem dijkstra_loops_forward (G : List (List (AdjItem ℕ)))
    (h0 : G.getD 0 [] = List.replicate 1024 ⟨0, 0⟩) :
    (dijkstra G 2 0 1).1 = INF_DIST := by
  have st0 : (dijkstra_init 2 0 : DState ℕ)
      = ⟨[0, INF_DIST], [false, false], [none, none]⟩ := rfl
  have hs : dijkstra_scan 2 [(0 : ℕ), INF_DIST] [false, false] = (some 0, 0) := by decide
  have hs2 : dijkstra_scan 2 [(0 : ℕ), INF_DIST] [true, false] = (none, INF_DIST) := by
    decide
  unfold dijkstra
  rw [st0, dijkstra_loop]
  simp only [hs]
  rw [if_neg (by decide), h0, relax_selfloops, dijkstra_loop]
  simp only [List.set_cons_zero, hs2]
  rfl

theorem dijkstra_loops_backward (G : List (List (AdjItem ℕ)))
    (h1 : G.getD 1 [] = [⟨0, 5⟩]) :
    (dijkstra G 2 1 0).1 = 5 := by
  have st0 : (dijkstra_init 2 1 : DState ℕ)
      = ⟨[INF_DIST, 0], [false, false], [none, none]⟩ := rfl
  have hs : dijkstra_scan 2 [INF_DIST, (0 : ℕ)] [false, false] = (some 1, 0) := by decide
  have hr : dijkstra_relax 1 [(⟨0, 5⟩ : AdjItem ℕ)] [INF_DIST, 0] [none, none]
      = ([5, 0], [some 1, none]) := by decide
  have hs2 : dijkstra_scan 2 [(5 : ℕ), 0] [false, true] = (some 0, 5) := by decide
  unfold dijkstra
  rw [st0, dijkstra_loop]
  simp only [hs]
  rw [if_neg (by decide), h1, hr, dijkstra_loop]
  simp only [List.set_cons_succ, List.set_cons_zero, hs2]
  rfl

/-- C8 (failing input): after 512 routes `A,A,0` the list of city A is full, so
the route `A,B,5` adds the arc B → A only; `dijkstra(A, B)` is the sentinel and
`dijkstra(B, A)` is 5. -/
theorem C8_symmetry_fails :
    (build_graph exLoops).g_cities = ["A", "B"] ∧
    ((build_graph exLoops).g_adj.getD 0 []).length = MAX_EDGES ∧
    (build_graph exLoops).g_adj.getD 1 [] = [⟨0, 5⟩] ∧
    (dijkstra (build_graph exLoops).g_adj (build_graph exLoops).g_cities.length 0 1).1
      = INF_DIST ∧
    (dijkstra (build_graph exLoops).g_adj (build_graph exLoops).g_cities.length 1 0).1
      = 5 := by
  have hget0 : ((loopAdj 1024).set 1 [(⟨0, 5⟩ : AdjItem ℕ)]).getD 0 []
      = List.replicate 1024 ⟨0, 0⟩ := by
    rw [getD_set_eq, if_neg (fun h => absurd h.1 (by decide))]
    unfold loopAdj
    rw [getD_set_eq, if_pos ⟨rfl, by rw [List.length_replicate]; decide⟩]
  have hget1 : ((loopAdj 1024).set 1 [(⟨0, 5⟩ : AdjItem ℕ)]).getD 1 [] = [⟨0, 5⟩] := by
    rw [getD_set_eq, if_pos ⟨rfl, by
      unfold loopAdj
      rw [List.length_set, List.length_replicate]
      decide⟩]
  rw [exLoops_adj, exLoops_cities]
  refine ⟨rfl, ?_, hget1, dijkstra_loops_forward _ hget0, dijkstra_loops_backward _ hget1⟩
  rw [hget0, List.length_replicate]
  rfl
theorem city_index_loaded (s : State D) (name : String)
    (h : name ∈ s.g_cities ∨ MAX_CITIES ≤ s.g_cities.length) :
    (city_index s name).2 = s ∧
    (∀ c, (city_index s name).1 = some c → name ∈ s.g_cities ∧ c = cityOf s name) := by
  by_cases hm : name ∈ s.g_cities
  · rw [city_index_found s name hm]
    refine ⟨rfl, ?_⟩
    intro c hc
    simp only [Option.some.injEq] at hc
    exact ⟨hm, hc.symm⟩
  · have hfull : MAX_CITIES ≤ s.g_cities.length := h.resolve_left hm
    have hnot : ¬ s.g_cities.indexOf name < s.g_cities.length :=
      fun hlt => hm (List.indexOf_lt_length.mp hlt)
    unfold city_index
    simp only []
    rw [if_neg hnot, if_pos hfull]
    refine ⟨rfl, ?_⟩
    intro c hc
    cases hc

theorem frame_wh_fields {s0 s : State D} (h : Frame s0 s) (w : Nat) :
    (s.g_wh.getD w default).city = (s0.g_wh.getD w default).city ∧
    (s.g_wh.getD w default).resource = (s0.g_wh.getD w default).resource ∧
    (s.g_wh.getD w default).warehouse = (s0.g_wh.getD w default).warehouse := by
  have h1 := List.getD_map s.g_wh default (n := w) (fun r : WarehouseRow => { r with qty := 0 })
  have h2 := List.getD_map s0.g_wh default (n := w)
    (fun r : WarehouseRow => { r with qty := 0 })
  rw [h.wh, h2] at h1
  have e1 := congrArg WarehouseRow.city h1
  have e2 := congrArg WarehouseRow.resource h1
  have e3 := congrArg WarehouseRow.warehouse h1
  exact ⟨e1.symm, e2.symm, e3.symm⟩

theorem frame_rf_fields {s0 s : State D} (h : Frame s0 s) (i : Nat) :
    (s.g_rf.getD i default).city = (s0.g_rf.getD i default).city ∧
    (s.g_rf.getD i default).resource = (s0.g_rf.getD i default).resource ∧
    (s.g_rf.getD i default).urgency = (s0.g_rf.getD i default).urgency ∧
    (s.g_rf.getD i default).people = (s0.g_rf.getD i default).people ∧
    (s.g_rf.getD i default).requested = (s0.g_rf.getD i default).requested ∧
    (s.g_rf.getD i default).area = (s0.g_rf.getD i default).area := by
  have h1 := List.getD_map s.g_rf default (n := i)
    (fun r : ReliefRow => { r with remaining := 0 })
  have h2 := List.getD_map s0.g_rf default (n := i)
    (fun r : ReliefRow => { r with remaining := 0 })
  rw [h.rf, h2] at h1
  exact ⟨(congrArg ReliefRow.city h1).symm, (congrArg ReliefRow.resource h1).symm,
    (congrArg ReliefRow.urgency h1).symm, (congrArg ReliefRow.people h1).symm,
    (congrArg ReliefRow.requested h1).symm, (congrArg ReliefRow.area h1).symm⟩

theorem stable_refl (s : State D) : Stable s s := ⟨frame_refl s, rfl⟩

theorem stable_trans {s1 s2 s3 : State D} (h1 : Stable s1 s2) (h2 : Stable s2 s3) :
    Stable s1 s3 := ⟨frame_trans h1.frame h2.frame, h2.cities.trans h1.cities⟩

theorem stable_citiesLoaded {s0 s : State D} (h : Stable s0 s) (hcl : CitiesLoaded s0) :
    CitiesLoaded s := by
  constructor
  · intro w hw
    obtain ⟨k, hk, rfl⟩ := List.mem_iff_getElem.mp hw
    have hk0 : k < s0.g_wh.length := by rw [← frame_wh_length h.frame]; exact hk
    have := (frame_wh_fields h.frame k).1
    rw [List.getD_eq_getElem _ _ hk, List.getD_eq_getElem _ _ hk0] at this
    rw [this, h.cities]
    exact hcl.1 _ (List.getElem_mem hk0)
  · intro r hr
    obtain ⟨k, hk, rfl⟩ := List.mem_iff_getElem.mp hr
    have hk0 : k < s0.g_rf.length := by rw [← frame_rf_length h.frame]; exact hk
    have := (frame_rf_fields h.frame k).1
    rw [List.getD_eq_getElem _ _ hk, List.getD_eq_getElem _ _ hk0] at this
    rw [this, h.cities]
    exact hcl.2 _ (List.getElem_mem hk0)
theorem take_qty_pos (s : State D) (i w : Nat) (h1 : 0 < (s.g_rf.getD i default).remaining)
    (h2 : 0 < (s.g_wh.getD w default).qty) : 0 < take_qty s i w := by
  unfold take_qty; split_ifs <;> assumption

theorem mem_commit_alloc (s : State D) (i w : Nat) (take : Int) (ar a : AllocationRow D)
    (h : a ∈ (commit s i w take ar).g_alloc) : a ∈ s.g_alloc ∨ a = ar := by
  unfold commit at h
  simp only [] at h
  split_ifs at h
  · rcases List.mem_append.mp h with h1 | h1
    · exact Or.inl h1
    · exact Or.inr (by simpa using h1)
  · exact Or.inl h

/-- Under loaded city names the body of the greedy loop leaves the registry
alone, and the record it may append is between a warehouse row and a request
whose cities are joined by a walk of weight `dist`, the result of `dijkstra`. -/
theorem allocate_step_stable (s0 s : State D) (hst : Stable s0 s) (hcl : CitiesLoaded s0)
    (hg : GraphOK s0) (hrec : ∀ a ∈ s.g_alloc, RecOK s0 a) (i c : Nat) (cand : Nat × D)
    (hc : c = cityOf s0 (s0.g_rf.getD i default).city)
    (hcity : (s0.g_rf.getD i default).city ∈ s0.g_cities)
    (hres : (s0.g_wh.getD cand.1 default).resource = (s0.g_rf.getD i default).resource) :
    Stable s0 (allocate_step i c s cand) ∧
    ∀ a ∈ (allocate_step i c s cand).g_alloc, RecOK s0 a := by
  rcases allocate_step_cases i c s cand with h | ⟨hrem, hqty, h⟩ |
      ⟨hrem, hqty, cityW, hcw, hd, h⟩
  · rw [h]; exact ⟨hst, hrec⟩
  · have hw := lt_length_of_qty_pos hqty
    obtain ⟨e1, _⟩ := city_index_loaded s (s.g_wh.getD cand.1 default).city
      ((stable_citiesLoaded hst hcl).1 _ (mem_getD_of_lt _ _ _ hw))
    rw [h, e1]; exact ⟨hst, hrec⟩
  · have hw := lt_length_of_qty_pos hqty
    have hi := lt_length_of_remaining_pos hrem
    obtain ⟨e1, e2⟩ := city_index_loaded s (s.g_wh.getD cand.1 default).city
      ((stable_citiesLoaded hst hcl).1 _ (mem_getD_of_lt _ _ _ hw))
    obtain ⟨hmem, hcW⟩ := e2 cityW hcw
    rw [e1] at h hd
    obtain ⟨ar, har⟩ : ∃ ar, ar = make_row s i c cand.1 cityW s.g_cities.length
        (dijkstra s.g_adj s.g_cities.length cityW c) := ⟨_, rfl⟩
    rw [← har] at h
    obtain ⟨a1, a2, a3, a4, a5, a6⟩ := add_allocated_frame
      (commit s i cand.1 (take_qty s i cand.1) ar)
      (s.g_rf.getD i default).resource (take_qty s i cand.1)
    have hwf := frame_wh_fields hst.frame cand.1
    have hcityW : cityW = cityOf s0 (s0.g_wh.getD cand.1 default).city := by
      rw [hcW, hwf.1]; unfold cityOf; rw [hst.cities]
    have hmem0 : (s0.g_wh.getD cand.1 default).city ∈ s0.g_cities := by
      rw [← hwf.1, ← hst.cities]; exact hmem
    have hdist : ar.dist = (dijkstra s0.g_adj s0.g_cities.length
        (cityOf s0 (s0.g_wh.getD cand.1 default).city)
        (cityOf s0 (s0.g_rf.getD i default).city)).1 := by
      rw [har, ← hcityW, ← hc, ← hst.frame.adj, ← hst.cities]
      rfl
    have hlt : ar.dist < INF_DIST := by rw [har]; exact hd
    have hrow : RecOK s0 ar := by
      refine ⟨?_, ?_, ?_, ?_, ?_, hlt, ?_, ?_, ?_⟩
      · rw [har]
        show cand.1 < _
        rw [← frame_wh_length hst.frame]; exact hw
      · rw [har]
        show i < _
        rw [← frame_rf_length hst.frame]; exact hi
      · rw [har]; exact hres
      · rw [har]; exact hmem0
      · rw [har]; exact hcity
      · rw [har] at hdist ⊢; exact hdist
      · have hspec := dijkstra_spec (cityOf s0 (s0.g_wh.getD cand.1 default).city)
          (cityOf s0 (s0.g_rf.getD i default).city) hg
          (List.indexOf_lt_length.mpr hmem0)
        rw [hdist] at hlt
        have hwalk := hspec.2.2 hlt
        rw [← hdist] at hwalk
        rw [har] at hwalk ⊢
        exact hwalk
      · rw [har]
        exact take_qty_pos s i cand.1 hrem hqty
    rw [h]
    refine ⟨⟨frame_trans hst.frame (frame_trans (frame_commit _ _ _ _ _)
      (frame_add_allocated _ _ _)), ?_⟩, ?_⟩
    · rw [a5]; exact hst.cities
    · intro a ha
      rw [a6] at ha
      rcases mem_commit_alloc _ _ _ _ _ _ ha with h1 | h1
      · exact hrec a h1
      · rw [h1]; exact hrow
theorem candidate_step_loaded (s : State D) (hcl : CitiesLoaded s) (need : ReliefRow)
    (c : Nat) (acc : State D × List (Nat × D)) (hacc : acc.1 = s)
    (hok : ∀ p ∈ acc.2, CandOK s need c p) (w : Nat) (hw : w < s.g_wh.length) :
    (candidate_step need c acc w).1 = s ∧
    ∀ p ∈ (candidate_step need c acc w).2, CandOK s need c p := by
  obtain ⟨e1, e2⟩ := city_index_loaded s (s.g_wh.getD w default).city
    (hcl.1 _ (mem_getD_of_lt _ _ _ hw))
  unfold candidate_step
  simp only [hacc]
  split_ifs with h1 h2
  · exact ⟨hacc, hok⟩
  · exact ⟨hacc, hok⟩
  · cases hc : (city_index s (s.g_wh.getD w default).city).1 with
    | none => exact ⟨e1, hok⟩
    | some cityW =>
      obtain ⟨hmem, hcW⟩ := e2 cityW hc
      simp only []
      rw [e1]
      split_ifs with h3
      · exact ⟨rfl, hok⟩
      · refine ⟨rfl, ?_⟩
        intro p hp
        rcases List.mem_append.mp hp with h4 | h4
        · exact hok p h4
        · have : p = (w, (dijkstra s.g_adj s.g_cities.length cityW c).1) := by simpa using h4
          rw [this]
          exact ⟨hw, not_not.mp h2, not_le.mp h1, hmem, by rw [hcW], not_le.mp h3⟩

theorem candidate_loop_loaded (s : State D) (hcl : CitiesLoaded s) (need : ReliefRow)
    (c : Nat) (ws : List Nat) (hws : ∀ w ∈ ws, w < s.g_wh.length) :
    ∀ acc : State D × List (Nat × D), acc.1 = s → (∀ p ∈ acc.2, CandOK s need c p) →
      (ws.foldl (candidate_step need c) acc).1 = s ∧
      ∀ p ∈ (ws.foldl (candidate_step need c) acc).2, CandOK s need c p := by
  induction ws with
  | nil => intro acc h1 h2; exact ⟨h1, h2⟩
  | cons w rest ih =>
    intro acc h1 h2
    rw [List.foldl_cons]
    obtain ⟨g1, g2⟩ := candidate_step_loaded s hcl need c acc h1 h2 w
      (hws w (List.mem_cons_self _ _))
    exact ih (fun x hx => hws x (List.mem_cons_of_mem _ hx)) _ g1 g2

theorem greedy_loop_stable (s0 : State D) (hcl : CitiesLoaded s0) (hg : GraphOK s0)
    (i c : Nat) (hc : c = cityOf s0 (s0.g_rf.getD i default).city)
    (hcity : (s0.g_rf.getD i default).city ∈ s0.g_cities) (cands : List (Nat × D))
    (hres : ∀ p ∈ cands,
      (s0.g_wh.getD p.1 default).resource = (s0.g_rf.getD i default).resource) :
    ∀ s : State D, Stable s0 s → (∀ a ∈ s.g_alloc, RecOK s0 a) →
      Stable s0 (cands.foldl (allocate_step i c) s) ∧
      ∀ a ∈ (cands.foldl (allocate_step i c) s).g_alloc, RecOK s0 a := by
  induction cands with
  | nil => intro s h1 h2; exact ⟨h1, h2⟩
  | cons cand rest ih =>
    intro s h1 h2
    rw [List.foldl_cons]
    obtain ⟨g1, g2⟩ := allocate_step_stable s0 s h1 hcl hg h2 i c cand hc hcity
      (hres cand (List.mem_cons_self _ _))
    exact ih (fun p hp => hres p (List.mem_cons_of_mem _ hp)) _ g1 g2

/-- Serving one request under loaded city names: the registry stays, and every
record satisfies `RecOK`. -/
theorem serve_request_stable (s0 s : State D) (hst : Stable s0 s) (hcl : CitiesLoaded s0)
    (hg : GraphOK s0) (hrec : ∀ a ∈ s.g_alloc, RecOK s0 a) (i : Nat) :
    Stable s0 (serve_request s i) ∧ ∀ a ∈ (serve_request s i).g_alloc, RecOK s0 a := by
  have hcls := stable_citiesLoaded hst hcl
  unfold serve_request
  simp only []
  split_ifs with h1
  · exact ⟨hst, hrec⟩
  · have hi := lt_length_of_remaining_pos (not_le.mp h1)
    obtain ⟨e1, e2⟩ := city_index_loaded s (s.g_rf.getD i default).city
      (hcls.2 _ (mem_getD_of_lt _ _ _ hi))
    cases hc : (city_index s (s.g_rf.getD i default).city).1 with
    | none => simp only []; rw [e1]; exact ⟨hst, hrec⟩
    | some cityNeed =>
      obtain ⟨hmem, hcN⟩ := e2 cityNeed hc
      simp only []
      rw [e1]
      obtain ⟨c1, c2⟩ := candidate_loop_loaded s hcls (s.g_rf.getD i default) cityNeed
        (List.range s.g_wh.length) (fun w hw => List.mem_range.mp hw) (s, []) rfl
        (fun p hp => by cases hp)
      rw [c1]
      split_ifs with h2
      · exact ⟨hst, hrec⟩
      · have hrf := frame_rf_fields hst.frame i
        apply greedy_loop_stable s0 hcl hg i cityNeed
        · rw [hcN, hrf.1]; unfold cityOf; rw [hst.cities]
        · rw [← hrf.1, ← hst.cities]; exact hmem
        · intro p hp
          have hp2 := (sort_candidates_perm _).subset hp
          rw [← (frame_wh_fields hst.frame p.1).2.1, ← hrf.2.1]
          exact (c2 p hp2).res
        · exact hst
        · exact hrec

theorem serve_upto_stable (s0 : State D) (hcl : CitiesLoaded s0) (hg : GraphOK s0)
    (hrec : ∀ a ∈ s0.g_alloc, RecOK s0 a) (k : Nat) :
    Stable s0 (serve_upto s0 k) ∧ ∀ a ∈ (serve_upto s0 k).g_alloc, RecOK s0 a := by
  induction k with
  | zero => exact ⟨stable_refl s0, hrec⟩
  | succ k ih =>
    rw [serve_upto_succ]
    exact serve_request_stable s0 _ ih.1 hcl hg ih.2 k
theorem recOK_stable {s0 s : State D} (h : Stable s0 s) {a : AllocationRow D}
    (hr : RecOK s0 a) : RecOK s a := by
  have hw := frame_wh_fields h.frame a.whIndex
  have hf := frame_rf_fields h.frame a.rfIndex
  have hc : ∀ nm, cityOf s nm = cityOf s0 nm := fun nm => by unfold cityOf; rw [h.cities]
  refine ⟨?_, ?_, ?_, ?_, ?_, hr.lt, ?_, ?_, hr.qty_pos⟩
  · rw [frame_wh_length h.frame]; exact hr.wh_lt
  · rw [frame_rf_length h.frame]; exact hr.rf_lt
  · rw [hw.2.1, hf.2.1]; exact hr.res
  · rw [hw.1, h.cities]; exact hr.wh_city
  · rw [hf.1, h.cities]; exact hr.rf_city
  · rw [hw.1, hf.1, hc, hc, h.frame.adj, h.cities]; exact hr.dist_eq
  · rw [hw.1, hf.1, hc, hc, h.frame.adj]; exact hr.walk

/-- The run of `run_allocation` on a loaded state with loaded city names and a
well-formed graph: the accounting invariant, stability, and `RecOK` for every
record, all with respect to the final state. -/
theorem run_allocation_facts
    (qsort : (ReliefRow → ReliefRow → Int) → List ReliefRow → List ReliefRow)
    (hq : QsortContract qsort) (s : State D) (hal : s.g_alloc = [])
    (hrf : ∀ r ∈ s.g_rf, 0 ≤ r.requested ∧ r.remaining = r.requested)
    (hnw : s.g_wh.length ≤ MAX_WAREHOUSE_ROWS) (hnr : s.g_rf.length ≤ MAX_RELIEF_ROWS)
    (hcl : CitiesLoaded s) (hg : GraphOK s) :
    AllocInv (fun w => (s.g_wh.getD w default).qty) (fun _ => True) (fun _ => False)
      (run_allocation qsort s) ∧
    Stable { s with g_rf := qsort cmp_relief s.g_rf } (run_allocation qsort s) ∧
    (∀ a ∈ (run_allocation qsort s).g_alloc, RecOK (run_allocation qsort s) a) := by
  obtain ⟨s1, hs1⟩ : ∃ s1 : State D, s1 = { s with g_rf := qsort cmp_relief s.g_rf } :=
    ⟨_, rfl⟩
  have hperm := (hq cmp_relief s.g_rf).1
  have hrun : run_allocation qsort s = serve_upto s1 s1.g_rf.length := by
    rw [hs1]; rfl
  have hwh1 : s1.g_wh = s.g_wh := by rw [hs1]
  have hstart : AllocInv (fun w => (s1.g_wh.getD w default).qty) (fun _ => True)
      (fun _ => False) s1 := by
    apply allocInv_start _ _ s1 (by rw [hs1]; exact hal) (by rw [hs1]; exact hnw)
      (by rw [hs1]; show (qsort cmp_relief s.g_rf).length ≤ _
          rw [hperm.length_eq]; exact hnr)
    · intro i hi _
      have hmem : s1.g_rf.getD i default ∈ s.g_rf := by
        apply hperm.subset
        have := mem_getD_of_lt s1.g_rf i default hi
        rw [hs1] at this ⊢
        exact this
      exact hrf _ hmem
    · intro w h
      exact absurd h id
  have hcl1 : CitiesLoaded s1 := by
    rw [hs1]
    exact ⟨hcl.1, fun r hr => hcl.2 r (hperm.subset hr)⟩
  have hg1 : GraphOK s1 := by rw [hs1]; exact hg
  obtain ⟨hinv, _, _⟩ := serve_upto_inv _ _ _ s1 hstart s1.g_rf.length
  obtain ⟨hst, hrec⟩ := serve_upto_stable s1 hcl1 hg1
    (by intro a ha; rw [hs1] at ha; simp only [hal] at ha; cases ha) s1.g_rf.length
  rw [hrun]
  simp only [hwh1] at hinv
  refine ⟨hinv, ?_, fun a ha => recOK_stable hst (hrec a ha)⟩
  rw [← hs1]
  exact hst

/-- C9: (1) on a well-formed graph `dijkstra` never returns more than the
sentinel and returns exactly the sentinel when no walk joins `src` and `dst`;
(2) every record `run_allocation` creates is between a warehouse row and a
request whose registered cities are joined by a walk of the graph, of weight the
record's distance, below the sentinel; (3) a request none of whose matching
warehouse rows is joined to it by a walk ends with no record and
`remaining = requested`; (4) with W1 in A holding 100 water, a request in B for
80 water and no route there is no record, `totalAlloc` is 0 and the coverage
is 0. -/
theorem C9_unreachable
    (qsort : (ReliefRow → ReliefRow → Int) → List ReliefRow → List ReliefRow)
    (hq : QsortContract qsort) (s : State D) (hal : s.g_alloc = [])
    (hrf : ∀ r ∈ s.g_rf, 0 ≤ r.requested ∧ r.remaining = r.requested)
    (hnw : s.g_wh.length ≤ MAX_WAREHOUSE_ROWS) (hnr : s.g_rf.length ≤ MAX_RELIEF_ROWS)
    (hcl : CitiesLoaded s) (hg : GraphOK s) :
    (∀ src dst, src < s.g_cities.length →
      (dijkstra s.g_adj s.g_cities.length src dst).1 ≤ INF_DIST ∧
      ((∀ W, ¬ Walk s.g_adj src dst W) →
        (dijkstra s.g_adj s.g_cities.length src dst).1 = INF_DIST)) ∧
    (∀ a ∈ (run_allocation qsort s).g_alloc,
      a.dist < INF_DIST ∧
      Walk (run_allocation qsort s).g_adj
        (cityOf (run_allocation qsort s)
          ((run_allocation qsort s).g_wh.getD a.whIndex default).city)
        (cityOf (run_allocation qsort s)
          ((run_allocation qsort s).g_rf.getD a.rfIndex default).city) a.dist) ∧
    (∀ i, i < (run_allocation qsort s).g_rf.length →
      (∀ w, w < (run_allocation qsort s).g_wh.length →
        ((run_allocation qsort s).g_wh.getD w default).resource
          = ((run_allocation qsort s).g_rf.getD i default).resource →
        ∀ W, ¬ Walk (run_allocation qsort s).g_adj
          (cityOf (run_allocation qsort s)
            ((run_allocation qsort s).g_wh.getD w default).city)
          (cityOf (run_allocation qsort s)
            ((run_allocation qsort s).g_rf.getD i default).city) W) →
      (∀ a ∈ (run_allocation qsort s).g_alloc, a.rfIndex ≠ i) ∧
      ((run_allocation qsort s).g_rf.getD i default).remaining
        = ((run_allocation qsort s).g_rf.getD i default).requested) ∧
    ((run_allocation insertion_qsort exNoRoute).g_alloc = [] ∧
      (run_allocation insertion_qsort exNoRoute).g_rf.map
        (fun r => (r.requested, r.remaining)) = [(80, 80)] ∧
      totalAlloc (run_allocation insertion_qsort exNoRoute) = 0 ∧
      coverage_pct (run_allocation insertion_qsort exNoRoute) = 0) := by
  obtain ⟨hinv, hst, hrec⟩ := run_allocation_facts qsort hq s hal hrf hnw hnr hcl hg
  refine ⟨?_, ?_, ?_, by decide!⟩
  · intro src dst hsrc
    obtain ⟨h1, h2, h3⟩ := dijkstra_spec src dst hg hsrc
    refine ⟨h2, ?_⟩
    intro hno
    by_contra hne
    exact hno _ (h3 (lt_of_le_of_ne h2 hne))
  · intro a ha
    exact ⟨(hrec a ha).lt, (hrec a ha).walk⟩
  · intro i hi hno
    have hnone : ∀ a ∈ (run_allocation qsort s).g_alloc, a.rfIndex ≠ i := by
      intro a ha hai
      have hr := hrec a ha
      have hres := hr.res
      have hwalk := hr.walk
      rw [hai] at hres hwalk
      exact hno a.whIndex hr.wh_lt hres _ hwalk
    refine ⟨hnone, ?_⟩
    obtain ⟨_, h2⟩ := hinv.rf i hi trivial
    have hzero : allocTo (run_allocation qsort s) i = 0 := by
      unfold allocTo
      rw [List.filter_eq_nil_iff.mpr]
      · rfl
      · intro a ha
        simpa using hnone a ha
    rw [hzero] at h2
    omega

theorem C9_unreachable_witness :
    (∀ src dst, src < exAlloc.g_cities.length →
      (dijkstra exAlloc.g_adj exAlloc.g_cities.length src dst).1 ≤ INF_DIST ∧
      ((∀ W, ¬ Walk exAlloc.g_adj src dst W) →
        (dijkstra exAlloc.g_adj exAlloc.g_cities.length src dst).1 = INF_DIST)) ∧
    (∀ a ∈ (run_allocation insertion_qsort exAlloc).g_alloc,
      a.dist < INF_DIST ∧
      Walk (run_allocation insertion_qsort exAlloc).g_adj
        (cityOf (run_allocation insertion_qsort exAlloc)
          ((run_allocation insertion_qsort exAlloc).g_wh.getD a.whIndex default).city)
        (cityOf (run_allocation insertion_qsort exAlloc)
          ((run_allocation insertion_qsort exAlloc).g_rf.getD a.rfIndex default).city)
        a.dist) ∧
    (∀ i, i < (run_allocation insertion_qsort exAlloc).g_rf.length →
      (∀ w, w < (run_allocation insertion_qsort exAlloc).g_wh.length →
        ((run_allocation insertion_qsort exAlloc).g_wh.getD w default).resource
          = ((run_allocation insertion_qsort exAlloc).g_rf.getD i default).resource →
        ∀ W, ¬ Walk (run_allocation insertion_qsort exAlloc).g_adj
          (cityOf (run_allocation insertion_qsort exAlloc)
            ((run_allocation insertion_qsort exAlloc).g_wh.getD w default).city)
          (cityOf (run_allocation insertion_qsort exAlloc)
            ((run_allocation insertion_qsort exAlloc).g_rf.getD i default).city) W) →
      (∀ a ∈ (run_allocation insertion_qsort exAlloc).g_alloc, a.rfIndex ≠ i) ∧
      ((run_allocation insertion_qsort exAlloc).g_rf.getD i default).remaining
        = ((run_allocation insertion_qsort exAlloc).g_rf.getD i default).requested) ∧
    ((run_allocation insertion_qsort exNoRoute).g_alloc = [] ∧
      (run_allocation insertion_qsort exNoRoute).g_rf.map
        (fun r => (r.requested, r.remaining)) = [(80, 80)] ∧
      totalAlloc (run_allocation insertion_qsort exNoRoute) = 0 ∧
      coverage_pct (run_allocation insertion_qsort exNoRoute) = 0) :=
  C9_unreachable insertion_qsort insertion_qsort_contract exAlloc (by decide) (by decide)
    (by decide) (by decide) ⟨by decide, by decide⟩ (build_graph_ok _ rfl (by decide))
theorem wrap32_id (x : Int) (h1 : -(2 ^ 31) ≤ x) (h2 : x < 2 ^ 31) : wrap32 x = x := by
  unfold wrap32
  rw [Int.emod_eq_of_lt (by omega) (by omega)]
  omega

/-- On rows in range `cmp_relief` is the plain difference of the urgencies, or
of the people counts when the urgencies agree. -/
theorem cmp_relief_in_range (r1 r2 : ReliefRow) (h1 : RowInRange r1) (h2 : RowInRange r2) :
    cmp_relief r1 r2 =
      if r1.urgency ≠ r2.urgency then r2.urgency - r1.urgency else r2.people - r1.people := by
  obtain ⟨a1, a2, a3, a4⟩ := h1
  obtain ⟨b1, b2, b3, b4⟩ := h2
  unfold cmp_relief
  split_ifs
  · exact wrap32_id _ (by omega) (by omega)
  · exact wrap32_id _ (by omega) (by omega)

theorem cmp_relief_consistent (l : List ReliefRow) (h : ∀ r ∈ l, RowInRange r) :
    CmpConsistent cmp_relief l := by
  constructor
  · intro a ha b hb
    rw [cmp_relief_in_range a b (h a ha) (h b hb), cmp_relief_in_range b a (h b hb) (h a ha)]
    by_cases hu : a.urgency = b.urgency
    · rw [if_neg (not_not.mpr hu), if_neg (not_not.mpr hu.symm)]
      omega
    · rw [if_pos hu, if_pos (Ne.symm hu)]
      omega
  · intro a ha b hb c hc
    rw [cmp_relief_in_range a b (h a ha) (h b hb), cmp_relief_in_range b c (h b hb) (h c hc),
      cmp_relief_in_range a c (h a ha) (h c hc)]
    intro h1 h2
    by_cases hab : a.urgency = b.urgency <;> by_cases hbc : b.urgency = c.urgency <;>
      by_cases hac : a.urgency = c.urgency <;>
      simp only [hab, hbc, hac, ne_eq, not_true_eq_false, not_false_eq_true, if_true,
        if_false] at h1 h2 ⊢ <;> omega

/-- A table sorted by a contract-abiding `qsort` with `cmp_relief` has its
urgencies in descending order when the rows are in range. -/
theorem qsort_urgency_sorted
    (qsort : (ReliefRow → ReliefRow → Int) → List ReliefRow → List ReliefRow)
    (hq : QsortContract qsort) (l : List ReliefRow) (h : ∀ r ∈ l, RowInRange r)
    (i j : Nat) (hij : i < j) (hj : j < (qsort cmp_relief l).length) :
    ((qsort cmp_relief l).getD j default).urgency
      ≤ ((qsort cmp_relief l).getD i default).urgency ∧
    (((qsort cmp_relief l).getD j default).urgency
        = ((qsort cmp_relief l).getD i default).urgency →
      ((qsort cmp_relief l).getD j default).people
        ≤ ((qsort cmp_relief l).getD i default).people) := by
  obtain ⟨hperm, hsorted⟩ := hq cmp_relief l
  have hp := hsorted (cmp_relief_consistent l h)
  rw [List.pairwise_iff_getElem] at hp
  have hi : i < (qsort cmp_relief l).length := lt_trans hij hj
  have hle := hp i j hi hj hij
  have hri : RowInRange (qsort cmp_relief l)[i] := h _ (hperm.subset (List.getElem_mem hi))
  have hrj : RowInRange (qsort cmp_relief l)[j] := h _ (hperm.subset (List.getElem_mem hj))
  rw [cmp_relief_in_range _ _ hri hrj] at hle
  rw [List.getD_eq_getElem _ _ hi, List.getD_eq_getElem _ _ hj]
  split_ifs at hle with hu
  · exact ⟨by omega, fun h => absurd h.symm hu⟩
  · exact ⟨by omega, fun _ => by omega⟩

/-- The records are written in the order of the requests they serve. -/
theorem serve_upto_sorted (q0 : Nat → Int) (I W : Nat → Prop) (s : State D)
    (hinv : AllocInv q0 I W s) (hal : s.g_alloc = []) (k : Nat) :
    (serve_upto s k).g_alloc.Pairwise (fun a b => a.rfIndex ≤ b.rfIndex) ∧
    ∀ a ∈ (serve_upto s k).g_alloc, a.rfIndex < k := by
  induction k with
  | zero =>
    have : (serve_upto s 0).g_alloc = [] := hal
    rw [this]
    exact ⟨List.Pairwise.nil, fun a ha => by cases ha⟩
  | succ k ih =>
    obtain ⟨p1, p2⟩ := ih
    rw [serve_upto_succ]
    obtain ⟨_, _, e, he, hx⟩ := serve_request_inv q0 I W _ k
      (serve_upto_inv q0 I W s hinv k).1
    rw [he]
    constructor
    · rw [List.pairwise_append]
      refine ⟨p1, ?_, ?_⟩
      · rw [List.pairwise_iff_getElem]
        intro i j hi hj _
        rw [hx _ (List.getElem_mem hi), hx _ (List.getElem_mem hj)]
      · intro a ha b hb
        rw [hx b hb]
        exact (p2 a ha).le
    · intro a ha
      rcases List.mem_append.mp ha with h1 | h1
      · exact Nat.lt_succ_of_lt (p2 a h1)
      · rw [hx a h1]; exact Nat.lt_succ_self k

theorem serve_upto_add (s : State D) (k m : Nat) :
    serve_upto s (k + m) = (List.range' k m).foldl serve_request (serve_upto s k) := by
  induction m with
  | zero => rfl
  | succ m ih =>
    rw [← Nat.add_assoc, serve_upto_succ, ih, List.range'_concat, List.foldl_append]
    simp

theorem serve_list_inv (q0 : Nat → Int) (I W : Nat → Prop) (is : List Nat) :
    ∀ s : State D, AllocInv q0 I W s →
      ∃ extra, (is.foldl serve_request s).g_alloc = s.g_alloc ++ extra ∧
        ∀ a ∈ extra, a.rfIndex ∈ is := by
  induction is with
  | nil => intro s _; exact ⟨[], by simp, by simp⟩
  | cons i rest ih =>
    intro s h
    rw [List.foldl_cons]
    obtain ⟨h1, _, e1, he1, hx1⟩ := serve_request_inv q0 I W s i h
    obtain ⟨e2, he2, hx2⟩ := ih _ h1
    refine ⟨e1 ++ e2, by rw [he2, he1, List.append_assoc], ?_⟩
    intro a ha
    rcases List.mem_append.mp ha with h3 | h3
    · rw [hx1 a h3]; exact List.mem_cons_self _ _
    · exact List.mem_cons_of_mem _ (hx2 a h3)
/-- The facts behind the priority law for a run on a state without records, with
rows in range, non-negative stock and at most 512 rows per table. -/
theorem priority_facts
    (qsort : (ReliefRow → ReliefRow → Int) → List ReliefRow → List ReliefRow)
    (hq : QsortContract qsort) (s : State D) (hal : s.g_alloc = [])
    (hrows : ∀ r ∈ s.g_rf, RowInRange r) (hwhq : ∀ w ∈ s.g_wh, 0 ≤ w.qty)
    (hnw : s.g_wh.length ≤ MAX_WAREHOUSE_ROWS) (hnr : s.g_rf.length ≤ MAX_RELIEF_ROWS) :
    (∀ i j, j < (run_allocation qsort s).g_rf.length → i < j →
      ((run_allocation qsort s).g_rf.getD j default).urgency
        ≤ ((run_allocation qsort s).g_rf.getD i default).urgency) ∧
    (run_allocation qsort s).g_alloc.Pairwise (fun a b => a.rfIndex ≤ b.rfIndex) ∧
    (∀ a ∈ (run_allocation qsort s).g_alloc,
      a.rfIndex < (run_allocation qsort s).g_rf.length) ∧
    (∀ k, k ≤ (run_allocation qsort s).g_rf.length → ∀ w, w < s.g_wh.length →
      ((serve_upto { s with g_rf := qsort cmp_relief s.g_rf } k).g_wh.getD w default).qty
        = (s.g_wh.getD w default).qty -
          (((run_allocation qsort s).g_alloc.filter
            (fun a => a.whIndex = w ∧ a.rfIndex < k)).map (fun a => a.qty)).sum) := by
  obtain ⟨s1, hs1⟩ : ∃ s1 : State D, s1 = { s with g_rf := qsort cmp_relief s.g_rf } :=
    ⟨_, rfl⟩
  have hperm := (hq cmp_relief s.g_rf).1
  have hrun : run_allocation qsort s = serve_upto s1 s1.g_rf.length := by
    rw [hs1]; rfl
  have hwh1 : s1.g_wh = s.g_wh := by rw [hs1]
  have hrf1 : s1.g_rf = qsort cmp_relief s.g_rf := by rw [hs1]
  have hstart : AllocInv (fun w => (s1.g_wh.getD w default).qty) (fun _ => False)
      (fun _ => True) s1 := by
    apply allocInv_start _ _ s1 (by rw [hs1]; exact hal) (by rw [hs1]; exact hnw)
      (by rw [hs1]; show (qsort cmp_relief s.g_rf).length ≤ _
          rw [hperm.length_eq]; exact hnr)
    · intro i _ h
      exact absurd h id
    · intro w _
      rw [hwh1]
      by_cases hw : w < s.g_wh.length
      · exact hwhq _ (mem_getD_of_lt _ _ _ hw)
      · rw [List.getD_eq_default _ _ (not_lt.mp hw)]
        decide
  have hal1 : s1.g_alloc = [] := by rw [hs1]; exact hal
  obtain ⟨hinv, hframe, _, _, _⟩ := serve_upto_inv _ _ _ s1 hstart s1.g_rf.length
  obtain ⟨hsorted, hlt⟩ := serve_upto_sorted _ _ _ s1 hstart hal1 s1.g_rf.length
  have hlen : (serve_upto s1 s1.g_rf.length).g_rf.length = s1.g_rf.length :=
    frame_rf_length hframe
  rw [hrun, ← hs1]
  refine ⟨?_, hsorted, ?_, ?_⟩
  · intro i j hj hij
    rw [hlen] at hj
    rw [(frame_rf_fields hframe i).2.2.1, (frame_rf_fields hframe j).2.2.1, hrf1]
    rw [hrf1] at hj
    exact (qsort_urgency_sorted qsort hq s.g_rf hrows i j hij hj).1
  · intro a ha
    rw [hlen]
    exact hlt a ha
  · intro k hk w hw
    rw [hlen] at hk
    obtain ⟨hinvk, hframek, _, _, _⟩ := serve_upto_inv _ _ _ s1 hstart k
    obtain ⟨_, hltk⟩ := serve_upto_sorted _ _ _ s1 hstart hal1 k
    have hsplit : serve_upto s1 s1.g_rf.length
        = (List.range' k (s1.g_rf.length - k)).foldl serve_request (serve_upto s1 k) := by
      rw [← serve_upto_add]
      congr 1
      omega
    obtain ⟨extra, hex, hxk⟩ := serve_list_inv _ _ _ (List.range' k (s1.g_rf.length - k))
      _ hinvk
    rw [← hsplit] at hex
    have hwk : w < (serve_upto s1 k).g_wh.length := by
      rw [frame_wh_length hframek, hwh1]; exact hw
    obtain ⟨_, h2⟩ := hinvk.wh w hwk trivial
    simp only [hwh1] at h2
    have hfilter : (serve_upto s1 s1.g_rf.length).g_alloc.filter
        (fun a => a.whIndex = w ∧ a.rfIndex < k)
        = (serve_upto s1 k).g_alloc.filter (fun a => a.whIndex = w) := by
      rw [hex, List.filter_append]
      have e1 : extra.filter (fun a => decide (a.whIndex = w ∧ a.rfIndex < k)) = [] := by
        rw [List.filter_eq_nil_iff]
        intro a ha
        have := (List.mem_range'_1.mp (hxk a ha)).1
        simp only [decide_eq_true_eq, not_and, not_lt]
        intro _
        exact this
      rw [e1, List.append_nil]
      apply List.filter_congr
      intro a ha
      have := hltk a ha
      simp [this]
    rw [hfilter]
    unfold allocFrom at h2
    omega
theorem allocate_step_commit_eq (i c : Nat) (s : State D) (cand : Nat × D) (cityW : Nat)
    (h1 : 0 < (s.g_rf.getD i default).remaining) (h2 : 0 < (s.g_wh.getD cand.1 default).qty)
    (hc : city_index s (s.g_wh.getD cand.1 default).city = (some cityW, s))
    (hd : (dijkstra s.g_adj s.g_cities.length cityW c).1 < INF_DIST) :
    allocate_step i c s cand =
      add_allocated
        (commit s i cand.1 (take_qty s i cand.1)
          (make_row s i c cand.1 cityW s.g_cities.length
            (dijkstra s.g_adj s.g_cities.length cityW c)))
        (s.g_rf.getD i default).resource (take_qty s i cand.1) := by
  unfold allocate_step
  simp only []
  rw [if_neg (not_le.mpr h1), if_neg (not_le.mpr h2),
    if_neg (not_le.mpr (take_qty_pos s i cand.1 h1 h2))]
  simp only [hc]
  rw [if_neg (not_le.mpr hd)]

theorem set_getD_self {α : Type} (l : List α) (i : Nat) (d : α) :
    l.set i (l.getD i d) = l := by
  by_cases hi : i < l.length
  · apply List.ext_getElem (by simp)
    intro n h1 h2
    rw [List.getElem_set]
    split_ifs with h
    · subst h; rw [List.getD_eq_getElem _ _ hi]
    · rfl
  · exact List.set_eq_of_length_le (not_lt.mp hi)

/-- Serving request `i` in the two-city network with one warehouse row holding
`S`: the request receives `min S r` of its open demand `r`. -/
theorem serve_request_single (t : State ℕ) (i : Nat) (S r : Int) (row : ReliefRow)
    (hS : 0 ≤ S) (hr : 0 ≤ r) (hc : t.g_cities = ["A", "B"])
    (hadj : t.g_adj = exPriorityBase.g_adj) (hwh : t.g_wh = [⟨"W1", "A", "water", S⟩])
    (hrow : t.g_rf.getD i default = row) (hcity : row.city = "B")
    (hres : row.resource = "water") (hrem : row.remaining = r) :
    (serve_request t i).g_cities = ["A", "B"] ∧
    (serve_request t i).g_adj = exPriorityBase.g_adj ∧
    (serve_request t i).g_wh = [⟨"W1", "A", "water", S - min S r⟩] ∧
    (serve_request t i).g_rf = t.g_rf.set i { row with remaining := r - min S r } := by
  generalize hnew : ({ row with remaining := r - min S r } : ReliefRow) = newrow
  have hsame : ∀ (hz : min S r = 0), t.g_cities = ["A", "B"] ∧
      t.g_adj = exPriorityBase.g_adj ∧ t.g_wh = [⟨"W1", "A", "water", S - min S r⟩] ∧
      t.g_rf = t.g_rf.set i newrow := by
    intro hz
    refine ⟨hc, hadj, by rw [hwh, hz, sub_zero], ?_⟩
    have : newrow = t.g_rf.getD i default := by
      rw [← hnew, hrow, hz, sub_zero, ← hrem]
    rw [this, set_getD_self]
  unfold serve_request
  simp only [hrow, hrem]
  split_ifs with h1
  · exact hsame (by rw [min_eq_right (le_trans h1 hS)]; omega)
  · have hB : city_index t "B" = (some 1, t) := by
      rw [city_index_found t "B" (by rw [hc]; decide), hc]
      rfl
    have hA : city_index t "A" = (some 0, t) := by
      rw [city_index_found t "A" (by rw [hc]; decide), hc]
      rfl
    have hw0 : t.g_wh.getD 0 default = ⟨"W1", "A", "water", S⟩ := by rw [hwh]; rfl
    have hdij : dijkstra t.g_adj t.g_cities.length 0 1 = (10, [none, some 0]) := by
      rw [hadj, hc]
      decide
    rw [hcity]
    simp only [hB]
    have hrange : List.range t.g_wh.length = [0] := by rw [hwh]; rfl
    rw [hrange]
    simp only [List.foldl_cons, List.foldl_nil]
    by_cases hS0 : S ≤ 0
    · have hcs : candidate_step row 1 (t, []) 0 = (t, []) := by
        unfold candidate_step
        simp only [hw0]
        rw [if_pos hS0]
      rw [hcs]
      simp only [List.length_nil, if_true]
      exact hsame (by rw [min_eq_left (le_trans hS0 hr)]; omega)
    · have hcs : candidate_step row 1 (t, []) 0 = (t, [(0, 10)]) := by
        unfold candidate_step
        simp only [hw0, hres]
        rw [if_neg hS0]
        simp only [ne_eq, not_true_eq_false, if_false, hA, hdij]
        rw [if_neg (by decide)]
        rfl
      rw [hcs]
      have hsort : sort_candidates [((0 : ℕ), (10 : ℕ))] = [(0, 10)] := by decide
      simp only [List.length_singleton, one_ne_zero, if_false, hsort, List.foldl_cons,
        List.foldl_nil]
      have hrem2 : 0 < (t.g_rf.getD i default).remaining := by
        rw [hrow, hrem]; exact not_le.mp h1
      have hqty2 : 0 < (t.g_wh.getD ((0 : ℕ), (10 : ℕ)).1 default).qty := by
        show 0 < (t.g_wh.getD 0 default).qty
        rw [hw0]; exact not_le.mp hS0
      rw [allocate_step_commit_eq i 1 t (0, 10) 0 hrem2 hqty2
        (by show city_index t (t.g_wh.getD 0 default).city = _
            rw [hw0]; exact hA)
        (by rw [hdij]; decide)]
      obtain ⟨a1, _, a3, a4, a5, _⟩ := add_allocated_frame
        (commit t i ((0 : ℕ), (10 : ℕ)).1 (take_qty t i ((0 : ℕ), (10 : ℕ)).1)
          (make_row t i 1 ((0 : ℕ), (10 : ℕ)).1 0 t.g_cities.length
            (dijkstra t.g_adj t.g_cities.length 0 1)))
        (t.g_rf.getD i default).resource (take_qty t i ((0 : ℕ), (10 : ℕ)).1)
      have htake : take_qty t i 0 = min S r := by
        unfold take_qty
        rw [hw0, hrow, hrem]
        show (if S < r then S else r) = min S r
        split_ifs with h
        · exact (min_eq_left h.le).symm
        · exact (min_eq_right (not_lt.mp h)).symm
      rw [a1, a3, a4, a5]
      refine ⟨hc, hadj, ?_, ?_⟩
      · show t.g_wh.set 0 _ = _
        rw [hw0, htake, hwh]
        rfl
      · show t.g_rf.set i _ = _
        rw [hrow, htake, hrem, hnew]
theorem perm_pair {α : Type} {l : List α} {a b : α} (h : l.Perm [a, b]) :
    l = [a, b] ∨ l = [b, a] := by
  have hlen := h.length_eq
  match l, hlen with
  | [x, y], _ =>
    have hx : x ∈ [a, b] := h.subset (List.mem_cons_self _ _)
    have hy : y ∈ [a, b] := h.subset (List.mem_cons_of_mem _ (List.mem_cons_self _ _))
    have ha : a ∈ [x, y] := h.symm.subset (List.mem_cons_self _ _)
    have hb : b ∈ [x, y] := h.symm.subset (List.mem_cons_of_mem _ (List.mem_cons_self _ _))
    simp only [List.mem_cons, List.mem_singleton, List.not_mem_nil, or_false] at hx hy ha hb
    rcases hx with rfl | rfl
    · rcases hy with rfl | rfl
      · rcases hb with rfl | rfl <;> exact Or.inl rfl
      · exact Or.inl rfl
    · rcases hy with rfl | rfl
      · exact Or.inr rfl
      · rcases ha with rfl | rfl <;> exact Or.inl rfl

/-- The two-request scenario of the priority law: the urgency-90 request
receives `min S q1`, the urgency-10 request what is left, up to its demand. -/
theorem priority_scenario
    (qsort : (ReliefRow → ReliefRow → Int) → List ReliefRow → List ReliefRow)
    (hq : QsortContract qsort) (S q1 q2 : Int) (hS : 0 ≤ S) (h1 : 0 ≤ q1) (h2 : 0 ≤ q2) :
    (run_allocation qsort (exPriority S q1 q2)).g_rf.map
        (fun r => (r.urgency, r.requested - r.remaining))
      = [(90, min S q1), (10, min q2 (S - min S q1))] := by
  obtain ⟨X, hX⟩ : ∃ X : ReliefRow, X = ⟨"X", "B", "water", q2, q2, 5, 10⟩ := ⟨_, rfl⟩
  obtain ⟨Y, hY⟩ : ∃ Y : ReliefRow, Y = ⟨"Y", "B", "water", q1, q1, 5, 90⟩ := ⟨_, rfl⟩
  have hrfs : (exPriority S q1 q2).g_rf = [X, Y] := by rw [hX, hY]; rfl
  have hXr : RowInRange X := by
    rw [hX]
    exact ⟨by show (0 : Int) ≤ 10; decide, by show (10 : Int) ≤ 100; decide,
      by show (0 : Int) ≤ 5; decide, by show (5 : Int) < 2 ^ 31; decide⟩
  have hYr : RowInRange Y := by
    rw [hY]
    exact ⟨by show (0 : Int) ≤ 90; decide, by show (90 : Int) ≤ 100; decide,
      by show (0 : Int) ≤ 5; decide, by show (5 : Int) < 2 ^ 31; decide⟩
  have hrange : ∀ r ∈ [X, Y], RowInRange r := by
    intro r hr
    simp only [List.mem_cons, List.mem_singleton, List.not_mem_nil, or_false] at hr
    rcases hr with rfl | rfl
    · exact hXr
    · exact hYr
  obtain ⟨hperm, hsorted⟩ := hq cmp_relief [X, Y]
  have hsort : qsort cmp_relief [X, Y] = [Y, X] := by
    rcases perm_pair hperm with h | h
    · exfalso
      have hp := hsorted (cmp_relief_consistent _ hrange)
      rw [h] at hp
      have hle : cmp_relief X Y ≤ 0 := by
        have := List.pairwise_cons.mp hp
        exact this.1 Y (List.mem_cons_self _ _)
      rw [cmp_relief_in_range X Y hXr hYr, hX, hY] at hle
      have hle2 : (if (10 : Int) ≠ 90 then (90 : Int) - 10 else 5 - 5) ≤ 0 := hle
      revert hle2
      decide
    · exact h
  have hrun : run_allocation qsort (exPriority S q1 q2)
      = serve_request (serve_request
          { exPriority S q1 q2 with g_rf := [Y, X] } 0) 1 := by
    unfold run_allocation
    simp only [hrfs, hsort]
    rfl
  obtain ⟨a1, a2, a3, a4⟩ := serve_request_single
    { exPriority S q1 q2 with g_rf := [Y, X] } 0 S q1 Y hS h1 rfl rfl rfl rfl
    (by rw [hY]) (by rw [hY]) (by rw [hY])
  have hS2 : 0 ≤ S - min S q1 := by
    have := min_le_left S q1
    omega
  obtain ⟨b1, b2, b3, b4⟩ := serve_request_single
    (serve_request { exPriority S q1 q2 with g_rf := [Y, X] } 0) 1 (S - min S q1) q2 X
    hS2 h2 a1 a2 a3 (by rw [a4]; rfl) (by rw [hX]) (by rw [hX]) (by rw [hX])
  rw [hrun, b4, a4]
  simp only [List.set_cons_zero, List.set_cons_succ, List.map_cons, List.map_nil]
  rw [hX, hY]
  simp only [sub_sub_cancel, min_comm q2]
/-- The priority law for rows in range: after `run_allocation` on a state
without records, with rows in range (urgency in `[0, 100]`, `people` a
non-negative `int`, which `load_relief` does not enforce), non-negative stock and at
most 512 rows per table: (1) a request of strictly higher urgency stands before
one of lower urgency in the table; (2) every record of a request of strictly
higher urgency precedes every record of one of lower urgency in `g_alloc`;
(3) when request `k` is served, the stock of every warehouse row is its original
quantity minus the records of the requests before `k`, so a request sees what
the ones before it left; (4) with one reachable warehouse holding `S` and two
requests of urgency 90 (demand `q1`) and 10 (demand `q2`) in the same city for
the same resource, the first receives `min S q1` and the second
`min q2 (S - min S q1)`. -/
theorem priority_law_in_range
    (qsort : (ReliefRow → ReliefRow → Int) → List ReliefRow → List ReliefRow)
    (hq : QsortContract qsort) (s : State D) (hal : s.g_alloc = [])
    (hrows : ∀ r ∈ s.g_rf, RowInRange r) (hwhq : ∀ w ∈ s.g_wh, 0 ≤ w.qty)
    (hnw : s.g_wh.length ≤ MAX_WAREHOUSE_ROWS) (hnr : s.g_rf.length ≤ MAX_RELIEF_ROWS) :
    (∀ i j, i < (run_allocation qsort s).g_rf.length →
      j < (run_allocation qsort s).g_rf.length →
      ((run_allocation qsort s).g_rf.getD j default).urgency
        < ((run_allocation qsort s).g_rf.getD i default).urgency → i < j) ∧
    (∀ p q (hp : p < (run_allocation qsort s).g_alloc.length)
        (hq : q < (run_allocation qsort s).g_alloc.length),
      ((run_allocation qsort s).g_rf.getD
          ((run_allocation qsort s).g_alloc[q]).rfIndex default).urgency
        < ((run_allocation qsort s).g_rf.getD
          ((run_allocation qsort s).g_alloc[p]).rfIndex default).urgency → p < q) ∧
    (∀ k, k ≤ (run_allocation qsort s).g_rf.length → ∀ w, w < s.g_wh.length →
      ((serve_upto { s with g_rf := qsort cmp_relief s.g_rf } k).g_wh.getD w default).qty
        = (s.g_wh.getD w default).qty -
          (((run_allocation qsort s).g_alloc.filter
            (fun a => a.whIndex = w ∧ a.rfIndex < k)).map (fun a => a.qty)).sum) ∧
    (∀ S q1 q2 : Int, 0 ≤ S → 0 ≤ q1 → 0 ≤ q2 →
      (run_allocation qsort (exPriority S q1 q2)).g_rf.map
          (fun r => (r.urgency, r.requested - r.remaining))
        = [(90, min S q1), (10, min q2 (S - min S q1))]) := by
  obtain ⟨f1, f2, f3, f4⟩ := priority_facts qsort hq s hal hrows hwhq hnw hnr
  refine ⟨?_, ?_, f4, fun S q1 q2 hS h1 h2 => priority_scenario qsort hq S q1 q2 hS h1 h2⟩
  · intro i j hi hj hlt
    by_contra hcon
    rcases Nat.lt_or_ge j i with h | h
    · have := f1 j i hi h
      omega
    · have hij : i = j := by omega
      rw [hij] at hlt
      exact absurd hlt (lt_irrefl _)
  · intro p q hp hq hlt
    by_contra hcon
    have hqp : q ≤ p := not_lt.mp hcon
    rcases Nat.lt_or_ge q p with h | h
    · have hidx := (List.pairwise_iff_getElem.mp f2) q p hq hp h
      rcases Nat.lt_or_ge ((run_allocation qsort s).g_alloc[q]).rfIndex
          ((run_allocation qsort s).g_alloc[p]).rfIndex with h2 | h2
      · have := f1 _ _ (f3 _ (List.getElem_mem hp)) h2
        omega
      · have heq : ((run_allocation qsort s).g_alloc[q]).rfIndex
            = ((run_allocation qsort s).g_alloc[p]).rfIndex := by omega
        rw [heq] at hlt
        exact absurd hlt (lt_irrefl _)
    · have hpq : p = q := by omega
      subst hpq
      exact absurd hlt (lt_irrefl _)

/-- The priority law on the example tables `exAlloc`, whose rows are in range. -/
theorem priority_law_in_range_example :
    (∀ i j, i < (run_allocation insertion_qsort exAlloc).g_rf.length →
      j < (run_allocation insertion_qsort exAlloc).g_rf.length →
      ((run_allocation insertion_qsort exAlloc).g_rf.getD j default).urgency
        < ((run_allocation insertion_qsort exAlloc).g_rf.getD i default).urgency → i < j) ∧
    (∀ p q (hp : p < (run_allocation insertion_qsort exAlloc).g_alloc.length)
        (hq : q < (run_allocation insertion_qsort exAlloc).g_alloc.length),
      ((run_allocation insertion_qsort exAlloc).g_rf.getD
          ((run_allocation insertion_qsort exAlloc).g_alloc[q]).rfIndex default).urgency
        < ((run_allocation insertion_qsort exAlloc).g_rf.getD
          ((run_allocation insertion_qsort exAlloc).g_alloc[p]).rfIndex default).urgency →
      p < q) ∧
    (∀ k, k ≤ (run_allocation insertion_qsort exAlloc).g_rf.length →
      ∀ w, w < exAlloc.g_wh.length →
      ((serve_upto { exAlloc with g_rf := insertion_qsort cmp_relief exAlloc.g_rf }
          k).g_wh.getD w default).qty
        = (exAlloc.g_wh.getD w default).qty -
          (((run_allocation insertion_qsort exAlloc).g_alloc.filter
            (fun a => a.whIndex = w ∧ a.rfIndex < k)).map (fun a => a.qty)).sum) ∧
    (∀ S q1 q2 : Int, 0 ≤ S → 0 ≤ q1 → 0 ≤ q2 →
      (run_allocation insertion_qsort (exPriority S q1 q2)).g_rf.map
          (fun r => (r.urgency, r.requested - r.remaining))
        = [(90, min S q1), (10, min q2 (S - min S q1))]) :=
  priority_law_in_range insertion_qsort insertion_qsort_contract exAlloc (by decide) (by decide)
    (by decide) (by decide) (by decide)

theorem dijkstra_relax_prev (u : Nat) (L : List (AdjItem D)) :
    ∀ (dist : List D) (prev : List (Option Nat)),
    (∀ it ∈ L, it.to_ < dist.length ∧ 0 ≤ it.w) →
    (dijkstra_relax u L dist prev).2.length = prev.length ∧
    (∀ v, (dijkstra_relax u L dist prev).2.getD v none = prev.getD v none ∨
      ((dijkstra_relax u L dist prev).2.getD v none = some u ∧
        (dijkstra_relax u L dist prev).1.getD v INF_DIST < dist.getD v INF_DIST)) := by
  induction L with
  | nil =>
    intro dist prev _
    exact ⟨rfl, fun v => Or.inl rfl⟩
  | cons a rest ih =>
    intro dist prev hw
    have hwr : ∀ it ∈ rest, it.to_ < dist.length ∧ 0 ≤ it.w :=
      fun it h => hw it (List.mem_cons_of_mem _ h)
    rw [dijkstra_relax_cons]
    split_ifs with hc
    · have hwr2 : ∀ it ∈ rest, it.to_ < (dist.set a.to_ (dist.getD u INF_DIST + a.w)).length
          ∧ 0 ≤ it.w := by
        intro it h
        rw [List.length_set]
        exact hwr it h
      obtain ⟨i1, i2⟩ := ih (dist.set a.to_ (dist.getD u INF_DIST + a.w))
        (prev.set a.to_ (some u)) hwr2
      obtain ⟨_, _, j3, _, _⟩ := dijkstra_relax_spec u rest
        (dist.set a.to_ (dist.getD u INF_DIST + a.w)) (prev.set a.to_ (some u)) hwr2
      have hle : ∀ v, (dist.set a.to_ (dist.getD u INF_DIST + a.w)).getD v INF_DIST
          ≤ dist.getD v INF_DIST := by
        intro v
        rw [getD_set_eq]
        split_ifs with h
        · rw [← h.1]; exact hc.le
        · exact le_rfl
      refine ⟨by rw [i1, List.length_set], ?_⟩
      intro v
      rcases i2 v with h | ⟨h1, h2⟩
      · rw [h, getD_set_eq]
        split_ifs with h3
        · right
          refine ⟨rfl, lt_of_le_of_lt (j3 v) ?_⟩
          rw [getD_set_eq, if_pos ⟨h3.1, (hw a (List.mem_cons_self _ _)).1⟩, ← h3.1]
          exact hc
        · exact Or.inl rfl
      · exact Or.inr ⟨h1, lt_of_lt_of_le h2 (hle v)⟩
    · exact ih dist prev hwr

theorem relax_keeps_used {g_adj : List (List (AdjItem D))} {n src : Nat} {st : DState D}
    (hadj : AdjOK g_adj n) (inv : DInv g_adj n src st) {u : Nat}
    (hscan : (dijkstra_scan n st.dist st.used).1 = some u) (x : Nat)
    (hx : st.used.getD x false = true ∨ x = u) :
    (dijkstra_relax u (g_adj.getD u []) st.dist st.prev).1.getD x INF_DIST
      = st.dist.getD x INF_DIST := by
  obtain ⟨hun, huu, hud, hmin⟩ := scan_min inv hscan
  have hL : ∀ it ∈ g_adj.getD u [], it.to_ < st.dist.length ∧ 0 ≤ it.w := by
    intro it hit
    rw [inv.len_dist]
    exact hadj u it hit
  obtain ⟨r1, r2, r3, r4, r5⟩ := dijkstra_relax_spec u (g_adj.getD u []) st.dist st.prev hL
  rcases hx with hx | hx
  · rcases r4 x with h | ⟨it, hit, _, h2⟩
    · exact h
    · apply le_antisymm (r3 x)
      rw [h2]
      exact le_trans (inv.sep x u hx huu) (DistArith.le_add_right _ _ (hL it hit).2)
  · rw [hx]; exact r2

theorem pinv_mark {n : Nat} {st : DState D} {rank : Nat → Nat} (h : PInv n st rank)
    (hlen : st.used.length = n) {u : Nat} (hun : u < n)
    (huu : st.used.getD u false = false) (prev2 : List (Option Nat))
    (hplen : prev2.length = n)
    (hprev : ∀ v, prev2.getD v none = st.prev.getD v none ∨
      (prev2.getD v none = some u ∧ st.used.getD v false = false ∧ v ≠ u)) (dist2 : List D) :
    PInv n { dist := dist2, used := st.used.set u true, prev := prev2 }
      (Function.update rank u (st.used.count true)) := by
  have hused : ∀ x, (st.used.set u true).getD x false
      = if u = x then true else st.used.getD x false := by
    intro x
    rw [getD_set_eq]
    by_cases h1 : u = x
    · subst h1
      simp [hlen, hun]
    · simp [h1]
  have hcount : (st.used.set u true).count true = st.used.count true + 1 :=
    count_set_true _ _ (by rw [hlen]; exact hun) huu
  refine ⟨hplen, ?_, ?_⟩
  · intro x hx
    have hx2 : (st.used.set u true).getD x false = true := hx
    show Function.update rank u (st.used.count true) x < (st.used.set u true).count true
    rw [hcount]
    rw [hused] at hx2
    by_cases h1 : u = x
    · subst h1
      rw [Function.update_same]
      exact Nat.lt_succ_self _
    · rw [if_neg h1] at hx2
      rw [Function.update_noteq (Ne.symm h1)]
      exact Nat.lt_succ_of_lt (h.rank_lt x hx2)
  · intro v w hv
    have hv2 : prev2.getD v none = some w := hv
    show (st.used.set u true).getD w false = true ∧
      ((st.used.set u true).getD v false = true →
        Function.update rank u (st.used.count true) w
          < Function.update rank u (st.used.count true) v)
    rw [hused, hused]
    rcases hprev v with h1 | ⟨h1, h2, h3⟩
    · rw [h1] at hv2
      obtain ⟨l1, l2⟩ := h.link v w hv2
      have hwu : w ≠ u := by
        intro heq
        rw [heq, huu] at l1
        cases l1
      refine ⟨by rw [if_neg (Ne.symm hwu)]; exact l1, ?_⟩
      intro hvu
      rw [Function.update_noteq hwu]
      by_cases h4 : u = v
      · subst h4
        rw [Function.update_same]
        exact h.rank_lt w l1
      · rw [if_neg h4] at hvu
        rw [Function.update_noteq (Ne.symm h4)]
        exact l2 hvu
    · rw [h1] at hv2
      have hw : w = u := by
        simp only [Option.some.injEq] at hv2
        exact hv2.symm
      subst hw
      refine ⟨by rw [if_pos rfl], ?_⟩
      intro hvu
      rw [if_neg (Ne.symm h3), h2] at hvu
      cases hvu

/-- The loop of `dijkstra` keeps the invariant of `prev`. -/
theorem dijkstra_loop_pinv {g_adj : List (List (AdjItem D))} {n src : Nat} (dst : Nat)
    (hadj : AdjOK g_adj n) :
    ∀ (fuel : Nat) (st : DState D) (rank : Nat → Nat), DInv g_adj n src st →
      PInv n st rank →
      ∃ rank2, PInv n (dijkstra_loop g_adj n dst fuel st) rank2 ∧
        (dijkstra_loop g_adj n dst fuel st).used.length = n := by
  intro fuel
  induction fuel with
  | zero =>
    intro st rank inv pinv
    exact ⟨rank, pinv, inv.len_used⟩
  | succ k ih =>
    intro st rank inv pinv
    rw [dijkstra_loop]
    cases hscan : (dijkstra_scan n st.dist st.used).1 with
    | none => exact ⟨rank, pinv, inv.len_used⟩
    | some u =>
      simp only []
      obtain ⟨hun, huu, hud, hmin⟩ := scan_min inv hscan
      split_ifs with hdst
      · refine ⟨_, pinv_mark pinv inv.len_used hun huu st.prev pinv.len_prev
          (fun v => Or.inl rfl) st.dist, ?_⟩
        show (st.used.set u true).length = n
        rw [List.length_set]; exact inv.len_used
      · have hL : ∀ it ∈ g_adj.getD u [], it.to_ < st.dist.length ∧ 0 ≤ it.w := by
          intro it hit
          rw [inv.len_dist]
          exact hadj u it hit
        obtain ⟨p1, p2⟩ := dijkstra_relax_prev u (g_adj.getD u []) st.dist st.prev hL
        apply ih _ _ (dinv_step hadj inv hscan)
        apply pinv_mark pinv inv.len_used hun huu _ (by rw [p1]; exact pinv.len_prev)
        intro v
        rcases p2 v with h1 | ⟨h1, h2⟩
        · exact Or.inl h1
        · right
          refine ⟨h1, ?_, ?_⟩
          · cases hv : st.used.getD v false with
            | false => rfl
            | true =>
              rw [relax_keeps_used hadj inv hscan v (Or.inl hv)] at h2
              exact absurd h2 (lt_irrefl _)
          · intro hvu
            rw [relax_keeps_used hadj inv hscan v (Or.inr hvu)] at h2
            exact absurd h2 (lt_irrefl _)

theorem build_path_loop_total (src : Nat) (prev : List (Option Nat)) (used : List Bool)
    (rank : Nat → Nat)
    (hlink : ∀ v u, prev.getD v none = some u →
      used.getD u false = true ∧ (used.getD v false = true → rank u < rank v)) :
    ∀ (fuel v : Nat) (out : List Nat), used.getD v false = true → rank v + 2 ≤ fuel →
      (build_path_loop src prev fuel (some v) out).isSome = true := by
  intro fuel
  induction fuel with
  | zero => intro v out _ h; omega
  | succ k ih =>
    intro v out hv hk
    rw [build_path_loop]
    split_ifs with hs
    · rfl
    · cases hp : prev.getD v none with
      | none =>
        cases k with
        | zero => omega
        | succ k2 => rfl
      | some u =>
        obtain ⟨l1, l2⟩ := hlink v u hp
        exact ih u _ l1 (by have := l2 hv; omega)

/-- The `while` loop of `build_path` stops within `n + 1` iterations on the
`prev` array that `dijkstra` fills: the model's `build_path` with that fuel
always returns. -/
theorem build_path_total {g_adj : List (List (AdjItem D))} {n : Nat} (src dst : Nat)
    (hadj : AdjOK g_adj n) (hsrc : src < n) (hdst : dst < n) :
    (build_path (n + 1) src dst (dijkstra g_adj n src dst).2).isSome = true := by
  have hp0 : PInv n (dijkstra_init n src : DState D) (fun _ => 0) := by
    refine ⟨by simp [dijkstra_init], ?_, ?_⟩
    · intro x hx
      have : (List.replicate n false).getD x false = true := hx
      rw [List.getD_eq_getElem?_getD, List.getElem?_replicate] at this
      split_ifs at this <;> simp at this
    · intro v u hv
      have : (List.replicate n (none : Option Nat)).getD v none = some u := hv
      rw [List.getD_eq_getElem?_getD, List.getElem?_replicate] at this
      split_ifs at this <;> simp at this
  obtain ⟨rank, pinv, hlen⟩ := dijkstra_loop_pinv dst hadj n (dijkstra_init n src) _
    (dinv_init g_adj n src hsrc) hp0
  obtain ⟨st, hst⟩ : ∃ st, st = dijkstra_loop g_adj n dst n (dijkstra_init n src) :=
    ⟨_, rfl⟩
  rw [← hst] at pinv hlen
  have hprev : (dijkstra g_adj n src dst).2 = st.prev := by rw [hst]; rfl
  have hcnt : st.used.count true ≤ n := by
    rw [← hlen]; exact List.count_le_length _ _
  have hloop : (build_path_loop src st.prev (n + 1) (some dst) []).isSome = true := by
    cases hu : st.used.getD dst false with
    | true =>
      exact build_path_loop_total src st.prev st.used rank pinv.link (n + 1) dst [] hu
        (by have := pinv.rank_lt dst hu; omega)
    | false =>
      rw [build_path_loop]
      split_ifs with hs
      · rfl
      · cases hp : st.prev.getD dst none with
        | none =>
          cases n with
          | zero => omega
          | succ k => rfl
        | some u =>
          obtain ⟨l1, _⟩ := pinv.link dst u hp
          have hlt : st.used.count true < st.used.length := by
            have h1 := count_set_true st.used dst (by rw [hlen]; exact hdst) hu
            have h2 := List.count_le_length true (st.used.set dst true)
            rw [List.length_set] at h2
            omega
          exact build_path_loop_total src st.prev st.used rank pinv.link n u _ l1
            (by have := pinv.rank_lt u l1; omega)
  rw [hprev]
  unfold build_path
  cases hb : build_path_loop src st.prev (n + 1) (some dst) [] with
  | none => rw [hb] at hloop; cases hloop
  | some r =>
    obtain ⟨c, out⟩ := r
    cases c <;> rfl

theorem getD_map_range {α : Type} (f : ℕ → α) (n i : ℕ) (d : α) :
    ((List.range n).map f).getD i d = if i < n then f i else d := by
  rw [List.getD_eq_getElem?_getD]
  by_cases h : i < n
  · rw [if_pos h]
    simp [List.getElem?_map, List.getElem?_range h]
  · rw [if_neg h]
    simp [List.getElem?_eq_none (show ((List.range n).map f).length ≤ i by simp; omega)]

theorem set_map_range {α : Type} (f : ℕ → α) (n j : ℕ) (v : α) :
    ((List.range n).map f).set j v = (List.range n).map (Function.update f j v) := by
  apply List.ext_getElem
  · simp
  · intro i h1 h2
    rw [List.getElem_set]
    simp only [List.getElem_map, List.getElem_range, Function.update, eq_rec_constant,
      dite_eq_ite]
    by_cases h : j = i
    · rw [if_pos h, if_pos h.symm]
    · rw [if_neg h, if_neg (Ne.symm h)]

theorem INF_DIST_nat : (INF_DIST : ℕ) = 1000000000000000000 := by
  decide

theorem chain_scan (k : Nat) (hk : k ≤ 64) :
    (dijkstra_scan 65 (chainDist k) (chainUsed k)).1 = some k := by
  obtain ⟨h1, _, h3, h4⟩ := dijkstra_scan_spec 65 (chainDist k) (chainUsed k)
  have hd : ∀ i, (chainDist k).getD i INF_DIST = if i ≤ k ∧ i < 65 then i else INF_DIST := by
    intro i
    unfold chainDist
    rw [getD_map_range]
    by_cases a : i < 65 <;> by_cases b : i ≤ k <;> simp [a, b]
  have hu : ∀ i, (chainUsed k).getD i false = decide (i < k ∧ i < 65) := by
    intro i
    unfold chainUsed
    rw [getD_map_range]
    by_cases a : i < 65 <;> by_cases b : i < k <;> simp [a, b]
  cases hs : (dijkstra_scan 65 (chainDist k) (chainUsed k)).1 with
  | none =>
    have := h1 k (by omega) (by rw [hu]; simp)
    rw [h3 hs, hd, if_pos ⟨le_rfl, by omega⟩, INF_DIST_nat] at this
    omega
  | some u =>
    obtain ⟨a1, a2, a3, a4⟩ := h4 u hs
    rw [hu] at a2
    rw [← a3, hd] at a4
    have hku : k ≤ u := by
      by_contra hlt
      simp [not_le.mp hlt, a1] at a2
    by_cases huk : u ≤ k
    · have : u = k := le_antisymm huk hku
      rw [this]
    · rw [if_neg (fun h => huk h.1)] at a4
      exact absurd a4 (lt_irrefl _)

theorem chain_relax (k : Nat) (hk : k < 64) :
    dijkstra_relax k (chainAdj.getD k []) (chainDist k) (chainPrev k)
      = (chainDist (k + 1), chainPrev (k + 1)) := by
  have hd : ∀ i, (chainDist k).getD i INF_DIST = if i ≤ k ∧ i < 65 then i else INF_DIST := by
    intro i
    unfold chainDist
    rw [getD_map_range]
    by_cases a : i < 65 <;> by_cases b : i ≤ k <;> simp [a, b]
  have hset1 : (chainDist k).set (k + 1) (k + 1) = chainDist (k + 1) := by
    unfold chainDist
    rw [set_map_range]
    apply List.map_congr_left
    intro i _
    unfold Function.update
    by_cases a : i = k + 1
    · subst a; simp
    · have : (i ≤ k + 1) = (i ≤ k) := by
        apply propext; constructor <;> intro h <;> omega
      simp [a, this]
  have hset2 : (chainPrev k).set (k + 1) (some k) = chainPrev (k + 1) := by
    unfold chainPrev
    rw [set_map_range]
    apply List.map_congr_left
    intro i _
    unfold Function.update
    by_cases a : i = k + 1
    · subst a; simp
    · have : (i ≤ k + 1) = (i ≤ k) := by
        apply propext; constructor <;> intro h <;> omega
      simp [a, this]
  have hk1 : (chainDist k).getD k INF_DIST = k := by
    rw [hd, if_pos ⟨le_rfl, by omega⟩]
  have hk2 : (chainDist k).getD (k + 1) INF_DIST = INF_DIST := by
    rw [hd, if_neg (by omega)]
  have hk3 : (chainDist k).getD (k - 1) INF_DIST = k - 1 := by
    rw [hd, if_pos ⟨by omega, by omega⟩]
  have hlast : dijkstra_relax k [⟨k + 1, 1⟩] (chainDist k) (chainPrev k)
      = (chainDist (k + 1), chainPrev (k + 1)) := by
    rw [dijkstra_relax_cons]
    show (if (chainDist k).getD k INF_DIST + 1 < (chainDist k).getD (k + 1) INF_DIST
      then dijkstra_relax k [] ((chainDist k).set (k + 1) ((chainDist k).getD k INF_DIST + 1))
        ((chainPrev k).set (k + 1) (some k))
      else dijkstra_relax k [] (chainDist k) (chainPrev k)) = _
    rw [hk1, hk2, INF_DIST_nat, if_pos (by omega), hset1, hset2]
    rfl
  have hadj : chainAdj.getD k [] = (if 0 < k then [⟨k - 1, 1⟩] else []) ++ [⟨k + 1, 1⟩] := by
    unfold chainAdj
    rw [getD_map_range, if_pos (by show k < 256; omega), if_pos (by omega),
      if_pos hk]
  rw [hadj]
  by_cases h0 : 0 < k
  · rw [if_pos h0]
    show dijkstra_relax k (⟨k - 1, 1⟩ :: [⟨k + 1, 1⟩]) (chainDist k) (chainPrev k) = _
    rw [dijkstra_relax_cons]
    show (if (chainDist k).getD k INF_DIST + 1 < (chainDist k).getD (k - 1) INF_DIST
      then _ else dijkstra_relax k [⟨k + 1, 1⟩] (chainDist k) (chainPrev k)) = _
    rw [hk1, hk3, if_neg (by omega)]
    exact hlast
  · rw [if_neg h0]
    exact hlast

theorem chain_used (k : Nat) : (chainUsed k).set k true = chainUsed (k + 1) := by
  unfold chainUsed
  rw [set_map_range]
  apply List.map_congr_left
  intro i _
  unfold Function.update
  by_cases a : i = k
  · subst a; simp
  · have : (i < k + 1) = (i < k) := by
      apply propext; constructor <;> intro h <;> omega
    simp [a, this]

theorem chain_loop (m : Nat) : ∀ (k f : Nat), k + m = 64 →
    dijkstra_loop chainAdj 65 64 (f + m + 1)
      { dist := chainDist k, used := chainUsed k, prev := chainPrev k }
      = { dist := chainDist 64, used := chainUsed 65, prev := chainPrev 64 } := by
  induction m with
  | zero =>
    intro k f hk
    have hk64 : k = 64 := by omega
    subst hk64
    rw [dijkstra_loop]
    simp only [chain_scan 64 le_rfl, if_true, chain_used]
  | succ m ih =>
    intro k f hk
    show dijkstra_loop chainAdj 65 64 (f + (m + 1) + 1) _ = _
    rw [dijkstra_loop]
    simp only [chain_scan k (by omega)]
    rw [if_neg (by omega), chain_relax k (by omega), chain_used]
    exact ih (k + 1) f (by omega)

/-- On the chain `dijkstra(0, 64)` returns 64 and leaves `prev[i] = i - 1`. -/
theorem chain_dijkstra : dijkstra chainAdj 65 0 64 = (64, chainPrev 64) := by
  have a : (List.replicate 65 (INF_DIST : ℕ)).set 0 0 = chainDist 0 := by decide!
  have b : List.replicate 65 false = chainUsed 0 := by decide!
  have c : List.replicate 65 (none : Option Nat) = chainPrev 0 := by decide!
  unfold dijkstra dijkstra_init
  simp only []
  rw [a, b, c, chain_loop 64 0 0 rfl]
  show ((chainDist 64).getD 64 INF_DIST, chainPrev 64) = _
  unfold chainDist
  rw [getD_map_range]
  rfl

theorem exChain_fields : exChain.g_adj = chainAdj ∧ exChain.g_cities = exChainNames ∧
    exChain.g_wh = [⟨"W1", "c00", "water", 5⟩] ∧
    insertion_qsort cmp_relief exChain.g_rf = [⟨"X", "c64", "water", 1, 1, 1, 50⟩] ∧
    exChain.g_alloc = [] := by
  decide!

theorem exChain_alloc :
    (run_allocation insertion_qsort exChain).g_alloc
      = [{ whIndex := 0, rfIndex := 0, qty := 1, dist := 64,
           pathCities := List.range 64, pathLen := 65 }] := by
  obtain ⟨fadj, fc, fwh, frf, fal⟩ := exChain_fields
  obtain ⟨t, ht⟩ : ∃ t : State ℕ,
      t = { exChain with g_rf := insertion_qsort cmp_relief exChain.g_rf } := ⟨_, rfl⟩
  have hadj : t.g_adj = chainAdj := by rw [ht]; dsimp only; exact fadj
  have hc : t.g_cities = exChainNames := by rw [ht]; dsimp only; exact fc
  have hwh : t.g_wh = [⟨"W1", "c00", "water", 5⟩] := by rw [ht]; dsimp only; exact fwh
  have hrf : t.g_rf = [⟨"X", "c64", "water", 1, 1, 1, 50⟩] := by rw [ht]; dsimp only; exact frf
  have hal : t.g_alloc = [] := by rw [ht]; dsimp only; exact fal
  have hrun : run_allocation insertion_qsort exChain = serve_request t 0 := by
    have h1 : run_allocation insertion_qsort exChain = serve_upto t t.g_rf.length := by
      rw [ht]
      unfold run_allocation
      dsimp only
    rw [h1, hrf]
    rfl
  have hrow : t.g_rf.getD 0 default = ⟨"X", "c64", "water", 1, 1, 1, 50⟩ := by rw [hrf]; rfl
  have hw0 : t.g_wh.getD 0 default = ⟨"W1", "c00", "water", 5⟩ := by rw [hwh]; rfl
  have hB : city_index t "c64" = (some 64, t) := by
    rw [city_index_found t "c64" (by rw [hc]; decide!), hc]
    have : exChainNames.indexOf "c64" = 64 := by decide!
    rw [this]
  have hA : city_index t "c00" = (some 0, t) := by
    rw [city_index_found t "c00" (by rw [hc]; decide!), hc]
    rfl
  have hdij : dijkstra t.g_adj t.g_cities.length 0 64 = (64, chainPrev 64) := by
    rw [hadj, hc]
    exact chain_dijkstra
  have hcs : candidate_step (⟨"X", "c64", "water", 1, 1, 1, 50⟩ : ReliefRow) 64 (t, []) 0
      = (t, [(0, 64)]) := by
    unfold candidate_step
    simp only [hw0]
    rw [if_neg (by decide)]
    simp only [ne_eq, not_true_eq_false, if_false, hA, hdij]
    rw [if_neg (by decide!)]
    rfl
  have hsort : sort_candidates [((0 : ℕ), (64 : ℕ))] = [(0, 64)] := by decide
  have hrange : List.range t.g_wh.length = [0] := by rw [hwh]; rfl
  have hpath : (build_path (65 + 1) 0 64 (chainPrev 64)).getD [] = List.range 65 := by
    decide!
  have htake : take_qty t 0 0 = 1 := by
    unfold take_qty
    rw [hw0, hrow]
    rfl
  rw [hrun]
  unfold serve_request
  simp only [hrow]
  rw [if_neg (by decide)]
  simp only [hB, hrange, List.foldl_cons, List.foldl_nil, hcs, List.length_singleton,
    one_ne_zero, if_false, hsort]
  rw [allocate_step_commit_eq 0 64 t (0, 64) 0 (by rw [hrow]; decide)
    (by show 0 < (t.g_wh.getD 0 default).qty
        rw [hw0]; decide)
    (by show city_index t (t.g_wh.getD 0 default).city = _
        rw [hw0]; exact hA)
    (by rw [hdij]; decide!)]
  obtain ⟨a1, a2, a3, a4, a5, a6⟩ := add_allocated_frame
    (commit t 0 ((0 : ℕ), (64 : ℕ)).1 (take_qty t 0 ((0 : ℕ), (64 : ℕ)).1)
      (make_row t 0 64 ((0 : ℕ), (64 : ℕ)).1 0 t.g_cities.length
        (dijkstra t.g_adj t.g_cities.length 0 64)))
    (t.g_rf.getD 0 default).resource (take_qty t 0 ((0 : ℕ), (64 : ℕ)).1)
  rw [a6]
  show (if t.g_alloc.length < MAX_ALLOC then t.g_alloc ++ [_] else t.g_alloc) = _
  rw [hal, if_pos (by decide), List.nil_append]
  unfold make_row
  dsimp only
  have hlen : exChainNames.length = 65 := rfl
  rw [hdij, hc, hlen, hpath, htake]
  decide!

/-- C10 (failing input): on a chain of 65 cities the one record has distance 64
and `pathLen = 65`, but `pathCities` has room for 64 ids only: the stored ids are
0..63, the request's city id 64 is not among them (`build_path` has written
65 entries into the 64-entry `pathIdx`). -/
theorem C10_path_truncated :
    (run_allocation insertion_qsort exChain).g_alloc.map (fun a => (a.dist, a.pathLen))
      = [(64, 65)] ∧
    (run_allocation insertion_qsort exChain).g_alloc.map (fun a => a.pathCities)
      = [List.range 64] ∧
    cityOf exChain (exChain.g_rf.getD 0 default).city = 64 ∧
    (∀ a ∈ (run_allocation insertion_qsort exChain).g_alloc,
      MAX_PATH < a.pathLen ∧ a.pathCities.length = MAX_PATH ∧
      (a.pathCities.take a.pathLen).getLast? = some 63 ∧ 64 ∉ a.pathCities) := by
  rw [exChain_alloc]
  refine ⟨by decide!, by decide!, by decide!, by decide!⟩

theorem reverse_fold_spec (out : List Nat) :
    ∀ k, 2 * k ≤ out.length →
      ((List.range k).foldl
        (fun o i => (o.set i (o.getD (out.length - 1 - i) 0)).set (out.length - 1 - i)
          (o.getD i 0)) out).length = out.length ∧
      ∀ i, ((List.range k).foldl
        (fun o i => (o.set i (o.getD (out.length - 1 - i) 0)).set (out.length - 1 - i)
          (o.getD i 0)) out).getD i 0
        = if i < k ∨ (out.length - k ≤ i ∧ i < out.length)
          then out.getD (out.length - 1 - i) 0 else out.getD i 0 := by
  intro k
  induction k with
  | zero =>
    intro _
    refine ⟨rfl, ?_⟩
    intro i
    rw [if_neg (by omega)]
    rfl
  | succ k ih =>
    intro hk
    obtain ⟨hlen, hget⟩ := ih (by omega)
    rw [List.range_succ, List.foldl_append]
    simp only [List.foldl_cons, List.foldl_nil]
    obtain ⟨F, hF⟩ : ∃ F, F = (List.range k).foldl
        (fun o i => (o.set i (o.getD (out.length - 1 - i) 0)).set (out.length - 1 - i)
          (o.getD i 0)) out := ⟨_, rfl⟩
    rw [← hF] at hlen hget ⊢
    refine ⟨by rw [List.length_set, List.length_set, hlen], ?_⟩
    have hA : F.getD (out.length - 1 - k) 0 = out.getD (out.length - 1 - k) 0 := by
      rw [hget, if_neg (by omega)]
    have hB : F.getD k 0 = out.getD k 0 := by
      rw [hget, if_neg (by omega)]
    intro i
    rw [getD_set_eq, getD_set_eq, List.length_set, hlen, hA, hB, hget i]
    by_cases h1 : out.length - 1 - k = i
    · have c1 : out.length - 1 - k = i ∧ out.length - 1 - k < out.length := ⟨h1, by omega⟩
      have c2 : i < k + 1 ∨ (out.length - (k + 1) ≤ i ∧ i < out.length) :=
        Or.inr ⟨by omega, by omega⟩
      rw [if_pos c1, if_pos c2]
      congr 1
      omega
    · have c1 : ¬ (out.length - 1 - k = i ∧ out.length - 1 - k < out.length) :=
        fun h => h1 h.1
      rw [if_neg c1]
      by_cases h2 : k = i
      · have c2 : k = i ∧ k < out.length := ⟨h2, by omega⟩
        have c3 : i < k + 1 ∨ (out.length - (k + 1) ≤ i ∧ i < out.length) :=
          Or.inl (by omega)
        rw [if_pos c2, if_pos c3, h2]
      · have c2 : ¬ (k = i ∧ k < out.length) := fun h => h2 h.1
        rw [if_neg c2]
        by_cases h3 : i < k ∨ (out.length - k ≤ i ∧ i < out.length)
        · have c3 : i < k + 1 ∨ (out.length - (k + 1) ≤ i ∧ i < out.length) := by omega
          rw [if_pos h3, if_pos c3]
        · have c3 : ¬ (i < k + 1 ∨ (out.length - (k + 1) ≤ i ∧ i < out.length)) := by omega
          rw [if_neg h3, if_neg c3]

/-- The swap loop of `build_path` reverses the filled prefix of `out`. -/
theorem reverse_in_place_eq (out : List Nat) : reverse_in_place out = out.reverse := by
  obtain ⟨hlen, hget⟩ := reverse_fold_spec out (out.length / 2) (by omega)
  unfold reverse_in_place
  apply List.ext_getElem
  · rw [hlen, List.length_reverse]
  · intro i h1 h2
    have hi : i < out.length := by rw [hlen] at h1; exact h1
    have e1 := hget i
    rw [List.getD_eq_getElem _ _ h1] at e1
    rw [e1, List.getElem_reverse]
    have hidx : out.length - 1 - i < out.length := by omega
    by_cases h3 : i < out.length / 2 ∨ (out.length - out.length / 2 ≤ i ∧ i < out.length)
    · rw [if_pos h3, List.getD_eq_getElem _ _ hidx]
    · rw [if_neg h3, List.getD_eq_getElem _ _ hi]
      congr 1
      omega

theorem chainTo_loop {prev : List (Option Nat)} {src : Nat} :
    ∀ {c : Nat} {l : List Nat}, ChainTo prev src c l → ∀ (fuel : Nat) (out : List Nat),
      l.length ≤ fuel →
      build_path_loop src prev fuel (some c) out = some (some src, out ++ l) := by
  intro c l h
  induction h with
  | here =>
    intro fuel out hf
    cases fuel with
    | zero => simp at hf
    | succ f => rw [build_path_loop, if_pos rfl]
  | step hne hp _ ih =>
    intro fuel out hf
    cases fuel with
    | zero => simp at hf
    | succ f =>
      rw [build_path_loop, if_neg hne, hp, ih f _ (by simpa using hf)]
      simp

theorem chainEnds_loop {prev : List (Option Nat)} {src : Nat} :
    ∀ {c k : Nat}, ChainEnds prev src c k → ∀ (fuel : Nat) (out : List Nat),
      k + 1 ≤ fuel →
      ∃ out2, build_path_loop src prev fuel (some c) out = some (none, out2) := by
  intro c k h
  induction h with
  | stop hne hp =>
    intro fuel out hf
    match fuel, hf with
    | f + 2, _ =>
      rw [build_path_loop, if_neg hne, hp, build_path_loop]
      exact ⟨_, rfl⟩
  | step hne hp _ ih =>
    intro fuel out hf
    cases fuel with
    | zero => omega
    | succ f =>
      rw [build_path_loop, if_neg hne, hp]
      exact ih f _ (by omega)

theorem loop_none_chainEnds {prev : List (Option Nat)} {src : Nat} :
    ∀ (fuel c : Nat) (out out2 : List Nat),
      build_path_loop src prev fuel (some c) out = some (none, out2) →
      ∃ k, ChainEnds prev src c k := by
  intro fuel
  induction fuel with
  | zero =>
    intro c out out2 h
    simp [build_path_loop] at h
  | succ f ih =>
    intro c out out2 h
    rw [build_path_loop] at h
    split_ifs at h with hc
    · simp at h
    · cases hp : prev.getD c none with
      | none => exact ⟨1, ChainEnds.stop hc hp⟩
      | some p =>
        rw [hp] at h
        obtain ⟨k, hk⟩ := ih p _ _ h
        exact ⟨k + 1, ChainEnds.step hc hp hk⟩

theorem loop_some_ne {prev : List (Option Nat)} {src : Nat} :
    ∀ (fuel : Nat) (cur : Option Nat) (out : List Nat) (c : Nat) (out2 : List Nat),
      build_path_loop src prev fuel cur out = some (some c, out2) → out2 ≠ [] := by
  intro fuel
  induction fuel with
  | zero =>
    intro cur out c out2 h
    simp [build_path_loop] at h
  | succ f ih =>
    intro cur out c out2 h
    cases cur with
    | none => simp [build_path_loop] at h
    | some c0 =>
      rw [build_path_loop] at h
      split_ifs at h with hc
      · simp only [Option.some.injEq, Prod.mk.injEq] at h
        rw [← h.2]
        simp
      · exact ih _ _ _ _ h

theorem chainTo_ends {prev : List (Option Nat)} {src : Nat} :
    ∀ {c : Nat} {l : List Nat}, ChainTo prev src c l →
      l.head? = some c ∧ l.getLast? = some src := by
  intro c l h
  induction h with
  | here => exact ⟨rfl, rfl⟩
  | step hne hp hl ih =>
    refine ⟨rfl, ?_⟩
    cases hl with
    | here => rfl
    | step a b c2 =>
      rw [List.getLast?_cons_cons]
      exact ih.2

/-- C11: `build_path` returns length 0 when the chain of predecessors from `dst`
reaches `-1` before `src`, the one-element path `[src]` when `src = dst`, and
otherwise, when the chain reaches `src`, the chain reversed, which starts with
`src` and ends with `dst`; length 0 is returned only when the chain reaches `-1`.
Each result is returned as soon as the loop is given as many iterations as the
chain has cities (one more for the final `-1`). -/
theorem C11_build_path (prev : List (Option Nat)) (src dst : Nat) :
    (∀ k, ChainEnds prev src dst k → ∀ fuel, k + 1 ≤ fuel →
      build_path fuel src dst prev = some []) ∧
    (∀ fuel, 1 ≤ fuel → build_path fuel src src prev = some [src]) ∧
    (∀ l, ChainTo prev src dst l → ∀ fuel, l.length ≤ fuel →
      build_path fuel src dst prev = some l.reverse ∧
      l.reverse.head? = some src ∧ l.reverse.getLast? = some dst ∧
      0 < l.reverse.length) ∧
    (∀ fuel, build_path fuel src dst prev = some [] → ∃ k, ChainEnds prev src dst k) ∧
    (build_path 4 0 2 [none, some 0, some 1] = some [0, 1, 2] ∧
      build_path 4 0 2 [none, none, some 1] = some [] ∧
      build_path 4 2 2 [none, none, some 1] = some [2]) := by
  refine ⟨?_, ?_, ?_, ?_, ⟨by decide, by decide, by decide⟩⟩
  · intro k hk fuel hf
    obtain ⟨out2, h⟩ := chainEnds_loop hk fuel [] hf
    unfold build_path
    rw [h]
  · intro fuel hf
    have h := chainTo_loop (ChainTo.here : ChainTo prev src src [src]) fuel [] hf
    unfold build_path
    rw [h]
    show some (reverse_in_place ([] ++ [src])) = _
    rw [reverse_in_place_eq]
    rfl
  · intro l hl fuel hf
    have h := chainTo_loop hl fuel [] hf
    obtain ⟨e1, e2⟩ := chainTo_ends hl
    refine ⟨?_, ?_, ?_, ?_⟩
    · unfold build_path
      rw [h]
      show some (reverse_in_place ([] ++ l)) = _
      rw [reverse_in_place_eq, List.nil_append]
    · rw [List.head?_reverse]; exact e2
    · rw [List.getLast?_reverse]; exact e1
    · rw [List.length_reverse]
      cases l with
      | nil => simp at e1
      | cons a t => simp
  · intro fuel h
    unfold build_path at h
    cases hb : build_path_loop src prev fuel (some dst) [] with
    | none => rw [hb] at h; simp at h
    | some r =>
      obtain ⟨cur, out⟩ := r
      cases cur with
      | none => exact loop_none_chainEnds fuel dst [] out hb
      | some c =>
        rw [hb] at h
        simp only [Option.some.injEq] at h
        rw [reverse_in_place_eq] at h
        have hout : out ≠ [] := loop_some_ne fuel (some dst) [] c out hb
        exact absurd (List.reverse_eq_nil_iff.mp h) hout

/-- C11 (witness): with `prev = [-1, 0, 1]` the chain from 2 reaches 0 and the
path is `[0, 1, 2]`; with `prev = [-1, -1, 1]` the chain from 2 ends at `-1`
after two cities and the length is 0. -/
theorem C11_build_path_witness :
    ChainTo [none, some 0, some 1] 0 2 [2, 1, 0] ∧
    ChainEnds [none, none, some 1] 0 2 2 ∧
    build_path 3 0 2 [none, some 0, some 1] = some [0, 1, 2] ∧
    build_path 3 0 2 [none, none, some 1] = some [] :=
  have h1 : ChainTo [none, some 0, some 1] 0 2 [2, 1, 0] :=
    ChainTo.step (by decide) rfl (ChainTo.step (by decide) rfl ChainTo.here)
  have h2 : ChainEnds [none, none, some 1] 0 2 2 :=
    ChainEnds.step (by decide) rfl (ChainEnds.stop (by decide) rfl)
  ⟨h1, h2,
    ((C11_build_path [none, some 0, some 1] 0 2).2.2.1 [2, 1, 0] h1 3 (by decide)).1,
    (C11_build_path [none, none, some 1] 0 2).1 2 h2 3 (by decide)⟩

theorem strncpy_short (n : Nat) (s : String) (h : s.length ≤ n) : strncpy n s = s := by
  cases s with
  | mk data =>
    unfold strncpy
    have hd : data.length ≤ n := h
    simp only [List.take_of_length_le hd]

theorem city_index_absent (s : State D) (name : String) (h : name ∉ s.g_cities) :
    city_index s name =
      if s.g_cities.length ≥ MAX_CITIES then (none, s)
      else (some s.g_cities.length,
        { s with g_cities := s.g_cities ++ [strncpy (MAX_NAME_LEN - 1) name] }) := by
  unfold city_index
  simp only []
  rw [if_neg (by rw [List.indexOf_lt_length]; exact h)]

theorem intern_all_nodup (names : List String) :
    ∀ s : State D, names.Nodup → (∀ nm ∈ names, nm.length ≤ MAX_NAME_LEN - 1) →
      (∀ nm ∈ names, nm ∉ s.g_cities) → s.g_cities.length + names.length ≤ MAX_CITIES →
      (intern_all s names).g_cities = s.g_cities ++ names := by
  induction names with
  | nil =>
    intro s _ _ _ _
    simp [intern_all]
  | cons a t ih =>
    intro s hnd hshort hnew hlen
    have ha : a ∉ s.g_cities := hnew a (List.mem_cons_self _ _)
    have hlt : ¬ s.g_cities.length ≥ MAX_CITIES := by
      simp only [List.length_cons] at hlen
      omega
    have hstep : (city_index s a).2.g_cities = s.g_cities ++ [a] := by
      rw [city_index_absent s a ha, if_neg hlt,
        strncpy_short _ a (hshort a (List.mem_cons_self _ _))]
    show (intern_all (city_index s a).2 t).g_cities = _
    rw [ih (city_index s a).2 (List.nodup_cons.mp hnd).2
      (fun nm h => hshort nm (List.mem_cons_of_mem _ h)) ?_ ?_, hstep]
    · simp
    · intro nm hm
      rw [hstep, List.mem_append, List.mem_singleton]
      rintro (h | h)
      · exact hnew nm (List.mem_cons_of_mem _ hm) h
      · exact (List.nodup_cons.mp hnd).1 (h ▸ hm)
    · rw [hstep, List.length_append]
      simp only [List.length_cons, List.length_nil] at hlen ⊢
      omega

theorem strncpy_length (n : Nat) (s : String) : (strncpy n s).length ≤ n := by
  show (s.data.take n).length ≤ n
  exact List.length_take_le n s.data

/-- C12: for every name the program passes to `city_index`, a C string held in a
`char[MAX_NAME_LEN]` field and so of at most 63 bytes, `city_index` returns the
existing id of a registered name and leaves the registry as it is; for a new
name it returns the current count and appends the name while fewer than 256
names are stored, and returns `-1` without a change when the registry is full.
Hence the same name gets the same id at any later time, different names get
different ids, and from an empty registry the `k`-th new name gets the id `k`.
The last three parts say that the arguments of the calls are such names: what
`strncpy(.., MAX_NAME_LEN-1)` stores, as in the `city` fields of the rows and the
`from` and `to` fields of the routes, has at most 63 bytes. -/
theorem C12_city_index (s : State D) (name : String)
    (hshort : name.length ≤ MAX_NAME_LEN - 1) :
    (name ∈ s.g_cities →
      city_index s name = (some (s.g_cities.indexOf name), s) ∧
      s.g_cities.indexOf name < s.g_cities.length ∧
      s.g_cities.getD (s.g_cities.indexOf name) "" = name) ∧
    (name ∉ s.g_cities → s.g_cities.length < MAX_CITIES →
      city_index s name =
        (some s.g_cities.length, { s with g_cities := s.g_cities ++ [name] })) ∧
    (name ∉ s.g_cities → MAX_CITIES ≤ s.g_cities.length → city_index s name = (none, s)) ∧
    (∀ (i : Nat) (s2 : State D) (extra : List String),
      (city_index s name).1 = some i →
      s2.g_cities = (city_index s name).2.g_cities ++ extra →
      city_index s2 name = (some i, s2) ∧
      ∀ (other : String) (j : Nat), other ≠ name →
        (city_index s2 other).1 = some j → i ≠ j) ∧
    (∀ names : List String, names.Nodup → (∀ nm ∈ names, nm.length ≤ MAX_NAME_LEN - 1) →
      names.length ≤ MAX_CITIES → s.g_cities = [] →
      (intern_all s names).g_cities = names ∧
      ∀ k, k < names.length →
        (city_index (intern_all s names) (names.getD k "")).1 = some k) ∧
    (∀ nm : String, (strncpy (MAX_NAME_LEN - 1) nm).length ≤ MAX_NAME_LEN - 1) ∧
    (∀ ln : WarehouseLine, (warehouse_row_of ln).city.length ≤ MAX_NAME_LEN - 1) ∧
    (∀ ln : ReliefLine, (relief_row_of ln).city.length ≤ MAX_NAME_LEN - 1) := by
  have hfound : ∀ (t : State D) (nm : String), nm ∈ t.g_cities →
      t.g_cities.indexOf nm < t.g_cities.length ∧
      t.g_cities.getD (t.g_cities.indexOf nm) "" = nm := by
    intro t nm h
    have hlt := List.indexOf_lt_length.mpr h
    refine ⟨hlt, ?_⟩
    rw [List.getD_eq_getElem _ _ hlt]
    exact List.indexOf_get hlt
  refine ⟨?_, ?_, ?_, ?_, ?_, fun nm => strncpy_length _ nm,
    fun ln => strncpy_length _ ln.city, fun ln => strncpy_length _ ln.city⟩
  · intro h
    exact ⟨city_index_found s name h, hfound s name h⟩
  · intro h hlt
    rw [city_index_absent s name h, if_neg (by omega), strncpy_short _ name hshort]
  · intro h hfull
    rw [city_index_absent s name h, if_pos hfull]
  · intro i s2 extra hi hs2
    -- after the first call the name is registered at position `i`
    have hreg : name ∈ (city_index s name).2.g_cities ∧
        (city_index s name).2.g_cities.indexOf name = i := by
      by_cases h : name ∈ s.g_cities
      · rw [city_index_found s name h] at hi ⊢
        simp only [Option.some.injEq] at hi
        exact ⟨h, hi⟩
      · rw [city_index_absent s name h] at hi ⊢
        by_cases hfull : s.g_cities.length ≥ MAX_CITIES
        · rw [if_pos hfull] at hi
          simp at hi
        · rw [if_neg hfull] at hi ⊢
          simp only [Option.some.injEq] at hi
          rw [strncpy_short _ name hshort]
          refine ⟨by simp, ?_⟩
          show (s.g_cities ++ [name]).indexOf name = i
          rw [List.indexOf_append_of_not_mem h, ← hi]
          simp
    have hmem2 : name ∈ s2.g_cities := by
      rw [hs2]; exact List.mem_append_left _ hreg.1
    have hidx2 : s2.g_cities.indexOf name = i := by
      rw [hs2, List.indexOf_append_of_mem hreg.1]; exact hreg.2
    refine ⟨by rw [city_index_found s2 name hmem2, hidx2], ?_⟩
    intro other j hne hj hij
    obtain ⟨hlt, hget⟩ := hfound s2 name hmem2
    rw [hidx2] at hlt hget
    by_cases ho : other ∈ s2.g_cities
    · rw [city_index_found s2 other ho] at hj
      simp only [Option.some.injEq] at hj
      obtain ⟨_, hget2⟩ := hfound s2 other ho
      rw [hj, ← hij, hget] at hget2
      exact hne hget2.symm
    · rw [city_index_absent s2 other ho] at hj
      by_cases hfull : s2.g_cities.length ≥ MAX_CITIES
      · rw [if_pos hfull] at hj
        simp at hj
      · rw [if_neg hfull] at hj
        simp only [Option.some.injEq] at hj
        omega
  · intro names hnd hsh hlen hempty
    have hall := intern_all_nodup names s hnd hsh (by rw [hempty]; simp)
      (by rw [hempty]; simpa using hlen)
    rw [hempty, List.nil_append] at hall
    refine ⟨hall, ?_⟩
    intro k hk
    have hmem : names.getD k "" ∈ (intern_all s names).g_cities := by
      rw [hall]; exact mem_getD_of_lt names k "" hk
    rw [city_index_found _ _ hmem, hall, List.getD_eq_getElem _ _ hk]
    show some (names.indexOf names[k]) = some k
    rw [List.indexOf_getElem hnd k hk]

/-- C12 (witness): the registry A, B and the name B. -/
theorem C12_city_index_witness :
    "B".length ≤ MAX_NAME_LEN - 1 ∧
    ("B" ∈ exRegistry.g_cities →
      city_index exRegistry "B" = (some (exRegistry.g_cities.indexOf "B"), exRegistry) ∧
      exRegistry.g_cities.indexOf "B" < exRegistry.g_cities.length ∧
      exRegistry.g_cities.getD (exRegistry.g_cities.indexOf "B") "" = "B") ∧
    (city_index exRegistry "B").1 = some 1 :=
  ⟨by decide, (C12_city_index exRegistry "B" (by decide)).1, by decide⟩

/-- C13 (failing input): 512 routes `A,A,0` and then `A,B,5`, 513 edges with
registered endpoints.  The list of city A is full after the self-loops, so the
arc `(B, 5)` is not among the neighbours of A while `(A, 5)` is among the
neighbours of B: the edge `A,B,5` is kept in one direction only. -/
theorem C13_build_graph_asymmetric :
    exLoops.g_edges.length = 513 ∧ exLoops.g_edges.length ≤ MAX_EDGES ∧
    (∀ e ∈ exLoops.g_edges, e.from_ ∈ exLoops.g_cities ∧ e.to_ ∈ exLoops.g_cities) ∧
    (⟨"A", "B", 5⟩ : Edge ℕ) ∈ exLoops.g_edges ∧
    cityOf (build_graph exLoops) "A" = 0 ∧ cityOf (build_graph exLoops) "B" = 1 ∧
    ((build_graph exLoops).g_adj.getD 0 []).count ⟨1, 5⟩ = 0 ∧
    ((build_graph exLoops).g_adj.getD 1 []).count ⟨0, 5⟩ = 1 := by
  have hget0 : ((loopAdj 1024).set 1 [(⟨0, 5⟩ : AdjItem ℕ)]).getD 0 []
      = List.replicate 1024 ⟨0, 0⟩ := by
    rw [getD_set_eq, if_neg (fun h => absurd h.1 (by decide))]
    unfold loopAdj
    rw [getD_set_eq, if_pos ⟨rfl, by rw [List.length_replicate]; decide⟩]
  have hget1 : ((loopAdj 1024).set 1 [(⟨0, 5⟩ : AdjItem ℕ)]).getD 1 [] = [⟨0, 5⟩] := by
    rw [getD_set_eq, if_pos ⟨rfl, by
      unfold loopAdj
      rw [List.length_set, List.length_replicate]
      decide⟩]
  have hedges : exLoops.g_edges = List.replicate 512 ⟨"A", "A", 0⟩ ++ [⟨"A", "B", 5⟩] := rfl
  have hc : exLoops.g_cities = ["A", "B"] := rfl
  refine ⟨?_, ?_, ?_, ?_, ?_, ?_, ?_, ?_⟩
  · rw [hedges, List.length_append, List.length_replicate]
    rfl
  · rw [hedges, List.length_append, List.length_replicate]
    decide
  · intro e he
    rw [hedges, List.mem_append, List.mem_singleton] at he
    rw [hc]
    rcases he with he | he
    · rw [List.eq_of_mem_replicate he]
      decide
    · rw [he]
      decide
  · rw [hedges]
    exact List.mem_append_right _ (List.mem_singleton_self _)
  · unfold cityOf
    rw [exLoops_cities]
    decide
  · unfold cityOf
    rw [exLoops_cities]
    decide
  · rw [exLoops_adj, hget0, List.count_replicate]
    decide
  · rw [exLoops_adj, hget1]
    decide

theorem nearestInt_int (fmt : ℚ → Int) (h : NearestInt fmt) (n : Int) : fmt (n : ℚ) = n := by
  have h1 := h (n : ℚ)
  have h2 : |((fmt (n : ℚ) - n : Int) : ℚ)| ≤ 1 / 2 := by
    push_cast
    exact h1
  have h3 : |fmt (n : ℚ) - n| < 1 := by
    have : ((|fmt (n : ℚ) - n| : Int) : ℚ) < 1 := by
      rw [Int.cast_abs]
      exact lt_of_le_of_lt h2 (by norm_num)
    exact_mod_cast this
  have h4 := Int.abs_lt_one_iff.mp h3
  omega

/-- Rounding to nearest with ties to even is a nearest integer. -/
theorem round_half_even_nearest : NearestInt round_half_even := by
  intro x
  have hf1 : (⌊x⌋ : ℚ) ≤ x := Int.floor_le x
  have hf2 : x < (⌊x⌋ : ℚ) + 1 := Int.lt_floor_add_one x
  unfold round_half_even
  rw [abs_le]
  split_ifs with a b c
  · constructor <;> linarith
  · push_cast
    constructor <;> linarith
  · constructor <;> linarith
  · push_cast
    constructor <;> linarith

theorem totalReq_nonneg (s : State D) (h : ∀ r ∈ s.g_rf, 0 ≤ r.requested) :
    0 ≤ totalReq s := by
  unfold totalReq
  apply List.sum_nonneg
  intro x hx
  rw [List.mem_map] at hx
  obtain ⟨r, hr, rfl⟩ := hx
  exact h r hr

/-- C15: with `%.0f` printing a nearest integer and no negative `requested` in
the table, the coverage `emit_json` reports is 0 when `totalRequested` is 0 and
otherwise a nearest integer of `totalAllocated * 100 / totalRequested`; the
totals are the sum of `requested` over the stored requests and the sum of the
`allocated` counters of the aggregates. -/
theorem C15_coverage (fmt : ℚ → Int) (hfmt : NearestInt fmt) (s : State D)
    (hreq : ∀ r ∈ s.g_rf, 0 ≤ r.requested) :
    (totalReq s = 0 → emit_coverage fmt s = 0) ∧
    (totalReq s ≠ 0 →
      |(emit_coverage fmt s : ℚ) - (totalAlloc s : ℚ) * 100 / (totalReq s : ℚ)| ≤ 1 / 2) ∧
    totalReq s = (s.g_rf.map (fun r => r.requested)).sum ∧
    totalAlloc s = (s.g_res.map (fun r => r.allocated)).sum := by
  have hnn := totalReq_nonneg s hreq
  refine ⟨?_, ?_, rfl, rfl⟩
  · intro h0
    unfold emit_coverage coverage_pct
    rw [if_neg (by omega)]
    exact nearestInt_int fmt hfmt 0
  · intro hne
    unfold emit_coverage coverage_pct
    rw [if_pos (by omega)]
    exact hfmt _

/-- C15 (witness): the example tables with 80 of 110 requested units allocated
print 73. -/
theorem C15_coverage_witness :
    (∀ r ∈ (run_allocation insertion_qsort exLoaded).g_rf, 0 ≤ r.requested) ∧
    (totalReq (run_allocation insertion_qsort exLoaded) ≠ 0 →
      |(emit_coverage round_half_even (run_allocation insertion_qsort exLoaded) : ℚ)
        - (totalAlloc (run_allocation insertion_qsort exLoaded) : ℚ) * 100
          / (totalReq (run_allocation insertion_qsort exLoaded) : ℚ)| ≤ 1 / 2) ∧
    totalAlloc (run_allocation insertion_qsort exLoaded) = 80 ∧
    totalReq (run_allocation insertion_qsort exLoaded) = 110 ∧
    emit_coverage round_half_even (run_allocation insertion_qsort exLoaded) = 73 :=
  ⟨by decide,
    (C15_coverage round_half_even round_half_even_nearest
      (run_allocation insertion_qsort exLoaded) (by decide)).2.1,
    by decide, by decide, by decide!⟩

theorem load_relief_line_rf (s : State D) (ln : ReliefLine) :
    (load_relief_line s ln).g_rf = s.g_rf ∨
    ((load_relief_line s ln).g_rf = s.g_rf ++ [relief_row_of ln] ∧
      (relief_row_of ln).area ≠ "" ∧ (relief_row_of ln).city ≠ "" ∧
      (relief_row_of ln).resource ≠ "" ∧ s.g_rf.length < MAX_RELIEF_ROWS) := by
  unfold load_relief_line
  simp only []
  split_ifs with h1 h2
  · exact Or.inl rfl
  · right
    rw [(add_requested_frame _ _ _).2.1, (city_index_spec _ _).2.2.2.1]
    simp only [not_or] at h1
    exact ⟨rfl, h1.1, h1.2.1, h1.2.2, h2⟩
  · exact Or.inl rfl

theorem relief_row_of_ok (ln : ReliefLine) :
    0 ≤ (relief_row_of ln).requested ∧
    (relief_row_of ln).remaining = (relief_row_of ln).requested ∧
    0 ≤ (relief_row_of ln).urgency ∧ (relief_row_of ln).urgency ≤ 100 ∧
    (relief_row_of ln).people = ln.people := by
  unfold relief_row_of
  simp only []
  refine ⟨?_, trivial, ?_, ?_, trivial⟩
  · split_ifs <;> omega
  · split_ifs <;> omega
  · split_ifs <;> omega

/-- What `load_relief` guarantees of every row it stores: non-empty names,
`requested ≥ 0`, `remaining = requested` and `urgency` within `[0, 100]`. -/
theorem load_relief_rows (lines : List ReliefLine) :
    ∀ s : State D, ∀ r ∈ (load_relief s lines).g_rf, r ∈ s.g_rf ∨
      (r.area ≠ "" ∧ r.city ≠ "" ∧ r.resource ≠ "" ∧ 0 ≤ r.requested ∧
        r.remaining = r.requested ∧ 0 ≤ r.urgency ∧ r.urgency ≤ 100) := by
  induction lines with
  | nil => intro s r h; exact Or.inl h
  | cons ln t ih =>
    intro s r h
    rcases ih (load_relief_line s ln) r h with h1 | h1
    · rcases load_relief_line_rf s ln with e | ⟨e, a1, a2, a3, _⟩
      · rw [e] at h1; exact Or.inl h1
      · rw [e, List.mem_append, List.mem_singleton] at h1
        rcases h1 with h1 | h1
        · exact Or.inl h1
        · obtain ⟨b1, b2, b3, b4, _⟩ := relief_row_of_ok ln
          rw [h1]
          exact Or.inr ⟨a1, a2, a3, b1, b2, b3, b4⟩
    · exact Or.inr h1

theorem load_warehouse_line_wh (s : State D) (ln : WarehouseLine) :
    (load_warehouse_line s ln).g_wh = s.g_wh ∨
    ((load_warehouse_line s ln).g_wh = s.g_wh ++ [warehouse_row_of ln] ∧
      (warehouse_row_of ln).warehouse ≠ "" ∧ (warehouse_row_of ln).city ≠ "" ∧
      (warehouse_row_of ln).resource ≠ "" ∧ s.g_wh.length < MAX_WAREHOUSE_ROWS) := by
  unfold load_warehouse_line
  simp only []
  split_ifs with h1 h2
  · exact Or.inl rfl
  · right
    rw [(city_index_spec _ _).2.2.1]
    simp only [not_or] at h1
    exact ⟨rfl, h1.1, h1.2.1, h1.2.2, h2⟩
  · exact Or.inl rfl

/-- What `load_warehouses` guarantees of every row it stores: non-empty names
and `qty ≥ 0`. -/
theorem load_warehouses_rows (lines : List WarehouseLine) :
    ∀ s : State D, ∀ w ∈ (load_warehouses s lines).g_wh, w ∈ s.g_wh ∨
      (w.warehouse ≠ "" ∧ w.city ≠ "" ∧ w.resource ≠ "" ∧ 0 ≤ w.qty) := by
  induction lines with
  | nil => intro s w h; exact Or.inl h
  | cons ln t ih =>
    intro s w h
    rcases ih (load_warehouse_line s ln) w h with h1 | h1
    · rcases load_warehouse_line_wh s ln with e | ⟨e, a1, a2, a3, _⟩
      · rw [e] at h1; exact Or.inl h1
      · rw [e, List.mem_append, List.mem_singleton] at h1
        rcases h1 with h1 | h1
        · exact Or.inl h1
        · rw [h1]
          refine Or.inr ⟨a1, a2, a3, ?_⟩
          unfold warehouse_row_of
          simp only []
          split_ifs <;> omega
    · exact Or.inr h1

theorem load_route_line_edges (s : State D) (ln : RouteLine D) :
    (load_route_line s ln).g_edges = s.g_edges ∨
    (∃ e : Edge D, (load_route_line s ln).g_edges = s.g_edges ++ [e] ∧
      0 ≤ e.dist ∧ e.from_ ≠ "" ∧ e.to_ ≠ "" ∧ s.g_edges.length < MAX_EDGES) := by
  unfold load_route_line
  simp only []
  split_ifs with h1 h2 h3
  · exact Or.inl rfl
  · exact Or.inl rfl
  · right
    refine ⟨{ from_ := strncpy (MAX_NAME_LEN - 1) ln.from_,
              to_ := strncpy (MAX_NAME_LEN - 1) ln.to_, dist := ln.dist },
      ?_, not_lt.mp h1, ?_, ?_, h3⟩
    · rw [(city_index_spec _ _).2.1, (city_index_spec _ _).2.1]
    · simp only [not_or] at h2; exact h2.1
    · simp only [not_or] at h2; exact h2.2
  · exact Or.inl rfl

/-- What `load_routes` guarantees of every route it stores, over exact
distances: non-empty names and `dist ≥ 0`. -/
theorem load_routes_rows (lines : List (RouteLine D)) :
    ∀ s : State D, ∀ e ∈ (load_routes s lines).g_edges, e ∈ s.g_edges ∨
      (e.from_ ≠ "" ∧ e.to_ ≠ "" ∧ 0 ≤ e.dist) := by
  induction lines with
  | nil => intro s e h; exact Or.inl h
  | cons ln t ih =>
    intro s e h
    rcases ih (load_route_line s ln) e h with h1 | h1
    · rcases load_route_line_edges s ln with e1 | ⟨e2, e1, a1, a2, a3, _⟩
      · rw [e1] at h1; exact Or.inl h1
      · rw [e1, List.mem_append, List.mem_singleton] at h1
        rcases h1 with h1 | h1
        · exact Or.inl h1
        · rw [h1]
          exact Or.inr ⟨a2, a3, a1⟩
    · exact Or.inr h1

/-- C17 (failing input): the relief line `X,A,water,1,-5,50` is stored with
`people = -5`; `load_relief` clamps `requested` and `urgency` but copies
`people` as `atoi` returns it.  The rest of the loader contract holds for every
input: stored relief rows have non-empty names, `requested ≥ 0`,
`remaining = requested` and `urgency` within `[0, 100]`, stored warehouse rows
have `qty ≥ 0`, stored routes have `dist ≥ 0` when the distance is a number (a
field that `atof` turns into `nan` passes the test `e.dist < 0` and is outside
`D`). -/
theorem C17_people_not_clamped :
    (load_relief (State.init : State ℕ) [exNegPeopleLine]).g_rf
      = [⟨"X", "A", "water", 1, 1, -5, 50⟩] ∧
    ((load_relief (State.init : State ℕ) [exNegPeopleLine]).g_rf.getD 0 default).people < 0 ∧
    (∀ (ln : ReliefLine), (relief_row_of ln).people = ln.people) ∧
    (∀ (lines : List ReliefLine), ∀ r ∈ (load_relief (State.init : State D) lines).g_rf,
      r.area ≠ "" ∧ r.city ≠ "" ∧ r.resource ≠ "" ∧ 0 ≤ r.requested ∧
        r.remaining = r.requested ∧ 0 ≤ r.urgency ∧ r.urgency ≤ 100) ∧
    (∀ (lines : List WarehouseLine),
      ∀ w ∈ (load_warehouses (State.init : State D) lines).g_wh,
        w.warehouse ≠ "" ∧ w.city ≠ "" ∧ w.resource ≠ "" ∧ 0 ≤ w.qty) ∧
    (∀ (lines : List (RouteLine D)),
      ∀ e ∈ (load_routes (State.init : State D) lines).g_edges,
        e.from_ ≠ "" ∧ e.to_ ≠ "" ∧ 0 ≤ e.dist) := by
  refine ⟨by decide, by decide, fun ln => rfl, ?_, ?_, ?_⟩
  · intro lines r hr
    rcases load_relief_rows lines State.init r hr with h | h
    · simp [State.init] at h
    · exact h
  · intro lines w hw
    rcases load_warehouses_rows lines State.init w hw with h | h
    · simp [State.init] at h
    · exact h
  · intro lines e he
    rcases load_routes_rows lines State.init e he with h | h
    · simp [State.init] at h
    · exact h

theorem dijkstra_two (G : List (List (AdjItem D))) (d : D)
    (h0 : G.getD 0 [] = [⟨1, d⟩]) (hd : d < INF_DIST) :
    dijkstra G 2 0 1 = (d, [none, some 0]) := by
  have hinf : ¬ (INF_DIST : D) < 0 := not_lt.mpr INF_DIST_pos.le
  have st0 : (dijkstra_init 2 0 : DState D)
      = ⟨[0, INF_DIST], [false, false], [none, none]⟩ := rfl
  have hs : dijkstra_scan 2 [(0 : D), INF_DIST] [false, false] = (some 0, 0) := by
    unfold dijkstra_scan
    simp [List.range_succ, INF_DIST_pos, hinf]
  have hr : dijkstra_relax 0 [(⟨1, d⟩ : AdjItem D)] [0, INF_DIST] [none, none]
      = ([0, d], [none, some 0]) := by
    unfold dijkstra_relax
    simp [hd, DistArith.zero_add_left]
  have hs2 : (dijkstra_scan 2 [(0 : D), d] [true, false]).1 = some 1 := by
    unfold dijkstra_scan
    simp [List.range_succ, hd]
  unfold dijkstra
  rw [st0, dijkstra_loop]
  simp only [hs]
  rw [if_neg (by decide), h0, hr, dijkstra_loop]
  simp only [List.set_cons_zero, hs2]
  rfl

/-- Serving request 0 when the only warehouse row is a reachable candidate: one
commit. -/
theorem serve_single (t : State D) (wrow : WarehouseRow) (row : ReliefRow) (cw cn : Nat)
    (d : D) (prev : List (Option Nat))
    (hwh : t.g_wh = [wrow]) (hrf0 : t.g_rf.getD 0 default = row)
    (hres : wrow.resource = row.resource) (hq : 0 < wrow.qty) (hr : 0 < row.remaining)
    (hcn : city_index t row.city = (some cn, t))
    (hcw : city_index t wrow.city = (some cw, t))
    (hdij : dijkstra t.g_adj t.g_cities.length cw cn = (d, prev)) (hd : d < INF_DIST) :
    serve_request t 0 =
      add_allocated
        (commit t 0 0 (take_qty t 0 0) (make_row t 0 cn 0 cw t.g_cities.length (d, prev)))
        row.resource (take_qty t 0 0) := by
  have hw0 : t.g_wh.getD 0 default = wrow := by rw [hwh]; rfl
  have hrange : List.range t.g_wh.length = [0] := by rw [hwh]; rfl
  have hcs : candidate_step row cn (t, []) 0 = (t, [(0, d)]) := by
    unfold candidate_step
    simp only [hw0]
    rw [if_neg (not_le.mpr hq), if_neg (not_not.mpr hres)]
    simp only [hcw, hdij]
    rw [if_neg (not_le.mpr hd)]
    rfl
  have hsort : sort_candidates [((0 : ℕ), d)] = [(0, d)] := rfl
  unfold serve_request
  simp only [hrf0]
  rw [if_neg (not_le.mpr hr)]
  simp only [hcn, hrange, List.foldl_cons, List.foldl_nil, hcs, List.length_singleton,
    one_ne_zero, if_false, hsort]
  rw [allocate_step_commit_eq 0 cn t (0, d) cw (by rw [hrf0]; exact hr)
    (by show 0 < (t.g_wh.getD 0 default).qty
        rw [hw0]; exact hq)
    (by show city_index t (t.g_wh.getD 0 default).city = _
        rw [hw0]; exact hcw)
    (by rw [hdij]; exact hd), hdij, hrf0]

theorem exScenario_fields (wn a b res area : String) (S q p u : Int) (d : D) (hab : a ≠ b) :
    (exScenario wn a b res area S q p u d).g_wh = [⟨wn, a, res, S⟩] ∧
    (exScenario wn a b res area S q p u d).g_rf = [⟨area, b, res, q, q, p, u⟩] ∧
    (exScenario wn a b res area S q p u d).g_cities = [a, b] ∧
    (exScenario wn a b res area S q p u d).g_res = [⟨res, q, 0⟩] ∧
    (exScenario wn a b res area S q p u d).g_alloc = [] ∧
    (exScenario wn a b res area S q p u d).g_adj.getD 0 [] = [⟨1, d⟩] ∧
    (exScenario wn a b res area S q p u d).g_adj.getD 1 [] = [⟨0, d⟩] := by
  obtain ⟨s0, hs0⟩ : ∃ s0 : State D, s0 =
      { g_wh := [⟨wn, a, res, S⟩], g_rf := [⟨area, b, res, q, q, p, u⟩],
        g_edges := [⟨a, b, d⟩], g_cities := [a, b], g_res := [⟨res, q, 0⟩],
        g_adj := (List.range 2).foldl (fun adj i => adj.set i [])
          (List.replicate MAX_CITIES []),
        g_alloc := [] } := ⟨_, rfl⟩
  have hA : city_index s0 a = (some 0, s0) := by
    rw [city_index_found s0 a (by rw [hs0]; simp)]
    rw [hs0]
    simp
  have hB : city_index s0 b = (some 1, s0) := by
    rw [city_index_found s0 b (by rw [hs0]; simp)]
    rw [hs0]
    simp [List.indexOf_cons_ne _ hab]
  have hbg : exScenario wn a b res area S q p u d = build_graph_step s0 ⟨a, b, d⟩ := by
    rw [hs0]
    rfl
  rw [hbg]
  unfold build_graph_step
  simp only [hA, hB]
  rw [hs0]
  refine ⟨rfl, rfl, rfl, rfl, rfl, ?_, ?_⟩
  · rfl
  · rfl

/-- C16: in the single-warehouse scenario (city `a` ≠ city `b`, `0 < q ≤ S`,
one route of distance `d` below the sentinel) `run_allocation` writes exactly
one record: warehouse row 0, request 0, `qty = q`, `dist = d`, path
`[id(a), id(b)] = [0, 1]` of length 2.  The warehouse is left with `S - q`, the
request with `remaining = 0` (status `Met`), and the coverage is 100. -/
theorem C16_single_warehouse
    (qsort : (ReliefRow → ReliefRow → Int) → List ReliefRow → List ReliefRow)
    (hq : QsortContract qsort) (fmt : ℚ → Int) (hfmt : NearestInt fmt)
    (wn a b res area : String) (S q p u : Int) (d : D)
    (hab : a ≠ b) (hq0 : 0 < q) (hqS : q ≤ S) (hd : d < INF_DIST) :
    (run_allocation qsort (exScenario wn a b res area S q p u d)).g_alloc
      = [{ whIndex := 0, rfIndex := 0, qty := q, dist := d,
           pathCities := store_path [0, 1], pathLen := 2 }] ∧
    (store_path [0, 1]).take 2
      = [cityOf (exScenario wn a b res area S q p u d) a,
         cityOf (exScenario wn a b res area S q p u d) b] ∧
    (run_allocation qsort (exScenario wn a b res area S q p u d)).g_wh
      = [⟨wn, a, res, S - q⟩] ∧
    (run_allocation qsort (exScenario wn a b res area S q p u d)).g_rf
      = [⟨area, b, res, q, 0, p, u⟩] ∧
    emit_status ((run_allocation qsort (exScenario wn a b res area S q p u d)).g_rf.getD 0
      default) = Status.Met ∧
    coverage_pct (run_allocation qsort (exScenario wn a b res area S q p u d)) = 100 ∧
    emit_coverage fmt (run_allocation qsort (exScenario wn a b res area S q p u d)) = 100 := by
  obtain ⟨fwh, frf, fc, fres, fal, fadj0, fadj1⟩ :=
    exScenario_fields wn a b res area S q p u d hab
  obtain ⟨row, hrow⟩ : ∃ row : ReliefRow, row = ⟨area, b, res, q, q, p, u⟩ := ⟨_, rfl⟩
  obtain ⟨wrow, hwrow⟩ : ∃ wrow : WarehouseRow, wrow = ⟨wn, a, res, S⟩ := ⟨_, rfl⟩
  rw [← hrow] at frf
  rw [← hwrow] at fwh
  have hqs : qsort cmp_relief [row] = [row] := List.perm_singleton.mp (hq cmp_relief [row]).1
  obtain ⟨t, ht⟩ : ∃ t : State D, t =
      { exScenario wn a b res area S q p u d with
        g_rf := qsort cmp_relief (exScenario wn a b res area S q p u d).g_rf } := ⟨_, rfl⟩
  have hwh : t.g_wh = [wrow] := by rw [ht]; dsimp only; exact fwh
  have hrf : t.g_rf = [row] := by rw [ht]; dsimp only; rw [frf, hqs]
  have hc : t.g_cities = [a, b] := by rw [ht]; dsimp only; exact fc
  have hres : t.g_res = [⟨res, q, 0⟩] := by rw [ht]; dsimp only; exact fres
  have hal : t.g_alloc = [] := by rw [ht]; dsimp only; exact fal
  have hadj0 : t.g_adj.getD 0 [] = [⟨1, d⟩] := by rw [ht]; dsimp only; exact fadj0
  have hrun : run_allocation qsort (exScenario wn a b res area S q p u d)
      = serve_request t 0 := by
    have h1 : run_allocation qsort (exScenario wn a b res area S q p u d)
        = serve_upto t t.g_rf.length := by
      rw [ht]
      unfold run_allocation
      dsimp only
    rw [h1, hrf]
    rfl
  have hrow0 : t.g_rf.getD 0 default = row := by rw [hrf]; rfl
  have hw0 : t.g_wh.getD 0 default = wrow := by rw [hwh]; rfl
  have hcn : city_index t row.city = (some 1, t) := by
    rw [city_index_found t row.city (by rw [hc, hrow]; simp), hc, hrow]
    simp [List.indexOf_cons_ne _ hab]
  have hcw : city_index t wrow.city = (some 0, t) := by
    rw [city_index_found t wrow.city (by rw [hc, hwrow]; simp), hc, hwrow]
    simp
  have hdij : dijkstra t.g_adj t.g_cities.length 0 1 = (d, [none, some 0]) := by
    rw [hc]
    exact dijkstra_two t.g_adj d hadj0 hd
  have htake : take_qty t 0 0 = q := by
    unfold take_qty
    rw [hw0, hrow0, hwrow, hrow]
    show (if S < q then S else q) = q
    rw [if_neg (by omega)]
  have hstep := serve_single t wrow row 0 1 d [none, some 0] hwh hrow0
    (by rw [hwrow, hrow]) (by rw [hwrow]; exact lt_of_lt_of_le hq0 hqS)
    (by rw [hrow]; exact hq0) hcn hcw hdij hd
  rw [htake] at hstep
  obtain ⟨C, hC⟩ : ∃ C : State D, C =
      commit t 0 0 q (make_row t 0 1 0 0 t.g_cities.length (d, [none, some 0])) := ⟨_, rfl⟩
  rw [← hC] at hstep
  obtain ⟨_, _, a3, a4, _, a6⟩ := add_allocated_frame C row.resource q
  have hCal : C.g_alloc =
      [{ whIndex := 0, rfIndex := 0, qty := q, dist := d,
         pathCities := store_path [0, 1], pathLen := 2 }] := by
    rw [hC]
    show (if t.g_alloc.length < MAX_ALLOC then t.g_alloc ++ [_] else t.g_alloc) = _
    rw [hal, if_pos (by rw [List.length_nil]; decide), List.nil_append]
    unfold make_row
    dsimp only
    rw [hc, htake]
    rfl
  have hCwh : C.g_wh = [⟨wn, a, res, S - q⟩] := by
    rw [hC]
    show t.g_wh.set 0 _ = _
    rw [hw0, hwh, hwrow]
    rfl
  have hCrf : C.g_rf = [⟨area, b, res, q, 0, p, u⟩] := by
    rw [hC]
    show t.g_rf.set 0 _ = _
    rw [hrow0, hrf, hrow]
    show [(⟨area, b, res, q, q - q, p, u⟩ : ReliefRow)] = _
    rw [sub_self]
  have hCres : C.g_res = [⟨res, q, 0⟩] := by
    rw [hC]
    exact hres
  have htot : totalAlloc (run_allocation qsort (exScenario wn a b res area S q p u d)) = q := by
    rw [hrun, hstep]
    have hmem : row.resource ∈ resNames C := by
      unfold resNames
      rw [hCres, hrow]
      simp
    rw [(add_allocated_found C row.resource q hmem).1]
    unfold totalAlloc
    rw [hCres]
    simp
  have hreq : totalReq (run_allocation qsort (exScenario wn a b res area S q p u d)) = q := by
    unfold totalReq
    rw [hrun, hstep, a4, hCrf]
    simp
  have hcov : coverage_pct (run_allocation qsort (exScenario wn a b res area S q p u d))
      = 100 := by
    unfold coverage_pct
    rw [htot, hreq, if_pos hq0]
    have hq1 : (q : ℚ) ≠ 0 := by exact_mod_cast (ne_of_gt hq0)
    field_simp
  refine ⟨?_, ?_, ?_, ?_, ?_, hcov, ?_⟩
  · rw [hrun, hstep, a6, hCal]
  · unfold cityOf
    rw [fc]
    simp [List.indexOf_cons_ne _ hab]
    rfl
  · rw [hrun, hstep, a3, hCwh]
  · rw [hrun, hstep, a4, hCrf]
  · rw [hrun, hstep, a4, hCrf]
    rfl
  · unfold emit_coverage
    rw [hcov]
    exact nearestInt_int fmt hfmt 100

/-- C16 (witness): the scenario of the specification, `W1` in `A` with 100 units
of water, 80 requested in `B` with urgency 50, route `A`-`B` of distance 10; the
tables are those `main` builds from the three one-line files. -/
theorem C16_single_warehouse_witness :
    ("A" ≠ "B" ∧ (0 : Int) < 80 ∧ (80 : Int) ≤ 100 ∧ (10 : ℕ) < INF_DIST) ∧
    (run_allocation insertion_qsort (exScenario "W1" "A" "B" "water" "X" 100 80 5 50
        (10 : ℕ))).g_alloc
      = [{ whIndex := 0, rfIndex := 0, qty := 80, dist := 10,
           pathCities := store_path [0, 1], pathLen := 2 }] ∧
    (run_allocation insertion_qsort (exScenario "W1" "A" "B" "water" "X" 100 80 5 50
        (10 : ℕ))).g_wh = [⟨"W1", "A", "water", 100 - 80⟩] ∧
    emit_coverage round_half_even (run_allocation insertion_qsort
      (exScenario "W1" "A" "B" "water" "X" 100 80 5 50 (10 : ℕ))) = 100 ∧
    main_tables [⟨"W1", "A", "water", 100⟩] [⟨"X", "B", "water", 80, 5, 50⟩]
        [(⟨"A", "B", 10⟩ : RouteLine ℕ)]
      = exScenario "W1" "A" "B" "water" "X" 100 80 5 50 (10 : ℕ) :=
  ⟨⟨by decide, by decide, by decide, by decide⟩,
    (C16_single_warehouse insertion_qsort insertion_qsort_contract round_half_even
      round_half_even_nearest "W1" "A" "B" "water" "X" 100 80 5 50 (10 : ℕ)
      (by decide) (by decide) (by decide) (by decide)).1,
    (C16_single_warehouse insertion_qsort insertion_qsort_contract round_half_even
      round_half_even_nearest "W1" "A" "B" "water" "X" 100 80 5 50 (10 : ℕ)
      (by decide) (by decide) (by decide) (by decide)).2.2.1,
    (C16_single_warehouse insertion_qsort insertion_qsort_contract round_half_even
      round_half_even_nearest "W1" "A" "B" "water" "X" 100 80 5 50 (10 : ℕ)
      (by decide) (by decide) (by decide) (by decide)).2.2.2.2.2.2,
    rfl⟩

theorem potential_congr {s s2 : State D} (hrf : s2.g_rf = s.g_rf) (hwh : s2.g_wh = s.g_wh)
    (hal : s2.g_alloc = s.g_alloc) : potential s2 = potential s := by
  unfold potential
  rw [hrf, hwh, hal]

/-- A committed shipment uses up the warehouse row or the request: the stock or
the open demand is exactly 0 afterwards, and `potential` does not grow. -/
theorem potential_commit (s1 : State D) (i w : Nat) (ar : AllocationRow D)
    (hrem : 0 < (s1.g_rf.getD i default).remaining)
    (hqty : 0 < (s1.g_wh.getD w default).qty) :
    potential (commit s1 i w (take_qty s1 i w) ar) ≤ potential s1 ∧
    (((commit s1 i w (take_qty s1 i w) ar).g_wh.getD w default).qty = 0 ∨
      ((commit s1 i w (take_qty s1 i w) ar).g_rf.getD i default).remaining = 0) := by
  have hi := lt_length_of_remaining_pos hrem
  have hw := lt_length_of_qty_pos hqty
  have hone : take_qty s1 i w = (s1.g_wh.getD w default).qty ∨
      take_qty s1 i w = (s1.g_rf.getD i default).remaining := by
    unfold take_qty; split_ifs
    · exact Or.inl rfl
    · exact Or.inr rfl
  obtain ⟨X, hX⟩ : ∃ X : WarehouseRow, X =
      { (s1.g_wh.getD w default) with
        qty := (s1.g_wh.getD w default).qty - take_qty s1 i w } := ⟨_, rfl⟩
  obtain ⟨Y, hY⟩ : ∃ Y : ReliefRow, Y =
      { (s1.g_rf.getD i default) with
        remaining := (s1.g_rf.getD i default).remaining - take_qty s1 i w } := ⟨_, rfl⟩
  have hXq : X.qty = (s1.g_wh.getD w default).qty - take_qty s1 i w := by rw [hX]
  have hYr : Y.remaining = (s1.g_rf.getD i default).remaining - take_qty s1 i w := by
    rw [hY]
  have hwh : (commit s1 i w (take_qty s1 i w) ar).g_wh = s1.g_wh.set w X := by rw [hX]; rfl
  have hrf : (commit s1 i w (take_qty s1 i w) ar).g_rf = s1.g_rf.set i Y := by rw [hY]; rfl
  obtain ⟨hcw1, hcw2⟩ := countP_set_le (fun r : WarehouseRow => decide (0 < r.qty))
    s1.g_wh w X default hw (by simpa using hqty)
  obtain ⟨hcr1, hcr2⟩ := countP_set_le (fun r : ReliefRow => decide (0 < r.remaining))
    s1.g_rf i Y default hi (by simpa using hrem)
  have hlen : (commit s1 i w (take_qty s1 i w) ar).g_alloc.length ≤ s1.g_alloc.length + 1 := by
    show (if s1.g_alloc.length < MAX_ALLOC then s1.g_alloc ++ [ar] else s1.g_alloc).length ≤ _
    split_ifs
    · rw [List.length_append, List.length_singleton]
    · omega
  constructor
  · unfold potential
    rw [hwh, hrf]
    rcases hone with h | h
    · have := hcw2 (by rw [hXq, h]; simp)
      omega
    · have := hcr2 (by rw [hYr, h]; simp)
      omega
  · rw [commit_wh_qty, commit_rf_remaining, if_pos ⟨rfl, hw⟩, if_pos ⟨rfl, hi⟩]
    rcases hone with h | h
    · left; omega
    · right; omega

theorem potential_allocate_step (i c : Nat) (s : State D) (cand : Nat × D) :
    potential (allocate_step i c s cand) ≤ potential s ∧
    ((allocate_step i c s cand).g_alloc = s.g_alloc ∨
      ((allocate_step i c s cand).g_wh.getD cand.1 default).qty = 0 ∨
      ((allocate_step i c s cand).g_rf.getD i default).remaining = 0) := by
  obtain ⟨c1, c2, c3, c4, c5, c6, _, _⟩ :=
    city_index_spec s (s.g_wh.getD cand.1 default).city
  rcases allocate_step_cases i c s cand with h | ⟨_, _, h⟩ | ⟨hrem, hqty, cityW, hcw, hd, h⟩
  · rw [h]
    exact ⟨le_rfl, Or.inl rfl⟩
  · rw [h]
    exact ⟨le_of_eq (potential_congr c4 c3 c6), Or.inl c6⟩
  · obtain ⟨ar, har⟩ : ∃ ar, ar = make_row s i c cand.1 cityW
        (city_index s (s.g_wh.getD cand.1 default).city).2.g_cities.length
        (dijkstra (city_index s (s.g_wh.getD cand.1 default).city).2.g_adj
          (city_index s (s.g_wh.getD cand.1 default).city).2.g_cities.length cityW c) :=
      ⟨_, rfl⟩
    rw [← har] at h
    rw [h]
    have htq : take_qty s i cand.1
        = take_qty (city_index s (s.g_wh.getD cand.1 default).city).2 i cand.1 := by
      unfold take_qty; rw [c3, c4]
    obtain ⟨a1, a2, a3, a4, a5, a6⟩ := add_allocated_frame
      (commit (city_index s (s.g_wh.getD cand.1 default).city).2 i cand.1
        (take_qty s i cand.1) ar)
      (s.g_rf.getD i default).resource (take_qty s i cand.1)
    obtain ⟨p1, p2⟩ := potential_commit (city_index s (s.g_wh.getD cand.1 default).city).2
      i cand.1 ar (by rw [c4]; exact hrem) (by rw [c3]; exact hqty)
    rw [← htq] at p1 p2
    refine ⟨?_, Or.inr ?_⟩
    · rw [potential_congr a4 a3 a6]
      exact le_trans p1 (le_of_eq (potential_congr c4 c3 c6))
    · rw [a3, a4]
      exact p2

theorem potential_greedy (i c : Nat) (cands : List (Nat × D)) :
    ∀ s : State D, potential (cands.foldl (allocate_step i c) s) ≤ potential s := by
  induction cands with
  | nil => intro s; exact le_rfl
  | cons cand rest ih =>
    intro s
    rw [List.foldl_cons]
    exact le_trans (ih _) (potential_allocate_step i c s cand).1

theorem potential_onlyCities {s s2 : State D} (h : OnlyCities s s2) :
    potential s2 = potential s := potential_congr h.rf h.wh h.alloc

theorem potential_serve_request (s : State D) (i : Nat) :
    potential (serve_request s i) ≤ potential s := by
  unfold serve_request
  simp only []
  split_ifs with h1
  · exact le_rfl
  · have oc1 := onlyCities_city_index s (s.g_rf.getD i default).city
    cases hc : (city_index s (s.g_rf.getD i default).city).1 with
    | none => exact le_of_eq (potential_onlyCities oc1)
    | some cityNeed =>
      simp only []
      have oc2 := onlyCities_trans oc1 (candidate_loop_state (s.g_rf.getD i default) cityNeed
        (List.range (city_index s (s.g_rf.getD i default).city).2.g_wh.length)
        ((city_index s (s.g_rf.getD i default).city).2, []))
      split_ifs with h2
      · exact le_of_eq (potential_onlyCities oc2)
      · exact le_trans (potential_greedy i cityNeed _ _) (le_of_eq (potential_onlyCities oc2))

theorem potential_serve_upto (s : State D) (k : Nat) :
    potential (serve_upto s k) ≤ potential s := by
  induction k with
  | zero => exact le_rfl
  | succ k ih =>
    rw [serve_upto_succ]
    exact le_trans (potential_serve_request _ k) ih

/-- C19: starting without records, `run_allocation` writes at most
`g_wh_count + g_rf_count` records, because every pass through the greedy loop
body that writes a record leaves the warehouse row's stock or the request's
remaining at exactly 0; with at most 512 rows in each table the count stays
at or below 1024, below the 2048 entries of `g_alloc`, and every decrement of a
stock is matched by a record (the guard never drops one). -/
theorem C19_record_count
    (qsort : (ReliefRow → ReliefRow → Int) → List ReliefRow → List ReliefRow)
    (hq : QsortContract qsort) (s : State D) (hal : s.g_alloc = []) :
    (run_allocation qsort s).g_alloc.length ≤ s.g_wh.length + s.g_rf.length ∧
    (∀ (t : State D) (i c : Nat) (cand : Nat × D),
      (allocate_step i c t cand).g_alloc = t.g_alloc ∨
      ((allocate_step i c t cand).g_wh.getD cand.1 default).qty = 0 ∨
      ((allocate_step i c t cand).g_rf.getD i default).remaining = 0) ∧
    (s.g_wh.length ≤ MAX_WAREHOUSE_ROWS → s.g_rf.length ≤ MAX_RELIEF_ROWS →
      (run_allocation qsort s).g_alloc.length ≤ 1024 ∧
      (run_allocation qsort s).g_alloc.length < MAX_ALLOC ∧
      (∀ k, (serve_upto { s with g_rf := qsort cmp_relief s.g_rf } k).g_alloc.length
        < MAX_ALLOC) ∧
      ∀ w, w < s.g_wh.length → 0 ≤ (s.g_wh.getD w default).qty →
        (s.g_wh.getD w default).qty - ((run_allocation qsort s).g_wh.getD w default).qty
          = allocFrom (run_allocation qsort s) w) := by
  obtain ⟨s1, hs1⟩ : ∃ s1 : State D, s1 = { s with g_rf := qsort cmp_relief s.g_rf } :=
    ⟨_, rfl⟩
  have hrun : run_allocation qsort s = serve_upto s1 s1.g_rf.length := by
    rw [hs1]; rfl
  have hlen1 : s1.g_rf.length = s.g_rf.length := by
    rw [hs1]
    exact (hq cmp_relief s.g_rf).1.length_eq
  have hwh1 : s1.g_wh = s.g_wh := by rw [hs1]
  have hal1 : s1.g_alloc = [] := by rw [hs1]; exact hal
  have hpot1 : potential s1 ≤ s.g_wh.length + s.g_rf.length := by
    unfold potential
    rw [hal1, hwh1, ← hlen1]
    have h1 := countP_le_length_bool (fun r : WarehouseRow => decide (0 < r.qty)) s.g_wh
    have h2 := countP_le_length_bool (fun r : ReliefRow => decide (0 < r.remaining)) s1.g_rf
    simp only [List.length_nil]
    omega
  have hbound : ∀ k, (serve_upto s1 k).g_alloc.length ≤ s.g_wh.length + s.g_rf.length := by
    intro k
    have h1 := potential_serve_upto s1 k
    have h2 : (serve_upto s1 k).g_alloc.length ≤ potential (serve_upto s1 k) := by
      unfold potential
      omega
    omega
  refine ⟨by rw [hrun]; exact hbound _, fun t i c cand => (potential_allocate_step i c t cand).2,
    ?_⟩
  intro hnw hnr
  have h1024 : MAX_WAREHOUSE_ROWS + MAX_RELIEF_ROWS = 1024 := by decide
  have h2048 : MAX_ALLOC = 2048 := by decide
  refine ⟨?_, ?_, ?_, ?_⟩
  · rw [hrun]
    have := hbound s1.g_rf.length
    omega
  · rw [hrun]
    have := hbound s1.g_rf.length
    omega
  · intro k
    rw [← hs1]
    have := hbound k
    omega
  · intro w hw hq0
    have hinv0 : AllocInv (fun v => (s1.g_wh.getD v default).qty) (fun _ => False)
        (fun v => v = w) s1 :=
      allocInv_start _ _ s1 hal1 (by rw [hwh1]; exact hnw) (by rw [hlen1]; exact hnr)
        (fun _ _ h => absurd h id) (fun v hv => by rw [hv, hwh1]; exact hq0)
    obtain ⟨hinv, hfr, _⟩ := serve_upto_inv _ _ _ s1 hinv0 s1.g_rf.length
    rw [hrun]
    have := (hinv.wh w (by rw [frame_wh_length hfr, hwh1]; exact hw) rfl).2
    rw [hwh1] at this
    exact this

/-- C19 (witness): the two-warehouse example writes 3 records, at most 2 + 2. -/
theorem C19_record_count_witness :
    exAlloc.g_alloc = [] ∧
    (run_allocation insertion_qsort exAlloc).g_alloc.length
      ≤ exAlloc.g_wh.length + exAlloc.g_rf.length ∧
    (run_allocation insertion_qsort exAlloc).g_alloc.length = 3 :=
  ⟨by decide, (C19_record_count insertion_qsort insertion_qsort_contract exAlloc
    (by decide)).1, by decide⟩

theorem take_qty_min (s : State D) (i w : Nat) :
    take_qty s i w = min (s.g_wh.getD w default).qty (s.g_rf.getD i default).remaining := by
  unfold take_qty
  split_ifs with h
  · exact (min_eq_left h.le).symm
  · exact (min_eq_right (not_lt.mp h)).symm

theorem allocate_step_rem (t : State D) (i c : Nat) (cand : Nat × D) (j : Nat) :
    ((allocate_step i c t cand).g_rf.getD j default).remaining
      ≤ (t.g_rf.getD j default).remaining ∧
    (j ≠ i → ((allocate_step i c t cand).g_rf.getD j default).remaining
      = (t.g_rf.getD j default).remaining) := by
  obtain ⟨_, _, c3, c4, _, _, _, _⟩ :=
    city_index_spec t (t.g_wh.getD cand.1 default).city
  rcases allocate_step_cases i c t cand with h1 | ⟨_, _, h1⟩ | ⟨hrem, hqty, cityW, _, _, h1⟩
  · rw [h1]; exact ⟨le_rfl, fun _ => rfl⟩
  · rw [h1, c4]; exact ⟨le_rfl, fun _ => rfl⟩
  · rw [h1, (add_allocated_frame _ _ _).2.2.2.1, commit_rf_remaining, c4]
    have hpos : 0 < take_qty t i cand.1 := take_qty_pos t i cand.1 hrem hqty
    split_ifs with hc
    · obtain ⟨hc1, _⟩ := hc
      subst hc1
      exact ⟨by omega, fun h => absurd rfl h⟩
    · exact ⟨le_rfl, fun _ => rfl⟩

theorem qty_getD_nonneg {q0 : Nat → Int} {I : Nat → Prop} {s : State D}
    (h : AllocInv q0 I (fun _ => True) s) (v : Nat) : 0 ≤ (s.g_wh.getD v default).qty := by
  by_cases hv : v < s.g_wh.length
  · exact (h.wh v hv trivial).1
  · rw [List.getD_eq_default _ _ (not_lt.mp hv)]
    exact le_rfl

theorem greedyQty_append {q0 req : Nat → Int} {l : List (AllocationRow D)}
    {ar : AllocationRow D} (h : GreedyQty q0 req l)
    (har : ar.qty = min (q0 ar.whIndex - sumFrom l ar.whIndex)
      (req ar.rfIndex - sumTo l ar.rfIndex)) : GreedyQty q0 req (l ++ [ar]) := by
  intro pre a post heq
  rcases List.eq_nil_or_concat post with hp | ⟨post2, b, hp⟩
  · subst hp
    have h2 : l ++ [ar] = pre ++ [a] := heq
    obtain ⟨e1, e2⟩ := List.append_inj' h2 rfl
    have e3 : ar = a := by simpa using e2
    rw [← e3, ← e1]
    exact har
  · subst hp
    have h2 : l ++ [ar] = (pre ++ a :: post2) ++ [b] := by
      rw [heq]; simp
    obtain ⟨e1, _⟩ := List.append_inj' h2 rfl
    exact h pre a post2 e1

/-- The body of the greedy loop for a candidate `p` of request `i`, when the
registry is as at the entry of the request loop and `g_alloc` has room: nothing
happens when the request is met or the row is empty; otherwise one record is
appended, with `qty = min(stock, remaining)` and the candidate's distance. -/
theorem allocate_step_char (s0 s : State D) (hst : Stable s0 s) (i c : Nat) (p : Nat × D)
    (hp : CandStatic s0 i c p) (hroom : s.g_alloc.length < MAX_ALLOC) :
    (((s.g_rf.getD i default).remaining ≤ 0 ∨ (s.g_wh.getD p.1 default).qty ≤ 0) ∧
      allocate_step i c s p = s) ∨
    (0 < (s.g_rf.getD i default).remaining ∧ 0 < (s.g_wh.getD p.1 default).qty ∧
      ∃ ar : AllocationRow D, ar.whIndex = p.1 ∧ ar.rfIndex = i ∧
        ar.qty = min (s.g_wh.getD p.1 default).qty (s.g_rf.getD i default).remaining ∧
        ar.dist = p.2 ∧
        (allocate_step i c s p).g_alloc = s.g_alloc ++ [ar] ∧
        ((allocate_step i c s p).g_wh.getD p.1 default).qty
          = (s.g_wh.getD p.1 default).qty - ar.qty ∧
        ((allocate_step i c s p).g_rf.getD i default).remaining
          = (s.g_rf.getD i default).remaining - ar.qty) := by
  by_cases hrem : (s.g_rf.getD i default).remaining ≤ 0
  · left
    refine ⟨Or.inl hrem, ?_⟩
    unfold allocate_step
    simp only []
    rw [if_pos hrem]
  by_cases hqty : (s.g_wh.getD p.1 default).qty ≤ 0
  · left
    refine ⟨Or.inr hqty, ?_⟩
    unfold allocate_step
    simp only []
    rw [if_neg hrem, if_pos hqty]
  right
  have hrem2 := not_le.mp hrem
  have hqty2 := not_le.mp hqty
  have hw := lt_length_of_qty_pos hqty2
  have hi := lt_length_of_remaining_pos hrem2
  have hwf := frame_wh_fields hst.frame p.1
  have hmem : (s.g_wh.getD p.1 default).city ∈ s.g_cities := by
    rw [hwf.1, hst.cities]; exact hp.city
  have hci := city_index_found s _ hmem
  have hidx : s.g_cities.indexOf (s.g_wh.getD p.1 default).city
      = cityOf s0 (s0.g_wh.getD p.1 default).city := by
    unfold cityOf
    rw [hwf.1, hst.cities]
  rw [hidx] at hci
  have hdij : dijkstra s.g_adj s.g_cities.length
      (cityOf s0 (s0.g_wh.getD p.1 default).city) c
      = dijkstra s0.g_adj s0.g_cities.length
        (cityOf s0 (s0.g_wh.getD p.1 default).city) c := by
    rw [hst.frame.adj, hst.cities]
  have hd : (dijkstra s.g_adj s.g_cities.length
      (cityOf s0 (s0.g_wh.getD p.1 default).city) c).1 < INF_DIST := by
    rw [hdij, ← hp.dist]; exact hp.reach
  have hstep := allocate_step_commit_eq i c s p _ hrem2 hqty2 hci hd
  obtain ⟨ar, har⟩ : ∃ ar, ar = make_row s i c p.1
      (cityOf s0 (s0.g_wh.getD p.1 default).city) s.g_cities.length
      (dijkstra s.g_adj s.g_cities.length
        (cityOf s0 (s0.g_wh.getD p.1 default).city) c) := ⟨_, rfl⟩
  rw [← har] at hstep
  obtain ⟨_, _, a3, a4, _, a6⟩ := add_allocated_frame
    (commit s i p.1 (take_qty s i p.1) ar) (s.g_rf.getD i default).resource
    (take_qty s i p.1)
  have hq : ar.qty = take_qty s i p.1 := by rw [har]; rfl
  refine ⟨hrem2, hqty2, ar, by rw [har]; rfl, by rw [har]; rfl, ?_, ?_, ?_, ?_, ?_⟩
  · rw [hq, take_qty_min]
  · rw [har]
    show (dijkstra s.g_adj s.g_cities.length _ c).1 = p.2
    rw [hdij, ← hp.dist]
  · rw [hstep, a6]
    show (if s.g_alloc.length < MAX_ALLOC then s.g_alloc ++ [ar] else s.g_alloc) = _
    rw [if_pos hroom]
  · rw [hstep, a3, commit_wh_qty, if_pos ⟨rfl, hw⟩, hq]
  · rw [hstep, a4, commit_rf_remaining, if_pos ⟨rfl, hi⟩, hq]

theorem allocInv_room {q0 : Nat → Int} {I W : Nat → Prop} {s : State D}
    (h : AllocInv q0 I W s) : s.g_alloc.length < MAX_ALLOC := by
  have hpot := h.pot
  unfold potential at hpot
  have : MAX_WAREHOUSE_ROWS + MAX_RELIEF_ROWS < MAX_ALLOC := by decide
  omega

/-- The greedy loop of one request over its candidate list, from a state that
satisfies the accounting invariant: the records it appends belong to the
request and carry, in order, distances of a sublist of the candidates; at the
end the request is met or every candidate row is empty. -/
theorem greedy_fold_char (s0 : State D) (hcl : CitiesLoaded s0) (hg : GraphOK s0)
    (i c : Nat) (hc : c = cityOf s0 (s0.g_rf.getD i default).city)
    (hcity : (s0.g_rf.getD i default).city ∈ s0.g_cities) (cands : List (Nat × D)) :
    (∀ p ∈ cands, CandStatic s0 i c p) → ∀ s : State D, Stable s0 s →
      AllocInv (fun w => (s0.g_wh.getD w default).qty) (fun _ => True) (fun _ => True) s →
      (∀ a ∈ s.g_alloc, RecOK s0 a) →
      GreedyQty (fun w => (s0.g_wh.getD w default).qty)
        (fun j => (s0.g_rf.getD j default).requested) s.g_alloc →
      Stable s0 (cands.foldl (allocate_step i c) s) ∧
      AllocInv (fun w => (s0.g_wh.getD w default).qty) (fun _ => True) (fun _ => True)
        (cands.foldl (allocate_step i c) s) ∧
      (∀ a ∈ (cands.foldl (allocate_step i c) s).g_alloc, RecOK s0 a) ∧
      GreedyQty (fun w => (s0.g_wh.getD w default).qty)
        (fun j => (s0.g_rf.getD j default).requested)
        (cands.foldl (allocate_step i c) s).g_alloc ∧
      (∃ extra, (cands.foldl (allocate_step i c) s).g_alloc = s.g_alloc ++ extra ∧
        (∀ a ∈ extra, a.rfIndex = i) ∧
        (extra.map (fun a => a.dist)).Sublist (cands.map Prod.snd)) ∧
      (((cands.foldl (allocate_step i c) s).g_rf.getD i default).remaining ≤ 0 ∨
        ∀ p ∈ cands, ((cands.foldl (allocate_step i c) s).g_wh.getD p.1 default).qty ≤ 0) ∧
      (∀ v, ((cands.foldl (allocate_step i c) s).g_wh.getD v default).qty
        ≤ (s.g_wh.getD v default).qty) ∧
      (∀ j, j ≠ i → ((cands.foldl (allocate_step i c) s).g_rf.getD j default).remaining
        = (s.g_rf.getD j default).remaining) ∧
      ((cands.foldl (allocate_step i c) s).g_rf.getD i default).remaining
        ≤ (s.g_rf.getD i default).remaining := by
  induction cands with
  | nil =>
    intro _ s hst hacc hrec hh
    exact ⟨hst, hacc, hrec, hh, ⟨[], by simp, by simp, by simp⟩, Or.inr (by simp),
      fun _ => le_rfl, fun _ _ => rfl, le_rfl⟩
  | cons p rest ih =>
    intro hcand s hst hacc hrec hh
    rw [List.foldl_cons]
    have hp := hcand p (List.mem_cons_self _ _)
    obtain ⟨hst1, hrec1⟩ := allocate_step_stable s0 s hst hcl hg hrec i c p hc hcity hp.res
    obtain ⟨hacc1, _, _⟩ := allocate_step_inv _ _ _ i c s p hacc
    have hq1 : ∀ v, ((allocate_step i c s p).g_wh.getD v default).qty
        ≤ (s.g_wh.getD v default).qty :=
      fun v => (allocate_step_qty s i c p v (qty_getD_nonneg hacc v)).2
    have hr1 := allocate_step_rem s i c p
    -- the step itself
    have hstep : GreedyQty (fun w => (s0.g_wh.getD w default).qty)
          (fun j => (s0.g_rf.getD j default).requested) (allocate_step i c s p).g_alloc ∧
        (∃ extra, (allocate_step i c s p).g_alloc = s.g_alloc ++ extra ∧
          (∀ a ∈ extra, a.rfIndex = i) ∧
          ∀ rest2 : List D, ((extra.map (fun a => a.dist)) ++ rest2).Sublist (p.2 :: rest2)) ∧
        (((allocate_step i c s p).g_rf.getD i default).remaining ≤ 0 ∨
          ((allocate_step i c s p).g_wh.getD p.1 default).qty ≤ 0) := by
      rcases allocate_step_char s0 s hst i c p hp (allocInv_room hacc) with
        ⟨hdone, heq⟩ | ⟨hrem, hqty, ar, a1, a2, a3, a4, a5, a6, a7⟩
      · rw [heq]
        exact ⟨hh, ⟨[], by simp, by simp, fun rest2 => List.sublist_cons_self _ _⟩, hdone⟩
      · have hw := lt_length_of_qty_pos hqty
        have hi := lt_length_of_remaining_pos hrem
        refine ⟨?_, ⟨[ar], a5, ?_, ?_⟩, ?_⟩
        · rw [a5]
          apply greedyQty_append hh
          rw [a3, a1, a2]
          have e1 := (hacc.wh p.1 hw trivial).2
          have e2 := (hacc.rf i hi trivial).2
          have e3 := (frame_rf_fields hst.frame i).2.2.2.2.1
          have f1 : sumFrom s.g_alloc p.1 = allocFrom s p.1 := rfl
          have f2 : sumTo s.g_alloc i = allocTo s i := rfl
          rw [f1, f2, ← e1, ← e2, e3]
          congr 1 <;> omega
        · intro a ha
          have : a = ar := by simpa using ha
          rw [this, a2]
        · intro rest2
          show (ar.dist :: rest2).Sublist (p.2 :: rest2)
          rw [a4]
        · rw [a6, a7, a3]
          rcases le_total (s.g_wh.getD p.1 default).qty (s.g_rf.getD i default).remaining
            with h | h
          · right
            rw [min_eq_left h]
            omega
          · left
            rw [min_eq_right h]
            omega
    obtain ⟨hh1, ⟨e1, he1, hx1, hs1⟩, hd1⟩ := hstep
    obtain ⟨g1, g2, g3, g4, ⟨e2, he2, hx2, hs2⟩, g6, g7, g8, g9⟩ :=
      ih (fun q hq => hcand q (List.mem_cons_of_mem _ hq)) _ hst1 hacc1 hrec1 hh1
    refine ⟨g1, g2, g3, g4, ⟨e1 ++ e2, by rw [he2, he1, List.append_assoc], ?_, ?_⟩, ?_,
      fun v => le_trans (g7 v) (hq1 v), fun j hj => by rw [g8 j hj, (hr1 j).2 hj],
      le_trans g9 (hr1 i).1⟩
    · intro a ha
      rcases List.mem_append.mp ha with h | h
      · exact hx1 a h
      · exact hx2 a h
    · rw [List.map_append, List.map_cons]
      exact ((List.Sublist.refl _).append hs2).trans (hs1 _)
    · rcases hd1 with h | h
      · exact Or.inl (le_trans g9 h)
      · rcases g6 with h2 | h2
        · exact Or.inl h2
        · right
          intro q hq
          rcases List.mem_cons.mp hq with h3 | h3
          · rw [h3]
            exact le_trans (g7 p.1) h
          · exact h2 q h3

theorem sort_candidates_sorted (l : List (Nat × D)) :
    (sort_candidates l).Pairwise (fun x y => x.2 ≤ y.2) := by
  obtain ⟨p1, p2⟩ := sort_outer_spec l l.length le_rfl
  unfold sort_candidates
  rw [List.pairwise_iff_getElem]
  intro i j hi hj hij
  have hj2 : j < l.length := by rw [← p1.length_eq]; exact hj
  have := p2 i j (by omega) hij hj2
  rw [List.getD_eq_getElem _ _ hi, List.getD_eq_getElem _ _ hj] at this
  exact this

theorem candidate_step_grows (need : ReliefRow) (c : Nat) (acc : State D × List (Nat × D))
    (w : Nat) : ∀ p ∈ acc.2, p ∈ (candidate_step need c acc w).2 := by
  intro p hp
  unfold candidate_step
  simp only []
  split_ifs with h1 h2
  · exact hp
  · exact hp
  · cases hc : (city_index acc.1 (acc.1.g_wh.getD w default).city).1 with
    | none => exact hp
    | some cityW =>
      simp only []
      split_ifs with h3
      · exact hp
      · exact List.mem_append_left _ hp

theorem candidate_step_adds (s : State D) (need : ReliefRow) (c : Nat)
    (acc : State D × List (Nat × D)) (hacc : acc.1 = s) (w : Nat)
    (hq : 0 < (s.g_wh.getD w default).qty)
    (hres : (s.g_wh.getD w default).resource = need.resource)
    (hcity : (s.g_wh.getD w default).city ∈ s.g_cities)
    (hd : (dijkstra s.g_adj s.g_cities.length (cityOf s (s.g_wh.getD w default).city) c).1
      < INF_DIST) :
    (w, (dijkstra s.g_adj s.g_cities.length (cityOf s (s.g_wh.getD w default).city) c).1)
      ∈ (candidate_step need c acc w).2 := by
  have hci := city_index_found s _ hcity
  unfold candidate_step
  simp only [hacc]
  rw [if_neg (not_le.mpr hq), if_neg (not_not.mpr hres)]
  simp only [hci]
  have hd2 : ¬ (dijkstra s.g_adj s.g_cities.length
      (s.g_cities.indexOf (s.g_wh.getD w default).city) c).1 ≥ INF_DIST := not_le.mpr hd
  rw [if_neg hd2]
  exact List.mem_append_right _ (List.mem_singleton_self _)

/-- The candidate loop misses no row: every warehouse row with stock of the
request's resource in a registered city at a distance below the sentinel is
among the candidates. -/
theorem candidate_loop_complete (s : State D) (hcl : CitiesLoaded s) (need : ReliefRow)
    (c : Nat) :
    ∀ n, n ≤ s.g_wh.length → ∀ w, w < n → 0 < (s.g_wh.getD w default).qty →
      (s.g_wh.getD w default).resource = need.resource →
      (s.g_wh.getD w default).city ∈ s.g_cities →
      (dijkstra s.g_adj s.g_cities.length (cityOf s (s.g_wh.getD w default).city) c).1
        < INF_DIST →
      (w, (dijkstra s.g_adj s.g_cities.length
          (cityOf s (s.g_wh.getD w default).city) c).1)
        ∈ ((List.range n).foldl (candidate_step need c) (s, [])).2 := by
  intro n
  induction n with
  | zero => intro _ w hw; omega
  | succ n ih =>
    intro hn w hw hq hres hcity hd
    rw [List.range_succ, List.foldl_append]
    simp only [List.foldl_cons, List.foldl_nil]
    obtain ⟨c1, _⟩ := candidate_loop_loaded s hcl need c (List.range n)
      (fun x hx => lt_of_lt_of_le (List.mem_range.mp hx) (by omega)) (s, []) rfl
      (fun p hp => by cases hp)
    rcases Nat.lt_succ_iff_lt_or_eq.mp hw with h | h
    · exact candidate_step_grows need c _ n _ (ih (by omega) w h hq hres hcity hd)
    · rw [h] at hq hres hcity hd ⊢
      exact candidate_step_adds s need c _ c1 n hq hres hcity hd

theorem filter_rf_old {l : List (AllocationRow D)} {k j : Nat}
    (h : ∀ a ∈ l, a.rfIndex < k) (hj : k ≤ j) :
    l.filter (fun a => a.rfIndex = j) = [] := by
  rw [List.filter_eq_nil_iff]
  intro a ha
  have := h a ha
  simp only [decide_eq_true_eq]
  omega

theorem filter_rf_all {l : List (AllocationRow D)} {k : Nat}
    (h : ∀ a ∈ l, a.rfIndex = k) : l.filter (fun a => a.rfIndex = k) = l := by
  rw [List.filter_eq_self]
  intro a ha
  simp only [decide_eq_true_eq]
  exact h a ha

theorem filter_rf_none {l : List (AllocationRow D)} {k j : Nat}
    (h : ∀ a ∈ l, a.rfIndex = k) (hj : j ≠ k) :
    l.filter (fun a => a.rfIndex = j) = [] := by
  rw [List.filter_eq_nil_iff]
  intro a ha
  simp only [decide_eq_true_eq]
  rw [h a ha]
  exact fun e => hj e.symm

theorem greedyInv_weaken {s0 s : State D} {k : Nat} (h : GreedyInv s0 k s)
    (hk : ∀ w, (s0.g_rf.getD k default).city ∈ s0.g_cities → w < s0.g_wh.length →
      0 < (s.g_rf.getD k default).remaining →
      (s0.g_wh.getD w default).resource = (s0.g_rf.getD k default).resource →
      (s0.g_wh.getD w default).city ∈ s0.g_cities →
      (dijkstra s0.g_adj s0.g_cities.length (cityOf s0 (s0.g_wh.getD w default).city)
        (cityOf s0 (s0.g_rf.getD k default).city)).1 < INF_DIST →
      (s.g_wh.getD w default).qty = 0) :
    GreedyInv s0 (k + 1) s := by
  refine ⟨h.stable, h.acc, h.recs, fun a ha => Nat.lt_succ_of_lt (h.below a ha), h.sorted,
    h.hist, ?_⟩
  intro i w hi hrem hcity hw hres hwc hd
  rcases Nat.lt_succ_iff_lt_or_eq.mp hi with h1 | h1
  · exact h.maxi i w h1 hrem hcity hw hres hwc hd
  · subst h1
    exact hk w hcity hw hrem hres hwc hd

/-- Serving request `k` keeps the invariant of the request loop. -/
theorem serve_request_greedy (s0 : State D) (hcl : CitiesLoaded s0) (hg : GraphOK s0)
    (k : Nat) (s : State D) (h : GreedyInv s0 k s) :
    GreedyInv s0 (k + 1) (serve_request s k) := by
  have hst := h.stable
  have hcls := stable_citiesLoaded hst hcl
  have hrf := frame_rf_fields hst.frame k
  have hcO : ∀ nm, cityOf s nm = cityOf s0 nm := fun nm => by unfold cityOf; rw [hst.cities]
  unfold serve_request
  simp only []
  split_ifs with h1
  · exact greedyInv_weaken h (fun w _ _ hrem _ _ _ => absurd hrem (not_lt.mpr h1))
  · have hi := lt_length_of_remaining_pos (not_le.mp h1)
    obtain ⟨e1, e2⟩ := city_index_loaded s (s.g_rf.getD k default).city
      (hcls.2 _ (mem_getD_of_lt _ _ _ hi))
    cases hc : (city_index s (s.g_rf.getD k default).city).1 with
    | none =>
      simp only []
      rw [e1]
      apply greedyInv_weaken h
      intro w hcity _ _ _ _ _
      have hm : (s.g_rf.getD k default).city ∈ s.g_cities := by
        rw [hrf.1, hst.cities]; exact hcity
      rw [city_index_found s _ hm] at hc
      cases hc
    | some cityNeed =>
      obtain ⟨hmem, hcN⟩ := e2 cityNeed hc
      simp only []
      rw [e1]
      obtain ⟨c1, c2⟩ := candidate_loop_loaded s hcls (s.g_rf.getD k default) cityNeed
        (List.range s.g_wh.length) (fun w hw => List.mem_range.mp hw) (s, []) rfl
        (fun p hp => by cases hp)
      have hcomp := candidate_loop_complete s hcls (s.g_rf.getD k default) cityNeed
        s.g_wh.length le_rfl
      have hcN0 : cityNeed = cityOf s0 (s0.g_rf.getD k default).city := by
        rw [hcN, hrf.1, hcO]
      have hmem0 : (s0.g_rf.getD k default).city ∈ s0.g_cities := by
        rw [← hrf.1, ← hst.cities]; exact hmem
      -- a row that qualifies and still has stock is a candidate
      have hin : ∀ w, w < s0.g_wh.length → 0 < (s.g_wh.getD w default).qty →
          (s0.g_wh.getD w default).resource = (s0.g_rf.getD k default).resource →
          (s0.g_wh.getD w default).city ∈ s0.g_cities →
          (dijkstra s0.g_adj s0.g_cities.length (cityOf s0 (s0.g_wh.getD w default).city)
            (cityOf s0 (s0.g_rf.getD k default).city)).1 < INF_DIST →
          ∃ d, (w, d) ∈ ((List.range s.g_wh.length).foldl
            (candidate_step (s.g_rf.getD k default) cityNeed) (s, [])).2 := by
        intro w hw hq hres hwc hd
        have hwf := frame_wh_fields hst.frame w
        refine ⟨_, hcomp w (by rw [frame_wh_length hst.frame]; exact hw) hq ?_ ?_ ?_⟩
        · rw [hwf.2.1, hrf.2.1]; exact hres
        · rw [hwf.1, hst.cities]; exact hwc
        · rw [hwf.1, hcO, hst.frame.adj, hst.cities, hcN0]; exact hd
      rw [c1]
      split_ifs with h2
      · apply greedyInv_weaken h
        intro w _ hw _ hres hwc hd
        by_contra hne
        have hpos : 0 < (s.g_wh.getD w default).qty :=
          lt_of_le_of_ne (qty_getD_nonneg h.acc w) (Ne.symm hne)
        obtain ⟨d, hd2⟩ := hin w hw hpos hres hwc hd
        rw [List.length_eq_zero] at h2
        rw [h2] at hd2
        cases hd2
      · obtain ⟨cands, hcands⟩ : ∃ cands, cands = sort_candidates
            ((List.range s.g_wh.length).foldl
              (candidate_step (s.g_rf.getD k default) cityNeed) (s, [])).2 := ⟨_, rfl⟩
        rw [← hcands]
        have hperm : cands.Perm ((List.range s.g_wh.length).foldl
            (candidate_step (s.g_rf.getD k default) cityNeed) (s, [])).2 := by
          rw [hcands]; exact sort_candidates_perm _
        have hsorted : cands.Pairwise (fun x y => x.2 ≤ y.2) := by
          rw [hcands]; exact sort_candidates_sorted _
        have hstat : ∀ p ∈ cands, CandStatic s0 k cityNeed p := by
          intro p hp
          have hok := c2 p (hperm.subset hp)
          have hwf := frame_wh_fields hst.frame p.1
          refine ⟨?_, ?_, ?_, ?_, hok.reach⟩
          · rw [← frame_wh_length hst.frame]; exact hok.lt
          · rw [← hwf.2.1, ← hrf.2.1]; exact hok.res
          · rw [← hwf.1, ← hst.cities]; exact hok.city
          · rw [hok.dist, hwf.1, hcO, hst.frame.adj, hst.cities]
        obtain ⟨g1, g2, g3, g4, ⟨extra, he, hx, hsub⟩, g6, g7, g8, g9⟩ :=
          greedy_fold_char s0 hcl hg k cityNeed hcN0 hmem0 cands hstat s hst h.acc h.recs
            h.hist
        obtain ⟨S, hS⟩ : ∃ S, S = cands.foldl (allocate_step k cityNeed) s := ⟨_, rfl⟩
        rw [← hS] at g1 g2 g3 g4 he g6 g7 g8 g9 ⊢
        have hzero : ∀ v, (s.g_wh.getD v default).qty ≤ 0 → (S.g_wh.getD v default).qty = 0 :=
          fun v hv => le_antisymm (le_trans (g7 v) hv) (qty_getD_nonneg g2 v)
        refine ⟨g1, g2, g3, ?_, ?_, g4, ?_⟩
        · intro a ha
          rw [he] at ha
          rcases List.mem_append.mp ha with h3 | h3
          · exact Nat.lt_succ_of_lt (h.below a h3)
          · rw [hx a h3]; exact Nat.lt_succ_self k
        · intro j
          rw [he, List.filter_append, List.map_append]
          by_cases hj : j = k
          · subst hj
            rw [filter_rf_old h.below le_rfl, filter_rf_all hx]
            simp only [List.map_nil, List.nil_append]
            have hs2 : (cands.map Prod.snd).Pairwise (fun x y => x ≤ y) := by
              rw [List.pairwise_map]; exact hsorted
            exact hs2.sublist hsub
          · rw [filter_rf_none hx hj]
            simp only [List.map_nil, List.append_nil]
            exact h.sorted j
        · intro i w hi2 hrem hcity hw hres hwc hd
          rcases Nat.lt_succ_iff_lt_or_eq.mp hi2 with h3 | h3
          · have hne : i ≠ k := by omega
            rw [g8 i hne] at hrem
            exact hzero w (le_of_eq (h.maxi i w h3 hrem hcity hw hres hwc hd))
          · subst h3
            by_cases hpos : 0 < (s.g_wh.getD w default).qty
            · obtain ⟨d, hd2⟩ := hin w hw hpos hres hwc hd
              have hd3 : (w, d) ∈ cands := hperm.symm.subset hd2
              rcases g6 with h4 | h4
              · exact absurd hrem (not_lt.mpr h4)
              · exact le_antisymm (h4 (w, d) hd3) (qty_getD_nonneg g2 w)
            · exact hzero w (not_lt.mp hpos)

theorem serve_upto_greedy (s0 : State D) (hcl : CitiesLoaded s0) (hg : GraphOK s0)
    (h0 : GreedyInv s0 0 s0) (k : Nat) : GreedyInv s0 k (serve_upto s0 k) := by
  induction k with
  | zero => exact h0
  | succ k ih =>
    rw [serve_upto_succ]
    exact serve_request_greedy s0 hcl hg k _ ih

theorem name_loaded_mono {l l2 : List String} (h : ∃ extra, l2 = l ++ extra) (nm : String)
    (hn : nm ∈ l ∨ MAX_CITIES ≤ l.length) : nm ∈ l2 ∨ MAX_CITIES ≤ l2.length := by
  obtain ⟨extra, he⟩ := h
  rw [he]
  rcases hn with h1 | h1
  · exact Or.inl (List.mem_append_left _ h1)
  · right
    rw [List.length_append]
    omega

theorem city_index_registers (s : State D) (nm : String)
    (hshort : strncpy (MAX_NAME_LEN - 1) nm = nm) :
    nm ∈ (city_index s nm).2.g_cities ∨ MAX_CITIES ≤ (city_index s nm).2.g_cities.length := by
  by_cases h : nm ∈ s.g_cities
  · rw [city_index_found s nm h]
    exact Or.inl h
  · rw [city_index_absent s nm h]
    by_cases hfull : s.g_cities.length ≥ MAX_CITIES
    · rw [if_pos hfull]
      exact Or.inr hfull
    · rw [if_neg hfull, hshort]
      left
      show nm ∈ s.g_cities ++ [nm]
      simp

theorem add_requested_frame2 (s : State D) (name : String) (q : Int) :
    (add_requested s name q).g_adj = s.g_adj ∧
    (add_requested s name q).g_edges = s.g_edges ∧
    (add_requested s name q).g_cities = s.g_cities := by
  obtain ⟨h1, h2, _, _, h5, _, _⟩ := resource_index_spec s name
  unfold add_requested
  simp only []
  cases h : (resource_index s name).1 with
  | none => exact ⟨h1, h2, h5⟩
  | some i => exact ⟨h1, h2, h5⟩

theorem citiesLoaded_grow {s s2 : State D} (hwh : s2.g_wh = s.g_wh) (hrf : s2.g_rf = s.g_rf)
    (hc : ∃ extra, s2.g_cities = s.g_cities ++ extra) (h : CitiesLoaded s) :
    CitiesLoaded s2 := by
  constructor
  · intro w hw
    rw [hwh] at hw
    exact name_loaded_mono hc _ (h.1 w hw)
  · intro r hr
    rw [hrf] at hr
    exact name_loaded_mono hc _ (h.2 r hr)

theorem loaded_init : Loaded (State.init : State D) := by
  refine ⟨rfl, rfl, ?_, ?_, ?_, ?_, ?_, ?_, ⟨?_, ?_⟩, ?_⟩ <;>
    simp [State.init]

theorem loaded_warehouse_line (s : State D) (ln : WarehouseLine) (h : Loaded s) :
    Loaded (load_warehouse_line s ln) := by
  rcases load_warehouse_line_wh s ln with e | ⟨e, a1, a2, a3, a4⟩
  · -- no row stored: the state is unchanged
    have hs : load_warehouse_line s ln = s := by
      unfold load_warehouse_line at e ⊢
      simp only [] at e ⊢
      split_ifs at e ⊢ with h1 h2
      · rfl
      · rw [(city_index_spec _ _).2.2.1] at e
        have : (s.g_wh ++ [warehouse_row_of ln]).length = s.g_wh.length := by
          rw [show (s.g_wh ++ [warehouse_row_of ln]) = s.g_wh from e]
        simp at this
      · rfl
    rw [hs]
    exact h
  · obtain ⟨X, hX⟩ : ∃ X, X = warehouse_row_of ln := ⟨_, rfl⟩
    rw [← hX] at e a1 a2 a3
    have hshort : strncpy (MAX_NAME_LEN - 1) X.city = X.city := by
      rw [hX]
      exact strncpy_idem _ _
    obtain ⟨s1, hs1⟩ : ∃ s1 : State D, s1 = { s with g_wh := s.g_wh ++ [X] } := ⟨_, rfl⟩
    have hs : load_warehouse_line s ln = (city_index s1 X.city).2 := by
      unfold load_warehouse_line
      simp only []
      rw [← hX, if_neg (by simp only [not_or]; exact ⟨a1, a2, a3⟩), if_pos a4, hs1]
    obtain ⟨c1, c2, c3, c4, c5, c6, _, _⟩ := city_index_spec s1 X.city
    obtain ⟨extra, hex⟩ := city_index_cities s1 X.city
    have hc1 : s1.g_cities = s.g_cities := by rw [hs1]
    have hgrow : ∃ extra, (city_index s1 X.city).2.g_cities = s.g_cities ++ extra :=
      ⟨extra, by rw [hex, hc1]⟩
    have hXq : 0 ≤ X.qty := by
      rw [hX]
      unfold warehouse_row_of
      simp only []
      split_ifs <;> omega
    rw [hs]
    refine ⟨?_, ?_, ?_, ?_, ?_, ?_, ?_, ?_, ⟨?_, ?_⟩, ?_⟩
    · rw [c6, hs1]; exact h.alloc
    · rw [c1, hs1]; exact h.adj
    · rw [c3, hs1]
      show (s.g_wh ++ [X]).length ≤ _
      rw [List.length_append, List.length_singleton]
      omega
    · rw [c4, hs1]; exact h.nrf
    · rw [c2, hs1]; exact h.nedges
    · intro w hw
      rw [c3, hs1] at hw
      rcases List.mem_append.mp hw with h1 | h1
      · exact h.wh_ok w h1
      · have : w = X := by simpa using h1
        rw [this]; exact hXq
    · intro r hr
      rw [c4, hs1] at hr
      exact h.rf_ok r hr
    · intro e2 he
      rw [c2, hs1] at he
      exact h.edges_ok e2 he
    · intro w hw
      rw [c3, hs1] at hw
      rcases List.mem_append.mp hw with h1 | h1
      · exact name_loaded_mono hgrow _ (h.cities.1 w h1)
      · have : w = X := by simpa using h1
        rw [this]
        exact city_index_registers s1 X.city hshort
    · intro r hr
      rw [c4, hs1] at hr
      exact name_loaded_mono hgrow _ (h.cities.2 r hr)
    · intro e2 he
      rw [c2, hs1] at he
      exact ⟨name_loaded_mono hgrow _ (h.edge_cities e2 he).1,
        name_loaded_mono hgrow _ (h.edge_cities e2 he).2⟩

theorem loaded_relief_line (s : State D) (ln : ReliefLine) (h : Loaded s) :
    Loaded (load_relief_line s ln) := by
  obtain ⟨X, hX⟩ : ∃ X, X = relief_row_of ln := ⟨_, rfl⟩
  by_cases hstore : (X.area = "" ∨ X.city = "" ∨ X.resource = "") ∨
      ¬ s.g_rf.length < MAX_RELIEF_ROWS
  · have hs : load_relief_line s ln = s := by
      unfold load_relief_line
      simp only []
      rw [← hX]
      rcases hstore with h1 | h1
      · rw [if_pos h1]
      · split_ifs <;> rfl
    rw [hs]
    exact h
  · simp only [not_or, not_not] at hstore
    obtain ⟨⟨a1, a2, a3⟩, a4⟩ := hstore
    have hshort : strncpy (MAX_NAME_LEN - 1) X.city = X.city := by
      rw [hX]
      exact strncpy_idem _ _
    obtain ⟨s1, hs1⟩ : ∃ s1 : State D, s1 = { s with g_rf := s.g_rf ++ [X] } := ⟨_, rfl⟩
    have hs : load_relief_line s ln
        = add_requested (city_index s1 X.city).2 X.resource X.requested := by
      unfold load_relief_line
      simp only []
      rw [← hX, if_neg (by simp only [not_or]; exact ⟨a1, a2, a3⟩), if_pos a4, hs1]
    obtain ⟨c1, c2, c3, c4, c5, c6, _, _⟩ := city_index_spec s1 X.city
    obtain ⟨extra, hex⟩ := city_index_cities s1 X.city
    obtain ⟨r1, r2, r3⟩ := add_requested_frame (city_index s1 X.city).2 X.resource X.requested
    obtain ⟨r4, r5, r6⟩ := add_requested_frame2 (city_index s1 X.city).2 X.resource
      X.requested
    have hc1 : s1.g_cities = s.g_cities := by rw [hs1]
    have hgrow : ∃ extra, (city_index s1 X.city).2.g_cities = s.g_cities ++ extra :=
      ⟨extra, by rw [hex, hc1]⟩
    obtain ⟨b1, b2, _, _, _⟩ := relief_row_of_ok ln
    rw [← hX] at b1 b2
    rw [hs]
    refine ⟨?_, ?_, ?_, ?_, ?_, ?_, ?_, ?_, ⟨?_, ?_⟩, ?_⟩
    · rw [r3, c6, hs1]; exact h.alloc
    · rw [r4, c1, hs1]; exact h.adj
    · rw [r1, c3, hs1]; exact h.nwh
    · rw [r2, c4, hs1]
      show (s.g_rf ++ [X]).length ≤ _
      rw [List.length_append, List.length_singleton]
      omega
    · rw [r5, c2, hs1]; exact h.nedges
    · intro w hw
      rw [r1, c3, hs1] at hw
      exact h.wh_ok w hw
    · intro r hr
      rw [r2, c4, hs1] at hr
      rcases List.mem_append.mp hr with h1 | h1
      · exact h.rf_ok r h1
      · have : r = X := by simpa using h1
        rw [this]; exact ⟨b1, b2⟩
    · intro e2 he
      rw [r5, c2, hs1] at he
      exact h.edges_ok e2 he
    · intro w hw
      rw [r1, c3, hs1] at hw
      rw [r6]
      exact name_loaded_mono hgrow _ (h.cities.1 w hw)
    · intro r hr
      rw [r2, c4, hs1] at hr
      rw [r6]
      rcases List.mem_append.mp hr with h1 | h1
      · exact name_loaded_mono hgrow _ (h.cities.2 r h1)
      · have : r = X := by simpa using h1
        rw [this]
        exact city_index_registers s1 X.city hshort
    · intro e2 he
      rw [r5, c2, hs1] at he
      rw [r6]
      exact ⟨name_loaded_mono hgrow _ (h.edge_cities e2 he).1,
        name_loaded_mono hgrow _ (h.edge_cities e2 he).2⟩

theorem loaded_route_line (s : State D) (ln : RouteLine D) (h : Loaded s) :
    Loaded (load_route_line s ln) := by
  by_cases c0 : ln.dist < 0
  · have hs : load_route_line s ln = s := by
      unfold load_route_line
      simp only []
      rw [if_pos c0]
    rw [hs]
    exact h
  by_cases c1 : strncpy (MAX_NAME_LEN - 1) ln.from_ = "" ∨
      strncpy (MAX_NAME_LEN - 1) ln.to_ = ""
  · have hs : load_route_line s ln = s := by
      unfold load_route_line
      simp only []
      rw [if_neg c0, if_pos c1]
    rw [hs]
    exact h
  by_cases c2 : s.g_edges.length < MAX_EDGES
  swap
  · have hs : load_route_line s ln = s := by
      unfold load_route_line
      simp only []
      rw [if_neg c0, if_neg c1, if_neg c2]
    rw [hs]
    exact h
  · obtain ⟨X, hX⟩ : ∃ X : Edge D, X =
        ⟨strncpy (MAX_NAME_LEN - 1) ln.from_, strncpy (MAX_NAME_LEN - 1) ln.to_, ln.dist⟩ :=
      ⟨_, rfl⟩
    have a0 : ¬ X.dist < 0 := by rw [hX]; exact c0
    have a4 := c2
    have hshort1 : strncpy (MAX_NAME_LEN - 1) X.from_ = X.from_ := by
      rw [hX]
      exact strncpy_idem _ _
    have hshort2 : strncpy (MAX_NAME_LEN - 1) X.to_ = X.to_ := by
      rw [hX]
      exact strncpy_idem _ _
    obtain ⟨s1, hs1⟩ : ∃ s1 : State D, s1 = { s with g_edges := s.g_edges ++ [X] } :=
      ⟨_, rfl⟩
    obtain ⟨s2, hs2⟩ : ∃ s2 : State D, s2 = (city_index s1 X.from_).2 := ⟨_, rfl⟩
    have hs : load_route_line s ln = (city_index s2 X.to_).2 := by
      unfold load_route_line
      simp only []
      rw [if_neg c0, if_neg c1, if_pos c2, hs2, hs1, hX]
    obtain ⟨c1, c2, c3, c4, c5, c6, _, _⟩ := city_index_spec s1 X.from_
    obtain ⟨extra1, hex1⟩ := city_index_cities s1 X.from_
    rw [← hs2] at c1 c2 c3 c4 c5 c6 hex1
    obtain ⟨d1, d2, d3, d4, d5, d6, _, _⟩ := city_index_spec s2 X.to_
    obtain ⟨extra2, hex2⟩ := city_index_cities s2 X.to_
    have hc1 : s1.g_cities = s.g_cities := by rw [hs1]
    have hgrow2 : ∃ extra, (city_index s2 X.to_).2.g_cities = s2.g_cities ++ extra :=
      ⟨extra2, hex2⟩
    have hgrow : ∃ extra, (city_index s2 X.to_).2.g_cities = s.g_cities ++ extra :=
      ⟨extra1 ++ extra2, by rw [hex2, hex1, hc1, List.append_assoc]⟩
    have hfrom : X.from_ ∈ s2.g_cities ∨ MAX_CITIES ≤ s2.g_cities.length := by
      rw [hs2]
      exact city_index_registers s1 X.from_ hshort1
    rw [hs]
    refine ⟨?_, ?_, ?_, ?_, ?_, ?_, ?_, ?_, ⟨?_, ?_⟩, ?_⟩
    · rw [d6, c6, hs1]; exact h.alloc
    · rw [d1, c1, hs1]; exact h.adj
    · rw [d3, c3, hs1]; exact h.nwh
    · rw [d4, c4, hs1]; exact h.nrf
    · rw [d2, c2, hs1]
      show (s.g_edges ++ [X]).length ≤ _
      rw [List.length_append, List.length_singleton]
      omega
    · intro w hw
      rw [d3, c3, hs1] at hw
      exact h.wh_ok w hw
    · intro r hr
      rw [d4, c4, hs1] at hr
      exact h.rf_ok r hr
    · intro e2 he
      rw [d2, c2, hs1] at he
      rcases List.mem_append.mp he with h1 | h1
      · exact h.edges_ok e2 h1
      · have : e2 = X := by simpa using h1
        rw [this]
        exact not_lt.mp a0
    · intro w hw
      rw [d3, c3, hs1] at hw
      exact name_loaded_mono hgrow _ (h.cities.1 w hw)
    · intro r hr
      rw [d4, c4, hs1] at hr
      exact name_loaded_mono hgrow _ (h.cities.2 r hr)
    · intro e2 he
      rw [d2, c2, hs1] at he
      rcases List.mem_append.mp he with h1 | h1
      · exact ⟨name_loaded_mono hgrow _ (h.edge_cities e2 h1).1,
          name_loaded_mono hgrow _ (h.edge_cities e2 h1).2⟩
      · have : e2 = X := by simpa using h1
        rw [this]
        exact ⟨name_loaded_mono hgrow2 _ hfrom, city_index_registers s2 X.to_ hshort2⟩

theorem loaded_warehouses (lines : List WarehouseLine) :
    ∀ s : State D, Loaded s → Loaded (load_warehouses s lines) := by
  induction lines with
  | nil => intro s h; exact h
  | cons ln t ih => intro s h; exact ih _ (loaded_warehouse_line s ln h)

theorem loaded_relief (lines : List ReliefLine) :
    ∀ s : State D, Loaded s → Loaded (load_relief s lines) := by
  induction lines with
  | nil => intro s h; exact h
  | cons ln t ih => intro s h; exact ih _ (loaded_relief_line s ln h)

theorem loaded_routes (lines : List (RouteLine D)) :
    ∀ s : State D, Loaded s → Loaded (load_routes s lines) := by
  induction lines with
  | nil => intro s h; exact h
  | cons ln t ih => intro s h; exact ih _ (loaded_route_line s ln h)

theorem build_graph_step_tables (s : State D) (e : Edge D)
    (hf : e.from_ ∈ s.g_cities ∨ MAX_CITIES ≤ s.g_cities.length)
    (ht : e.to_ ∈ s.g_cities ∨ MAX_CITIES ≤ s.g_cities.length) :
    (build_graph_step s e).g_cities = s.g_cities ∧
    (build_graph_step s e).g_wh = s.g_wh ∧
    (build_graph_step s e).g_rf = s.g_rf ∧
    (build_graph_step s e).g_alloc = s.g_alloc ∧
    (build_graph_step s e).g_res = s.g_res := by
  obtain ⟨e1, _⟩ := city_index_loaded s e.from_ hf
  obtain ⟨e2, _⟩ := city_index_loaded s e.to_ ht
  unfold build_graph_step
  simp only []
  cases ha : (city_index s e.from_).1 <;>
    cases hb : (city_index (city_index s e.from_).2 e.to_).1 <;> simp [e1, e2]

theorem foldl_build_graph_tables (es : List (Edge D)) :
    ∀ s : State D,
      (∀ e ∈ es, (e.from_ ∈ s.g_cities ∨ MAX_CITIES ≤ s.g_cities.length) ∧
        (e.to_ ∈ s.g_cities ∨ MAX_CITIES ≤ s.g_cities.length)) →
      (es.foldl build_graph_step s).g_cities = s.g_cities ∧
      (es.foldl build_graph_step s).g_wh = s.g_wh ∧
      (es.foldl build_graph_step s).g_rf = s.g_rf ∧
      (es.foldl build_graph_step s).g_alloc = s.g_alloc ∧
      (es.foldl build_graph_step s).g_res = s.g_res := by
  induction es with
  | nil => intro s _; exact ⟨rfl, rfl, rfl, rfl, rfl⟩
  | cons e rest ih =>
    intro s h
    rw [List.foldl_cons]
    obtain ⟨a1, a2, a3, a4, a5⟩ := build_graph_step_tables s e
      (h e (List.mem_cons_self _ _)).1 (h e (List.mem_cons_self _ _)).2
    obtain ⟨b1, b2, b3, b4, b5⟩ := ih (build_graph_step s e) (by
      intro x hx
      rw [a1]
      exact h x (List.mem_cons_of_mem _ hx))
    exact ⟨b1.trans a1, b2.trans a2, b3.trans a3, b4.trans a4, b5.trans a5⟩

/-- The tables `main` hands to `run_allocation` satisfy what the theorems on
`run_allocation` assume: no record yet, at most 512 rows per table, no negative
stock, `remaining = requested ≥ 0`, loaded city names and a well-formed graph. -/
theorem main_tables_facts (wl : List WarehouseLine) (rl : List ReliefLine)
    (el : List (RouteLine D)) :
    (main_tables wl rl el).g_alloc = [] ∧
    (∀ r ∈ (main_tables wl rl el).g_rf, 0 ≤ r.requested ∧ r.remaining = r.requested) ∧
    (∀ w ∈ (main_tables wl rl el).g_wh, 0 ≤ w.qty) ∧
    (main_tables wl rl el).g_wh.length ≤ MAX_WAREHOUSE_ROWS ∧
    (main_tables wl rl el).g_rf.length ≤ MAX_RELIEF_ROWS ∧
    CitiesLoaded (main_tables wl rl el) ∧ GraphOK (main_tables wl rl el) := by
  obtain ⟨s, hs⟩ : ∃ s : State D,
      s = load_routes (load_relief (load_warehouses State.init wl) rl) el := ⟨_, rfl⟩
  have h : Loaded s := by
    rw [hs]
    exact loaded_routes _ _ (loaded_relief _ _ (loaded_warehouses _ _ loaded_init))
  have hm : main_tables wl rl el = build_graph s := by rw [hs]; rfl
  have hg : GraphOK (build_graph s) := build_graph_ok s h.adj h.edges_ok
  obtain ⟨t1, t2, t3, t4, _⟩ : (build_graph s).g_cities = s.g_cities ∧
      (build_graph s).g_wh = s.g_wh ∧ (build_graph s).g_rf = s.g_rf ∧
      (build_graph s).g_alloc = s.g_alloc ∧ (build_graph s).g_res = s.g_res := by
    unfold build_graph
    exact foldl_build_graph_tables s.g_edges _ h.edge_cities
  rw [hm]
  refine ⟨by rw [t4]; exact h.alloc, by rw [t3]; exact h.rf_ok, by rw [t2]; exact h.wh_ok,
    by rw [t2]; exact h.nwh, by rw [t3]; exact h.nrf, ⟨?_, ?_⟩, hg⟩
  · intro w hw
    rw [t2] at hw
    rw [t1]
    exact h.cities.1 w hw
  · intro r hr
    rw [t3] at hr
    rw [t1]
    exact h.cities.2 r hr

/-- The invariant of the request loop holds at the end of `run_allocation` on
loaded tables. -/
theorem run_allocation_greedy
    (qsort : (ReliefRow → ReliefRow → Int) → List ReliefRow → List ReliefRow)
    (hq : QsortContract qsort) (s : State D) (hal : s.g_alloc = [])
    (hrf : ∀ r ∈ s.g_rf, 0 ≤ r.requested ∧ r.remaining = r.requested)
    (hwq : ∀ w ∈ s.g_wh, 0 ≤ w.qty)
    (hnw : s.g_wh.length ≤ MAX_WAREHOUSE_ROWS) (hnr : s.g_rf.length ≤ MAX_RELIEF_ROWS)
    (hcl : CitiesLoaded s) (hg : GraphOK s) :
    GreedyInv { s with g_rf := qsort cmp_relief s.g_rf } (qsort cmp_relief s.g_rf).length
      (run_allocation qsort s) := by
  obtain ⟨s1, hs1⟩ : ∃ s1 : State D, s1 = { s with g_rf := qsort cmp_relief s.g_rf } :=
    ⟨_, rfl⟩
  have hperm := (hq cmp_relief s.g_rf).1
  have hrun : run_allocation qsort s = serve_upto s1 s1.g_rf.length := by
    rw [hs1]; rfl
  have hlen : (qsort cmp_relief s.g_rf).length = s1.g_rf.length := by rw [hs1]
  have hwh1 : s1.g_wh = s.g_wh := by rw [hs1]
  have hal1 : s1.g_alloc = [] := by rw [hs1]; exact hal
  have hstart : AllocInv (fun w => (s1.g_wh.getD w default).qty) (fun _ => True)
      (fun _ => True) s1 := by
    apply allocInv_start _ _ s1 hal1 (by rw [hs1]; exact hnw)
      (by rw [hs1]; show (qsort cmp_relief s.g_rf).length ≤ _
          rw [hperm.length_eq]; exact hnr)
    · intro i hi _
      have hmem : s1.g_rf.getD i default ∈ s.g_rf := by
        apply hperm.subset
        have := mem_getD_of_lt s1.g_rf i default hi
        rw [hs1] at this ⊢
        exact this
      exact hrf _ hmem
    · intro w _
      by_cases hw : w < s1.g_wh.length
      · exact hwq _ (by rw [← hwh1]; exact mem_getD_of_lt _ _ _ hw)
      · rw [List.getD_eq_default _ _ (not_lt.mp hw)]
        exact le_rfl
  have hcl1 : CitiesLoaded s1 := by
    rw [hs1]
    exact ⟨hcl.1, fun r hr => hcl.2 r (hperm.subset hr)⟩
  have hg1 : GraphOK s1 := by rw [hs1]; exact hg
  have h0 : GreedyInv s1 0 s1 := by
    refine ⟨stable_refl s1, hstart, ?_, ?_, ?_, ?_, ?_⟩
    · intro a ha; rw [hal1] at ha; cases ha
    · intro a ha; rw [hal1] at ha; cases ha
    · intro i; rw [hal1]; exact List.Pairwise.nil
    · intro pre a post he
      rw [hal1] at he
      cases pre <;> cases he
    · intro i w hi
      omega
  rw [← hs1, hlen, hrun]
  exact serve_upto_greedy s1 hcl1 hg1 h0 _

/-- C18 (counterexample): with the routes `A,M,10000000000000000`, `M,N,1` and
`N,B,1`, a warehouse in A and a request in B, the one record has the path
A, M, N, B.  Its exact length, and the shortest distance from A to B, is
10000000000000002 (the record of the run with exact sums); in `double`
arithmetic `1e16 + 1` rounds back to `1e16` twice and the record's distance is
10000000000000000. -/
theorem C18_nearest_first_counterexample :
    (run_allocation insertion_qsort exFar).g_cities = ["A", "B", "M", "N"] ∧
    (run_allocation insertion_qsort exFar).g_alloc.map
      (fun a => (a.whIndex, a.rfIndex, a.qty)) = [(0, 0, 1)] ∧
    (run_allocation insertion_qsort exFar).g_alloc.map
      (fun a => (a.dist.val, a.pathCities.take a.pathLen))
      = [(10000000000000000, [0, 2, 3, 1])] ∧
    (run_allocation insertion_qsort exFarExact).g_alloc.map
      (fun a => (a.dist, a.pathCities.take a.pathLen))
      = [(10000000000000002, [0, 2, 3, 1])] ∧
    10000000000000000 + 1 + 1 = 10000000000000002 := by
  refine ⟨by decide, by decide, by decide, by decide, by decide⟩

/-- C18 (amended): after `run_allocation` on loaded tables, for every request its
records appear in non-decreasing distance order; every record joins a warehouse
row and a request of the same resource, has `qty > 0` and a distance below the
sentinel that is the weight of a walk from the warehouse's city to the request's
city and at most the weight of any such walk, where the weight of a walk is the
sum of its arcs as the program adds them up (in `double`, every sum rounded, in
the order of the walk); and every record's `qty` is the minimum of
the stock its warehouse row held and the demand its request had left at the
moment of the commit, that is the original stock and the requested quantity
less the records written before it. -/
theorem C18_nearest_first_amended
    (qsort : (ReliefRow → ReliefRow → Int) → List ReliefRow → List ReliefRow)
    (hq : QsortContract qsort) (s : State D) (hal : s.g_alloc = [])
    (hrf : ∀ r ∈ s.g_rf, 0 ≤ r.requested ∧ r.remaining = r.requested)
    (hwq : ∀ w ∈ s.g_wh, 0 ≤ w.qty)
    (hnw : s.g_wh.length ≤ MAX_WAREHOUSE_ROWS) (hnr : s.g_rf.length ≤ MAX_RELIEF_ROWS)
    (hcl : CitiesLoaded s) (hg : GraphOK s) :
    (∀ i, (((run_allocation qsort s).g_alloc.filter (fun a => a.rfIndex = i)).map
      (fun a => a.dist)).Pairwise (fun x y => x ≤ y)) ∧
    (∀ a ∈ (run_allocation qsort s).g_alloc,
      a.whIndex < (run_allocation qsort s).g_wh.length ∧
      a.rfIndex < (run_allocation qsort s).g_rf.length ∧
      ((run_allocation qsort s).g_wh.getD a.whIndex default).resource
        = ((run_allocation qsort s).g_rf.getD a.rfIndex default).resource ∧
      0 < a.qty ∧ a.dist < INF_DIST ∧
      Walk (run_allocation qsort s).g_adj
        (cityOf (run_allocation qsort s)
          ((run_allocation qsort s).g_wh.getD a.whIndex default).city)
        (cityOf (run_allocation qsort s)
          ((run_allocation qsort s).g_rf.getD a.rfIndex default).city) a.dist ∧
      ∀ W, Walk (run_allocation qsort s).g_adj
        (cityOf (run_allocation qsort s)
          ((run_allocation qsort s).g_wh.getD a.whIndex default).city)
        (cityOf (run_allocation qsort s)
          ((run_allocation qsort s).g_rf.getD a.rfIndex default).city) W → a.dist ≤ W) ∧
    (∀ pre a post, (run_allocation qsort s).g_alloc = pre ++ a :: post →
      a.qty = min
        ((s.g_wh.getD a.whIndex default).qty - sumFrom pre a.whIndex)
        (((run_allocation qsort s).g_rf.getD a.rfIndex default).requested
          - sumTo pre a.rfIndex)) := by
  have h := run_allocation_greedy qsort hq s hal hrf hwq hnw hnr hcl hg
  obtain ⟨s1, hs1⟩ : ∃ s1 : State D, s1 = { s with g_rf := qsort cmp_relief s.g_rf } :=
    ⟨_, rfl⟩
  rw [← hs1] at h
  have hwh1 : s1.g_wh = s.g_wh := by rw [hs1]
  have hst := h.stable
  refine ⟨h.sorted, ?_, ?_⟩
  · intro a ha
    have hr := recOK_stable hst (h.recs a ha)
    have hg2 : AdjOK (run_allocation qsort s).g_adj (run_allocation qsort s).g_cities.length := by
      rw [hst.frame.adj, hst.cities, hs1]
      exact hg
    have hspec := dijkstra_spec
      (cityOf (run_allocation qsort s)
        ((run_allocation qsort s).g_wh.getD a.whIndex default).city)
      (cityOf (run_allocation qsort s)
        ((run_allocation qsort s).g_rf.getD a.rfIndex default).city) hg2
      (List.indexOf_lt_length.mpr hr.wh_city)
    refine ⟨hr.wh_lt, hr.rf_lt, hr.res, hr.qty_pos, hr.lt, hr.walk, ?_⟩
    intro W hW
    rw [hr.dist_eq]
    exact hspec.1 W hW
  · intro pre a post he
    have := h.hist pre a post he
    rw [(frame_rf_fields hst.frame a.rfIndex).2.2.2.2.1]
    simp only [hwh1] at this
    exact this

/-- C18 (witness of the amended statement): the tables of `main` for the example files (two warehouses,
two requests, two routes); the hypotheses hold by `main_tables_facts`. -/
theorem C18_nearest_first_amended_witness :
    (∀ i, (((run_allocation insertion_qsort exMain).g_alloc.filter
      (fun a => a.rfIndex = i)).map (fun a => a.dist)).Pairwise (fun x y => x ≤ y)) ∧
    (run_allocation insertion_qsort exMain).g_alloc.map
      (fun a => (a.rfIndex, a.whIndex, a.qty, a.dist))
      = [(0, 1, 50, 4), (0, 0, 70, 10), (1, 0, 30, 10)] :=
  have f := main_tables_facts exWarehouseLines exReliefLines exRouteLines
  ⟨(C18_nearest_first_amended insertion_qsort insertion_qsort_contract exMain f.1 f.2.1 f.2.2.1
      f.2.2.2.1 f.2.2.2.2.1 f.2.2.2.2.2.1 f.2.2.2.2.2.2).1,
    by decide⟩

theorem walk_cons (hex : ExactAdd D) {g_adj : List (List (AdjItem D))} {u : Nat}
    (it : AdjItem D) (hit : it ∈ g_adj.getD u []) :
    ∀ {x : Nat} {W : D}, Walk g_adj it.to_ x W → Walk g_adj u x (it.w + W) := by
  intro x W h
  induction h with
  | nil =>
    have := Walk.snoc it (Walk.nil : Walk g_adj u u 0) hit
    rw [DistArith.zero_add_left] at this
    rw [DistArith.add_zero_right]
    exact this
  | snoc it2 _ hit2 ih =>
    rw [← hex.1]
    exact Walk.snoc it2 ih hit2

/-- On a symmetric adjacency table, and when sums are exact, a walk can be walked
backwards with the same weight. -/
theorem walk_reverse (hex : ExactAdd D) {g_adj : List (List (AdjItem D))}
    (hsym : AdjSymm g_adj) {u : Nat} :
    ∀ {v : Nat} {W : D}, Walk g_adj u v W → Walk g_adj v u W := by
  intro v W h
  induction h with
  | nil => exact Walk.nil
  | snoc it _ hit ih =>
    have hrev := hsym _ it hit
    have := walk_cons hex (⟨_, it.w⟩ : AdjItem D) hrev ih
    rw [hex.2]
    exact this

/-- Greedy maximality in the direction the program computes: after
`run_allocation` on loaded tables, a request with
`remaining > 0` in a registered city leaves no stock in any warehouse row of the
same resource from whose registered city the request's city is at a distance
below the sentinel (`dijkstra` from the warehouse's city to the request's city,
the direction the program computes); on a symmetric adjacency table, and when
sums are exact, the same holds for the distance from the request's city to the
warehouse's city. -/
theorem greedy_maximal
    (qsort : (ReliefRow → ReliefRow → Int) → List ReliefRow → List ReliefRow)
    (hq : QsortContract qsort) (s : State D) (hal : s.g_alloc = [])
    (hrf : ∀ r ∈ s.g_rf, 0 ≤ r.requested ∧ r.remaining = r.requested)
    (hwq : ∀ w ∈ s.g_wh, 0 ≤ w.qty)
    (hnw : s.g_wh.length ≤ MAX_WAREHOUSE_ROWS) (hnr : s.g_rf.length ≤ MAX_RELIEF_ROWS)
    (hcl : CitiesLoaded s) (hg : GraphOK s) :
    (∀ i w, i < (run_allocation qsort s).g_rf.length →
      w < (run_allocation qsort s).g_wh.length →
      0 < ((run_allocation qsort s).g_rf.getD i default).remaining →
      ((run_allocation qsort s).g_rf.getD i default).city
        ∈ (run_allocation qsort s).g_cities →
      ((run_allocation qsort s).g_wh.getD w default).resource
        = ((run_allocation qsort s).g_rf.getD i default).resource →
      ((run_allocation qsort s).g_wh.getD w default).city
        ∈ (run_allocation qsort s).g_cities →
      (dijkstra (run_allocation qsort s).g_adj (run_allocation qsort s).g_cities.length
        (cityOf (run_allocation qsort s)
          ((run_allocation qsort s).g_wh.getD w default).city)
        (cityOf (run_allocation qsort s)
          ((run_allocation qsort s).g_rf.getD i default).city)).1 < INF_DIST →
      ((run_allocation qsort s).g_wh.getD w default).qty = 0) ∧
    (AdjSymm (run_allocation qsort s).g_adj → ExactAdd D →
      ∀ i w, i < (run_allocation qsort s).g_rf.length →
      w < (run_allocation qsort s).g_wh.length →
      0 < ((run_allocation qsort s).g_rf.getD i default).remaining →
      ((run_allocation qsort s).g_rf.getD i default).city
        ∈ (run_allocation qsort s).g_cities →
      ((run_allocation qsort s).g_wh.getD w default).resource
        = ((run_allocation qsort s).g_rf.getD i default).resource →
      ((run_allocation qsort s).g_wh.getD w default).city
        ∈ (run_allocation qsort s).g_cities →
      (dijkstra (run_allocation qsort s).g_adj (run_allocation qsort s).g_cities.length
        (cityOf (run_allocation qsort s)
          ((run_allocation qsort s).g_rf.getD i default).city)
        (cityOf (run_allocation qsort s)
          ((run_allocation qsort s).g_wh.getD w default).city)).1 < INF_DIST →
      ((run_allocation qsort s).g_wh.getD w default).qty = 0) := by
  have h := run_allocation_greedy qsort hq s hal hrf hwq hnw hnr hcl hg
  obtain ⟨s1, hs1⟩ : ∃ s1 : State D, s1 = { s with g_rf := qsort cmp_relief s.g_rf } :=
    ⟨_, rfl⟩
  rw [← hs1] at h
  have hst := h.stable
  have hlen : (qsort cmp_relief s.g_rf).length = s1.g_rf.length := by rw [hs1]
  have hcO : ∀ nm, cityOf (run_allocation qsort s) nm = cityOf s1 nm :=
    fun nm => by unfold cityOf; rw [hst.cities]
  have hmain : ∀ i w, i < (run_allocation qsort s).g_rf.length →
      w < (run_allocation qsort s).g_wh.length →
      0 < ((run_allocation qsort s).g_rf.getD i default).remaining →
      ((run_allocation qsort s).g_rf.getD i default).city
        ∈ (run_allocation qsort s).g_cities →
      ((run_allocation qsort s).g_wh.getD w default).resource
        = ((run_allocation qsort s).g_rf.getD i default).resource →
      ((run_allocation qsort s).g_wh.getD w default).city
        ∈ (run_allocation qsort s).g_cities →
      (dijkstra (run_allocation qsort s).g_adj (run_allocation qsort s).g_cities.length
        (cityOf (run_allocation qsort s)
          ((run_allocation qsort s).g_wh.getD w default).city)
        (cityOf (run_allocation qsort s)
          ((run_allocation qsort s).g_rf.getD i default).city)).1 < INF_DIST →
      ((run_allocation qsort s).g_wh.getD w default).qty = 0 := by
    intro i w hi hw hrem hcity hres hwc hd
    have hrff := frame_rf_fields hst.frame i
    have hwf := frame_wh_fields hst.frame w
    rw [frame_rf_length hst.frame] at hi
    rw [frame_wh_length hst.frame] at hw
    rw [hrff.1, hst.cities] at hcity
    rw [hwf.2.1, hrff.2.1] at hres
    rw [hwf.1, hst.cities] at hwc
    rw [hst.frame.adj, hst.cities, hcO, hcO, hwf.1, hrff.1] at hd
    exact h.maxi i w (by rw [hlen]; exact hi) hrem hcity hw hres hwc hd
  refine ⟨hmain, ?_⟩
  intro hsym hex i w hi hw hrem hcity hres hwc hd
  have hg2 : AdjOK (run_allocation qsort s).g_adj (run_allocation qsort s).g_cities.length := by
    rw [hst.frame.adj, hst.cities, hs1]
    exact hg
  have hspec1 := dijkstra_spec
    (cityOf (run_allocation qsort s) ((run_allocation qsort s).g_rf.getD i default).city)
    (cityOf (run_allocation qsort s) ((run_allocation qsort s).g_wh.getD w default).city)
    hg2 (List.indexOf_lt_length.mpr hcity)
  have hspec2 := dijkstra_spec
    (cityOf (run_allocation qsort s) ((run_allocation qsort s).g_wh.getD w default).city)
    (cityOf (run_allocation qsort s) ((run_allocation qsort s).g_rf.getD i default).city)
    hg2 (List.indexOf_lt_length.mpr hwc)
  have hwalk := walk_reverse hex hsym (hspec1.2.2 hd)
  exact hmain i w hi hw hrem hcity hres hwc (lt_of_le_of_lt (hspec2.1 _ hwalk) hd)

/-- Greedy maximality on an example: in the tables of `main` for the
example files the request X keeps 50 units open and both warehouse rows end
empty; the hypotheses hold by `main_tables_facts`. -/
theorem greedy_maximal_example :
    (∀ i w, i < (run_allocation insertion_qsort exMain).g_rf.length →
      w < (run_allocation insertion_qsort exMain).g_wh.length →
      0 < ((run_allocation insertion_qsort exMain).g_rf.getD i default).remaining →
      ((run_allocation insertion_qsort exMain).g_rf.getD i default).city
        ∈ (run_allocation insertion_qsort exMain).g_cities →
      ((run_allocation insertion_qsort exMain).g_wh.getD w default).resource
        = ((run_allocation insertion_qsort exMain).g_rf.getD i default).resource →
      ((run_allocation insertion_qsort exMain).g_wh.getD w default).city
        ∈ (run_allocation insertion_qsort exMain).g_cities →
      (dijkstra (run_allocation insertion_qsort exMain).g_adj
        (run_allocation insertion_qsort exMain).g_cities.length
        (cityOf (run_allocation insertion_qsort exMain)
          ((run_allocation insertion_qsort exMain).g_wh.getD w default).city)
        (cityOf (run_allocation insertion_qsort exMain)
          ((run_allocation insertion_qsort exMain).g_rf.getD i default).city)).1
        < INF_DIST →
      ((run_allocation insertion_qsort exMain).g_wh.getD w default).qty = 0) ∧
    (run_allocation insertion_qsort exMain).g_rf.map (fun r => (r.area, r.remaining))
      = [("Y", 0), ("X", 50)] ∧
    (run_allocation insertion_qsort exMain).g_wh.map (fun r => r.qty) = [0, 0] :=
  have f := main_tables_facts exWarehouseLines exReliefLines exRouteLines
  ⟨(greedy_maximal insertion_qsort insertion_qsort_contract exMain f.1 f.2.1
      f.2.2.1 f.2.2.2.1 f.2.2.2.2.1 f.2.2.2.2.2.1 f.2.2.2.2.2.2).1,
    by decide, by decide⟩

theorem city_index_with_tables (s : State D) (wh : List WarehouseRow) (rf : List ReliefRow)
    (res : List ResourceAgg) (nm : String) :
    city_index (with_tables s wh rf res) nm
      = ((city_index s nm).1, with_tables (city_index s nm).2 wh rf res) := by
  unfold city_index with_tables
  simp only []
  split_ifs <;> rfl

theorem build_graph_step_with_tables (s : State D) (wh : List WarehouseRow)
    (rf : List ReliefRow) (res : List ResourceAgg) (e : Edge D) :
    build_graph_step (with_tables s wh rf res) e
      = with_tables (build_graph_step s e) wh rf res := by
  unfold build_graph_step
  simp only [city_index_with_tables]
  cases ha : (city_index s e.from_).1 <;>
    cases hb : (city_index (city_index s e.from_).2 e.to_).1 <;> simp only [with_tables]

theorem foldl_build_graph_with_tables (wh : List WarehouseRow) (rf : List ReliefRow)
    (res : List ResourceAgg) (es : List (Edge D)) :
    ∀ s : State D, es.foldl build_graph_step (with_tables s wh rf res)
      = with_tables (es.foldl build_graph_step s) wh rf res := by
  induction es with
  | nil => intro s; rfl
  | cons e rest ih =>
    intro s
    rw [List.foldl_cons, List.foldl_cons, build_graph_step_with_tables, ih]

/-- The warehouse rows, requests and aggregates play no part in `build_graph`. -/
theorem build_graph_with_tables (s : State D) (wh : List WarehouseRow) (rf : List ReliefRow)
    (res : List ResourceAgg) :
    build_graph (with_tables s wh rf res) = with_tables (build_graph s) wh rf res := by
  obtain ⟨adj0, hadj0⟩ : ∃ adj0, adj0 =
      (List.range s.g_cities.length).foldl (fun adj i => adj.set i []) s.g_adj := ⟨_, rfl⟩
  have h := foldl_build_graph_with_tables wh rf res s.g_edges { s with g_adj := adj0 }
  rw [hadj0] at h
  exact h

/-- Serving request 0 when the only warehouse row is not reachable: nothing
changes. -/
theorem serve_unreachable (t : State D) (wrow : WarehouseRow) (row : ReliefRow)
    (cw cn : Nat) (hwh : t.g_wh = [wrow]) (hrf0 : t.g_rf.getD 0 default = row)
    (hcn : city_index t row.city = (some cn, t))
    (hcw : city_index t wrow.city = (some cw, t))
    (hd : (dijkstra t.g_adj t.g_cities.length cw cn).1 ≥ INF_DIST) :
    serve_request t 0 = t := by
  have hw0 : t.g_wh.getD 0 default = wrow := by rw [hwh]; rfl
  have hrange : List.range t.g_wh.length = [0] := by rw [hwh]; rfl
  have hcs : candidate_step row cn (t, []) 0 = (t, []) := by
    unfold candidate_step
    simp only [hw0]
    split_ifs with h1 h2
    · rfl
    · rfl
    · simp only [hcw]
      rw [if_pos hd]
  unfold serve_request
  simp only [hrf0]
  split_ifs with h1
  · rfl
  · simp only [hcn, hrange, List.foldl_cons, List.foldl_nil, hcs, List.length_nil, if_true]

theorem exLoopsLoading_step (n : Nat) (hn : n < MAX_EDGES) :
    load_route_line (exLoopsLoading n) ⟨"A", "A", 0⟩ = exLoopsLoading (n + 1) := by
  have hs : strncpy (MAX_NAME_LEN - 1) "A" = "A" := by decide
  have hc : ∀ t : State ℕ, t.g_cities = ["A", "B"] → (city_index t "A").2 = t := by
    intro t ht
    rw [city_index_found t "A" (by rw [ht]; decide)]
  have hlen : (exLoopsLoading n).g_edges.length = n := by
    show (List.replicate n (⟨"A", "A", 0⟩ : Edge ℕ)).length = n
    rw [List.length_replicate]
  unfold load_route_line
  simp only [hs]
  rw [if_neg (by decide), if_neg (by decide), if_pos (by rw [hlen]; exact hn)]
  rw [hc _ rfl, hc _ rfl]
  show ({ exLoopsLoading n with
          g_edges := List.replicate n (⟨"A", "A", 0⟩ : Edge ℕ) ++ [⟨"A", "A", 0⟩] } : State ℕ)
    = _
  rw [← List.replicate_succ']
  rfl

theorem exLoopsLoading_fold (k : Nat) :
    ∀ n, n + k ≤ MAX_EDGES →
      (List.replicate k (⟨"A", "A", 0⟩ : RouteLine ℕ)).foldl load_route_line (exLoopsLoading n)
        = exLoopsLoading (n + k) := by
  induction k with
  | zero => intro n _; rfl
  | succ k ih =>
    intro n hn
    rw [List.replicate_succ, List.foldl_cons, exLoopsLoading_step n (by omega),
      ih (n + 1) (by omega)]
    congr 1
    omega

/-- The tables of `exLoopsAlloc` are the tables of `main` for the files with the
lines `W1,A,water,5`, `X,B,water,1,1,50` and `exLoopLines`. -/
theorem exLoopsAlloc_main :
    main_tables [⟨"W1", "A", "water", 5⟩] [⟨"X", "B", "water", 1, 1, 50⟩] exLoopLines
      = exLoopsAlloc := by
  have h0 : load_relief (load_warehouses (State.init : State ℕ) [⟨"W1", "A", "water", 5⟩])
      [⟨"X", "B", "water", 1, 1, 50⟩] = exLoopsLoading 0 := rfl
  have hlast : load_route_line (exLoopsLoading (0 + 512)) ⟨"A", "B", 5⟩
      = with_tables exLoops [⟨"W1", "A", "water", 5⟩] [⟨"X", "B", "water", 1, 1, 1, 50⟩]
          [⟨"water", 1, 0⟩] := by
    have hs : strncpy (MAX_NAME_LEN - 1) "A" = "A" := by decide
    have hs2 : strncpy (MAX_NAME_LEN - 1) "B" = "B" := by decide
    have hc : ∀ (t : State ℕ) (nm : String), t.g_cities = ["A", "B"] → nm ∈ ["A", "B"] →
        (city_index t nm).2 = t := by
      intro t nm ht hnm
      rw [city_index_found t nm (by rw [ht]; exact hnm)]
    have hlen : (exLoopsLoading (0 + 512)).g_edges.length = 512 := by
      show (List.replicate (0 + 512) (⟨"A", "A", 0⟩ : Edge ℕ)).length = 512
      rw [List.length_replicate]
    unfold load_route_line
    simp only [hs, hs2]
    rw [if_neg (by decide), if_neg (by decide), if_pos (by rw [hlen]; decide)]
    rw [hc _ "A" rfl (by decide), hc _ "B" rfl (by decide)]
    rfl
  unfold main_tables exLoopsAlloc
  rw [h0]
  unfold load_routes exLoopLines
  rw [List.foldl_append, exLoopsLoading_fold 512 0 (by decide)]
  simp only [List.foldl_cons, List.foldl_nil]
  rw [hlast]

/-- C20 fails on a graph that lost an arc (the tables are those `main` builds
from the three files): with 512 routes `A,A,0` before `A,B,5` the arc from A
to B is missing.  The request in B keeps `remaining = 1`, the warehouse row in A
of the same resource keeps `qty = 5`, and the distance from the request's city
to the warehouse's city is 5, below the sentinel; the program asks for the
distance from the warehouse's city to the request's city, which is the
sentinel. -/
theorem C20_request_left_short :
    main_tables [⟨"W1", "A", "water", 5⟩] [⟨"X", "B", "water", 1, 1, 50⟩] exLoopLines
      = exLoopsAlloc ∧
    (run_allocation insertion_qsort exLoopsAlloc).g_rf
      = [⟨"X", "B", "water", 1, 1, 1, 50⟩] ∧
    (run_allocation insertion_qsort exLoopsAlloc).g_wh = [⟨"W1", "A", "water", 5⟩] ∧
    (run_allocation insertion_qsort exLoopsAlloc).g_cities = ["A", "B"] ∧
    (dijkstra (run_allocation insertion_qsort exLoopsAlloc).g_adj
      (run_allocation insertion_qsort exLoopsAlloc).g_cities.length
      (cityOf (run_allocation insertion_qsort exLoopsAlloc) "B")
      (cityOf (run_allocation insertion_qsort exLoopsAlloc) "A")).1 = 5 ∧
    (5 : ℕ) < INF_DIST ∧
    (dijkstra (run_allocation insertion_qsort exLoopsAlloc).g_adj
      (run_allocation insertion_qsort exLoopsAlloc).g_cities.length
      (cityOf (run_allocation insertion_qsort exLoopsAlloc) "A")
      (cityOf (run_allocation insertion_qsort exLoopsAlloc) "B")).1 = INF_DIST := by
  refine ⟨exLoopsAlloc_main, ?_⟩
  have hget0 : ((loopAdj 1024).set 1 [(⟨0, 5⟩ : AdjItem ℕ)]).getD 0 []
      = List.replicate 1024 ⟨0, 0⟩ := by
    rw [getD_set_eq, if_neg (fun h => absurd h.1 (by decide))]
    unfold loopAdj
    rw [getD_set_eq, if_pos ⟨rfl, by rw [List.length_replicate]; decide⟩]
  have hget1 : ((loopAdj 1024).set 1 [(⟨0, 5⟩ : AdjItem ℕ)]).getD 1 [] = [⟨0, 5⟩] := by
    rw [getD_set_eq, if_pos ⟨rfl, by
      unfold loopAdj
      rw [List.length_set, List.length_replicate]
      decide⟩]
  obtain ⟨row, hrow⟩ : ∃ row : ReliefRow, row = ⟨"X", "B", "water", 1, 1, 1, 50⟩ := ⟨_, rfl⟩
  obtain ⟨wrow, hwrow⟩ : ∃ wrow : WarehouseRow, wrow = ⟨"W1", "A", "water", 5⟩ := ⟨_, rfl⟩
  have hqs : insertion_qsort cmp_relief [row] = [row] := rfl
  obtain ⟨t, ht⟩ : ∃ t : State ℕ, t = with_tables (build_graph exLoops) [wrow] [row]
      [⟨"water", 1, 0⟩] := ⟨_, rfl⟩
  have hex : exLoopsAlloc = t := by
    rw [ht, hrow, hwrow]
    exact build_graph_with_tables _ _ _ _
  have hwh : t.g_wh = [wrow] := by
    rw [ht]
    unfold with_tables
    dsimp only
  have hrf : t.g_rf = [row] := by
    rw [ht]
    unfold with_tables
    dsimp only
  have hc : t.g_cities = ["A", "B"] := by
    rw [ht]
    unfold with_tables
    dsimp only
    exact exLoops_cities
  have hadj : t.g_adj = (loopAdj 1024).set 1 [⟨0, 5⟩] := by
    rw [ht]
    unfold with_tables
    dsimp only
    exact exLoops_adj
  have hsame : ({ t with g_rf := insertion_qsort cmp_relief t.g_rf } : State ℕ) = t := by
    rw [hrf, hqs, ← hrf]
  have hrun : run_allocation insertion_qsort exLoopsAlloc = serve_request t 0 := by
    have h1 : run_allocation insertion_qsort t
        = serve_upto { t with g_rf := insertion_qsort cmp_relief t.g_rf }
          ({ t with g_rf := insertion_qsort cmp_relief t.g_rf } : State ℕ).g_rf.length := rfl
    rw [hex, h1, hsame, hrf]
    show serve_upto t (0 + 1) = _
    rw [serve_upto_succ]
    rfl
  have hcn : city_index t row.city = (some 1, t) := by
    rw [city_index_found t row.city (by rw [hc, hrow]; decide), hc, hrow]
    rfl
  have hcw : city_index t wrow.city = (some 0, t) := by
    rw [city_index_found t wrow.city (by rw [hc, hwrow]; decide), hc, hwrow]
    rfl
  have hfwd : (dijkstra t.g_adj 2 0 1).1 = INF_DIST := by
    rw [hadj]
    exact dijkstra_loops_forward _ hget0
  have hbwd : (dijkstra t.g_adj 2 1 0).1 = 5 := by
    rw [hadj]
    exact dijkstra_loops_backward _ hget1
  have hstay : serve_request t 0 = t :=
    serve_unreachable t wrow row 0 1 hwh (by rw [hrf]; rfl) hcn hcw
      (by rw [hc]; exact le_of_eq hfwd.symm)
  rw [hrun, hstay]
  have hA : cityOf t "A" = 0 := by unfold cityOf; rw [hc]; rfl
  have hB : cityOf t "B" = 1 := by unfold cityOf; rw [hc]; rfl
  rw [hA, hB, hc]
  refine ⟨by rw [hrf, hrow], by rw [hwh, hwrow], rfl, hbwd, by decide, hfwd⟩

theorem qty_le_allocTo (s : State D) (a : AllocationRow D) (ha : a ∈ s.g_alloc)
    (hpos : ∀ b ∈ s.g_alloc, 0 < b.qty) : a.qty ≤ allocTo s a.rfIndex := by
  unfold allocTo
  apply List.single_le_sum
  · intro x hx
    obtain ⟨b, hb, rfl⟩ := List.mem_map.mp hx
    exact (hpos b (List.mem_of_mem_filter hb)).le
  · exact List.mem_map.mpr ⟨a, List.mem_filter.mpr ⟨ha, by simp⟩, rfl⟩

/-- C14: the status of `emit_json` follows the case list of the claim, read in
its order.  For every request row with `0 ≤ remaining ≤ requested` the status is
`Met` when `remaining = 0`, `Partial` when `0 < remaining < requested` and
`Unmet` in the case that is left, `0 < remaining = requested`; conversely `Met`
is printed only for `remaining = 0`, `Partial` only for
`0 < remaining < requested` and `Unmet` only for `remaining = requested`.  A
row with `requested = 0` has `remaining = 0` and is `Met`.  `emit_json` derives a
status for the request of each allocation record only: after `run_allocation` on
loaded tables such a request has `0 ≤ remaining < requested`, so its status is
`Met` exactly for `remaining = 0`, `Partial` exactly for
`0 < remaining < requested`, and `Unmet` exactly for `remaining = requested`,
which does not occur. -/
theorem C14_status
    (qsort : (ReliefRow → ReliefRow → Int) → List ReliefRow → List ReliefRow)
    (hq : QsortContract qsort) (s : State D) (hal : s.g_alloc = [])
    (hrf : ∀ r ∈ s.g_rf, 0 ≤ r.requested ∧ r.remaining = r.requested)
    (hnw : s.g_wh.length ≤ MAX_WAREHOUSE_ROWS) (hnr : s.g_rf.length ≤ MAX_RELIEF_ROWS) :
    (∀ rf : ReliefRow, 0 ≤ rf.remaining → rf.remaining ≤ rf.requested →
      (rf.remaining = 0 → emit_status rf = Status.Met) ∧
      (0 < rf.remaining → rf.remaining < rf.requested → emit_status rf = Status.Partial) ∧
      (0 < rf.remaining → rf.remaining = rf.requested → emit_status rf = Status.Unmet) ∧
      (rf.requested = 0 → emit_status rf = Status.Met) ∧
      (emit_status rf = Status.Met → rf.remaining = 0) ∧
      (emit_status rf = Status.Partial → 0 < rf.remaining ∧ rf.remaining < rf.requested) ∧
      (emit_status rf = Status.Unmet → rf.remaining = rf.requested)) ∧
    (emit_statuses (run_allocation qsort s)).length = (run_allocation qsort s).g_alloc.length ∧
    (∀ ar ∈ (run_allocation qsort s).g_alloc,
      ar.rfIndex < (run_allocation qsort s).g_rf.length ∧
      0 ≤ ((run_allocation qsort s).g_rf.getD ar.rfIndex default).remaining ∧
      ((run_allocation qsort s).g_rf.getD ar.rfIndex default).remaining
        < ((run_allocation qsort s).g_rf.getD ar.rfIndex default).requested ∧
      (emit_status ((run_allocation qsort s).g_rf.getD ar.rfIndex default) = Status.Met ↔
        ((run_allocation qsort s).g_rf.getD ar.rfIndex default).remaining = 0) ∧
      (emit_status ((run_allocation qsort s).g_rf.getD ar.rfIndex default) = Status.Partial ↔
        0 < ((run_allocation qsort s).g_rf.getD ar.rfIndex default).remaining ∧
        ((run_allocation qsort s).g_rf.getD ar.rfIndex default).remaining
          < ((run_allocation qsort s).g_rf.getD ar.rfIndex default).requested) ∧
      (emit_status ((run_allocation qsort s).g_rf.getD ar.rfIndex default) = Status.Unmet ↔
        ((run_allocation qsort s).g_rf.getD ar.rfIndex default).remaining
          = ((run_allocation qsort s).g_rf.getD ar.rfIndex default).requested)) := by
  have hA : ∀ rf : ReliefRow, 0 ≤ rf.remaining → rf.remaining ≤ rf.requested →
      (rf.remaining = 0 → emit_status rf = Status.Met) ∧
      (0 < rf.remaining → rf.remaining < rf.requested → emit_status rf = Status.Partial) ∧
      (0 < rf.remaining → rf.remaining = rf.requested → emit_status rf = Status.Unmet) ∧
      (rf.requested = 0 → emit_status rf = Status.Met) ∧
      (emit_status rf = Status.Met → rf.remaining = 0) ∧
      (emit_status rf = Status.Partial → 0 < rf.remaining ∧ rf.remaining < rf.requested) ∧
      (emit_status rf = Status.Unmet → rf.remaining = rf.requested) := by
    intro rf h0 h1
    unfold emit_status
    by_cases a : rf.remaining = 0
    · rw [if_pos a]
      refine ⟨fun _ => rfl, fun h => ?_, fun h => ?_, fun _ => rfl, fun _ => a,
        fun h => ?_, fun h => ?_⟩
      · omega
      · omega
      · cases h
      · cases h
    · rw [if_neg a]
      by_cases b : rf.remaining < rf.requested
      · rw [if_pos b]
        refine ⟨fun h => absurd h a, fun _ _ => rfl, fun _ h => ?_, fun h => ?_,
          fun h => ?_, fun _ => ⟨?_, b⟩, fun h => ?_⟩
        · omega
        · omega
        · cases h
        · omega
        · cases h
      · rw [if_neg b]
        refine ⟨fun h => absurd h a, fun _ h => absurd h b, fun _ _ => rfl, fun h => ?_,
          fun h => ?_, fun h => ?_, fun _ => ?_⟩
        · omega
        · cases h
        · cases h
        · omega
  refine ⟨hA, ?_, ?_⟩
  · unfold emit_statuses
    rw [List.length_map]
  obtain ⟨s1, hs1⟩ : ∃ s1 : State D, s1 = { s with g_rf := qsort cmp_relief s.g_rf } :=
    ⟨_, rfl⟩
  have hperm := (hq cmp_relief s.g_rf).1
  have hrun : run_allocation qsort s = serve_upto s1 s1.g_rf.length := by
    rw [hs1]; rfl
  have hstart : AllocInv (fun w => (s1.g_wh.getD w default).qty) (fun _ => True)
      (fun _ => False) s1 := by
    apply allocInv_start _ _ s1 (by rw [hs1]; exact hal) (by rw [hs1]; exact hnw)
      (by rw [hs1]; show (qsort cmp_relief s.g_rf).length ≤ _
          rw [hperm.length_eq]; exact hnr)
    · intro i hi _
      have hmem : s1.g_rf.getD i default ∈ s.g_rf := by
        apply hperm.subset
        have := mem_getD_of_lt s1.g_rf i default hi
        rw [hs1] at this ⊢
        exact this
      exact hrf _ hmem
    · intro w h
      exact absurd h id
  obtain ⟨hinv, hframe, extra, hex, hlt⟩ := serve_upto_inv _ _ _ s1 hstart s1.g_rf.length
  have hal1 : s1.g_alloc = [] := by rw [hs1]; exact hal
  rw [hrun]
  intro ar har
  have hidx : ar.rfIndex < (serve_upto s1 s1.g_rf.length).g_rf.length := by
    rw [frame_rf_length hframe]
    apply hlt
    rw [hex, hal1, List.nil_append] at har
    exact har
  obtain ⟨h1, h2⟩ := hinv.rf ar.rfIndex hidx trivial
  have h3 := qty_le_allocTo _ ar har hinv.qpos
  have h4 := hinv.qpos ar har
  have hlt2 : ((serve_upto s1 s1.g_rf.length).g_rf.getD ar.rfIndex default).remaining
      < ((serve_upto s1 s1.g_rf.length).g_rf.getD ar.rfIndex default).requested := by
    omega
  obtain ⟨a1, a2, a3, a4, a5, a6, a7⟩ := hA _ h1 hlt2.le
  refine ⟨hidx, h1, hlt2, ⟨a5, a1⟩, ⟨a6, fun h => a2 h.1 h.2⟩, ⟨a7, fun h => ?_⟩⟩
  omega

/-- C14 (witness): the tables of `main` for the example files; the records are
for the requests Y (served in full, `Met`) and X (30 of 80 received, 50
remaining, `Partial`). -/
theorem C14_status_witness :
    (∀ ar ∈ (run_allocation insertion_qsort exMain).g_alloc,
      ar.rfIndex < (run_allocation insertion_qsort exMain).g_rf.length ∧
      0 ≤ ((run_allocation insertion_qsort exMain).g_rf.getD ar.rfIndex default).remaining ∧
      ((run_allocation insertion_qsort exMain).g_rf.getD ar.rfIndex default).remaining
        < ((run_allocation insertion_qsort exMain).g_rf.getD ar.rfIndex default).requested) ∧
    emit_statuses (run_allocation insertion_qsort exMain)
      = [Status.Met, Status.Met, Status.Partial] ∧
    (run_allocation insertion_qsort exMain).g_rf.map
      (fun r => (r.area, r.requested, r.remaining)) = [("Y", 120, 0), ("X", 80, 50)] :=
  have f := main_tables_facts exWarehouseLines exReliefLines exRouteLines
  ⟨fun ar har =>
      have h := (C14_status insertion_qsort insertion_qsort_contract exMain f.1 f.2.1
        f.2.2.2.1 f.2.2.2.2.1).2.2 ar har
      ⟨h.1, h.2.1, h.2.2.1⟩,
    by decide, by decide⟩

end SARA
